import Mathlib

/-!
# Grid path-finding core of `hola_challenge_2017`

A shallow embedding of `src/ais/bf_hunter.js` (binary heap, grid, path utilities and the
orthogonal jump point finder) together with the properties proved about it.

Numbers: in the search, JavaScript numbers are modelled by rationals (`ℚ`) for costs and
comparator results and by integers (`Int`) for cell coordinates, without rounding.  The
heuristic functions are embedded a second time over IEEE 754 double arithmetic with its
rounding, overflow and underflow (`Double`).  `undefined` fields are modelled by `none` /
`false`.
-/

namespace Hola

/-! ## Binary heap (`heap.js` section) -/

/-- Polarity constant `HT_MINI_HEAP = 1`. -/
def HT_MINI_HEAP : ℚ := 1

/-- Polarity constant `HT_MAXI_HEAP = -1`. -/
def HT_MAXI_HEAP : ℚ := -1

/-- The `Heap` object: comparator, polarity, number of live entries and the backing array.
The backing array is a JavaScript array (it grows on assignment, so `_increaseMemorySize`
has no observable effect); an unset slot (`undefined`) is `none`.  Slots above `last` keep
whatever was stored there earlier. -/
structure Heap (α : Type) where
  compareFunc : α → α → ℚ
  type : ℚ
  last : Nat
  heap : Nat → Option α

namespace Heap

variable {α : Type}

/-- The constructor `new Heap(type, compareFunc)`; `type = none` models an `undefined`
first argument.  Any polarity other than the two constants becomes `HT_MINI_HEAP`. -/
def new (type : Option ℚ) (compareFunc : α → α → ℚ) : Heap α :=
  { compareFunc := compareFunc
    type := match type with
      | some t => if t ≠ HT_MAXI_HEAP ∧ t ≠ HT_MINI_HEAP then HT_MINI_HEAP else t
      | none => HT_MINI_HEAP
    last := 0
    heap := fun _ => none }

/-- The constructor called without a comparator on numbers: `comparator` then computes
`type * (heap[a] - heap[b])`. -/
def newNumeric (type : Option ℚ) : Heap ℚ :=
  new type (fun a b => a - b)

/-- The method `comparator(aIndex, bIndex)`.  A comparison that involves an unset slot
yields a value that is neither negative nor positive (`NaN` in the source); it is `0` here. -/
def comparator (h : Heap α) (aIndex bIndex : Nat) : ℚ :=
  match h.heap aIndex, h.heap bIndex with
  | some a, some b => h.type * h.compareFunc a b
  | _, _ => 0

/-- The method `_minmax(aIndex, bIndex)`. -/
def _minmax (h : Heap α) (aIndex bIndex : Nat) : Nat :=
  if h.comparator aIndex bIndex < 0 then aIndex else bIndex

/-- The method `swap(aIndex, bIndex)`. -/
def swap (h : Heap α) (aIndex bIndex : Nat) : Heap α :=
  if aIndex = bIndex then h
  else
    let tmp := h.heap aIndex
    { h with heap := Function.update (Function.update h.heap aIndex (h.heap bIndex)) bIndex tmp }

/-- The method `clear()`. -/
def clear (h : Heap α) : Heap α := { h with last := 0 }

/-- The method `isEmpty()`. -/
def isEmpty (h : Heap α) : Bool := h.last == 0

/-- The method `size()`. -/
def size (h : Heap α) : Nat := h.last

/-- The `do ... while` loop of `_shiftUp`, entered with the loop variables
`index`, `parentIndex`.  The first argument bounds the number of iterations. -/
def shiftUpLoop : Nat → Heap α → Nat → Nat → Heap α
  | 0, h, _, _ => h
  | fuel + 1, h, index, parentIndex =>
    let h1 := h.swap index parentIndex
    let index1 := parentIndex
    let parentIndex1 := index1 >>> 1
    if parentIndex1 = 0 then h1
    else if h1.comparator index1 parentIndex1 < 0 then shiftUpLoop fuel h1 index1 parentIndex1
    else h1

/-- The method `_shiftUp()`.  The loop halves `parentIndex` on every iteration, so
`last + 1` iterations are never exhausted. -/
def _shiftUp (h : Heap α) : Heap α :=
  if h.last = 1 then h else shiftUpLoop (h.last + 1) h h.last h.last

/-- The `do ... while` loop of `_shiftDown`, entered with the loop variables
`index`, `workChildIndex`.  The first argument bounds the number of iterations. -/
def shiftDownLoop : Nat → Heap α → Nat → Nat → Heap α
  | 0, h, _, _ => h
  | fuel + 1, h, index, workChildIndex =>
    let h1 := h.swap index workChildIndex
    let index1 := workChildIndex
    let childIndex1 := index1 <<< 1
    if childIndex1 > h1.last then h1
    else
      let childIndex2 := childIndex1 + 1
      let workChildIndex1 :=
        if childIndex2 > h1.last then childIndex1 else h1._minmax childIndex1 childIndex2
      if h1.comparator index1 workChildIndex1 > 0 then
        shiftDownLoop fuel h1 index1 workChildIndex1
      else h1

/-- The method `_shiftDown()`.  The loop at least doubles `index` on every iteration, so
`last + 1` iterations are never exhausted. -/
def _shiftDown (h : Heap α) : Heap α :=
  if h.last ≤ 1 then h else shiftDownLoop (h.last + 1) h 1 1

/-- The method `push(value)` (called `insert` in `sol_all_inone.js`). -/
def push (h : Heap α) (value : α) : Heap α :=
  let h1 := { h with last := h.last + 1 }
  let h2 := { h1 with heap := Function.update h1.heap h1.last (some value) }
  h2._shiftUp

/-- The method `pop()` (called `extractTop` in `sol_all_inone.js`); `none` is the
`undefined` result. -/
def pop (h : Heap α) : Option α × Heap α :=
  if h.last < 1 then (none, h)
  else
    let value := h.heap 1
    let h1 := { h with heap := Function.update h.heap 1 (h.heap h.last) }
    let h2 := { h1 with last := h1.last - 1 }
    (value, h2._shiftDown)

/-- The same as `push`. -/
def insert (h : Heap α) (value : α) : Heap α := h.push value

/-- The same as `pop`. -/
def extractTop (h : Heap α) : Option α × Heap α := h.pop

/-- Insert all values of a list, first to last. -/
def insertAll (h : Heap α) (values : List α) : Heap α :=
  values.foldl insert h

/-- Call `extractTop` until it returns `undefined`, collecting the results in order
(the loop of `heap_test.js`); the first argument bounds the number of calls. -/
def drainLoop : Nat → Heap α → List α
  | 0, _ => []
  | fuel + 1, h =>
    match h.extractTop with
    | (none, _) => []
    | (some v, h1) => v :: drainLoop fuel h1

end Heap

/-! ## Outcomes of the fuel-bounded parts -/

/-- Result of running code that may throw or loop: a value, a thrown exception
(`fault`), or exhaustion of the iteration budget (`timeout`). -/
inductive Outcome (α : Type) where
  | ok : α → Outcome α
  | fault : Outcome α
  | timeout : Outcome α
  deriving DecidableEq, Repr

/-! ## Nodes and the grid (`Node`, `Grid.js` section) -/

/-- A cell coordinate `(x, y)`. -/
abbrev Coord := Int × Int

/-- A `Node`: its walkable flag and the fields the finder attaches to it.  A field that is
`undefined` in the source is `none` (numbers, references) or `false` (flags).  The node of
`nodes[y][x]` carries `x` and `y` themselves, so a node is referred to by its coordinate. -/
structure Node where
  walkable : Bool
  g : Option ℚ
  h : Option ℚ
  f : Option ℚ
  parent : Option Coord
  opened : Bool
  closed : Bool
  tested : Bool

/-- The node made by `new Node(x, y, walkable)`. -/
def Node.new (walkable : Bool) : Node :=
  { walkable := walkable, g := none, h := none, f := none, parent := none,
    opened := false, closed := false, tested := false }

/-- The `Grid` object. -/
structure Grid where
  height : Int
  width : Int
  nodes : Coord → Node

namespace Grid

/-- The grid after `_buildNodes`: every node walkable and without search fields. -/
def new (height width : Int) : Grid :=
  { height := height, width := width, nodes := fun _ => Node.new true }

/-- The method `getNodeAt(x, y)`. -/
def getNodeAt (grid : Grid) (x y : Int) : Node := grid.nodes (x, y)

/-- The method `isInside(x, y)`. -/
def isInside (grid : Grid) (x y : Int) : Bool :=
  (decide (x ≥ 0) && decide (x < grid.width)) && (decide (y ≥ 0) && decide (y < grid.height))

/-- The method `isWalkableAt(x, y)`. -/
def isWalkableAt (grid : Grid) (x y : Int) : Bool :=
  grid.isInside x y && (grid.nodes (x, y)).walkable

/-- Assignment to fields of the node at `c`. -/
def modify (grid : Grid) (c : Coord) (upd : Node → Node) : Grid :=
  { grid with nodes := Function.update grid.nodes c (upd (grid.nodes c)) }

/-- The method `setWalkableAt(x, y, walkable)`. -/
def setWalkableAt (grid : Grid) (x y : Int) (walkable : Bool) : Grid :=
  grid.modify (x, y) (fun n => { n with walkable := walkable })

/-- The method `getWalkableNeighbors(node)`. -/
def getWalkableNeighbors (grid : Grid) (node : Coord) : List Coord :=
  let x := node.1
  let y := node.2
  let neighbors : List Coord := []
  let neighbors := if grid.isWalkableAt x (y - 1) then neighbors ++ [(x, y - 1)] else neighbors
  let neighbors := if grid.isWalkableAt (x + 1) y then neighbors ++ [(x + 1, y)] else neighbors
  let neighbors := if grid.isWalkableAt x (y + 1) then neighbors ++ [(x, y + 1)] else neighbors
  let neighbors := if grid.isWalkableAt (x - 1) y then neighbors ++ [(x - 1, y)] else neighbors
  neighbors

/-- The values `lo, lo + 1, ..., hi` taken in turn by the counter of a loop
`for (let i = lo; i <= hi; i++)`. -/
def forRange (lo hi : Int) : List Int :=
  (List.range (hi + 1 - lo).toNat).map (fun i : Nat => lo + (i : Int))

/-- The method `getNeighbors(node, radius)`; `none` is an omitted radius.  The node
`this.nodes[y][x]` is given by its coordinate. -/
def getNeighbors (grid : Grid) (node : Coord) (radius : Option Int) : List Coord :=
  let neighbors : List Coord := []
  let radius : Int := match radius with
    | none => 1
    | some r => r
  (forRange (-radius) radius).foldl (fun neighbors dy =>
    (forRange (-radius) radius).foldl (fun neighbors dx =>
      let x := node.1 + dx
      let y := node.2 + dy
      if !grid.isInside x y then neighbors
      else neighbors ++ [(x, y)]) neighbors) neighbors

/-- The method `clone()`: same size and walkable flags, fresh nodes. -/
def clone (grid : Grid) : Grid :=
  { height := grid.height, width := grid.width,
    nodes := fun c => Node.new (grid.nodes c).walkable }

/-- No node carries search fields: the state of a grid that no search has touched. -/
def NoSearchState (grid : Grid) : Prop :=
  ∀ c : Coord, (grid.nodes c).g = none ∧ (grid.nodes c).h = none ∧ (grid.nodes c).f = none ∧
    (grid.nodes c).parent = none ∧ (grid.nodes c).opened = false ∧ (grid.nodes c).closed = false

end Grid

/-! ## Path utilities -/

/-- The `while (node.parent)` loop of `backtrace`. -/
def backtraceLoop (grid : Grid) : Nat → Coord → List Coord → Outcome (List Coord)
  | 0, _, _ => .timeout
  | fuel + 1, node, path =>
    match (grid.nodes node).parent with
    | none => .ok path
    | some parent => backtraceLoop grid fuel parent (path ++ [parent])

/-- The function `backtrace(node)`. -/
def backtrace (fuel : Nat) (grid : Grid) (node : Coord) : Outcome (List Coord) :=
  match backtraceLoop grid fuel node [node] with
  | .ok path => .ok path.reverse
  | .fault => .fault
  | .timeout => .timeout

/-- The `while (true)` loop of `interpolate`; `line` is the list built so far. -/
def interpolateLoop (x1 y1 dx dy sx sy : Int) :
    Nat → Int → Int → Int → List Coord → Outcome (List Coord)
  | 0, _, _, _, _ => .timeout
  | fuel + 1, x0, y0, err, line =>
    let line := line ++ [(x0, y0)]
    if x0 = x1 ∧ y0 = y1 then .ok line
    else
      let e2 := 2 * err
      let err1 := if e2 > -dy then err - dy else err
      let x01 := if e2 > -dy then x0 + sx else x0
      let err2 := if e2 < dx then err1 + dx else err1
      let y01 := if e2 < dx then y0 + sy else y0
      interpolateLoop x1 y1 dx dy sx sy fuel x01 y01 err2 line

/-- The function `interpolate(x0, y0, x1, y1)`. -/
def interpolate (fuel : Nat) (x0 y0 x1 y1 : Int) : Outcome (List Coord) :=
  let dx := |x1 - x0|
  let dy := |y1 - y0|
  let sx : Int := if x0 < x1 then 1 else -1
  let sy : Int := if y0 < y1 then 1 else -1
  let err := dx - dy
  interpolateLoop x1 y1 dx dy sx sy fuel x0 y0 err []

/-- The `for` loop of `expandPath`: every segment interpolated, its last point dropped. -/
def expandSegments (fuel : Nat) : List Coord → Outcome (List Coord)
  | coord0 :: coord1 :: rest =>
    match interpolate fuel coord0.1 coord0.2 coord1.1 coord1.2 with
    | .ok interpolated =>
      match expandSegments fuel (coord1 :: rest) with
      | .ok expanded => .ok (interpolated.dropLast ++ expanded)
      | .fault => .fault
      | .timeout => .timeout
    | .fault => .fault
    | .timeout => .timeout
  | _ => .ok []

/-- The function `expandPath(path)`. -/
def expandPath (fuel : Nat) (path : List Coord) : Outcome (List Coord) :=
  if path.length < 2 then .ok []
  else
    match expandSegments fuel path, path.getLast? with
    | .ok expanded, some last => .ok (expanded ++ [last])
    | .timeout, _ => .timeout
    | _, _ => .fault

/-! ## Heuristics -/

/-- The constant `Math.SQRT2`: the double nearest to the square root of two. -/
def SQRT2 : ℚ := 6369051672525773 / 4503599627370496

/-- The function `manhattan(dx, dy)`. -/
def manhattan (dx dy : ℚ) : ℚ := dx + dy

/-- The function `octile(dx, dy)`. -/
def octile (dx dy : ℚ) : ℚ :=
  let F := SQRT2 - 1
  if dx < dy then F * dx + dy else F * dy + dx

/-- The function `chebyshev(dx, dy)`. -/
def chebyshev (dx dy : ℚ) : ℚ := max dx dy

/-! ## Jump point finder (`JumpPointFinderBase`) -/

/-- The options of a finder: `heuristic` and `trackJumpRecursion`. -/
structure JumpPointFinderBase where
  heuristic : ℚ → ℚ → ℚ
  trackJumpRecursion : Bool

/-- The finder built by `new JumpPointFinderBase()` with no options. -/
def JumpPointFinderBase.default : JumpPointFinderBase :=
  { heuristic := chebyshev, trackJumpRecursion := false }

/-- Sum of two numbers that may be `undefined`; the result is `NaN` (`none`) then. -/
def optAdd (a b : Option ℚ) : Option ℚ :=
  match a, b with
  | some a, some b => some (a + b)
  | _, _ => none

/-- The test `a < b` on numbers that may be `undefined` or `NaN` (false then). -/
def optLt (a b : Option ℚ) : Bool :=
  match a, b with
  | some a, some b => decide (a < b)
  | _, _ => false

/-- The comparator of the open list, `nodeA.f - nodeB.f`, reading the current fields. -/
def compareF (grid : Grid) (nodeA nodeB : Coord) : ℚ :=
  match (grid.nodes nodeA).f, (grid.nodes nodeB).f with
  | some fa, some fb => fa - fb
  | _, _ => 0

/-- The open list as seen at a moment when the grid is `grid`: its comparator reads the
`f` fields the nodes have at that moment. -/
def syncOpen (openList : Heap Coord) (grid : Grid) : Heap Coord :=
  { openList with compareFunc := compareF grid }

namespace JumpPointFinderBase

/-- The method `_jump(x, y, px, py)`, with `endNode` the goal; it returns the jump point
(`none` for `null`) and the grid, on which visited nodes are flagged when
`trackJumpRecursion` is set. -/
def _jump (self : JumpPointFinderBase) (endNode : Coord) :
    Nat → Grid → Int → Int → Int → Int → Outcome (Option Coord × Grid)
  | 0, _, _, _, _, _ => .timeout
  | fuel + 1, grid, x, y, px, py =>
    let dx := x - px
    let dy := y - py
    if !grid.isWalkableAt x y then .ok (none, grid)
    else
      let grid :=
        if self.trackJumpRecursion = true then grid.modify (x, y) (fun n => { n with tested := true })
        else grid
      if (x, y) = endNode then .ok (some (x, y), grid)
      else if dx ≠ 0 then
        if (grid.isWalkableAt x (y - 1) && !grid.isWalkableAt (x - dx) (y - 1)) ||
            (grid.isWalkableAt x (y + 1) && !grid.isWalkableAt (x - dx) (y + 1)) then
          .ok (some (x, y), grid)
        else _jump self endNode fuel grid (x + dx) (y + dy) x y
      else if dy ≠ 0 then
        if (grid.isWalkableAt (x - 1) y && !grid.isWalkableAt (x - 1) (y - dy)) ||
            (grid.isWalkableAt (x + 1) y && !grid.isWalkableAt (x + 1) (y - dy)) then
          .ok (some (x, y), grid)
        else
          match _jump self endNode fuel grid (x + 1) y x y with
          | .ok (some _, grid1) => .ok (some (x, y), grid1)
          | .ok (none, grid1) =>
            match _jump self endNode fuel grid1 (x - 1) y x y with
            | .ok (some _, grid2) => .ok (some (x, y), grid2)
            | .ok (none, grid2) => _jump self endNode fuel grid2 (x + dx) (y + dy) x y
            | .fault => .fault
            | .timeout => .timeout
          | .fault => .fault
          | .timeout => .timeout
      else .fault

/-- The method `_findNeighbors(node)`. -/
def _findNeighbors (grid : Grid) (node : Coord) : List Coord :=
  let x := node.1
  let y := node.2
  let neighbors : List Coord := []
  match (grid.nodes node).parent with
  | some parent =>
    let px := parent.1
    let py := parent.2
    let dx := (x - px) / max |x - px| 1
    let dy := (y - py) / max |y - py| 1
    if dx ≠ 0 then
      let neighbors := if grid.isWalkableAt x (y - 1) then neighbors ++ [(x, y - 1)] else neighbors
      let neighbors := if grid.isWalkableAt x (y + 1) then neighbors ++ [(x, y + 1)] else neighbors
      let neighbors := if grid.isWalkableAt (x + dx) y then neighbors ++ [(x + dx, y)] else neighbors
      neighbors
    else if dy ≠ 0 then
      let neighbors := if grid.isWalkableAt (x - 1) y then neighbors ++ [(x - 1, y)] else neighbors
      let neighbors := if grid.isWalkableAt (x + 1) y then neighbors ++ [(x + 1, y)] else neighbors
      let neighbors := if grid.isWalkableAt x (y + dy) then neighbors ++ [(x, y + dy)] else neighbors
      neighbors
    else neighbors
  | none => grid.getWalkableNeighbors node

/-- One iteration of the `for` loop of `_identifySuccessors(node)`, for the neighbour
`neighbor`, on the current grid and open list. -/
def successorStep (self : JumpPointFinderBase) (endNode : Coord) (fuel : Nat) (node : Coord)
    (grid : Grid) (openList : Heap Coord) (neighbor : Coord) : Outcome (Grid × Heap Coord) :=
  match _jump self endNode fuel grid neighbor.1 neighbor.2 node.1 node.2 with
  | .ok (none, grid) => .ok (grid, openList)
  | .ok (some jumpPoint, grid) =>
    let jx := jumpPoint.1
    let jy := jumpPoint.2
    let jumpNode := grid.getNodeAt jx jy
    if jumpNode.closed then .ok (grid, openList)
    else
      let d := octile (|jx - node.1| : Int) (|jy - node.2| : Int)
      let ng := optAdd (grid.nodes node).g (some d)
      if !jumpNode.opened || optLt ng jumpNode.g then
        let h : Option ℚ :=
          match jumpNode.h with
          | some v => if v ≠ 0 then some v
            else some (self.heuristic (|jx - endNode.1| : Int) (|jy - endNode.2| : Int))
          | none => some (self.heuristic (|jx - endNode.1| : Int) (|jy - endNode.2| : Int))
        let grid := grid.modify (jx, jy) (fun n =>
          { n with g := ng, h := h, f := optAdd ng h, parent := some node })
        let openList := (syncOpen openList grid).push (jx, jy)
        let grid := grid.modify (jx, jy) (fun n => { n with opened := true })
        .ok (grid, openList)
      else .ok (grid, openList)
  | .fault => .fault
  | .timeout => .timeout

/-- The `for` loop of `_identifySuccessors(node)` over the neighbours found. -/
def successorLoop (self : JumpPointFinderBase) (endNode : Coord) (fuel : Nat) (node : Coord) :
    List Coord → Grid → Heap Coord → Outcome (Grid × Heap Coord)
  | [], grid, openList => .ok (grid, openList)
  | neighbor :: rest, grid, openList =>
    match successorStep self endNode fuel node grid openList neighbor with
    | .ok (grid1, openList1) => successorLoop self endNode fuel node rest grid1 openList1
    | .fault => .fault
    | .timeout => .timeout

/-- The method `_identifySuccessors(node)`. -/
def _identifySuccessors (self : JumpPointFinderBase) (endNode : Coord) (fuel : Nat)
    (node : Coord) (grid : Grid) (openList : Heap Coord) : Outcome (Grid × Heap Coord) :=
  successorLoop self endNode fuel node (_findNeighbors grid node) grid openList

/-- The `while (!openList.isEmpty())` loop of `findPath`.  `fuel` is the budget handed to
the inner loops; the first numeric argument bounds the iterations of this loop. -/
def findPathLoop (self : JumpPointFinderBase) (endNode : Coord) (fuel : Nat) :
    Nat → Grid → Heap Coord → Outcome (List Coord × Grid)
  | 0, _, _ => .timeout
  | n + 1, grid, openList =>
    if openList.isEmpty then .ok ([], grid)
    else
      match (syncOpen openList grid).pop with
      | (none, _) => .fault
      | (some node, openList1) =>
        let grid1 := grid.modify node (fun nd => { nd with closed := true })
        if node = endNode then
          match backtrace fuel grid1 endNode with
          | .ok path =>
            match expandPath fuel path with
            | .ok expanded => .ok (expanded, grid1)
            | .fault => .fault
            | .timeout => .timeout
          | .fault => .fault
          | .timeout => .timeout
        else
          match _identifySuccessors self endNode fuel node grid1 openList1 with
          | .ok (grid2, openList2) => findPathLoop self endNode fuel n grid2 openList2
          | .fault => .fault
          | .timeout => .timeout

/-- The method `findPath(startX, startY, endX, endY, grid)`: the returned path and the
grid as the search leaves it.  A start or goal outside the grid makes the source throw a
`TypeError` (a field of `undefined` is accessed).  `Heap.HT_MINI_HEAP` is `undefined` in
the source, which the heap constructor turns into a min-heap. -/
def findPath (self : JumpPointFinderBase) (fuel : Nat) (startX startY endX endY : Int)
    (grid : Grid) : Outcome (List Coord × Grid) :=
  if !grid.isInside startX startY || !grid.isInside endX endY then .fault
  else
    let openList : Heap Coord := Heap.new none (compareF grid)
    let startNode : Coord := (startX, startY)
    let endNode : Coord := (endX, endY)
    let grid := grid.modify startNode (fun n => { n with g := some 0, f := some 0 })
    let openList := (syncOpen openList grid).push startNode
    let grid := grid.modify startNode (fun n => { n with opened := true })
    findPathLoop self endNode fuel fuel grid openList

/-- The path returned by `findPath`, without the final grid. -/
def findPathResult (self : JumpPointFinderBase) (fuel : Nat) (startX startY endX endY : Int)
    (grid : Grid) : Outcome (List Coord) :=
  match findPath self fuel startX startY endX endY grid with
  | .ok (path, _) => .ok path
  | .fault => .fault
  | .timeout => .timeout

end JumpPointFinderBase
/-! ## Heap: predicates used in the statements and proofs -/

namespace Heap

variable {α : Type}

/-- All slots `1..last` hold a value. -/
def Filled (h : Heap α) : Prop := ∀ i, 1 ≤ i → i ≤ h.last → ∃ a, h.heap i = some a

/-- The heap-order predicate. -/
def Ordered (h : Heap α) : Prop :=
  ∀ i, 2 ≤ i → i ≤ h.last → h.comparator (i >>> 1) i ≤ 0

/-- The values held in slots `1..last`, as a multiset. -/
def entries (h : Heap α) : Multiset (Option α) := (Multiset.Icc 1 h.last).map h.heap

/-- A comparator of a total preorder. -/
structure TotalPreorderCmp (cmp : α → α → ℚ) : Prop where
  total : ∀ a b, cmp a b ≤ 0 ∨ cmp b a ≤ 0
  trans : ∀ a b c, cmp a b ≤ 0 → cmp b c ≤ 0 → cmp a c ≤ 0
  neg_iff : ∀ a b, cmp a b < 0 ↔ ¬ cmp b a ≤ 0

/-- The index exchange performed by `swap`. -/
def sw (a b i : Nat) : Nat := if i = a then b else if i = b then a else i

/-- Index-level facts about `comparator` on filled slots. -/
structure IdxOrder (h : Heap α) : Prop where
  refl : ∀ i, 1 ≤ i → i ≤ h.last → h.comparator i i ≤ 0
  trans : ∀ i j k, 1 ≤ i → i ≤ h.last → 1 ≤ j → j ≤ h.last → 1 ≤ k → k ≤ h.last →
    h.comparator i j ≤ 0 → h.comparator j k ≤ 0 → h.comparator i k ≤ 0
  neg_iff : ∀ i j, 1 ≤ i → i ≤ h.last → 1 ≤ j → j ≤ h.last →
    (h.comparator i j < 0 ↔ ¬ h.comparator j i ≤ 0)

/-- Heap order everywhere except on the edge above `i` (the state of `_shiftUp`). -/
structure UpInv (h : Heap α) (i : Nat) : Prop where
  lo : 1 ≤ i
  hi : i ≤ h.last
  edges : ∀ k, 2 ≤ k → k ≤ h.last → k ≠ i → h.comparator (k / 2) k ≤ 0
  grand : ∀ c, 2 ≤ c → c ≤ h.last → c / 2 = i → 2 ≤ i → h.comparator (i / 2) c ≤ 0

/-- What `_shiftUp` and `_shiftDown` leave unchanged. -/
structure SameContent (h1 h : Heap α) : Prop where
  last : h1.last = h.last
  type : h1.type = h.type
  compareFunc : h1.compareFunc = h.compareFunc
  entries : h1.entries = h.entries
  filled : h.Filled → h1.Filled

/-- Heap order everywhere except on the edges below `i` (the state of `_shiftDown`). -/
structure DownInv (h : Heap α) (i : Nat) : Prop where
  lo : 1 ≤ i
  hi : i ≤ h.last
  edges : ∀ k, 2 ≤ k → k ≤ h.last → k / 2 ≠ i → h.comparator (k / 2) k ≤ 0
  grand : ∀ c, 2 ≤ c → c ≤ h.last → c / 2 = i → 2 ≤ i → h.comparator (i / 2) c ≤ 0

end Heap
/-! ## Finder: notions used in the statements and proofs -/

/-- Two coordinates one unit apart along exactly one axis. -/
def UnitStep (a b : Coord) : Prop :=
  (|a.1 - b.1| = 1 ∧ a.2 = b.2) ∨ (a.1 = b.1 ∧ |a.2 - b.2| = 1)

/-- Every two consecutive coordinates of the list are one unit step apart. -/
def Dense : List Coord → Prop
  | a :: b :: rest => UnitStep a b ∧ Dense (b :: rest)
  | _ => True

/-- The cell `t` can be reached from `s` by a walk through orthogonally adjacent walkable
cells (`s` and `t` included). -/
inductive Reach (grid : Grid) (s : Coord) : Coord → Prop where
  | start : grid.isWalkableAt s.1 s.2 = true → Reach grid s s
  | step {a b : Coord} : Reach grid s a → UnitStep a b → grid.isWalkableAt b.1 b.2 = true →
      Reach grid s b

namespace Grid

/-- Same size and same walkable flags. -/
def SameMap (g1 g2 : Grid) : Prop :=
  g1.width = g2.width ∧ g1.height = g2.height ∧
    ∀ c, (g1.nodes c).walkable = (g2.nodes c).walkable

/-- Same size and the same node fields, the `tested` flag apart. -/
def Agree (g1 g2 : Grid) : Prop :=
  g1.width = g2.width ∧ g1.height = g2.height ∧
    ∀ c, (g1.nodes c).walkable = (g2.nodes c).walkable ∧ (g1.nodes c).g = (g2.nodes c).g ∧
      (g1.nodes c).h = (g2.nodes c).h ∧ (g1.nodes c).f = (g2.nodes c).f ∧
      (g1.nodes c).parent = (g2.nodes c).parent ∧ (g1.nodes c).opened = (g2.nodes c).opened ∧
      (g1.nodes c).closed = (g2.nodes c).closed

/-- The cells inside the grid. -/
def insideCells (grid : Grid) : Finset Coord :=
  Finset.Ico 0 grid.width ×ˢ Finset.Ico 0 grid.height

/-- The number of cells inside the grid that are not closed. -/
def openCount (grid : Grid) : Nat :=
  (grid.insideCells.filter (fun c => (grid.nodes c).closed = false)).card

/-- A number of iterations that suffices for every loop of a search on this grid. -/
def fuelBound (grid : Grid) : Nat :=
  5 * (grid.width.toNat * grid.height.toNat) + grid.width.toNat + grid.height.toNat + 3

/-- The `g` field as a number (`0` when unset). -/
def gval (grid : Grid) (c : Coord) : ℚ := ((grid.nodes c).g).getD 0

end Grid

/-- The jump point that `_jump` returns, computed without touching the grid. -/
def jumpPt (grid : Grid) (endNode : Coord) :
    Nat → Int → Int → Int → Int → Outcome (Option Coord)
  | 0, _, _, _, _ => .timeout
  | fuel + 1, x, y, px, py =>
    let dx := x - px
    let dy := y - py
    if !grid.isWalkableAt x y then .ok none
    else if (x, y) = endNode then .ok (some (x, y))
    else if dx ≠ 0 then
      if (grid.isWalkableAt x (y - 1) && !grid.isWalkableAt (x - dx) (y - 1)) ||
          (grid.isWalkableAt x (y + 1) && !grid.isWalkableAt (x - dx) (y + 1)) then
        .ok (some (x, y))
      else jumpPt grid endNode fuel (x + dx) (y + dy) x y
    else if dy ≠ 0 then
      if (grid.isWalkableAt (x - 1) y && !grid.isWalkableAt (x - 1) (y - dy)) ||
          (grid.isWalkableAt (x + 1) y && !grid.isWalkableAt (x + 1) (y - dy)) then
        .ok (some (x, y))
      else
        match jumpPt grid endNode fuel (x + 1) y x y with
        | .ok (some _) => .ok (some (x, y))
        | .ok none =>
          match jumpPt grid endNode fuel (x - 1) y x y with
          | .ok (some _) => .ok (some (x, y))
          | .ok none => jumpPt grid endNode fuel (x + dx) (y + dy) x y
          | .fault => .fault
          | .timeout => .timeout
        | .fault => .fault
        | .timeout => .timeout
    else .fault

/-- The forced-turn test of a horizontal scan at `(x, y)` coming from column `x - dx`. -/
def forcedH (grid : Grid) (x y dx : Int) : Bool :=
  (grid.isWalkableAt x (y - 1) && !grid.isWalkableAt (x - dx) (y - 1)) ||
    (grid.isWalkableAt x (y + 1) && !grid.isWalkableAt (x - dx) (y + 1))

/-- The forced-turn test of a vertical scan at `(x, y)` coming from row `y - dy`. -/
def forcedV (grid : Grid) (x y dy : Int) : Bool :=
  (grid.isWalkableAt (x - 1) y && !grid.isWalkableAt (x - 1) (y - dy)) ||
    (grid.isWalkableAt (x + 1) y && !grid.isWalkableAt (x + 1) (y - dy))

/-- The input-output relation of the recursive scan `_jump(x, y, px, py)`, one rule per
return path of the source. -/
inductive Jump (grid : Grid) (E : Coord) : Int → Int → Int → Int → Option Coord → Prop where
  | blocked {x y px py : Int} : grid.isWalkableAt x y = false → Jump grid E x y px py none
  | goal {x y px py : Int} : grid.isWalkableAt x y = true → (x, y) = E →
      Jump grid E x y px py (some (x, y))
  | turnH {x y px py : Int} : grid.isWalkableAt x y = true → (x, y) ≠ E → x - px ≠ 0 →
      forcedH grid x y (x - px) = true → Jump grid E x y px py (some (x, y))
  | contH {x y px py : Int} {r : Option Coord} : grid.isWalkableAt x y = true → (x, y) ≠ E →
      x - px ≠ 0 → forcedH grid x y (x - px) = false →
      Jump grid E (x + (x - px)) (y + (y - py)) x y r → Jump grid E x y px py r
  | turnV {x y px py : Int} : grid.isWalkableAt x y = true → (x, y) ≠ E → x - px = 0 →
      y - py ≠ 0 → forcedV grid x y (y - py) = true → Jump grid E x y px py (some (x, y))
  | branchR {x y px py : Int} {j : Coord} : grid.isWalkableAt x y = true → (x, y) ≠ E →
      x - px = 0 → y - py ≠ 0 → forcedV grid x y (y - py) = false →
      Jump grid E (x + 1) y x y (some j) → Jump grid E x y px py (some (x, y))
  | branchL {x y px py : Int} {j : Coord} : grid.isWalkableAt x y = true → (x, y) ≠ E →
      x - px = 0 → y - py ≠ 0 → forcedV grid x y (y - py) = false →
      Jump grid E (x + 1) y x y none → Jump grid E (x - 1) y x y (some j) →
      Jump grid E x y px py (some (x, y))
  | contV {x y px py : Int} {r : Option Coord} : grid.isWalkableAt x y = true → (x, y) ≠ E →
      x - px = 0 → y - py ≠ 0 → forcedV grid x y (y - py) = false →
      Jump grid E (x + 1) y x y none → Jump grid E (x - 1) y x y none →
      Jump grid E (x + (x - px)) (y + (y - py)) x y r → Jump grid E x y px py r

/-- A unit step along one axis. -/
def UnitDir (dx dy : Int) : Prop :=
  ((dx = 1 ∨ dx = -1) ∧ dy = 0) ∨ (dx = 0 ∧ (dy = 1 ∨ dy = -1))

/-- The grid `grid1` is `grid` with new search fields on node `j`: cost `ng`, parent `p`,
marked opened; everything else is as before (the `tested` flags apart). -/
structure Grid.UpdatedAt (grid grid1 : Grid) (j : Coord) (ng : Option ℚ) (p : Coord) :
    Prop where
  sameMap : grid1.SameMap grid
  other : ∀ c, c ≠ j → (grid1.nodes c).g = (grid.nodes c).g ∧
    (grid1.nodes c).parent = (grid.nodes c).parent ∧
    (grid1.nodes c).opened = (grid.nodes c).opened ∧
    (grid1.nodes c).closed = (grid.nodes c).closed
  g_eq : (grid1.nodes j).g = ng
  parent_eq : (grid1.nodes j).parent = some p
  opened_eq : (grid1.nodes j).opened = true
  closed_eq : (grid1.nodes j).closed = (grid.nodes j).closed

/-- The cost `ng` that `_identifySuccessors` computes for the jump point `j` of `node`. -/
def nextG (grid : Grid) (node j : Coord) : Option ℚ :=
  optAdd (grid.nodes node).g (some (octile (|j.1 - node.1| : Int) (|j.2 - node.2| : Int)))

/-- The state of a search between two steps, for a search from `S` to `E` on a grid with
the walkable cells of `grid0`.  The relation `todo c n` marks the neighbours `n` of a closed
node `c` whose scan is still to be done in the running `_identifySuccessors(c)`. -/
structure SearchInv (grid0 : Grid) (S E : Coord) (fuel : Nat) (todo : Coord → Coord → Prop)
    (grid : Grid) (ol : Heap Coord) : Prop where
  sameMap : grid.SameMap grid0
  start_opened : (grid.nodes S).opened = true
  start_parent : (grid.nodes S).parent = none
  start_g : (grid.nodes S).g = some 0
  start_closed : (grid.nodes S).closed = true ∨ ∀ c, (grid.nodes c).opened = true → c = S
  opened_g : ∀ c, (grid.nodes c).opened = true → ∃ v, (grid.nodes c).g = some v
  closed_opened : ∀ c, (grid.nodes c).closed = true → (grid.nodes c).opened = true
  opened_inside : ∀ c, (grid.nodes c).opened = true → grid0.isInside c.1 c.2 = true
  link : ∀ c, (grid.nodes c).opened = true → c ≠ S →
    ∃ p, (grid.nodes c).parent = some p ∧ (grid.nodes p).closed = true ∧
      (∃ n, n ∈ JumpPointFinderBase._findNeighbors grid p ∧
        jumpPt grid0 E fuel n.1 n.2 p.1 p.2 = .ok (some c)) ∧
      (grid.nodes c).g = nextG grid p c
  filled : ol.Filled
  heap_opened : ∀ c, some c ∈ ol.entries → (grid.nodes c).opened = true
  open_in_heap : ∀ c, (grid.nodes c).opened = true → (grid.nodes c).closed = false →
    some c ∈ ol.entries
  goal_open : (grid.nodes E).closed = false
  expanded : ∀ c, (grid.nodes c).closed = true →
    ∀ n, n ∈ JumpPointFinderBase._findNeighbors grid c → ¬ todo c n →
    ∀ j, jumpPt grid0 E fuel n.1 n.2 c.1 c.2 = .ok (some j) →
      (grid.nodes j).closed = true ∨
        ((grid.nodes j).opened = true ∧ optLt (nextG grid c j) (grid.nodes j).g = false)

/-- The cells `p, p + d, ..., p + k d` for the step `d = (dx, dy)`. -/
def segCells (p : Coord) (dx dy : Int) (k : Nat) : List Coord :=
  (List.range (k + 1)).map (fun i : Nat => (p.1 + i * dx, p.2 + i * dy))

/-- The cell `c` lies `k ≥ 1` unit steps from the inside cell `p` along one axis and every
cell after `p` up to `c` is walkable. -/
def Seg (grid : Grid) (p c : Coord) : Prop :=
  ∃ (dx dy : Int) (k : Nat), UnitDir dx dy ∧ 1 ≤ k ∧ c = (p.1 + k * dx, p.2 + k * dy) ∧
    grid.isInside p.1 p.2 = true ∧
    ∀ i : Nat, 1 ≤ i → i ≤ k → grid.isWalkableAt (p.1 + i * dx) (p.2 + i * dy) = true

/-- The list `up` holds the ancestors of `c`, nearest first, up to the start `S`, each
joined to its child by a straight walkable segment. -/
def UpChain (grid : Grid) (S : Coord) : Coord → List Coord → Prop
  | c, [] => c = S
  | c, p :: rest => c ≠ S ∧ Seg grid p c ∧ UpChain grid S p rest

/-- A path from `S`: each waypoint is joined to the next by a straight walkable segment. -/
def DownChain (grid : Grid) : List Coord → Prop
  | p :: c :: rest => Seg grid p c ∧ DownChain grid (c :: rest)
  | _ => True

/-- A list of coordinates that starts at `c0`, moves by unit steps and is walkable after
its first cell. -/
def PathFrom (grid : Grid) (c0 : Coord) (q : List Coord) : Prop :=
  q.head? = some c0 ∧ Dense q ∧ ∀ c, c ∈ q.tail → grid.isWalkableAt c.1 c.2 = true

/-- The number of closed cells inside the grid whose cost is below that of `c`: it bounds
the number of ancestors of `c`. -/
def Grid.rank (grid : Grid) (c : Coord) : Nat :=
  (grid.insideCells.filter
    (fun d => (grid.nodes d).closed = true ∧ grid.gval d < grid.gval c)).card

/-- How a search from `S` to `E` ends: with the empty path when the open list is exhausted
(the goal never closed), or, when the goal is taken from the open list, with the expansion of
the parent chain of the goal. -/
inductive SearchEnd (grid0 : Grid) (S E : Coord) (fuel : Nat) (path : List Coord)
    (gridF : Grid) : Prop where
  | exhausted (ol : Heap Coord) : path = [] →
      SearchInv grid0 S E fuel (fun _ _ => False) gridF ol → ol.last = 0 →
      SearchEnd grid0 S E fuel path gridF
  | found (grid : Grid) (ol : Heap Coord) :
      SearchInv grid0 S E fuel (fun _ _ => False) grid ol → (grid.nodes E).opened = true →
      gridF = grid.modify E (fun nd => { nd with closed := true }) →
      ((S = E ∧ path = []) ∨ (S ≠ E ∧ PathFrom grid0 S path ∧ path.getLast? = some E)) →
      SearchEnd grid0 S E fuel path gridF

/-! ## Concrete grids used as inputs -/

/-- The grid whose rows are given top to bottom, `true` for a walkable cell; cells outside
the rows count as walkable nodes outside the grid bounds.  No node carries search state. -/
def Grid.ofRows (rows : List (List Bool)) : Grid :=
  { height := rows.length, width := (rows.headD []).length,
    nodes := fun c => Node.new ((rows.getD c.2.toNat []).getD c.1.toNat true) }

/-- A grid of one row and two columns whose left cell is not walkable. -/
def gridBlockedStart : Grid := Grid.ofRows [[false, true]]

/-- A grid of 5 columns and 6 rows on which the search with the Manhattan heuristic is
not optimal. -/
def gridDetour : Grid := Grid.ofRows
  [[true, true, true, true, true],
   [true, true, true, false, false],
   [true, true, true, true, true],
   [true, false, true, true, true],
   [true, true, true, false, true],
   [true, true, true, true, true]]

/-- The finder that `AI.findPath` builds: Manhattan heuristic, no tracking. -/
def manhattanFinder : JumpPointFinderBase :=
  { heuristic := manhattan, trackJumpRecursion := false }

/-- A list of cells that moves by unit steps through walkable cells: an executable test. -/
def isWalkList (grid : Grid) : List Coord → Bool
  | [] => true
  | [a] => grid.isWalkableAt a.1 a.2
  | a :: b :: rest =>
    grid.isWalkableAt a.1 a.2 &&
      (decide ((|a.1 - b.1| = 1 ∧ a.2 = b.2) ∨ (a.1 = b.1 ∧ |a.2 - b.2| = 1))) &&
      isWalkList grid (b :: rest)

/-! ## Scans along an axis -/

/-- The cell `i` unit steps from `a` in direction `(dx, dy)`. -/
def cell (a : Coord) (dx dy : Int) (i : Nat) : Coord := (a.1 + i * dx, a.2 + i * dy)

/-- The call of `_jump` that enters the cell `a` in direction `(dx, dy)` returns `r`. -/
def Scan (grid : Grid) (E : Coord) (dx dy : Int) (a : Coord) (r : Option Coord) : Prop :=
  Jump grid E a.1 a.2 (a.1 - dx) (a.2 - dy) r

/-- The scan in direction `(dx, dy)` runs over the cell `a` and goes on to the next cell:
`a` is walkable, is not the goal, has no forced turn and, for a vertical scan, both
horizontal side scans from `a` return `null`. -/
def Pass (grid : Grid) (E : Coord) (dx dy : Int) (a : Coord) : Prop :=
  grid.isWalkableAt a.1 a.2 = true ∧ a ≠ E ∧
    ((dx ≠ 0 ∧ forcedH grid a.1 a.2 dx = false) ∨
     (dx = 0 ∧ forcedV grid a.1 a.2 dy = false ∧
        Jump grid E (a.1 + 1) a.2 a.1 a.2 none ∧ Jump grid E (a.1 - 1) a.2 a.1 a.2 none))

/-! ## The state of an exhausted search -/

/-- The state in which a search from `S` for `E` ends when the open list runs empty: every
opened node is closed and expanded, the goal is not closed. -/
structure Exhausted (grid0 gridF : Grid) (S E : Coord) : Prop where
  sameMap : gridF.SameMap grid0
  start_closed : (gridF.nodes S).closed = true
  start_parent : (gridF.nodes S).parent = none
  goal_open : (gridF.nodes E).closed = false
  link : ∀ c, (gridF.nodes c).closed = true → c ≠ S →
    ∃ p n, (gridF.nodes c).parent = some p ∧ (gridF.nodes p).closed = true ∧
      n ∈ JumpPointFinderBase._findNeighbors gridF p ∧
      Jump grid0 E n.1 n.2 p.1 p.2 (some c)
  expanded : ∀ c, (gridF.nodes c).closed = true →
    ∀ n, n ∈ JumpPointFinderBase._findNeighbors gridF c →
    ∀ j, Jump grid0 E n.1 n.2 c.1 c.2 (some j) → (gridF.nodes j).closed = true

/-- The cell `v` lies on a scan that starts from a closed node `c` in direction `(dx, dy)`
through a neighbour that `_findNeighbors(c)` lists, and the scan runs over every cell from
that neighbour to `v`. -/
def MainPass (grid0 gridF : Grid) (E : Coord) (dx dy : Int) (v : Coord) : Prop :=
  ∃ (c : Coord) (k : Nat), (gridF.nodes c).closed = true ∧ 1 ≤ k ∧
    (c.1 + dx, c.2 + dy) ∈ JumpPointFinderBase._findNeighbors gridF c ∧
    v = cell c dx dy k ∧ ∀ t, 1 ≤ t → t ≤ k → Pass grid0 E dx dy (cell c dx dy t)

/-- The cell `v` has been seen by the search: it is closed, or a scan from a closed node
ran over it, or it lies on the walkable run beside a cell that a vertical scan ran over
(where the horizontal side scan returned `null`). -/
def Covered (grid0 gridF : Grid) (E : Coord) (v : Coord) : Prop :=
  (gridF.nodes v).closed = true ∨
  (∃ dx dy, UnitDir dx dy ∧ MainPass grid0 gridF E dx dy v) ∨
  (∃ (u : Coord) (s dy : Int) (m : Nat), (s = 1 ∨ s = -1) ∧ (dy = 1 ∨ dy = -1) ∧
    MainPass grid0 gridF E 0 dy u ∧ 1 ≤ m ∧ v = cell u s 0 m ∧
    ∀ t, 1 ≤ t → t ≤ m → grid0.isWalkableAt (cell u s 0 t).1 (cell u s 0 t).2 = true)

/-- A grid of one row and three columns whose middle cell is not walkable. -/
def gridWall : Grid := Grid.ofRows [[true, false, true]]

/-- The path that `findPath` returns on `gridDetour` from `(3, 5)` to `(4, 0)`. -/
def detourPath : List Coord :=
  [(3, 5), (4, 5), (4, 4), (4, 3), (4, 2), (3, 2), (2, 2), (2, 1), (2, 0), (3, 0), (4, 0)]

/-- A shorter walk on `gridDetour` from `(3, 5)` to `(4, 0)`. -/
def detourWalk : List Coord :=
  [(3, 5), (2, 5), (2, 4), (2, 3), (2, 2), (2, 1), (2, 0), (3, 0), (4, 0)]

/-! ## Notions used in the statements on grid queries and path expansion -/

/-- Row-major order of cells: by row, then by column. -/
def RowMajorLt (a b : Coord) : Prop := a.2 < b.2 ∨ (a.2 = b.2 ∧ a.1 < b.1)

/-- Two waypoints on a common row or column. -/
def Aligned (a b : Coord) : Prop := a.1 = b.1 ∨ a.2 = b.2

/-- Every two consecutive waypoints lie on a common row or column. -/
def AlignedChain : List Coord → Prop
  | a :: b :: rest => Aligned a b ∧ AlignedChain (b :: rest)
  | _ => True

/-- The distance `|dx| + |dy|` between two cells. -/
def dist1 (a b : Coord) : Nat := (|b.1 - a.1| + |b.2 - a.2|).toNat

/-- The sum of the distances between consecutive waypoints. -/
def pathDist : List Coord → Nat
  | a :: b :: rest => dist1 a b + pathDist (b :: rest)
  | _ => 0

/-- The path on the open 5 by 5 grid from `(0, 0)` to `(4, 4)`: down the first column, then
along the last row. -/
def openPath : List Coord :=
  [(0, 0), (0, 1), (0, 2), (0, 3), (0, 4), (1, 4), (2, 4), (3, 4), (4, 4)]

/-- A grid of width 5 and height 4 with a wall in column 2 that is open in row 3 only. -/
def gridGap : Grid := Grid.ofRows
  [[true, true, false, true, true],
   [true, true, false, true, true],
   [true, true, false, true, true],
   [true, true, true, true, true]]

/-- A walk on a grid with a wall in column 2 open in row 3, from `(0, 0)` to `(4, 0)`. -/
def gapWalk : List Coord :=
  [(0, 0), (0, 1), (0, 2), (0, 3), (1, 3), (2, 3), (3, 3), (4, 3), (4, 2), (4, 1), (4, 0)]

/-! ## Objects: nodes in a store, grids of node references

The `Grid` class and the finder once more, on `Node` objects that live in a store and are
reached through references.  Here an access outside the arrays of a grid and the sharing of
node objects between grids are visible, which they are not when a node is identified with
its coordinate. -/

namespace Obj

/-- The address of a `Node` object. -/
abbrev Addr := Nat

/-- A `Node` object: `_x`, `_y`, `_walkable` and the fields that the finder attaches
(`undefined` is `none` or `false`); `parent` is a reference. -/
structure Node where
  x : Int
  y : Int
  walkable : Bool
  g : Option ℚ
  h : Option ℚ
  f : Option ℚ
  parent : Option Addr
  opened : Bool
  closed : Bool
  tested : Bool
  deriving DecidableEq

/-- The object made by `new Node(x, y, walkable)`; an omitted `walkable` counts as `true`. -/
def Node.new (x y : Int) (walkable : Option Bool) : Node :=
  { x := x, y := y,
    walkable := match walkable with
      | none => true
      | some w => w,
    g := none, h := none, f := none, parent := none,
    opened := false, closed := false, tested := false }

/-- The store: the `Node` objects allocated so far, the object at address `a` being the
`a`-th one. -/
abbrev Store := List Node

namespace Store

/-- Allocation of a new object: it gets the next free address. -/
def alloc (σ : Store) (n : Node) : Addr × Store := (σ.length, σ ++ [n])

/-- Assignment to fields of the object at address `a`. -/
def modify (σ : Store) (a : Addr) (upd : Node → Node) : Store :=
  match σ[a]? with
  | some n => σ.set a (upd n)
  | none => σ

/-- The stores `σ` and `σ1` hold the same objects, and these are equal except possibly at
the addresses that satisfy `P`. -/
def Frame (P : Addr → Prop) (σ σ1 : Store) : Prop :=
  σ1.length = σ.length ∧ ∀ a, ¬ P a → σ1[a]? = σ[a]?

end Store

/-- `a && b` for conditions that may throw; `b` is evaluated only when `a` is true. -/
def andThen (a b : Outcome Bool) : Outcome Bool :=
  match a with
  | .ok true => b
  | other => other

/-- `a || b` for conditions that may throw; `b` is evaluated only when `a` is false. -/
def orElse (a b : Outcome Bool) : Outcome Bool :=
  match a with
  | .ok false => b
  | other => other

/-- `!a` for a condition that may throw. -/
def notThen (a : Outcome Bool) : Outcome Bool :=
  match a with
  | .ok v => .ok (!v)
  | .fault => .fault
  | .timeout => .timeout

/-- `new Array(n)`: a `RangeError` unless `n` is an array length; the result is the number
of slots. -/
def newArray (n : Int) : Outcome Nat :=
  if 0 ≤ n ∧ n < 4294967296 then .ok n.toNat else .fault

/-- The `Grid` object: `nodes` is an array of rows of references to `Node` objects. -/
structure Grid where
  height : Int
  width : Int
  nodes : List (List Addr)

namespace Grid

/-- The inner loop of `_buildNodes` on row `y`: `count` iterations from column `x` on. -/
def buildRow (y : Int) : Nat → Int → Store → List Addr → List Addr × Store
  | 0, _, σ, row => (row, σ)
  | count + 1, x, σ, row =>
    let r := σ.alloc (Node.new x y (some true))
    buildRow y count (x + 1) r.2 (row ++ [r.1])

/-- The outer loop of `_buildNodes`: `count` iterations from row `y` on. -/
def buildRows (width : Int) :
    Nat → Int → Store → List (List Addr) → Outcome (List (List Addr) × Store)
  | 0, _, σ, nodes => .ok (nodes, σ)
  | count + 1, y, σ, nodes =>
    match newArray width with
    | .ok w =>
      let r := buildRow y w 0 σ []
      buildRows width count (y + 1) r.2 (nodes ++ [r.1])
    | .fault => .fault
    | .timeout => .timeout

/-- The constructor `new Grid(height, width)` with its call of `_buildNodes`. -/
def new (σ : Store) (height width : Int) : Outcome (Grid × Store) :=
  match newArray height with
  | .ok h =>
    match buildRows width h 0 σ [] with
    | .ok (nodes, σ) => .ok ({ height := height, width := width, nodes := nodes }, σ)
    | .fault => .fault
    | .timeout => .timeout
  | .fault => .fault
  | .timeout => .timeout

/-- The method `getNodeAt(x, y)`, that is `this.nodes[y][x]`: a `TypeError` when there is no
row `y`, `undefined` (`none`) when the row has no slot `x`. -/
def getNodeAt (G : Grid) (x y : Int) : Outcome (Option Addr) :=
  if 0 ≤ y then
    match G.nodes[y.toNat]? with
    | some row => .ok (if 0 ≤ x then row[x.toNat]? else none)
    | none => .fault
  else .fault

/-- The method `isInside(x, y)`. -/
def isInside (G : Grid) (x y : Int) : Bool :=
  (decide (x ≥ 0) && decide (x < G.width)) && (decide (y ≥ 0) && decide (y < G.height))

/-- The read of a field of `this.nodes[y][x]`: a `TypeError` when that node is `undefined`. -/
def readNode (G : Grid) (σ : Store) (x y : Int) : Outcome Node :=
  match G.getNodeAt x y with
  | .ok (some a) =>
    match σ[a]? with
    | some n => .ok n
    | none => .fault
  | .ok none => .fault
  | .fault => .fault
  | .timeout => .timeout

/-- The method `isWalkableAt(x, y)`: `this.isInside(x, y) && this.nodes[y][x].walkable`. -/
def isWalkableAt (G : Grid) (σ : Store) (x y : Int) : Outcome Bool :=
  if G.isInside x y then
    match G.readNode σ x y with
    | .ok n => .ok n.walkable
    | .fault => .fault
    | .timeout => .timeout
  else .ok false

/-- The method `setWalkableAt(x, y, walkable)`: `this.nodes[y][x].walkable = walkable`. -/
def setWalkableAt (G : Grid) (σ : Store) (x y : Int) (walkable : Bool) : Outcome Store :=
  match G.getNodeAt x y with
  | .ok (some a) =>
    match σ[a]? with
    | some _ => .ok (σ.modify a (fun n => { n with walkable := walkable }))
    | none => .fault
  | .ok none => .fault
  | .fault => .fault
  | .timeout => .timeout

/-- One step of `getWalkableNeighbors`: `if (this.isWalkableAt(x, y)) neighbors.push(
this.nodes[y][x])`. -/
def pushWalkable (G : Grid) (σ : Store) (neighbors : Outcome (List Addr)) (x y : Int) :
    Outcome (List Addr) :=
  match neighbors with
  | .ok l =>
    match G.isWalkableAt σ x y with
    | .ok true =>
      match G.getNodeAt x y with
      | .ok (some a) => .ok (l ++ [a])
      | .ok none => .fault
      | .fault => .fault
      | .timeout => .timeout
    | .ok false => .ok l
    | .fault => .fault
    | .timeout => .timeout
  | .fault => .fault
  | .timeout => .timeout

/-- The method `getWalkableNeighbors(node)` for a node with fields `x`, `y`. -/
def getWalkableNeighbors (G : Grid) (σ : Store) (x y : Int) : Outcome (List Addr) :=
  let neighbors : Outcome (List Addr) := .ok []
  let neighbors := G.pushWalkable σ neighbors x (y - 1)
  let neighbors := G.pushWalkable σ neighbors (x + 1) y
  let neighbors := G.pushWalkable σ neighbors x (y + 1)
  let neighbors := G.pushWalkable σ neighbors (x - 1) y
  neighbors

/-- The inner loop of `clone` on row `i`: `count` iterations from column `j` on. -/
def cloneRow (G : Grid) (i : Int) :
    Nat → Int → Store → List Addr → Outcome (List Addr × Store)
  | 0, _, σ, row => .ok (row, σ)
  | count + 1, j, σ, row =>
    match G.readNode σ j i with
    | .ok n =>
      let r := σ.alloc (Node.new j i (some n.walkable))
      cloneRow G i count (j + 1) r.2 (row ++ [r.1])
    | .fault => .fault
    | .timeout => .timeout

/-- The outer loop of `clone`: `count` iterations from row `i` on. -/
def cloneRows (G : Grid) :
    Nat → Int → Store → List (List Addr) → Outcome (List (List Addr) × Store)
  | 0, _, σ, newNodes => .ok (newNodes, σ)
  | count + 1, i, σ, newNodes =>
    match newArray G.width with
    | .ok w =>
      match cloneRow G i w 0 σ [] with
      | .ok (row, σ) => cloneRows G count (i + 1) σ (newNodes ++ [row])
      | .fault => .fault
      | .timeout => .timeout
    | .fault => .fault
    | .timeout => .timeout

/-- The method `clone()`: a new grid (whose own nodes are dropped) gets rows of new nodes
that copy the `walkable` fields. -/
def clone (G : Grid) (σ : Store) : Outcome (Grid × Store) :=
  match Grid.new σ G.height G.width with
  | .ok (newGrid, σ) =>
    match newArray G.height with
    | .ok h =>
      match cloneRows G h 0 σ [] with
      | .ok (newNodes, σ) => .ok ({ newGrid with nodes := newNodes }, σ)
      | .fault => .fault
      | .timeout => .timeout
    | .fault => .fault
    | .timeout => .timeout
  | .fault => .fault
  | .timeout => .timeout

/-- The address `a` is a reference held in the arrays of the grid. -/
def Has (G : Grid) (a : Addr) : Prop := ∃ row, row ∈ G.nodes ∧ a ∈ row

/-- Every slot `x` of the row refers to an allocated node `n`, at address `a`, for which
`Q x a n` holds. -/
def RowSpec (σ : Store) (row : List Addr) (Q : Nat → Addr → Node → Prop) : Prop :=
  ∀ (x : Nat) (a : Addr), row[x]? = some a → ∃ n, σ[a]? = some n ∧ Q x a n

/-- Every row has `w` slots and the slots of row `y` satisfy `R y`. -/
def RowsSpec (σ : Store) (nodes : List (List Addr)) (w : Nat)
    (R : Nat → Nat → Addr → Node → Prop) : Prop :=
  ∀ (y : Nat) (row : List Addr), nodes[y]? = some row → row.length = w ∧ RowSpec σ row (R y)

/-- The arrays of the grid have `height` rows of `width` slots, and slot `x` of row `y`
refers to an allocated node whose fields `x`, `y` are `x` and `y`: the state of a grid made
by the constructor or by `clone`. -/
def WellFormed (G : Grid) (σ : Store) : Prop :=
  0 ≤ G.height ∧ G.height < 4294967296 ∧ G.nodes.length = G.height.toNat ∧
  (G.nodes = [] ∨ (0 ≤ G.width ∧ G.width < 4294967296)) ∧
  RowsSpec σ G.nodes G.width.toNat (fun y x _ n => n.x = x ∧ n.y = y)

end Grid

/-! ### The finder on objects -/

/-- The comparator of the open list, `nodeA.f - nodeB.f`, reading the current fields. -/
def compareF (σ : Store) (nodeA nodeB : Addr) : ℚ :=
  match (σ[nodeA]?).bind (fun n => n.f), (σ[nodeB]?).bind (fun n => n.f) with
  | some fa, some fb => fa - fb
  | _, _ => 0

/-- The open list as seen at a moment when the store is `σ`: its comparator reads the `f`
fields the nodes have at that moment. -/
def syncOpen (openList : Heap Addr) (σ : Store) : Heap Addr :=
  { openList with compareFunc := compareF σ }

/-- The `while (node.parent)` loop of `backtrace`. -/
def backtraceLoop (σ : Store) : Nat → Addr → List Coord → Outcome (List Coord)
  | 0, _, _ => .timeout
  | fuel + 1, node, path =>
    match σ[node]? with
    | none => .fault
    | some nd =>
      match nd.parent with
      | none => .ok path
      | some parent =>
        match σ[parent]? with
        | none => .fault
        | some pn => backtraceLoop σ fuel parent (path ++ [(pn.x, pn.y)])

/-- The function `backtrace(node)`. -/
def backtrace (fuel : Nat) (σ : Store) (node : Addr) : Outcome (List Coord) :=
  match σ[node]? with
  | none => .fault
  | some nd =>
    match backtraceLoop σ fuel node [(nd.x, nd.y)] with
    | .ok path => .ok path.reverse
    | .fault => .fault
    | .timeout => .timeout

/-- The coordinates `[node.x, node.y]` of the nodes of a list. -/
def coordsOf (σ : Store) : List Addr → Outcome (List Coord)
  | [] => .ok []
  | a :: rest =>
    match σ[a]? with
    | none => .fault
    | some n =>
      match coordsOf σ rest with
      | .ok l => .ok ((n.x, n.y) :: l)
      | .fault => .fault
      | .timeout => .timeout

/-- One step `if (c) neighbors.push(v)`. -/
def pushIf (neighbors : Outcome (List Coord)) (c : Outcome Bool) (v : Coord) :
    Outcome (List Coord) :=
  match neighbors with
  | .ok l =>
    match c with
    | .ok true => .ok (l ++ [v])
    | .ok false => .ok l
    | .fault => .fault
    | .timeout => .timeout
  | .fault => .fault
  | .timeout => .timeout

namespace JumpPointFinderBase

/-- The method `_jump(x, y, px, py)` on objects, with `endNode` the goal (`none` when it
is `undefined`): the jump point (`none` for `null`) and the store, in which visited nodes
are flagged when `trackJumpRecursion` is set. -/
def _jump (self : JumpPointFinderBase) (endNode : Option Addr) (G : Grid) :
    Nat → Store → Int → Int → Int → Int → Outcome (Option Coord) × Store
  | 0, σ, _, _, _, _ => (.timeout, σ)
  | fuel + 1, σ, x, y, px, py =>
    let dx := x - px
    let dy := y - py
    match G.isWalkableAt σ x y with
    | .ok false => (.ok none, σ)
    | .ok true =>
      match G.getNodeAt x y with
      | .ok here =>
        let flagged : Option Store :=
          if self.trackJumpRecursion = true then
            match here with
            | some a => some (σ.modify a (fun n => { n with tested := true }))
            | none => none
          else some σ
        match flagged with
        | none => (.fault, σ)
        | some σ =>
          if here = endNode then (.ok (some (x, y)), σ)
          else if dx ≠ 0 then
            match orElse
                (andThen (G.isWalkableAt σ x (y - 1)) (notThen (G.isWalkableAt σ (x - dx) (y - 1))))
                (andThen (G.isWalkableAt σ x (y + 1)) (notThen (G.isWalkableAt σ (x - dx) (y + 1))))
              with
            | .ok true => (.ok (some (x, y)), σ)
            | .ok false => _jump self endNode G fuel σ (x + dx) (y + dy) x y
            | .fault => (.fault, σ)
            | .timeout => (.timeout, σ)
          else if dy ≠ 0 then
            match orElse
                (andThen (G.isWalkableAt σ (x - 1) y) (notThen (G.isWalkableAt σ (x - 1) (y - dy))))
                (andThen (G.isWalkableAt σ (x + 1) y) (notThen (G.isWalkableAt σ (x + 1) (y - dy))))
              with
            | .ok true => (.ok (some (x, y)), σ)
            | .ok false =>
              match _jump self endNode G fuel σ (x + 1) y x y with
              | (.ok (some _), σ1) => (.ok (some (x, y)), σ1)
              | (.ok none, σ1) =>
                match _jump self endNode G fuel σ1 (x - 1) y x y with
                | (.ok (some _), σ2) => (.ok (some (x, y)), σ2)
                | (.ok none, σ2) => _jump self endNode G fuel σ2 (x + dx) (y + dy) x y
                | (.fault, σ2) => (.fault, σ2)
                | (.timeout, σ2) => (.timeout, σ2)
              | (.fault, σ1) => (.fault, σ1)
              | (.timeout, σ1) => (.timeout, σ1)
            | .fault => (.fault, σ)
            | .timeout => (.timeout, σ)
          else (.fault, σ)
      | .fault => (.fault, σ)
      | .timeout => (.timeout, σ)
    | .fault => (.fault, σ)
    | .timeout => (.timeout, σ)

/-- The method `_findNeighbors(node)` on objects. -/
def _findNeighbors (G : Grid) (σ : Store) (node : Addr) : Outcome (List Coord) :=
  match σ[node]? with
  | none => .fault
  | some nd =>
    let x := nd.x
    let y := nd.y
    let neighbors : Outcome (List Coord) := .ok []
    match nd.parent with
    | some parent =>
      match σ[parent]? with
      | none => .fault
      | some pn =>
        let px := pn.x
        let py := pn.y
        let dx := (x - px) / max |x - px| 1
        let dy := (y - py) / max |y - py| 1
        if dx ≠ 0 then
          let neighbors := pushIf neighbors (G.isWalkableAt σ x (y - 1)) (x, y - 1)
          let neighbors := pushIf neighbors (G.isWalkableAt σ x (y + 1)) (x, y + 1)
          let neighbors := pushIf neighbors (G.isWalkableAt σ (x + dx) y) (x + dx, y)
          neighbors
        else if dy ≠ 0 then
          let neighbors := pushIf neighbors (G.isWalkableAt σ (x - 1) y) (x - 1, y)
          let neighbors := pushIf neighbors (G.isWalkableAt σ (x + 1) y) (x + 1, y)
          let neighbors := pushIf neighbors (G.isWalkableAt σ x (y + dy)) (x, y + dy)
          neighbors
        else neighbors
    | none =>
      match G.getWalkableNeighbors σ x y with
      | .ok neighborNodes => coordsOf σ neighborNodes
      | .fault => .fault
      | .timeout => .timeout

/-- One iteration of the `for` loop of `_identifySuccessors(node)`, for the neighbour
`neighbor`; `x`, `y`, `endX`, `endY` are the values read before the loop. -/
def successorStep (self : JumpPointFinderBase) (endNode : Option Addr) (G : Grid) (fuel : Nat)
    (node : Addr) (x y endX endY : Int) (σ : Store) (openList : Heap Addr)
    (neighbor : Coord) : Outcome Unit × Store × Heap Addr :=
  match _jump self endNode G fuel σ neighbor.1 neighbor.2 x y with
  | (.ok none, σ) => (.ok (), σ, openList)
  | (.ok (some jumpPoint), σ) =>
    let jx := jumpPoint.1
    let jy := jumpPoint.2
    match G.readNode σ jx jy, G.getNodeAt jx jy with
    | .ok jumpNode, .ok (some jn) =>
      if jumpNode.closed then (.ok (), σ, openList)
      else
        let d := octile (|jx - x| : Int) (|jy - y| : Int)
        let ng := optAdd ((σ[node]?).bind (fun n => n.g)) (some d)
        if !jumpNode.opened || optLt ng jumpNode.g then
          let h : Option ℚ :=
            match jumpNode.h with
            | some v => if v ≠ 0 then some v
              else some (self.heuristic (|jx - endX| : Int) (|jy - endY| : Int))
            | none => some (self.heuristic (|jx - endX| : Int) (|jy - endY| : Int))
          let σ := σ.modify jn (fun n =>
            { n with g := ng, h := h, f := optAdd ng h, parent := some node })
          let openList := (syncOpen openList σ).push jn
          let σ := σ.modify jn (fun n => { n with opened := true })
          (.ok (), σ, openList)
        else (.ok (), σ, openList)
    | .timeout, _ => (.timeout, σ, openList)
    | _, _ => (.fault, σ, openList)
  | (.fault, σ) => (.fault, σ, openList)
  | (.timeout, σ) => (.timeout, σ, openList)

/-- The `for` loop of `_identifySuccessors(node)` over the neighbours found. -/
def successorLoop (self : JumpPointFinderBase) (endNode : Option Addr) (G : Grid) (fuel : Nat)
    (node : Addr) (x y endX endY : Int) :
    List Coord → Store → Heap Addr → Outcome Unit × Store × Heap Addr
  | [], σ, openList => (.ok (), σ, openList)
  | neighbor :: rest, σ, openList =>
    match successorStep self endNode G fuel node x y endX endY σ openList neighbor with
    | (.ok _, σ1, openList1) =>
      successorLoop self endNode G fuel node x y endX endY rest σ1 openList1
    | (.fault, σ1, openList1) => (.fault, σ1, openList1)
    | (.timeout, σ1, openList1) => (.timeout, σ1, openList1)

/-- The method `_identifySuccessors(node)` on objects; reading `this.endNode.x` throws when
the goal node is `undefined`. -/
def _identifySuccessors (self : JumpPointFinderBase) (endNode : Option Addr) (G : Grid)
    (fuel : Nat) (node : Addr) (σ : Store) (openList : Heap Addr) :
    Outcome Unit × Store × Heap Addr :=
  match endNode.bind (fun e => σ[e]?), σ[node]? with
  | some en, some nd =>
    match _findNeighbors G σ node with
    | .ok neighbors =>
      successorLoop self endNode G fuel node nd.x nd.y en.x en.y neighbors σ openList
    | .fault => (.fault, σ, openList)
    | .timeout => (.timeout, σ, openList)
  | _, _ => (.fault, σ, openList)

/-- The `while (!openList.isEmpty())` loop of `findPath` on objects. -/
def findPathLoop (self : JumpPointFinderBase) (endNode : Option Addr) (G : Grid) (fuel : Nat) :
    Nat → Store → Heap Addr → Outcome (List Coord) × Store
  | 0, σ, _ => (.timeout, σ)
  | n + 1, σ, openList =>
    if openList.isEmpty then (.ok [], σ)
    else
      match (syncOpen openList σ).pop with
      | (none, _) => (.fault, σ)
      | (some node, openList1) =>
        let σ1 := σ.modify node (fun nd => { nd with closed := true })
        if some node = endNode then
          match backtrace fuel σ1 node with
          | .ok path => (expandPath fuel path, σ1)
          | .fault => (.fault, σ1)
          | .timeout => (.timeout, σ1)
        else
          match _identifySuccessors self endNode G fuel node σ1 openList1 with
          | (.ok _, σ2, openList2) => findPathLoop self endNode G fuel n σ2 openList2
          | (.fault, σ2, _) => (.fault, σ2)
          | (.timeout, σ2, _) => (.timeout, σ2)

/-- The method `findPath(startX, startY, endX, endY, grid)` on objects: what it returns (or
that it throws, or runs out of budget) and the store that it leaves in each case. -/
def findPath (self : JumpPointFinderBase) (fuel : Nat) (startX startY endX endY : Int)
    (G : Grid) (σ : Store) : Outcome (List Coord) × Store :=
  let openList : Heap Addr := Heap.new none (compareF σ)
  match G.getNodeAt startX startY, G.getNodeAt endX endY with
  | .ok (some startNode), .ok endNode =>
    let σ := σ.modify startNode (fun n => { n with g := some 0, f := some 0 })
    let openList := (syncOpen openList σ).push startNode
    let σ := σ.modify startNode (fun n => { n with opened := true })
    findPathLoop self endNode G fuel fuel σ openList
  | .timeout, _ => (.timeout, σ)
  | _, _ => (.fault, σ)

end JumpPointFinderBase

end Obj

namespace Obj

/-- Every entry of the open list is a reference held by the grid. -/
def HeapIn (G : Grid) (openList : Heap Addr) : Prop :=
  ∀ a, some a ∈ openList.entries → G.Has a

end Obj

namespace Obj

/-- The store after `new Grid(1, 2)` in the empty store: two walkable nodes. -/
def demoStore : Store := [Node.new 0 0 (some true), Node.new 1 0 (some true)]

/-- The grid made by `new Grid(1, 2)` in the empty store: one row of two cells. -/
def demoGrid : Grid := { height := 1, width := 2, nodes := [[0, 1]] }

end Obj

namespace Obj

namespace Grid

/-- The grid as a function from coordinates to nodes, as the finder sees it through
`getNodeAt`: a parent reference becomes the coordinate of the parent; a coordinate without
node gets a fresh walkable node (it lies outside the grid). -/
def view (G : Grid) (σ : Store) : Hola.Grid :=
  { height := G.height, width := G.width,
    nodes := fun c =>
      match G.readNode σ c.1 c.2 with
      | .ok n =>
        { walkable := n.walkable, g := n.g, h := n.h, f := n.f,
          parent := n.parent.bind (fun p => (σ[p]?).map (fun pn => (pn.x, pn.y))),
          opened := n.opened, closed := n.closed, tested := n.tested }
      | _ => Hola.Node.new true }

end Grid

end Obj
/-! ## Sequences of heap calls -/

/-- A call on a heap: `insert(value)` or `extractTop()`. -/
inductive HeapOp (α : Type) where
  | insert (value : α) : HeapOp α
  | extractTop : HeapOp α

namespace Heap

variable {α : Type}

/-- The values returned by the `extractTop` calls of a sequence of calls made in turn on a
heap (`none` for `undefined`). -/
def runOps : List (HeapOp α) → Heap α → List (Option α)
  | [], _ => []
  | .insert value :: rest, h => runOps rest (h.insert value)
  | .extractTop :: rest, h => h.extractTop.1 :: runOps rest h.extractTop.2

/-- Same comparator, polarity and size, and the same values in the slots `1..last`. -/
def Alike (h1 h2 : Heap α) : Prop :=
  h1.compareFunc = h2.compareFunc ∧ h1.type = h2.type ∧ h1.last = h2.last ∧
    ∀ i, 1 ≤ i → i ≤ h1.last → h1.heap i = h2.heap i

end Heap

/-! ## Searches compared and observed -/

/-- Two results of a step of the search that differ at most in `tested` flags. -/
def SameStep : Outcome (Grid × Heap Coord) → Outcome (Grid × Heap Coord) → Prop
  | .ok (g1, o1), .ok (g2, o2) => g1.Agree g2 ∧ o1 = o2
  | .fault, .fault => True
  | .timeout, .timeout => True
  | _, _ => False

/-- Two results of a search that differ at most in `tested` flags. -/
def SameSearch : Outcome (List Coord × Grid) → Outcome (List Coord × Grid) → Prop
  | .ok (p1, g1), .ok (p2, g2) => p1 = p2 ∧ g1.Agree g2
  | .fault, .fault => True
  | .timeout, .timeout => True
  | _, _ => False

/-- What the main loop of `findPath` sees when it extracts a node from the open list: the
node, its `f`, whether it was closed already, and the nodes that the open list still holds
(slots `1..last`, in slot order) with their `f`. -/
structure Extraction where
  node : Coord
  f : Option ℚ
  closed : Bool
  held : List (Coord × Option ℚ)
  deriving DecidableEq, Repr

/-- The nodes in the slots `1..last` of the open list with the `f` they have on `grid`. -/
def heldNodes (openList : Heap Coord) (grid : Grid) : List (Coord × Option ℚ) :=
  (List.range openList.last).filterMap (fun i =>
    match openList.heap (i + 1) with
    | some c => some (c, (grid.nodes c).f)
    | none => none)

namespace JumpPointFinderBase

/-- The loop of `findPath` as in `findPathLoop`, which also records every extraction. -/
def findPathLoopTrace (self : JumpPointFinderBase) (endNode : Coord) (fuel : Nat) :
    Nat → Grid → Heap Coord → Outcome (List Coord × Grid) × List Extraction
  | 0, _, _ => (.timeout, [])
  | n + 1, grid, openList =>
    if openList.isEmpty then (.ok ([], grid), [])
    else
      match (syncOpen openList grid).pop with
      | (none, _) => (.fault, [])
      | (some node, openList1) =>
        let seen : Extraction :=
          { node := node, f := (grid.nodes node).f, closed := (grid.nodes node).closed,
            held := heldNodes openList1 grid }
        let grid1 := grid.modify node (fun nd => { nd with closed := true })
        if node = endNode then
          match backtrace fuel grid1 endNode with
          | .ok path =>
            match expandPath fuel path with
            | .ok expanded => (.ok (expanded, grid1), [seen])
            | .fault => (.fault, [seen])
            | .timeout => (.timeout, [seen])
          | .fault => (.fault, [seen])
          | .timeout => (.timeout, [seen])
        else
          match _identifySuccessors self endNode fuel node grid1 openList1 with
          | .ok (grid2, openList2) =>
            ((findPathLoopTrace self endNode fuel n grid2 openList2).1,
              seen :: (findPathLoopTrace self endNode fuel n grid2 openList2).2)
          | .fault => (.fault, [seen])
          | .timeout => (.timeout, [seen])

/-- The method `findPath` as in `findPath`, which also records every extraction of the
main loop. -/
def findPathTrace (self : JumpPointFinderBase) (fuel : Nat) (startX startY endX endY : Int)
    (grid : Grid) : Outcome (List Coord × Grid) × List Extraction :=
  if !grid.isInside startX startY || !grid.isInside endX endY then (.fault, [])
  else
    let openList : Heap Coord := Heap.new none (compareF grid)
    let startNode : Coord := (startX, startY)
    let endNode : Coord := (endX, endY)
    let grid := grid.modify startNode (fun n => { n with g := some 0, f := some 0 })
    let openList := (syncOpen openList grid).push startNode
    let grid := grid.modify startNode (fun n => { n with opened := true })
    findPathLoopTrace self endNode fuel fuel grid openList

end JumpPointFinderBase

/-- Two calls `findPath(startX, startY, endX, endY, grid)` in a row by a caller that holds
one `Grid` object: the second call is given the grid as the first call left it, or a
`clone()` of it when `copy` is set (as `AI.findPath` does).  The value is the result of the
second call. -/
def findPathAgain (self : JumpPointFinderBase) (copy : Bool) (fuel : Nat)
    (startX startY endX endY : Int) (grid : Grid) : Outcome (List Coord) :=
  match JumpPointFinderBase.findPath self fuel startX startY endX endY grid with
  | .ok (_, grid1) =>
    JumpPointFinderBase.findPathResult self fuel startX startY endX endY
      (if copy then grid1.clone else grid1)
  | .fault => .fault
  | .timeout => .timeout

/-- A 4 x 4 grid with two unwalkable cells, `(0, 0)` and `(2, 1)`. -/
def gridTwice : Grid := Grid.ofRows
  [[false, true, true, true],
   [true, true, false, true],
   [true, true, true, true],
   [true, true, true, true]]

/-- The 3 x 3 grid without obstacles on which the node `(1, 1)` has the parent `(0, 1)`. -/
def gridParent : Grid :=
  (Grid.new 3 3).modify (1, 1) (fun n => { n with parent := some (0, 1) })

/-! ## The grid of `src/solution/Grid.js` -/

namespace Solution

/-- An entry of a walkability matrix: a number or a boolean. -/
inductive Entry where
  | num (v : ℚ) : Entry
  | bool (b : Bool) : Entry
  deriving DecidableEq

/-- The conversion `Boolean(v)` of a matrix entry; `none` is `undefined`. -/
def toBoolean : Option Entry → Bool
  | none => false
  | some (.num v) => decide (v ≠ 0)
  | some (.bool b) => b

/-- A node of `src/solution/Node.js`. -/
structure Node where
  x : Int
  y : Int
  walkable : Bool
  deriving DecidableEq

/-- The constructor `new Node(x, y, walkable)`; `none` is an `undefined` flag. -/
def Node.new (x y : Int) (walkable : Option Bool) : Node :=
  { x := x, y := y, walkable := match walkable with
      | none => true
      | some w => w }

/-- The `Grid` object of `src/solution/Grid.js`; `nodes` is an array of rows. -/
structure Grid where
  width : Int
  height : Int
  matrix : Option (List (List Entry))
  nodes : List (List Node)

namespace Grid

/-- The loop `for (j = 0; j < width; ++j)` of `buildNodes` for the row `i`, entered with
the counter `j`, the row built so far, and the number of iterations that remain. -/
def buildRow (matrix : Option (List (List Entry))) (i : Nat) :
    Nat → Nat → List Node → Outcome (List Node)
  | 0, _, row => .ok row
  | count + 1, j, row =>
    match matrix with
    | none => buildRow matrix i count (j + 1) (row ++ [Node.new j i (some true)])
    | some m =>
      match m[i]? with
      | none => .fault
      | some r =>
        buildRow matrix i count (j + 1) (row ++ [Node.new j i (some (!toBoolean r[j]?))])

/-- The loop `for (i = 0; i < height; ++i)` of `buildNodes`, entered with the counter `i`,
the rows built so far, and the number of iterations that remain.  `new Array(width)` throws
a `RangeError` unless `width` is an array length. -/
def buildRows (matrix : Option (List (List Entry))) (width : Int) :
    Nat → Nat → List (List Node) → Outcome (List (List Node))
  | 0, _, nodes => .ok nodes
  | count + 1, i, nodes =>
    if width < 0 ∨ 4294967296 ≤ width then .fault
    else
      match buildRow matrix i width.toNat 0 [] with
      | .ok row => buildRows matrix width count (i + 1) (nodes ++ [row])
      | .fault => .fault
      | .timeout => .timeout

/-- The method `buildNodes(width, height, matrix)`: the array `nodes`. -/
def buildNodes (width height : Int) (matrix : Option (List (List Entry))) :
    Outcome (List (List Node)) :=
  let sizeFits : Outcome Unit :=
    match matrix with
    | none => .ok ()
    | some m =>
      if (m.length : Int) ≠ height then .fault
      else
        match m[0]? with
        | none => .fault
        | some r => if (r.length : Int) ≠ width then .fault else .ok ()
  match sizeFits with
  | .ok _ =>
    if height < 0 ∨ 4294967296 ≤ height then .fault
    else buildRows matrix width height.toNat 0 []
  | .fault => .fault
  | .timeout => .timeout

/-- The constructor `new Grid(width_or_matrix, height, matrix)`: the first argument is a
number (`Sum.inl`) or a matrix (`Sum.inr`). -/
def new (width_or_matrix : Int ⊕ List (List Entry)) (height : Int)
    (matrix : Option (List (List Entry))) : Outcome Grid :=
  match width_or_matrix with
  | .inl width =>
    match buildNodes width height matrix with
    | .ok nodes => .ok { width := width, height := height, matrix := matrix, nodes := nodes }
    | .fault => .fault
    | .timeout => .timeout
  | .inr m =>
    match m[0]? with
    | none => .fault
    | some r =>
      match buildNodes r.length m.length (some m) with
      | .ok nodes =>
        .ok { width := r.length, height := m.length, matrix := some m, nodes := nodes }
      | .fault => .fault
      | .timeout => .timeout

/-- The method `isInside(x, y)`. -/
def isInside (grid : Grid) (x y : Int) : Bool :=
  (decide (x ≥ 0) && decide (x < grid.width)) && (decide (y ≥ 0) && decide (y < grid.height))

/-- The method `isWalkableAt(x, y)`; reading a field of a missing row or node throws. -/
def isWalkableAt (grid : Grid) (x y : Int) : Outcome Bool :=
  if grid.isInside x y then
    match grid.nodes[y.toNat]? with
    | none => .fault
    | some row =>
      match row[x.toNat]? with
      | none => .fault
      | some node => .ok node.walkable
  else .ok false

end Grid

/-- The walkable flag that `buildNodes` gives the node of column `j` in row `i`. -/
def flagAt (matrix : Option (List (List Entry))) (i j : Nat) : Bool :=
  match matrix with
  | none => true
  | some m => !toBoolean ((m.getD i [])[j]?)

/-- The array of rows that `buildNodes` makes for a grid of the given size. -/
def table (matrix : Option (List (List Entry))) (width height : Nat) : List (List Node) :=
  (List.range height).map (fun (i : Nat) =>
    (List.range width).map (fun (j : Nat) => Node.new (j : Int) i (some (flagAt matrix i j))))

end Solution
/-! ## Notions for path expansion, parent chains and recorded scans -/

/-- Two different cells at most one apart in each coordinate (a king's move). -/
def KingStep (a b : Coord) : Prop := max |b.1 - a.1| |b.2 - a.2| = 1

/-- Every two consecutive coordinates of the list are a king's move apart. -/
def KingChain : List Coord → Prop
  | a :: b :: rest => KingStep a b ∧ KingChain (b :: rest)
  | _ => True

/-- The Chebyshev distance `max(|dx|, |dy|)` between two cells. -/
def chebDist (a b : Coord) : Nat := (max |b.1 - a.1| |b.2 - a.2|).toNat

/-- The sum of the Chebyshev distances between consecutive waypoints. -/
def pathSpan : List Coord → Nat
  | a :: b :: rest => chebDist a b + pathSpan (b :: rest)
  | _ => 0

/-- The node `c` and its ancestors `up`, nearest first: each is the parent of the one
before, and the last one has no parent. -/
def ParentChain (grid : Grid) : Coord → List Coord → Prop
  | c, [] => (grid.nodes c).parent = none
  | c, p :: rest => (grid.nodes c).parent = some p ∧ ParentChain grid p rest

/-- The call `_jump(x, y, px, py)` has a unit direction along one axis. -/
def UnitCall (call : Coord × Coord) : Prop :=
  UnitDir (call.1.1 - call.2.1) (call.1.2 - call.2.2)

namespace JumpPointFinderBase

/-- The method `_jump` as in `_jump`, which also records the arguments `((x, y), (px, py))`
of every call made, the outermost call first. -/
def _jumpCalls (self : JumpPointFinderBase) (endNode : Coord) :
    Nat → Grid → Int → Int → Int → Int →
      Outcome (Option Coord × Grid) × List (Coord × Coord)
  | 0, _, x, y, px, py => (.timeout, [((x, y), (px, py))])
  | fuel + 1, grid, x, y, px, py =>
    let dx := x - px
    let dy := y - py
    let call : Coord × Coord := ((x, y), (px, py))
    if !grid.isWalkableAt x y then (.ok (none, grid), [call])
    else
      let grid :=
        if self.trackJumpRecursion = true then grid.modify (x, y) (fun n => { n with tested := true })
        else grid
      if (x, y) = endNode then (.ok (some (x, y), grid), [call])
      else if dx ≠ 0 then
        if (grid.isWalkableAt x (y - 1) && !grid.isWalkableAt (x - dx) (y - 1)) ||
            (grid.isWalkableAt x (y + 1) && !grid.isWalkableAt (x - dx) (y + 1)) then
          (.ok (some (x, y), grid), [call])
        else
          ((_jumpCalls self endNode fuel grid (x + dx) (y + dy) x y).1,
            call :: (_jumpCalls self endNode fuel grid (x + dx) (y + dy) x y).2)
      else if dy ≠ 0 then
        if (grid.isWalkableAt (x - 1) y && !grid.isWalkableAt (x - 1) (y - dy)) ||
            (grid.isWalkableAt (x + 1) y && !grid.isWalkableAt (x + 1) (y - dy)) then
          (.ok (some (x, y), grid), [call])
        else
          match _jumpCalls self endNode fuel grid (x + 1) y x y with
          | (.ok (some _, grid1), calls1) => (.ok (some (x, y), grid1), call :: calls1)
          | (.ok (none, grid1), calls1) =>
            match _jumpCalls self endNode fuel grid1 (x - 1) y x y with
            | (.ok (some _, grid2), calls2) => (.ok (some (x, y), grid2), call :: calls1 ++ calls2)
            | (.ok (none, grid2), calls2) =>
              ((_jumpCalls self endNode fuel grid2 (x + dx) (y + dy) x y).1,
                call :: calls1 ++ calls2 ++
                  (_jumpCalls self endNode fuel grid2 (x + dx) (y + dy) x y).2)
            | (.fault, calls2) => (.fault, call :: calls1 ++ calls2)
            | (.timeout, calls2) => (.timeout, call :: calls1 ++ calls2)
          | (.fault, calls1) => (.fault, call :: calls1)
          | (.timeout, calls1) => (.timeout, call :: calls1)
      else (.fault, [call])

/-- One iteration of the loop of `_identifySuccessors` as in `successorStep`, with the
calls of `_jump` it makes. -/
def successorStepCalls (self : JumpPointFinderBase) (endNode : Coord) (fuel : Nat)
    (node : Coord) (grid : Grid) (openList : Heap Coord) (neighbor : Coord) :
    Outcome (Grid × Heap Coord) × List (Coord × Coord) :=
  (successorStep self endNode fuel node grid openList neighbor,
    (_jumpCalls self endNode fuel grid neighbor.1 neighbor.2 node.1 node.2).2)

/-- The loop of `_identifySuccessors` as in `successorLoop`, with the calls of `_jump` made. -/
def successorLoopCalls (self : JumpPointFinderBase) (endNode : Coord) (fuel : Nat)
    (node : Coord) :
    List Coord → Grid → Heap Coord → Outcome (Grid × Heap Coord) × List (Coord × Coord)
  | [], grid, openList => (.ok (grid, openList), [])
  | neighbor :: rest, grid, openList =>
    match successorStepCalls self endNode fuel node grid openList neighbor with
    | (.ok (grid1, openList1), calls) =>
      ((successorLoopCalls self endNode fuel node rest grid1 openList1).1,
        calls ++ (successorLoopCalls self endNode fuel node rest grid1 openList1).2)
    | (.fault, calls) => (.fault, calls)
    | (.timeout, calls) => (.timeout, calls)

/-- The loop of `findPath` as in `findPathLoop`, with the calls of `_jump` made. -/
def findPathLoopCalls (self : JumpPointFinderBase) (endNode : Coord) (fuel : Nat) :
    Nat → Grid → Heap Coord → Outcome (List Coord × Grid) × List (Coord × Coord)
  | 0, _, _ => (.timeout, [])
  | n + 1, grid, openList =>
    if openList.isEmpty then (.ok ([], grid), [])
    else
      match (syncOpen openList grid).pop with
      | (none, _) => (.fault, [])
      | (some node, openList1) =>
        let grid1 := grid.modify node (fun nd => { nd with closed := true })
        if node = endNode then
          match backtrace fuel grid1 endNode with
          | .ok path =>
            match expandPath fuel path with
            | .ok expanded => (.ok (expanded, grid1), [])
            | .fault => (.fault, [])
            | .timeout => (.timeout, [])
          | .fault => (.fault, [])
          | .timeout => (.timeout, [])
        else
          match successorLoopCalls self endNode fuel node (_findNeighbors grid1 node)
              grid1 openList1 with
          | (.ok (grid2, openList2), calls) =>
            ((findPathLoopCalls self endNode fuel n grid2 openList2).1,
              calls ++ (findPathLoopCalls self endNode fuel n grid2 openList2).2)
          | (.fault, calls) => (.fault, calls)
          | (.timeout, calls) => (.timeout, calls)

/-- The method `findPath` as in `findPath`, with the calls of `_jump` made during the
search, recursive calls included. -/
def findPathCalls (self : JumpPointFinderBase) (fuel : Nat) (startX startY endX endY : Int)
    (grid : Grid) : Outcome (List Coord × Grid) × List (Coord × Coord) :=
  if !grid.isInside startX startY || !grid.isInside endX endY then (.fault, [])
  else
    let openList : Heap Coord := Heap.new none (compareF grid)
    let startNode : Coord := (startX, startY)
    let endNode : Coord := (endX, endY)
    let grid := grid.modify startNode (fun n => { n with g := some 0, f := some 0 })
    let openList := (syncOpen openList grid).push startNode
    let grid := grid.modify startNode (fun n => { n with opened := true })
    findPathLoopCalls self endNode fuel fuel grid openList

end JumpPointFinderBase

/-! ## Player moves (`Player`, `AI.encodeMovement`) -/

/-- The constant `MOVE_UP`. -/
def MOVE_UP : Int := 0

/-- The constant `MOVE_RIGHT`. -/
def MOVE_RIGHT : Int := 1

/-- The constant `MOVE_DOWN`. -/
def MOVE_DOWN : Int := 2

/-- The constant `MOVE_LEFT`. -/
def MOVE_LEFT : Int := 3

/-- The constant `MOVE_STOP`. -/
def MOVE_STOP : Int := 5

/-- A `Player`: a node with the position `x`, `y`. -/
structure Player where
  x : Int
  y : Int

namespace Player

/-- The method `up()` of `Node`; the node returned is given by its coordinates. -/
def up (self : Player) : Coord := (self.x, self.y - 1)

/-- The method `right()` of `Node`. -/
def right (self : Player) : Coord := (self.x + 1, self.y)

/-- The method `down()` of `Node`. -/
def down (self : Player) : Coord := (self.x, self.y + 1)

/-- The method `left()` of `Node`. -/
def left (self : Player) : Coord := (self.x - 1, self.y)

/-- The method `whereXMove(destination)`. -/
def whereXMove (self : Player) (destination : Coord) : Int :=
  let dx := self.x - destination.1
  if dx = 0 then MOVE_STOP
  else if dx > 0 then MOVE_LEFT
  else MOVE_RIGHT

/-- The method `whereYMove(destination)`. -/
def whereYMove (self : Player) (destination : Coord) : Int :=
  let dy := self.y - destination.2
  if dy = 0 then MOVE_STOP
  else if dy > 0 then MOVE_UP
  else MOVE_DOWN

/-- The method `whereToMove(destination)`. -/
def whereToMove (self : Player) (destination : Coord) : Int :=
  let move := self.whereXMove destination
  if move = MOVE_STOP then self.whereYMove destination
  else move

/-- The method `move(command)`; `none` is the `undefined` result of a command that is none
of the four directions. -/
def move (self : Player) (command : Int) : Option Coord :=
  if command = MOVE_UP then some self.up
  else if command = MOVE_RIGHT then some self.right
  else if command = MOVE_LEFT then some self.left
  else if command = MOVE_DOWN then some self.down
  else none

end Player

/-- The method `AI.encodeMovement(moveDirection)`; `none` is an `undefined` argument. -/
def encodeMovement (moveDirection : Option Int) : Char :=
  match moveDirection with
  | some m =>
    if m = MOVE_UP then 'u'
    else if m = MOVE_RIGHT then 'r'
    else if m = MOVE_DOWN then 'd'
    else if m = MOVE_LEFT then 'l'
    else 's'
  | none => 's'

/-! ## Double-precision arithmetic

JavaScript numbers are IEEE 754 binary64 values and every arithmetic operation rounds its
exact result to the nearest such value, a tie going to the value with an even significand.
This section embeds that arithmetic and, over it, the four heuristic functions. -/

/-- A JavaScript number.  A finite number is held as the rational it denotes (the two zeros
are not told apart: no operation below distinguishes them); `inf` and `ninf` are
`Infinity` and `-Infinity`, `nan` is `NaN`. -/
inductive Double where
  | fin (v : ℚ)
  | inf
  | ninf
  | nan
deriving DecidableEq

namespace Double

/-- The integer nearest to `m`; when `m` lies half-way between two integers, the even
one. -/
def roundHalfEven (m : ℚ) : Int :=
  if m - ⌊m⌋ < 1 / 2 then ⌊m⌋
  else if 1 / 2 < m - ⌊m⌋ then ⌊m⌋ + 1
  else if ⌊m⌋ % 2 = 0 then ⌊m⌋
  else ⌊m⌋ + 1

/-- The binary exponent at which `q ≥ 0` is rounded: `⌊log₂ q⌋`, but not below the
exponent `-1022` of the subnormal numbers. -/
def exponent (q : ℚ) : Int := Max.max (Int.log 2 q) (-1022)

/-- The spacing of the doubles around `q ≥ 0`: the significand has 53 bits. -/
def ulp (q : ℚ) : ℚ := 2 ^ (exponent q - 52)

/-- The multiple of `ulp q` nearest to `q ≥ 0`, ties to even: the rounded value when the
exponent is not bounded above. -/
def nearest (q : ℚ) : ℚ := roundHalfEven (q / ulp q) * ulp q

/-- Rounding of an exact result `q` to a double (round to nearest, ties to even); a result
whose rounded magnitude reaches `2 ^ 1024` overflows to an infinity. -/
def round (q : ℚ) : Double :=
  if 0 ≤ q then
    if nearest q < 2 ^ 1024 then fin (nearest q) else inf
  else
    if nearest (-q) < 2 ^ 1024 then fin (-nearest (-q)) else ninf

/-- The operator `a + b`. -/
def add : Double → Double → Double
  | fin a, fin b => round (a + b)
  | nan, _ => nan
  | _, nan => nan
  | inf, ninf => nan
  | ninf, inf => nan
  | inf, _ => inf
  | _, inf => inf
  | ninf, _ => ninf
  | _, ninf => ninf

/-- The operator `-a`. -/
def neg : Double → Double
  | fin a => fin (-a)
  | inf => ninf
  | ninf => inf
  | nan => nan

/-- The operator `a - b`. -/
def sub (a b : Double) : Double := add a (neg b)

/-- The product of an infinity of sign `s` (`true` for `Infinity`) and the finite `b`. -/
def mulInf (s : Bool) (b : ℚ) : Double :=
  if b = 0 then nan
  else if 0 < b then (if s then inf else ninf)
  else (if s then ninf else inf)

/-- The operator `a * b`. -/
def mul : Double → Double → Double
  | fin a, fin b => round (a * b)
  | nan, _ => nan
  | _, nan => nan
  | inf, fin b => mulInf true b
  | ninf, fin b => mulInf false b
  | fin a, inf => mulInf true a
  | fin a, ninf => mulInf false a
  | inf, inf => inf
  | ninf, ninf => inf
  | inf, ninf => ninf
  | ninf, inf => ninf

/-- The operator `a < b`. -/
def lt : Double → Double → Bool
  | fin a, fin b => decide (a < b)
  | nan, _ => false
  | _, nan => false
  | _, ninf => false
  | inf, _ => false
  | ninf, _ => true
  | fin _, inf => true

/-- The operator `a <= b`. -/
def le : Double → Double → Bool
  | fin a, fin b => decide (a ≤ b)
  | nan, _ => false
  | _, nan => false
  | ninf, _ => true
  | _, inf => true
  | _, ninf => false
  | inf, _ => false

/-- The correctly rounded square root of a finite `q ≥ 0`: with `e = ⌊log₂ √q⌋` and
`u = 2 ^ (e - 52)` the spacing of the doubles around `√q`, the multiple `k * u` nearest to
`√q`, where `k` is `⌊√(q / u²)⌋` or its successor. -/
def sqrtNearest (q : ℚ) : ℚ :=
  let e := Int.log 2 q / 2
  let u : ℚ := 2 ^ (e - 52)
  let s := q / (u * u)
  let f := Nat.sqrt ⌊s⌋₊
  if s < ((f : ℚ) + 1 / 2) * ((f : ℚ) + 1 / 2) then (f : ℚ) * u
  else if ((f : ℚ) + 1 / 2) * ((f : ℚ) + 1 / 2) < s then ((f : ℚ) + 1) * u
  else if f % 2 = 0 then (f : ℚ) * u
  else ((f : ℚ) + 1) * u

/-- The function `Math.sqrt`. -/
def sqrt : Double → Double
  | fin q => if q < 0 then nan else fin (sqrtNearest q)
  | inf => inf
  | ninf => nan
  | nan => nan

/-- The function `Math.max` of two arguments. -/
def max : Double → Double → Double
  | nan, _ => nan
  | _, nan => nan
  | a, b => if lt a b then b else a

/-- The constant `Math.SQRT2`. -/
def SQRT2 : Double := fin Hola.SQRT2

/-- The function `manhattan(dx, dy)` in double arithmetic. -/
def manhattan (dx dy : Double) : Double := add dx dy

/-- The function `euclidean(dx, dy)` in double arithmetic. -/
def euclidean (dx dy : Double) : Double := sqrt (add (mul dx dx) (mul dy dy))

/-- The function `octile(dx, dy)` in double arithmetic. -/
def octile (dx dy : Double) : Double :=
  let F := sub SQRT2 (fin 1)
  if lt dx dy then add (mul F dx) dy else add (mul F dy) dx

/-- The function `chebyshev(dx, dy)` in double arithmetic. -/
def chebyshev (dx dy : Double) : Double := max dx dy

/-- The values of type `Double` that are JavaScript numbers: a finite value must be one
that rounding leaves unchanged. -/
def IsDouble : Double → Prop
  | fin q => round q = fin q
  | _ => True

instance : DecidablePred IsDouble := fun v =>
  match v with
  | fin q => inferInstanceAs (Decidable (round q = fin q))
  | inf => isTrue trivial
  | ninf => isTrue trivial
  | nan => isTrue trivial

end Double

/-! # Theorems -/

/-! ## Heap: proofs -/

namespace Heap

variable {α : Type}

theorem swap_heap (h : Heap α) (a b i : Nat) : (h.swap a b).heap i = h.heap (sw a b i) := by
  unfold swap sw
  by_cases hab : a = b
  · subst hab; simp; split_ifs with h1 <;> simp_all
  · simp only [hab, if_false]
    by_cases h1 : i = b
    · subst h1; simp [Function.update_same]
      split_ifs with h2
      · omega
      · rfl
    · by_cases h2 : i = a
      · subst h2; simp [Function.update_noteq h1]
      · simp [Function.update_noteq h1, Function.update_noteq h2, h1, h2]

@[simp] theorem swap_last (h : Heap α) (a b : Nat) : (h.swap a b).last = h.last := by
  unfold swap; split_ifs <;> rfl

@[simp] theorem swap_type (h : Heap α) (a b : Nat) : (h.swap a b).type = h.type := by
  unfold swap; split_ifs <;> rfl

@[simp] theorem swap_compareFunc (h : Heap α) (a b : Nat) :
    (h.swap a b).compareFunc = h.compareFunc := by
  unfold swap; split_ifs <;> rfl

theorem swap_comparator (h : Heap α) (a b i j : Nat) :
    (h.swap a b).comparator i j = h.comparator (sw a b i) (sw a b j) := by
  unfold comparator
  rw [swap_heap, swap_heap, swap_type, swap_compareFunc]

theorem sw_range {a b i n : Nat} (ha : 1 ≤ a ∧ a ≤ n) (hb : 1 ≤ b ∧ b ≤ n) :
    (1 ≤ sw a b i ∧ sw a b i ≤ n) ↔ (1 ≤ i ∧ i ≤ n) := by
  unfold sw; split_ifs <;> omega

theorem sw_sw (a b i : Nat) : sw a b (sw a b i) = i := by
  unfold sw; split_ifs <;> omega

theorem swap_filled {h : Heap α} {a b : Nat} (hf : h.Filled) (ha : 1 ≤ a ∧ a ≤ h.last)
    (hb : 1 ≤ b ∧ b ≤ h.last) : (h.swap a b).Filled := by
  intro i h1 h2
  rw [swap_heap]
  rw [swap_last] at h2
  have := (sw_range (i := i) ha hb).2 ⟨h1, h2⟩
  exact hf _ this.1 this.2

theorem swap_entries {h : Heap α} {a b : Nat} (ha : 1 ≤ a ∧ a ≤ h.last)
    (hb : 1 ≤ b ∧ b ≤ h.last) : (h.swap a b).entries = h.entries := by
  unfold entries
  rw [swap_last]
  have hfun : (h.swap a b).heap = h.heap ∘ (sw a b) := by
    funext i; simp [swap_heap]
  rw [hfun, ← Multiset.map_map]
  congr 1
  have hinj : Function.Injective (sw a b) := by
    intro x y hxy
    have := congrArg (sw a b) hxy
    simpa [sw_sw] using this
  have hnd : (Multiset.map (sw a b) (Multiset.Icc 1 h.last)).Nodup :=
    (Multiset.nodup_map_iff_of_injective hinj).2 (Multiset.nodup_Icc)
  refine (Multiset.Nodup.ext hnd Multiset.nodup_Icc).2 ?_
  intro x
  simp only [Multiset.mem_map, Multiset.mem_Icc]
  constructor
  · rintro ⟨y, hy, rfl⟩
    exact (sw_range ha hb).2 hy
  · intro hx
    exact ⟨sw a b x, (sw_range ha hb).2 hx, sw_sw a b x⟩

/-- The comparator `type * compareFunc` of a heap with a valid polarity is again the
comparator of a total preorder. -/
theorem TotalPreorderCmp.scaled {cmp : α → α → ℚ} (hc : TotalPreorderCmp cmp) {t : ℚ}
    (ht : t = 1 ∨ t = -1) : TotalPreorderCmp (fun a b => t * cmp a b) := by
  rcases ht with rfl | rfl
  · simpa using hc
  · have key : ∀ a b, (-1 : ℚ) * cmp a b ≤ 0 ↔ cmp b a ≤ 0 := by
      intro a b
      have h1 := hc.neg_iff a b
      constructor
      · intro h
        by_contra hcon
        have : cmp a b < 0 := h1.2 hcon
        linarith
      · intro h
        by_contra hcon
        have h2 : cmp a b < 0 := by linarith
        exact (h1.1 h2) h
    refine ⟨?_, ?_, ?_⟩
    · intro a b
      rcases hc.total b a with h | h
      · exact Or.inl ((key a b).2 h)
      · exact Or.inr ((key b a).2 h)
    · intro a b c h1 h2
      exact (key a c).2 (hc.trans c b a ((key b c).1 h2) ((key a b).1 h1))
    · intro a b
      simp only [key]
      have h1 := hc.neg_iff b a
      constructor
      · intro h
        have : 0 < cmp a b := by linarith
        intro h2; linarith
      · intro h
        have := h1.2 h
        linarith

theorem TotalPreorderCmp.self_le {cmp : α → α → ℚ} (hc : TotalPreorderCmp cmp) (a : α) :
    cmp a a ≤ 0 := by
  rcases hc.total a a with h | h <;> exact h

theorem comparator_some {h : Heap α} {i j : Nat} {a b : α} (hi : h.heap i = some a)
    (hj : h.heap j = some b) : h.comparator i j = h.type * h.compareFunc a b := by
  unfold comparator; rw [hi, hj]

theorem idxOrder {h : Heap α} (hf : h.Filled)
    (hc : TotalPreorderCmp (fun a b => h.type * h.compareFunc a b)) : IdxOrder h := by
  refine ⟨?_, ?_, ?_⟩
  · intro i h1 h2
    obtain ⟨a, ha⟩ := hf i h1 h2
    rw [comparator_some ha ha]; exact hc.self_le a
  · intro i j k hi1 hi2 hj1 hj2 hk1 hk2
    obtain ⟨a, ha⟩ := hf i hi1 hi2
    obtain ⟨b, hb⟩ := hf j hj1 hj2
    obtain ⟨c, hcc⟩ := hf k hk1 hk2
    rw [comparator_some ha hb, comparator_some hb hcc, comparator_some ha hcc]
    exact hc.trans a b c
  · intro i j hi1 hi2 hj1 hj2
    obtain ⟨a, ha⟩ := hf i hi1 hi2
    obtain ⟨b, hb⟩ := hf j hj1 hj2
    rw [comparator_some ha hb, comparator_some hb ha]
    exact hc.neg_iff a b

theorem shiftRight_one (i : Nat) : i >>> 1 = i / 2 := by
  simp [Nat.shiftRight_eq_div_pow]

theorem shiftLeft_one (i : Nat) : i <<< 1 = 2 * i := by
  simp [Nat.shiftLeft_eq, Nat.mul_comm]

theorem UpInv.step_up {h : Heap α} {i : Nat} (ho : IdxOrder h) (hu : UpInv h i) (hi2 : 2 ≤ i)
    (hlt : h.comparator i (i / 2) < 0) : UpInv (h.swap i (i / 2)) (i / 2) := by
  have hil := hu.hi
  have hle : h.comparator i (i / 2) ≤ 0 := le_of_lt hlt
  refine ⟨by omega, by simp; omega, ?_, ?_⟩
  · intro k hk2 hkl hkp
    rw [swap_last] at hkl
    rw [swap_comparator]
    by_cases hki : k = i
    · subst hki
      have e1 : sw k (k / 2) (k / 2) = k := by unfold sw; split_ifs <;> omega
      have e2 : sw k (k / 2) k = k / 2 := by unfold sw; split_ifs <;> omega
      rw [e1, e2]; exact hle
    · have e2 : sw i (i / 2) k = k := by unfold sw; split_ifs <;> omega
      rw [e2]
      by_cases hkp2 : k / 2 = i / 2
      · have e1 : sw i (i / 2) (k / 2) = i := by unfold sw; split_ifs <;> omega
        rw [e1]
        have := hu.edges k hk2 hkl hki
        rw [hkp2] at this
        exact ho.trans i (i / 2) k (by omega) hil (by omega) (by omega) (by omega) hkl hle this
      · by_cases hkc : k / 2 = i
        · have e1 : sw i (i / 2) (k / 2) = i / 2 := by unfold sw; split_ifs <;> omega
          rw [e1]
          exact hu.grand k hk2 hkl hkc hi2
        · have e1 : sw i (i / 2) (k / 2) = k / 2 := by unfold sw; split_ifs <;> omega
          rw [e1]
          exact hu.edges k hk2 hkl hki
  · intro c hc2 hcl hcp hp2
    rw [swap_last] at hcl
    rw [swap_comparator]
    have e1 : sw i (i / 2) (i / 2 / 2) = i / 2 / 2 := by unfold sw; split_ifs <;> omega
    rw [e1]
    have hpe := hu.edges (i / 2) hp2 (by omega) (by omega)
    by_cases hci : c = i
    · subst hci
      have e2 : sw c (c / 2) c = c / 2 := by unfold sw; split_ifs <;> omega
      rw [e2]; exact hpe
    · have e2 : sw i (i / 2) c = c := by unfold sw; split_ifs <;> omega
      rw [e2]
      have hce := hu.edges c hc2 hcl hci
      rw [hcp] at hce
      exact ho.trans (i / 2 / 2) (i / 2) c (by omega) (by omega) (by omega) (by omega) (by omega)
        hcl hpe hce

theorem UpInv.ordered_of_root {h : Heap α} (hu : UpInv h 1) : h.Ordered := by
  intro k hk2 hkl
  rw [shiftRight_one]
  exact hu.edges k hk2 hkl (by omega)

theorem UpInv.ordered_of_not_lt {h : Heap α} {i : Nat} (ho : IdxOrder h) (hu : UpInv h i)
    (hi2 : 2 ≤ i) (hlt : ¬ h.comparator i (i / 2) < 0) : h.Ordered := by
  intro k hk2 hkl
  rw [shiftRight_one]
  by_cases hki : k = i
  · subst hki
    by_contra hcon
    exact hlt ((ho.neg_iff k (k / 2) (by omega) hkl (by omega) (by omega)).2 hcon)
  · exact hu.edges k hk2 hkl hki

theorem SameContent.same {h : Heap α} : SameContent h h := ⟨Eq.refl _, Eq.refl _, Eq.refl _, Eq.refl _, id⟩

theorem SameContent.chain {h1 h2 h3 : Heap α} (a : SameContent h1 h2) (b : SameContent h2 h3) :
    SameContent h1 h3 :=
  ⟨a.last.trans b.last, a.type.trans b.type, a.compareFunc.trans b.compareFunc,
    a.entries.trans b.entries, fun hf => a.filled (b.filled hf)⟩

theorem SameContent.of_swap {h : Heap α} {a b : Nat} (ha : 1 ≤ a ∧ a ≤ h.last)
    (hb : 1 ≤ b ∧ b ≤ h.last) : SameContent (h.swap a b) h :=
  ⟨swap_last h a b, swap_type h a b, swap_compareFunc h a b, swap_entries ha hb,
    fun hf => swap_filled hf ha hb⟩

theorem shiftUpLoop_spec (fuel : Nat) : ∀ (h : Heap α) (index parentIndex : Nat),
    h.Filled → TotalPreorderCmp (fun a b => h.type * h.compareFunc a b) →
    1 ≤ index → index ≤ h.last → 1 ≤ parentIndex → parentIndex ≤ h.last →
    UpInv (h.swap index parentIndex) parentIndex → parentIndex < fuel →
    (shiftUpLoop fuel h index parentIndex).Ordered ∧
      SameContent (shiftUpLoop fuel h index parentIndex) h := by
  induction fuel with
  | zero => intro h index parentIndex _ _ _ _ _ _ _ hlt; omega
  | succ n ih =>
    intro h index parentIndex hf hc hi1 hi2 hp1 hp2 hu hlt
    have hsc : SameContent (h.swap index parentIndex) h := SameContent.of_swap ⟨hi1, hi2⟩ ⟨hp1, hp2⟩
    have hf1 := hsc.filled hf
    have hc1 : TotalPreorderCmp (fun a b =>
        (h.swap index parentIndex).type * (h.swap index parentIndex).compareFunc a b) := by
      simpa using hc
    have ho1 := idxOrder hf1 hc1
    unfold shiftUpLoop
    simp only [shiftRight_one]
    by_cases hz : parentIndex / 2 = 0
    · simp only [hz, if_true]
      have : parentIndex = 1 := by omega
      subst this
      exact ⟨hu.ordered_of_root, hsc⟩
    · simp only [hz, if_false]
      by_cases hcmp : (h.swap index parentIndex).comparator parentIndex (parentIndex / 2) < 0
      · simp only [hcmp, if_true]
        have hl1 : (h.swap index parentIndex).last = h.last := swap_last _ _ _
        have := ih (h.swap index parentIndex) parentIndex (parentIndex / 2) hf1 hc1 hp1
          (by omega) (by omega) (by omega) (hu.step_up ho1 (by omega) hcmp) (by omega)
        exact ⟨this.1, this.2.chain hsc⟩
      · simp only [hcmp, if_false]
        exact ⟨hu.ordered_of_not_lt ho1 (by omega) hcmp, hsc⟩

theorem DownInv.step_down {h : Heap α} {i w : Nat} (ho : IdxOrder h) (hd : DownInv h i)
    (hw2 : 2 ≤ w) (hwl : w ≤ h.last) (hwi : w / 2 = i)
    (hmin : ∀ c, 2 ≤ c → c ≤ h.last → c / 2 = i → h.comparator w c ≤ 0)
    (hgt : h.comparator i w > 0) : DownInv (h.swap i w) w := by
  have hi1 := hd.lo
  have hil := hd.hi
  have hwile : h.comparator w i ≤ 0 := by
    have := (ho.neg_iff w i (by omega) hwl hi1 hil).2 (by intro hc; linarith)
    exact le_of_lt this
  refine ⟨by omega, by simpa using hwl, ?_, ?_⟩
  · intro k hk2 hkl hkp
    rw [swap_last] at hkl
    rw [swap_comparator]
    by_cases hkw : k = w
    · subst hkw
      have e1 : sw i k (k / 2) = k := by unfold sw; split_ifs <;> omega
      have e2 : sw i k k = i := by unfold sw; split_ifs <;> omega
      rw [e1, e2]; exact hwile
    · by_cases hki : k = i
      · subst hki
        have e1 : sw k w (k / 2) = k / 2 := by unfold sw; split_ifs <;> omega
        have e2 : sw k w k = w := by unfold sw; split_ifs <;> omega
        rw [e1, e2]
        exact hd.grand w hw2 hwl hwi hk2
      · have e2 : sw i w k = k := by unfold sw; split_ifs <;> omega
        rw [e2]
        by_cases hkc : k / 2 = i
        · have e1 : sw i w (k / 2) = w := by unfold sw; split_ifs <;> omega
          rw [e1]
          exact hmin k hk2 hkl hkc
        · have e1 : sw i w (k / 2) = k / 2 := by unfold sw; split_ifs <;> omega
          rw [e1]
          exact hd.edges k hk2 hkl hkc
  · intro c hc2 hcl hcp _
    rw [swap_last] at hcl
    rw [swap_comparator, hwi]
    have e1 : sw i w i = w := by unfold sw; split_ifs <;> omega
    have e2 : sw i w c = c := by unfold sw; split_ifs <;> omega
    rw [e1, e2]
    have := hd.edges c hc2 hcl (by omega)
    rw [hcp] at this
    exact this

theorem DownInv.ordered_of_leaf {h : Heap α} {i : Nat} (hd : DownInv h i)
    (hleaf : 2 * i > h.last) : h.Ordered := by
  intro k hk2 hkl
  rw [shiftRight_one]
  exact hd.edges k hk2 hkl (by omega)

theorem DownInv.ordered_of_not_gt {h : Heap α} {i w : Nat} (ho : IdxOrder h) (hd : DownInv h i)
    (hw2 : 2 ≤ w) (hwl : w ≤ h.last)
    (hmin : ∀ c, 2 ≤ c → c ≤ h.last → c / 2 = i → h.comparator w c ≤ 0)
    (hle : ¬ h.comparator i w > 0) : h.Ordered := by
  intro k hk2 hkl
  rw [shiftRight_one]
  by_cases hkc : k / 2 = i
  · rw [hkc]
    exact ho.trans i w k hd.lo hd.hi (by omega) hwl (by omega) hkl (not_lt.1 hle)
      (hmin k hk2 hkl hkc)
  · exact hd.edges k hk2 hkl hkc

theorem minChild_spec {h : Heap α} {i : Nat} (ho : IdxOrder h) (hi1 : 1 ≤ i)
    (hc1 : 2 * i ≤ h.last) :
    let w := if 2 * i + 1 > h.last then 2 * i else h._minmax (2 * i) (2 * i + 1)
    2 ≤ w ∧ w ≤ h.last ∧ w / 2 = i ∧
      ∀ c, 2 ≤ c → c ≤ h.last → c / 2 = i → h.comparator w c ≤ 0 := by
  intro w
  by_cases h2 : 2 * i + 1 > h.last
  · have hw : w = 2 * i := by simp only [w, h2, if_true]
    rw [hw]
    refine ⟨by omega, hc1, by omega, ?_⟩
    intro c hc2 hcl hci
    have : c = 2 * i := by omega
    rw [this]
    exact ho.refl _ (by omega) hc1
  · have hw : w = h._minmax (2 * i) (2 * i + 1) := by simp only [w, h2, if_false]
    rw [hw]
    unfold _minmax
    by_cases hcmp : h.comparator (2 * i) (2 * i + 1) < 0
    · simp only [hcmp, if_true]
      refine ⟨by omega, hc1, by omega, ?_⟩
      intro c hc2 hcl hci
      have : c = 2 * i ∨ c = 2 * i + 1 := by omega
      rcases this with rfl | rfl
      · exact ho.refl _ (by omega) hc1
      · exact le_of_lt hcmp
    · simp only [hcmp, if_false]
      refine ⟨by omega, by omega, by omega, ?_⟩
      intro c hc2 hcl hci
      have : c = 2 * i ∨ c = 2 * i + 1 := by omega
      rcases this with rfl | rfl
      · by_contra hcon
        exact hcmp ((ho.neg_iff _ _ (by omega) (by omega) (by omega) (by omega)).2 hcon)
      · exact ho.refl _ (by omega) (by omega)

theorem shiftDownLoop_spec (fuel : Nat) : ∀ (h : Heap α) (index workChildIndex : Nat),
    h.Filled → TotalPreorderCmp (fun a b => h.type * h.compareFunc a b) →
    1 ≤ index → index ≤ h.last → 1 ≤ workChildIndex → workChildIndex ≤ h.last →
    DownInv (h.swap index workChildIndex) workChildIndex → h.last < fuel + workChildIndex →
    (shiftDownLoop fuel h index workChildIndex).Ordered ∧
      SameContent (shiftDownLoop fuel h index workChildIndex) h := by
  induction fuel with
  | zero => intro h index w _ _ _ _ _ _ _ hlt; omega
  | succ n ih =>
    intro h index w hf hc hi1 hi2 hw1 hw2 hd hlt
    have hsc : SameContent (h.swap index w) h := SameContent.of_swap ⟨hi1, hi2⟩ ⟨hw1, hw2⟩
    have hf1 := hsc.filled hf
    have hc1 : TotalPreorderCmp (fun a b =>
        (h.swap index w).type * (h.swap index w).compareFunc a b) := by
      simpa using hc
    have ho1 := idxOrder hf1 hc1
    have hl1 : (h.swap index w).last = h.last := swap_last _ _ _
    unfold shiftDownLoop
    simp only [shiftLeft_one]
    by_cases hleaf : 2 * w > (h.swap index w).last
    · simp only [hleaf, if_true]
      exact ⟨hd.ordered_of_leaf hleaf, hsc⟩
    · simp only [hleaf, if_false]
      have hm := minChild_spec ho1 hw1 (not_lt.1 hleaf)
      simp only at hm
      obtain ⟨m2, ml, mi, mmin⟩ := hm
      by_cases hcmp : (h.swap index w).comparator w
          (if 2 * w + 1 > (h.swap index w).last then 2 * w
            else (h.swap index w)._minmax (2 * w) (2 * w + 1)) > 0
      · simp only [hcmp, if_true]
        have := ih (h.swap index w) w _ hf1 hc1 hw1 (by omega) (by omega) ml
          (hd.step_down ho1 m2 ml mi mmin hcmp) (by omega)
        exact ⟨this.1, this.2.chain hsc⟩
      · simp only [hcmp, if_false]
        exact ⟨hd.ordered_of_not_gt ho1 m2 ml mmin hcmp, hsc⟩

theorem Icc_succ_right (n : Nat) : Multiset.Icc 1 (n + 1) = (n + 1) ::ₘ Multiset.Icc 1 n := by
  have hnd : ((n + 1) ::ₘ Multiset.Icc 1 n).Nodup :=
    Multiset.nodup_cons.2 ⟨by simp, Multiset.nodup_Icc⟩
  refine (Multiset.Nodup.ext Multiset.nodup_Icc hnd).2 ?_
  intro x
  simp only [Multiset.mem_cons, Multiset.mem_Icc]
  omega

theorem Icc_succ_left (n : Nat) (hn : 1 ≤ n) : Multiset.Icc 1 n = 1 ::ₘ Multiset.Icc 2 n := by
  have hnd : (1 ::ₘ Multiset.Icc 2 n).Nodup :=
    Multiset.nodup_cons.2 ⟨by simp, Multiset.nodup_Icc⟩
  refine (Multiset.Nodup.ext Multiset.nodup_Icc hnd).2 ?_
  intro x
  simp only [Multiset.mem_cons, Multiset.mem_Icc]
  omega

theorem map_congr_Icc {f g : Nat → Option α} {a b : Nat}
    (hfg : ∀ i, a ≤ i → i ≤ b → f i = g i) :
    (Multiset.Icc a b).map f = (Multiset.Icc a b).map g :=
  Multiset.map_congr (Eq.refl _) (fun i hi => by
    rw [Multiset.mem_Icc] at hi; exact hfg i hi.1 hi.2)

/-- The loop of `_shiftUp` only exchanges live slots. -/
theorem shiftUpLoop_content (fuel : Nat) : ∀ (h : Heap α) (index parentIndex : Nat),
    1 ≤ index → index ≤ h.last → 1 ≤ parentIndex → parentIndex ≤ h.last →
    SameContent (shiftUpLoop fuel h index parentIndex) h := by
  induction fuel with
  | zero => intro h index parentIndex _ _ _ _; exact SameContent.same
  | succ n ih =>
    intro h index parentIndex hi1 hi2 hp1 hp2
    have hsc : SameContent (h.swap index parentIndex) h := SameContent.of_swap ⟨hi1, hi2⟩ ⟨hp1, hp2⟩
    unfold shiftUpLoop
    simp only [shiftRight_one]
    by_cases hz : parentIndex / 2 = 0
    · simp only [hz, if_true]; exact hsc
    · simp only [hz, if_false]
      split_ifs
      · have hl1 : (h.swap index parentIndex).last = h.last := swap_last _ _ _
        exact (ih (h.swap index parentIndex) parentIndex (parentIndex / 2) hp1 (by omega)
          (by omega) (by omega)).chain hsc
      · exact hsc

/-- The loop of `_shiftDown` only exchanges live slots. -/
theorem shiftDownLoop_content (fuel : Nat) : ∀ (h : Heap α) (index workChildIndex : Nat),
    1 ≤ index → index ≤ h.last → 1 ≤ workChildIndex → workChildIndex ≤ h.last →
    SameContent (shiftDownLoop fuel h index workChildIndex) h := by
  induction fuel with
  | zero => intro h index w _ _ _ _; exact SameContent.same
  | succ n ih =>
    intro h index w hi1 hi2 hw1 hw2
    have hsc : SameContent (h.swap index w) h := SameContent.of_swap ⟨hi1, hi2⟩ ⟨hw1, hw2⟩
    have hl1 : (h.swap index w).last = h.last := swap_last _ _ _
    unfold shiftDownLoop
    simp only [shiftLeft_one]
    by_cases hleaf : 2 * w > (h.swap index w).last
    · simp only [hleaf, if_true]; exact hsc
    · simp only [hleaf, if_false]
      split_ifs with h2 h3 h4
      · exact (ih (h.swap index w) w _ hw1 (by omega) (by omega) (by omega)).chain hsc
      · exact hsc
      · refine (ih (h.swap index w) w _ hw1 (by omega) ?_ ?_).chain hsc
        · unfold _minmax; split_ifs <;> omega
        · unfold _minmax; split_ifs <;> omega
      · exact hsc

theorem shiftUp_content (h : Heap α) (hl : 1 ≤ h.last) : SameContent h._shiftUp h := by
  unfold _shiftUp
  split_ifs
  · exact SameContent.same
  · exact shiftUpLoop_content _ h _ _ hl (le_refl _) hl (le_refl _)

theorem shiftDown_content (h : Heap α) : SameContent h._shiftDown h := by
  unfold _shiftDown
  split_ifs with h1
  · exact SameContent.same
  · exact shiftDownLoop_content _ h 1 1 (le_refl _) (by omega) (le_refl _) (by omega)

theorem swap_self (h : Heap α) (a : Nat) : h.swap a a = h := by
  unfold swap; simp

theorem shiftUp_ordered {h : Heap α} (hf : h.Filled)
    (hc : TotalPreorderCmp (fun a b => h.type * h.compareFunc a b)) (hl : 1 ≤ h.last)
    (hu : UpInv h h.last) : h._shiftUp.Ordered := by
  unfold _shiftUp
  split_ifs with h1
  · rw [h1] at hu; exact hu.ordered_of_root
  · exact (shiftUpLoop_spec _ h _ _ hf hc hl (le_refl _) hl (le_refl _)
      (by rw [swap_self]; exact hu) (by omega)).1

theorem shiftDown_ordered {h : Heap α} (hf : h.Filled)
    (hc : TotalPreorderCmp (fun a b => h.type * h.compareFunc a b))
    (hd : 1 ≤ h.last → DownInv h 1) : h._shiftDown.Ordered := by
  unfold _shiftDown
  split_ifs with h1
  · intro k hk2 hkl; omega
  · exact (shiftDownLoop_spec _ h 1 1 hf hc (le_refl _) (by omega) (le_refl _) (by omega)
      (by rw [swap_self]; exact hd (by omega)) (by omega)).1

/-- What `push` does to the content of the heap, whatever the comparator. -/
theorem push_content (h : Heap α) (v : α) :
    (h.push v).last = h.last + 1 ∧ (h.push v).type = h.type ∧
      (h.push v).compareFunc = h.compareFunc ∧
      (h.push v).entries = some v ::ₘ h.entries ∧ (h.Filled → (h.push v).Filled) := by
  unfold push
  simp only
  set h2 : Heap α :=
    { h with last := h.last + 1, heap := Function.update h.heap (h.last + 1) (some v) } with hh2
  have hsc := shiftUp_content h2 (by simp [hh2])
  have hent : h2.entries = some v ::ₘ h.entries := by
    unfold entries
    simp only [hh2]
    rw [Icc_succ_right, Multiset.map_cons, Function.update_same]
    congr 1
    exact map_congr_Icc (fun i _ hi => Function.update_noteq (by omega) _ _)
  have hfil : h.Filled → h2.Filled := by
    intro hf i hi1 hi2
    simp only [hh2] at hi2 ⊢
    by_cases hi : i = h.last + 1
    · subst hi; exact ⟨v, Function.update_same _ _ _⟩
    · rw [Function.update_noteq hi]; exact hf i hi1 (by omega)
  exact ⟨hsc.last, hsc.type, hsc.compareFunc, hsc.entries.trans hent,
    fun hf => hsc.filled (hfil hf)⟩

/-- Pushing keeps the heap order. -/
theorem push_ordered {h : Heap α} (v : α) (hf : h.Filled)
    (hc : TotalPreorderCmp (fun a b => h.type * h.compareFunc a b)) (ho : h.Ordered) :
    (h.push v).Ordered := by
  unfold push
  simp only
  set h2 : Heap α :=
    { h with last := h.last + 1, heap := Function.update h.heap (h.last + 1) (some v) } with hh2
  have hfil : h2.Filled := by
    intro i hi1 hi2
    simp only [hh2] at hi2 ⊢
    by_cases hi : i = h.last + 1
    · subst hi; exact ⟨v, Function.update_same _ _ _⟩
    · rw [Function.update_noteq hi]; exact hf i hi1 (by omega)
  refine shiftUp_ordered hfil hc (by simp [hh2]) ⟨by simp [hh2], le_refl _, ?_, ?_⟩
  · intro k hk2 hkl hkne
    have hkl2 : k ≤ h.last := by simp only [hh2] at hkl hkne; omega
    have := ho k hk2 hkl2
    rw [shiftRight_one] at this
    unfold comparator at this ⊢
    simp only [hh2]
    rw [Function.update_noteq (by omega), Function.update_noteq (by omega)]
    exact this
  · intro c _ hcl hci _
    simp only [hh2] at hcl hci
    omega

/-- What `pop` does to the content of a non-empty heap, whatever the comparator. -/
theorem pop_content (h : Heap α) (hl : 1 ≤ h.last) :
    (h.pop).1 = h.heap 1 ∧ (h.pop).2.last = h.last - 1 ∧ (h.pop).2.type = h.type ∧
      (h.pop).2.compareFunc = h.compareFunc ∧
      h.entries = (h.pop).1 ::ₘ (h.pop).2.entries ∧ (h.Filled → (h.pop).2.Filled) := by
  unfold pop
  have hl2 : ¬ h.last < 1 := by omega
  simp only [hl2, if_false]
  set h2 : Heap α :=
    { h with last := h.last - 1, heap := Function.update h.heap 1 (h.heap h.last) } with hh2
  have hsc := shiftDown_content h2
  have hent : h.entries = h.heap 1 ::ₘ h2.entries := by
    unfold entries
    simp only [hh2]
    obtain ⟨n, hn⟩ : ∃ n, h.last = n + 1 := ⟨h.last - 1, by omega⟩
    rw [hn]
    simp only [Nat.add_sub_cancel]
    rw [Icc_succ_right]
    rcases Nat.eq_zero_or_pos n with h0 | hpos
    · subst h0; simp
    · rw [Icc_succ_left n hpos]
      simp only [Multiset.map_cons, Function.update_same]
      rw [Multiset.cons_swap]
      congr 2
      exact map_congr_Icc (fun i hi _ => (Function.update_noteq (by omega) _ _).symm)
  have hfil : h.Filled → h2.Filled := by
    intro hf i hi1 hi2
    simp only [hh2] at hi2 ⊢
    by_cases hi : i = 1
    · subst hi; rw [Function.update_same]; exact hf _ hl (le_refl _)
    · rw [Function.update_noteq hi]; exact hf i hi1 (by omega)
  exact ⟨trivial, hsc.last, hsc.type, hsc.compareFunc, by rw [hsc.entries]; exact hent,
    fun hf => hsc.filled (hfil hf)⟩

theorem pop_empty (h : Heap α) (hl : h.last = 0) : h.pop = (none, h) := by
  unfold pop; simp [hl]

/-- Popping keeps the heap order. -/
theorem pop_ordered {h : Heap α} (hf : h.Filled)
    (hc : TotalPreorderCmp (fun a b => h.type * h.compareFunc a b)) (ho : h.Ordered) :
    (h.pop).2.Ordered := by
  unfold pop
  split_ifs with hl
  · exact ho
  · simp only
    set h2 : Heap α :=
      { h with last := h.last - 1, heap := Function.update h.heap 1 (h.heap h.last) } with hh2
    have hfil : h2.Filled := by
      intro i hi1 hi2
      simp only [hh2] at hi2 ⊢
      by_cases hi : i = 1
      · subst hi; rw [Function.update_same]; exact hf _ (by omega) (le_refl _)
      · rw [Function.update_noteq hi]; exact hf i hi1 (by omega)
    refine shiftDown_ordered hfil hc (fun h1 => ⟨le_refl _, h1, ?_, ?_⟩)
    · intro k hk2 hkl hkne
      simp only [hh2] at hkl
      have := ho k hk2 (by omega)
      rw [shiftRight_one] at this
      unfold comparator at this ⊢
      simp only [hh2]
      rw [Function.update_noteq (by omega), Function.update_noteq (by omega)]
      exact this
    · intro c _ _ _ h12; omega

/-- In an ordered heap slot 1 ranks before every live slot. -/
theorem Ordered.root_le {h : Heap α} (ho : h.Ordered) (hi : IdxOrder h) :
    ∀ i, 1 ≤ i → i ≤ h.last → h.comparator 1 i ≤ 0 := by
  intro i
  induction i using Nat.strong_induction_on with
  | _ i ih =>
    intro h1 h2
    by_cases hi1 : i = 1
    · subst hi1; exact hi.refl 1 h1 h2
    · have hp := ho i (by omega) h2
      rw [shiftRight_one] at hp
      have := ih (i / 2) (by omega) (by omega) (by omega)
      exact hi.trans 1 (i / 2) i (le_refl _) (by omega) (by omega) (by omega) h1 h2 this hp

theorem mem_entries {h : Heap α} {o : Option α} :
    o ∈ h.entries ↔ ∃ i, 1 ≤ i ∧ i ≤ h.last ∧ h.heap i = o := by
  unfold entries
  simp only [Multiset.mem_map, Multiset.mem_Icc]
  constructor
  · rintro ⟨i, ⟨h1, h2⟩, h3⟩; exact ⟨i, h1, h2, h3⟩
  · rintro ⟨i, h1, h2, h3⟩; exact ⟨i, ⟨h1, h2⟩, h3⟩

theorem entries_of_last_zero {h : Heap α} (hl : h.last = 0) : h.entries = 0 := by
  unfold entries; rw [hl]; rfl

/-- Draining an ordered heap returns its entries, each ranking before all later ones. -/
theorem drainLoop_spec (fuel : Nat) : ∀ (h : Heap α), h.Filled →
    TotalPreorderCmp (fun a b => h.type * h.compareFunc a b) → h.Ordered → h.last < fuel →
    Multiset.map some ((drainLoop fuel h : List α) : Multiset α) = h.entries ∧
      (drainLoop fuel h).Pairwise (fun a b => h.type * h.compareFunc a b ≤ 0) := by
  induction fuel with
  | zero => intro h _ _ _ hl; omega
  | succ n ih =>
    intro h hf hc ho hl
    unfold drainLoop extractTop
    by_cases h0 : h.last = 0
    · rw [pop_empty h h0]
      simp [entries_of_last_zero h0]
    · have hl1 : 1 ≤ h.last := by omega
      obtain ⟨p1, p2, p3, p4, p5, p6⟩ := pop_content h hl1
      obtain ⟨v, hv⟩ := hf 1 (le_refl _) hl1
      have hpo := pop_ordered hf hc ho
      have hc2 : TotalPreorderCmp (fun a b => (h.pop).2.type * (h.pop).2.compareFunc a b) := by
        rw [p3, p4]; exact hc
      have hrec := ih (h.pop).2 (p6 hf) hc2 hpo (by omega)
      have hpair : h.pop = (some v, (h.pop).2) := by
        rw [← hv, ← p1]
      rw [hpair]
      simp only
      rw [p3, p4] at hrec
      refine ⟨?_, ?_⟩
      · rw [p5, p1, hv, ← hrec.1]
        simp
      · refine List.pairwise_cons.2 ⟨?_, hrec.2⟩
        intro b hb
        have hb2 : some b ∈ (h.pop).2.entries := by
          rw [← hrec.1]
          exact Multiset.mem_map_of_mem some (by simpa using hb)
        have hb3 : some b ∈ h.entries := by
          rw [p5]; exact Multiset.mem_cons_of_mem hb2
        obtain ⟨i, hi1, hi2, hi3⟩ := mem_entries.1 hb3
        have := ho.root_le (idxOrder hf hc) i hi1 hi2
        rw [comparator_some hv hi3] at this
        exact this

/-- The invariant of a heap that is filled by `insert`. -/
theorem insertAll_spec (vs : List α) : ∀ (h : Heap α), h.Filled →
    TotalPreorderCmp (fun a b => h.type * h.compareFunc a b) → h.Ordered →
    (h.insertAll vs).Filled ∧ (h.insertAll vs).Ordered ∧
      (h.insertAll vs).type = h.type ∧ (h.insertAll vs).compareFunc = h.compareFunc ∧
      (h.insertAll vs).last = h.last + vs.length ∧
      (h.insertAll vs).entries = Multiset.map some (vs : Multiset α) + h.entries := by
  induction vs with
  | nil => intro h hf _ ho; simp [insertAll, hf, ho]
  | cons v vs ih =>
    intro h hf hc ho
    obtain ⟨p1, p2, p3, p4, p5⟩ := push_content h v
    have hc2 : TotalPreorderCmp (fun a b => (h.push v).type * (h.push v).compareFunc a b) := by
      rw [p2, p3]; exact hc
    obtain ⟨q1, q2, q3, q4, q5, q6⟩ := ih (h.push v) (p5 hf) hc2 (push_ordered v hf hc ho)
    have he : h.insertAll (v :: vs) = (h.push v).insertAll vs := rfl
    rw [he]
    refine ⟨q1, q2, q3.trans p2, q4.trans p3, ?_, ?_⟩
    · rw [q5, p1]; simp; omega
    · rw [q6, p4]
      simp only [← Multiset.cons_coe, Multiset.map_cons]
      rw [Multiset.add_cons, Multiset.cons_add]

theorem new_last (t : Option ℚ) (cmp : α → α → ℚ) : (new t cmp).last = 0 := rfl

theorem new_type (t : Option ℚ) (cmp : α → α → ℚ) :
    (new t cmp).type = 1 ∨ (new t cmp).type = -1 := by
  unfold new HT_MINI_HEAP HT_MAXI_HEAP
  cases t with
  | none => left; rfl
  | some t =>
    simp only
    split_ifs with h
    · left; rfl
    · by_cases h1 : t = -1
      · right; exact h1
      · by_cases h2 : t = 1
        · left; exact h2
        · exact absurd ⟨h1, h2⟩ h

theorem new_filled (t : Option ℚ) (cmp : α → α → ℚ) : (new t cmp).Filled := by
  intro i h1 h2; rw [new_last] at h2; omega

theorem new_ordered (t : Option ℚ) (cmp : α → α → ℚ) : (new t cmp).Ordered := by
  intro i h1 h2; rw [new_last] at h2; omega

theorem new_entries (t : Option ℚ) (cmp : α → α → ℚ) : (new t cmp).entries = 0 :=
  entries_of_last_zero rfl

theorem sub_totalPreorderCmp : TotalPreorderCmp (fun a b : ℚ => a - b) := by
  refine ⟨?_, ?_, ?_⟩
  · intro a b; rcases le_total a b with h | h
    · left; linarith
    · right; linarith
  · intro a b c h1 h2; linarith
  · intro a b; constructor
    · intro h h2; linarith
    · intro h; by_contra h2; apply h; linarith

end Heap

/-! ## Finder: the jump scan -/

open JumpPointFinderBase

theorem Grid.isInside_congr {g1 g2 : Grid} (hw : g1.width = g2.width) (hh : g1.height = g2.height)
    (x y : Int) : g1.isInside x y = g2.isInside x y := by
  unfold Grid.isInside; rw [hw, hh]

theorem Grid.SameMap.isWalkableAt_eq {g1 g2 : Grid} (hs : g1.SameMap g2) (x y : Int) :
    g1.isWalkableAt x y = g2.isWalkableAt x y := by
  unfold Grid.isWalkableAt
  rw [Grid.isInside_congr hs.1 hs.2.1, hs.2.2]

theorem Grid.SameMap.refl_map (g : Grid) : g.SameMap g := ⟨rfl, rfl, fun _ => rfl⟩

theorem Grid.SameMap.symm_map {g1 g2 : Grid} (h : g1.SameMap g2) : g2.SameMap g1 :=
  ⟨h.1.symm, h.2.1.symm, fun c => (h.2.2 c).symm⟩

theorem Grid.SameMap.trans_map {g1 g2 g3 : Grid} (h : g1.SameMap g2) (h2 : g2.SameMap g3) :
    g1.SameMap g3 :=
  ⟨h.1.trans h2.1, h.2.1.trans h2.2.1, fun c => (h.2.2 c).trans (h2.2.2 c)⟩

theorem Grid.Agree.refl_agree (g : Grid) : g.Agree g :=
  ⟨rfl, rfl, fun _ => ⟨rfl, rfl, rfl, rfl, rfl, rfl, rfl⟩⟩

theorem Grid.Agree.trans_agree {g1 g2 g3 : Grid} (h : g1.Agree g2) (h2 : g2.Agree g3) :
    g1.Agree g3 := by
  refine ⟨h.1.trans h2.1, h.2.1.trans h2.2.1, fun c => ?_⟩
  obtain ⟨a1, a2, a3, a4, a5, a6, a7⟩ := h.2.2 c
  obtain ⟨b1, b2, b3, b4, b5, b6, b7⟩ := h2.2.2 c
  exact ⟨a1.trans b1, a2.trans b2, a3.trans b3, a4.trans b4, a5.trans b5, a6.trans b6,
    a7.trans b7⟩

theorem Grid.Agree.sameMap {g1 g2 : Grid} (h : g1.Agree g2) : g1.SameMap g2 :=
  ⟨h.1, h.2.1, fun c => (h.2.2 c).1⟩

theorem Grid.agree_setTested (g : Grid) (c : Coord) :
    (g.modify c (fun n => { n with tested := true })).Agree g := by
  refine ⟨rfl, rfl, fun c2 => ?_⟩
  unfold Grid.modify
  by_cases h : c2 = c
  · subst h; simp [Function.update_same]
  · simp [Function.update_noteq h]

theorem jumpPt_congr {g1 g2 : Grid} (hs : g1.SameMap g2) (E : Coord) (fuel : Nat) :
    ∀ x y px py, jumpPt g1 E fuel x y px py = jumpPt g2 E fuel x y px py := by
  induction fuel with
  | zero => intro x y px py; rfl
  | succ n ih =>
    intro x y px py
    unfold jumpPt
    simp only [hs.isWalkableAt_eq, ih]

/-- The method `_jump` returns the jump point computed by `jumpPt` and changes at most
`tested` flags. -/
theorem jump_eq (F : JumpPointFinderBase) (E : Coord) (fuel : Nat) :
    ∀ (grid : Grid) (x y px py : Int),
      (∃ r grid1, grid1.Agree grid ∧ _jump F E fuel grid x y px py = .ok (r, grid1) ∧
        jumpPt grid E fuel x y px py = .ok r) ∨
      (_jump F E fuel grid x y px py = .fault ∧ jumpPt grid E fuel x y px py = .fault) ∨
      (_jump F E fuel grid x y px py = .timeout ∧ jumpPt grid E fuel x y px py = .timeout) := by
  induction fuel with
  | zero => intro grid x y px py; right; right; exact ⟨rfl, rfl⟩
  | succ n ih =>
    intro grid x y px py
    unfold _jump jumpPt
    by_cases hw : grid.isWalkableAt x y = true
    swap
    · left
      refine ⟨none, grid, Grid.Agree.refl_agree grid, ?_, ?_⟩ <;> simp [hw]
    simp only [hw, Bool.not_true, Bool.false_eq_true, if_false]
    -- the grid after the optional flagging
    obtain ⟨gt, hgt, hga⟩ : ∃ gt : Grid, gt = (if F.trackJumpRecursion = true then
        grid.modify (x, y) (fun n => { n with tested := true }) else grid) ∧ gt.Agree grid := by
      refine ⟨_, rfl, ?_⟩
      split_ifs
      · exact Grid.agree_setTested grid (x, y)
      · exact Grid.Agree.refl_agree grid
    rw [← hgt]
    have hwe : ∀ a b, gt.isWalkableAt a b = grid.isWalkableAt a b :=
      fun a b => hga.sameMap.isWalkableAt_eq a b
    have hje : ∀ a b c d, jumpPt grid E n a b c d = jumpPt gt E n a b c d :=
      fun a b c d => (jumpPt_congr hga.sameMap E n a b c d).symm
    simp only [hwe]
    by_cases hE : (x, y) = E
    · left; exact ⟨some (x, y), gt, hga, by simp [hE], by simp [hE]⟩
    simp only [hE, if_false]
    by_cases hdx : x - px ≠ 0
    · simp only [if_pos hdx]
      split_ifs with hf
      · left; exact ⟨some (x, y), gt, hga, rfl, rfl⟩
      · rw [hje]
        rcases ih gt (x + (x - px)) (y + (y - py)) x y with ⟨r, g1, h1, h2, h3⟩ | h | h
        · left; exact ⟨r, g1, h1.trans_agree hga, h2, h3⟩
        · right; left; exact h
        · right; right; exact h
    · simp only [if_neg hdx]
      by_cases hdy : y - py ≠ 0
      · simp only [if_pos hdy]
        split_ifs with hf
        · left; exact ⟨some (x, y), gt, hga, rfl, rfl⟩
        · rw [hje (x + 1), hje (x - 1), hje (x + (x - px))]
          rcases ih gt (x + 1) y x y with ⟨r, g1, h1, h2, h3⟩ | h | h
          · rw [h2, h3]
            cases r with
            | some j => left; exact ⟨some (x, y), g1, h1.trans_agree hga, rfl, rfl⟩
            | none =>
              simp only
              rw [jumpPt_congr h1.sameMap.symm_map E n (x - 1),
                jumpPt_congr h1.sameMap.symm_map E n (x + (x - px))]
              rcases ih g1 (x - 1) y x y with ⟨r2, g2, k1, k2, k3⟩ | k | k
              · rw [k2, k3]
                cases r2 with
                | some j =>
                  left
                  exact ⟨some (x, y), g2, (k1.trans_agree h1).trans_agree hga, rfl, rfl⟩
                | none =>
                  simp only
                  rw [jumpPt_congr k1.sameMap.symm_map E n (x + (x - px))]
                  rcases ih g2 (x + (x - px)) (y + (y - py)) x y with ⟨r3, g3, m1, m2, m3⟩ | m | m
                  · left
                    exact ⟨r3, g3, ((m1.trans_agree k1).trans_agree h1).trans_agree hga, m2, m3⟩
                  · right; left; exact m
                  · right; right; exact m
              · right; left; simp [k.1, k.2]
              · right; right; simp [k.1, k.2]
          · right; left; simp [h.1, h.2]
          · right; right; simp [h.1, h.2]
      · simp only [if_neg hdy]
        right; left; exact ⟨trivial, trivial⟩


theorem Grid.inside_of_walkable {grid : Grid} {x y : Int} (h : grid.isWalkableAt x y = true) :
    0 ≤ x ∧ x < grid.width ∧ 0 ≤ y ∧ y < grid.height := by
  unfold Grid.isWalkableAt Grid.isInside at h
  simp only [Bool.and_eq_true, decide_eq_true_eq, ge_iff_le] at h
  omega

theorem Grid.isInside_iff {grid : Grid} {x y : Int} :
    grid.isInside x y = true ↔ 0 ≤ x ∧ x < grid.width ∧ 0 ≤ y ∧ y < grid.height := by
  unfold Grid.isInside
  simp only [Bool.and_eq_true, decide_eq_true_eq, ge_iff_le]
  constructor <;> intro h <;> omega

/-- The result computed by `jumpPt` obeys the rules of `Jump`. -/
theorem jumpPt_sound (grid : Grid) (E : Coord) (fuel : Nat) :
    ∀ (x y px py : Int) (r : Option Coord),
      jumpPt grid E fuel x y px py = .ok r → Jump grid E x y px py r := by
  induction fuel with
  | zero => intro x y px py r h; simp [jumpPt] at h
  | succ n ih =>
    intro x y px py r h
    unfold jumpPt at h
    by_cases hw : grid.isWalkableAt x y = true
    swap
    · simp only [hw, Bool.not_false, if_true] at h
      have hw2 : grid.isWalkableAt x y = false := by simpa using hw
      cases h
      exact Jump.blocked hw2
    simp only [hw, Bool.not_true, Bool.false_eq_true, if_false] at h
    by_cases hE : (x, y) = E
    · rw [if_pos hE] at h
      cases h
      exact Jump.goal hw hE
    simp only [hE, if_false] at h
    by_cases hdx : x - px ≠ 0
    · simp only [if_pos hdx] at h
      by_cases hf : forcedH grid x y (x - px) = true
      · have hf2 := hf
        unfold forcedH at hf2
        simp only [hf2, if_true] at h
        cases h
        exact Jump.turnH hw hE hdx hf
      · have hf2 := hf
        unfold forcedH at hf2
        simp only [hf2, if_false] at h
        exact Jump.contH hw hE hdx (by simpa using hf) (ih _ _ _ _ _ h)
    · simp only [if_neg hdx] at h
      have hdx0 : x - px = 0 := by simpa using hdx
      by_cases hdy : y - py ≠ 0
      · simp only [if_pos hdy] at h
        by_cases hf : forcedV grid x y (y - py) = true
        · have hf2 := hf
          unfold forcedV at hf2
          simp only [hf2, if_true] at h
          cases h
          exact Jump.turnV hw hE hdx0 hdy hf
        · have hf2 := hf
          unfold forcedV at hf2
          simp only [hf2, if_false] at h
          have hff : forcedV grid x y (y - py) = false := by simpa using hf
          cases h1 : jumpPt grid E n (x + 1) y x y with
          | ok r1 =>
            rw [h1] at h
            cases r1 with
            | some j =>
              simp only at h
              cases h
              exact Jump.branchR hw hE hdx0 hdy hff (ih _ _ _ _ _ h1)
            | none =>
              simp only at h
              cases h2 : jumpPt grid E n (x - 1) y x y with
              | ok r2 =>
                rw [h2] at h
                cases r2 with
                | some j =>
                  simp only at h
                  cases h
                  exact Jump.branchL hw hE hdx0 hdy hff (ih _ _ _ _ _ h1) (ih _ _ _ _ _ h2)
                | none =>
                  simp only at h
                  exact Jump.contV hw hE hdx0 hdy hff (ih _ _ _ _ _ h1) (ih _ _ _ _ _ h2)
                    (ih _ _ _ _ _ h)
              | fault => rw [h2] at h; simp at h
              | timeout => rw [h2] at h; simp at h
          | fault => rw [h1] at h; simp at h
          | timeout => rw [h1] at h; simp at h
      · simp only [if_neg hdy] at h
        simp at h

/-- A horizontal scan returns within as many calls as there are columns ahead. -/
theorem jumpPt_ok_H (grid : Grid) (E : Coord) (fuel : Nat) :
    ∀ (x y px py : Int), (x - px = 1 ∨ x - px = -1) → y - py = 0 →
      (if x - px = 1 then (grid.width - x).toNat else (x + 1).toNat) < fuel →
      ∃ r, jumpPt grid E fuel x y px py = .ok r := by
  induction fuel with
  | zero => intro x y px py _ _ h; omega
  | succ n ih =>
    intro x y px py hdx hdy hm
    unfold jumpPt
    by_cases hw : grid.isWalkableAt x y = true
    swap
    · exact ⟨none, by simp [hw]⟩
    simp only [hw, Bool.not_true, Bool.false_eq_true, if_false]
    by_cases hE : (x, y) = E
    · exact ⟨some (x, y), by simp [hE]⟩
    simp only [hE, if_false]
    have hdx0 : x - px ≠ 0 := by omega
    simp only [if_pos hdx0]
    split_ifs with hf
    · exact ⟨_, rfl⟩
    · have hin := Grid.inside_of_walkable hw
      apply ih
      · omega
      · omega
      · have e1 : x + (x - px) - x = x - px := by omega
        rw [e1]
        rcases hdx with h1 | h1
        · rw [h1] at hm ⊢
          simp only [if_true] at hm ⊢
          omega
        · rw [h1] at hm ⊢
          have : ¬ ((-1 : Int) = 1) := by omega
          simp only [this, if_false] at hm ⊢
          omega

/-- A vertical scan returns within as many calls as there are rows ahead, plus the
calls of one horizontal scan. -/
theorem jumpPt_ok_V (grid : Grid) (E : Coord) (fuel : Nat) :
    ∀ (x y px py : Int), x - px = 0 → (y - py = 1 ∨ y - py = -1) →
      (if y - py = 1 then (grid.height - y).toNat else (y + 1).toNat) + grid.width.toNat + 1
        < fuel →
      ∃ r, jumpPt grid E fuel x y px py = .ok r := by
  induction fuel with
  | zero => intro x y px py _ _ h; omega
  | succ n ih =>
    intro x y px py hdx hdy hm
    unfold jumpPt
    by_cases hw : grid.isWalkableAt x y = true
    swap
    · exact ⟨none, by simp [hw]⟩
    simp only [hw, Bool.not_true, Bool.false_eq_true, if_false]
    by_cases hE : (x, y) = E
    · exact ⟨some (x, y), by simp [hE]⟩
    simp only [hE, if_false]
    have hdx0 : ¬ (x - px ≠ 0) := by omega
    have hdy0 : y - py ≠ 0 := by omega
    simp only [if_neg hdx0, if_pos hdy0]
    have hin := Grid.inside_of_walkable hw
    split_ifs with hf
    · exact ⟨_, rfl⟩
    · obtain ⟨r1, h1⟩ := jumpPt_ok_H grid E n (x + 1) y x y (by omega) (by omega)
        (by simp only [show x + 1 - x = 1 by omega, if_true]; omega)
      rw [h1]
      cases r1 with
      | some j => exact ⟨_, rfl⟩
      | none =>
        simp only
        obtain ⟨r2, h2⟩ := jumpPt_ok_H grid E n (x - 1) y x y (by omega) (by omega)
          (by
            have : ¬ (x - 1 - x = 1) := by omega
            simp only [this, if_false]; omega)
        rw [h2]
        cases r2 with
        | some j => exact ⟨_, rfl⟩
        | none =>
          simp only
          apply ih
          · omega
          · omega
          · have e1 : y + (y - py) - y = y - py := by omega
            rw [e1]
            rcases hdy with h1 | h1
            · rw [h1] at hm ⊢
              simp only [if_true] at hm ⊢
              omega
            · rw [h1] at hm ⊢
              have : ¬ ((-1 : Int) = 1) := by omega
              simp only [this, if_false] at hm ⊢
              omega

/-- With the budget of `fuelBound` every scan in a unit direction returns. -/
theorem jumpPt_total (grid : Grid) (E : Coord) (fuel : Nat)
    (hfuel : grid.width.toNat + grid.height.toNat + 2 ≤ fuel) (x y px py : Int)
    (hd : UnitDir (x - px) (y - py)) : ∃ r, jumpPt grid E fuel x y px py = .ok r := by
  by_cases hw : grid.isWalkableAt x y = true
  swap
  · obtain ⟨n, hn⟩ : ∃ n, fuel = n + 1 := ⟨fuel - 1, by omega⟩
    subst hn
    exact ⟨none, by unfold jumpPt; simp [hw]⟩
  have hin := Grid.inside_of_walkable hw
  rcases hd with ⟨h1, h2⟩ | ⟨h1, h2⟩
  · apply jumpPt_ok_H grid E fuel x y px py h1 h2
    split_ifs <;> omega
  · apply jumpPt_ok_V grid E fuel x y px py h1 h2
    split_ifs <;> omega

theorem Jump.geometry_here {grid : Grid} {x y : Int} (hw : grid.isWalkableAt x y = true)
    (a b : Int) : ∃ k : Nat, (x, y) = (x + k * a, y + k * b) ∧
      ∀ i : Nat, i ≤ k → grid.isWalkableAt (x + i * a) (y + i * b) = true := by
  refine ⟨0, by simp, ?_⟩
  intro i hi
  have : i = 0 := by omega
  subst this
  simpa using hw

/-- A jump point lies ahead of the first scanned cell, and every cell up to it is
walkable. -/
theorem Jump.geometry {grid : Grid} {E : Coord} {x y px py : Int} {r : Option Coord}
    (h : Jump grid E x y px py r) : ∀ (j : Coord), r = some j → UnitDir (x - px) (y - py) →
      ∃ k : Nat, j = (x + k * (x - px), y + k * (y - py)) ∧
        ∀ i : Nat, i ≤ k → grid.isWalkableAt (x + i * (x - px)) (y + i * (y - py)) = true := by
  induction h with
  | blocked hw => intro j hj; cases hj
  | goal hw hE =>
    intro j hj _; cases hj
    exact Jump.geometry_here hw _ _
  | turnH hw hE hdx hf =>
    intro j hj _; cases hj
    exact Jump.geometry_here hw _ _
  | @contH x y px py r hw hE hdx hf hrec ih =>
    intro j hj hd
    have e1 : x + (x - px) - x = x - px := by omega
    have e2 : y + (y - py) - y = y - py := by omega
    obtain ⟨k, hk1, hk2⟩ := ih j hj (by rw [e1, e2]; exact hd)
    rw [e1, e2] at hk1 hk2
    refine ⟨k + 1, ?_, ?_⟩
    · rw [hk1]; push_cast; ext <;> simp <;> ring
    · intro i hi
      rcases Nat.eq_zero_or_pos i with h0 | hpos
      · subst h0; simpa using hw
      · obtain ⟨i2, rfl⟩ : ∃ i2, i = i2 + 1 := ⟨i - 1, by omega⟩
        have := hk2 i2 (by omega)
        have e3 : x + ((i2 + 1 : Nat) : Int) * (x - px) = x + (x - px) + (i2 : Int) * (x - px) := by
          push_cast; ring
        have e4 : y + ((i2 + 1 : Nat) : Int) * (y - py) = y + (y - py) + (i2 : Int) * (y - py) := by
          push_cast; ring
        rw [e3, e4]; exact this
  | turnV hw hE hdx hdy hf =>
    intro j hj _; cases hj
    exact Jump.geometry_here hw _ _
  | branchR hw hE hdx hdy hf h1 _ =>
    intro j hj _; cases hj
    exact Jump.geometry_here hw _ _
  | branchL hw hE hdx hdy hf h1 h2 _ _ =>
    intro j hj _; cases hj
    exact Jump.geometry_here hw _ _
  | @contV x y px py r hw hE hdx hdy hf h1 h2 hrec _ _ ih =>
    intro j hj hd
    have e1 : x + (x - px) - x = x - px := by omega
    have e2 : y + (y - py) - y = y - py := by omega
    obtain ⟨k, hk1, hk2⟩ := ih j hj (by rw [e1, e2]; exact hd)
    rw [e1, e2] at hk1 hk2
    refine ⟨k + 1, ?_, ?_⟩
    · rw [hk1]; push_cast; ext <;> simp <;> ring
    · intro i hi
      rcases Nat.eq_zero_or_pos i with h0 | hpos
      · subst h0; simpa using hw
      · obtain ⟨i2, rfl⟩ : ∃ i2, i = i2 + 1 := ⟨i - 1, by omega⟩
        have := hk2 i2 (by omega)
        have e3 : x + ((i2 + 1 : Nat) : Int) * (x - px) = x + (x - px) + (i2 : Int) * (x - px) := by
          push_cast; ring
        have e4 : y + ((i2 + 1 : Nat) : Int) * (y - py) = y + (y - py) + (i2 : Int) * (y - py) := by
          push_cast; ring
        rw [e3, e4]; exact this


/-! ## Finder: one successor -/

@[simp] theorem Grid.modify_width (g : Grid) (c : Coord) (u : Node → Node) :
    (g.modify c u).width = g.width := rfl

@[simp] theorem Grid.modify_height (g : Grid) (c : Coord) (u : Node → Node) :
    (g.modify c u).height = g.height := rfl

theorem Grid.modify_nodes_same (g : Grid) (c : Coord) (u : Node → Node) :
    (g.modify c u).nodes c = u (g.nodes c) := by
  unfold Grid.modify; simp

theorem Grid.modify_nodes_other (g : Grid) {c c2 : Coord} (u : Node → Node) (h : c2 ≠ c) :
    (g.modify c u).nodes c2 = g.nodes c2 := by
  unfold Grid.modify; simp [Function.update_noteq h]

theorem Grid.modify_sameMap (g : Grid) (c : Coord) (u : Node → Node)
    (hu : (u (g.nodes c)).walkable = (g.nodes c).walkable) : (g.modify c u).SameMap g := by
  refine ⟨rfl, rfl, fun c2 => ?_⟩
  by_cases h : c2 = c
  · subst h; rw [Grid.modify_nodes_same]; exact hu
  · rw [Grid.modify_nodes_other g u h]

@[simp] theorem syncOpen_last (ol : Heap Coord) (g : Grid) : (syncOpen ol g).last = ol.last := rfl

@[simp] theorem syncOpen_heap (ol : Heap Coord) (g : Grid) : (syncOpen ol g).heap = ol.heap := rfl

@[simp] theorem syncOpen_entries (ol : Heap Coord) (g : Grid) :
    (syncOpen ol g).entries = ol.entries := rfl

theorem syncOpen_filled {ol : Heap Coord} (g : Grid) (h : ol.Filled) : (syncOpen ol g).Filled := h

/-- What one iteration of the successor loop does: nothing (for no jump point, a closed
one, or one that is opened at no higher cost), or it updates the jump point and pushes it. -/
theorem successorStep_cases (F : JumpPointFinderBase) (E : Coord) (fuel : Nat) (node : Coord)
    (grid : Grid) (ol : Heap Coord) (n : Coord) (r : Option Coord)
    (hr : jumpPt grid E fuel n.1 n.2 node.1 node.2 = .ok r) :
    ∃ grid1 ol1, successorStep F E fuel node grid ol n = .ok (grid1, ol1) ∧
      ((grid1.Agree grid ∧ ol1 = ol ∧
          (r = none ∨ ∃ j, r = some j ∧ ((grid.nodes j).closed = true ∨
            ((grid.nodes j).opened = true ∧
              optLt (nextG grid node j) (grid.nodes j).g = false)))) ∨
        (∃ j, r = some j ∧ (grid.nodes j).closed = false ∧
          ((grid.nodes j).opened = false ∨ optLt (nextG grid node j) (grid.nodes j).g = true) ∧
          Grid.UpdatedAt grid grid1 j (nextG grid node j) node ∧
          ol1.last = ol.last + 1 ∧ ol1.entries = some j ::ₘ ol.entries ∧
          (ol.Filled → ol1.Filled))) := by
  rcases jump_eq F E fuel grid n.1 n.2 node.1 node.2 with ⟨r2, g1, hag, hj, hp⟩ | ⟨_, h⟩ | ⟨_, h⟩
  rotate_left
  · rw [hr] at h; cases h
  · rw [hr] at h; cases h
  rw [hr] at hp
  cases hp
  unfold successorStep
  rw [hj]
  cases r with
  | none =>
    exact ⟨g1, ol, rfl, Or.inl ⟨hag, rfl, Or.inl rfl⟩⟩
  | some j =>
    simp only [Grid.getNodeAt, Prod.mk.eta]
    have hjn : ∀ c, (g1.nodes c).g = (grid.nodes c).g ∧
        (g1.nodes c).parent = (grid.nodes c).parent ∧
        (g1.nodes c).opened = (grid.nodes c).opened ∧
        (g1.nodes c).closed = (grid.nodes c).closed := fun c =>
      ⟨(hag.2.2 c).2.1, (hag.2.2 c).2.2.2.2.1, (hag.2.2 c).2.2.2.2.2.1, (hag.2.2 c).2.2.2.2.2.2⟩
    have hng : optAdd (g1.nodes node).g (some (octile (|j.1 - node.1| : Int)
        (|j.2 - node.2| : Int))) = nextG grid node j := by
      unfold nextG; rw [(hjn node).1]
    by_cases hcl : (g1.nodes j).closed = true
    · simp only [hcl, if_true]
      refine ⟨g1, ol, rfl, Or.inl ⟨hag, rfl, Or.inr ⟨j, rfl, Or.inl ?_⟩⟩⟩
      rw [← (hjn j).2.2.2]; exact hcl
    · have hcl2 : (g1.nodes j).closed = false := by simpa using hcl
      simp only [hcl2, Bool.false_eq_true, if_false]
      rw [hng]
      by_cases hcond : (!(g1.nodes j).opened || optLt (nextG grid node j) (g1.nodes j).g) = true
      · simp only [hcond, if_true]
        refine ⟨_, _, rfl, Or.inr ⟨j, rfl, ?_, ?_, ?_, ?_, ?_, ?_⟩⟩
        · rw [← (hjn j).2.2.2]; exact hcl2
        · rw [← (hjn j).2.2.1, ← (hjn j).1]
          simp only [Bool.or_eq_true, Bool.not_eq_true'] at hcond
          exact hcond
        · refine ⟨?_, ?_, ?_, ?_, ?_, ?_⟩
          · refine Grid.SameMap.trans_map (Grid.modify_sameMap _ _ _ ?_)
              (Grid.SameMap.trans_map (Grid.modify_sameMap _ _ _ ?_) hag.sameMap)
            · rfl
            · rfl
          · intro c hc
            rw [Grid.modify_nodes_other _ _ hc, Grid.modify_nodes_other _ _ hc]
            exact hjn c
          · rw [Grid.modify_nodes_same, Grid.modify_nodes_same]
          · rw [Grid.modify_nodes_same, Grid.modify_nodes_same]
          · rw [Grid.modify_nodes_same]
          · rw [Grid.modify_nodes_same, Grid.modify_nodes_same]
            exact (hjn j).2.2.2
        · exact (Heap.push_content _ _).1
        · exact (Heap.push_content _ _).2.2.2.1
        · intro hf
          exact (Heap.push_content _ _).2.2.2.2 hf
      · simp only [hcond, if_false]
        refine ⟨g1, ol, rfl, Or.inl ⟨hag, rfl, Or.inr ⟨j, rfl, Or.inr ?_⟩⟩⟩
        simp only [Bool.or_eq_true, Bool.not_eq_true', not_or, Bool.not_eq_false,
          Bool.not_eq_true] at hcond
        rw [← (hjn j).2.2.1, ← (hjn j).1]
        exact hcond


theorem sign_div_cases (a : Int) :
    (a = 0 ∧ a / max |a| 1 = 0) ∨ (0 < a ∧ a / max |a| 1 = 1) ∨ (a < 0 ∧ a / max |a| 1 = -1) := by
  rcases lt_trichotomy a 0 with h | h | h
  · right; right
    refine ⟨h, ?_⟩
    have h1 : |a| = -a := abs_of_neg h
    have h2 : max (-a) 1 = -a := max_eq_left (by omega)
    rw [h1, h2, Int.ediv_neg, Int.ediv_self (by omega)]
  · left; subst h; simp
  · right; left
    refine ⟨h, ?_⟩
    have h1 : |a| = a := abs_of_pos h
    have h2 : max a 1 = a := max_eq_left (by omega)
    rw [h1, h2, Int.ediv_self (by omega)]

theorem getWalkableNeighbors_mem {grid : Grid} {c n : Coord}
    (h : n ∈ grid.getWalkableNeighbors c) :
    UnitDir (n.1 - c.1) (n.2 - c.2) ∧ grid.isWalkableAt n.1 n.2 = true := by
  unfold Grid.getWalkableNeighbors at h
  simp only [List.nil_append] at h
  unfold UnitDir
  split_ifs at h with h1 h2 h3 h4 <;>
    simp only [List.mem_append, List.mem_singleton, List.mem_cons, List.not_mem_nil,
      List.append_assoc, List.singleton_append, or_false, false_or] at h <;>
    (try rcases h with h | h | h | h) <;> (try rcases h with h | h | h) <;>
    (try rcases h with h | h) <;> (try (constructor; omega; assumption))

theorem findNeighbors_mem {grid : Grid} {c n : Coord} (h : n ∈ _findNeighbors grid c) :
    UnitDir (n.1 - c.1) (n.2 - c.2) ∧ grid.isWalkableAt n.1 n.2 = true := by
  unfold _findNeighbors at h
  cases hp : (grid.nodes c).parent with
  | none =>
    rw [hp] at h
    exact getWalkableNeighbors_mem h
  | some p =>
    rw [hp] at h
    simp only [List.nil_append] at h
    unfold UnitDir
    rcases sign_div_cases (c.1 - p.1) with ⟨_, ha⟩ | ⟨_, ha⟩ | ⟨_, ha⟩ <;>
      rcases sign_div_cases (c.2 - p.2) with ⟨_, hb⟩ | ⟨_, hb⟩ | ⟨_, hb⟩ <;>
      rw [ha, hb] at h <;> simp only [ne_eq, not_true_eq_false, if_false, if_true,
        one_ne_zero, not_false_eq_true, neg_eq_zero, List.not_mem_nil] at h <;>
      split_ifs at h <;>
      simp only [List.mem_append, List.mem_singleton, List.mem_cons, List.not_mem_nil,
        List.append_assoc, List.singleton_append, or_false, false_or] at h <;>
      (try rcases h with h | h | h) <;> (try rcases h with h | h) <;> (try subst h) <;>
      (try (constructor; omega; assumption))


theorem getWalkableNeighbors_congr {g1 g2 : Grid} (hs : g1.SameMap g2) (c : Coord) :
    g1.getWalkableNeighbors c = g2.getWalkableNeighbors c := by
  unfold Grid.getWalkableNeighbors
  simp only [hs.isWalkableAt_eq]

theorem findNeighbors_congr {g1 g2 : Grid} (hs : g1.SameMap g2) (c : Coord)
    (hp : (g1.nodes c).parent = (g2.nodes c).parent) :
    _findNeighbors g1 c = _findNeighbors g2 c := by
  unfold _findNeighbors
  rw [hp, getWalkableNeighbors_congr hs]
  simp only [hs.isWalkableAt_eq]

theorem getWalkableNeighbors_length (grid : Grid) (c : Coord) :
    (grid.getWalkableNeighbors c).length ≤ 4 := by
  unfold Grid.getWalkableNeighbors
  simp only [List.nil_append]
  split_ifs <;> simp

theorem findNeighbors_length (grid : Grid) (c : Coord) :
    (_findNeighbors grid c).length ≤ 4 := by
  unfold _findNeighbors
  cases (grid.nodes c).parent with
  | none => exact getWalkableNeighbors_length grid c
  | some p =>
    simp only [List.nil_append]
    split_ifs <;> simp


/-! ## Finder: the search invariant -/

theorem optLt_irrefl (a : Option ℚ) : optLt a a = false := by
  cases a <;> simp [optLt]

theorem optLt_of_improved {a b c : Option ℚ} (h1 : optLt a b = false) (h2 : optLt c b = true) :
    optLt a c = false := by
  cases a <;> cases b <;> cases c <;> simp_all [optLt]
  linarith

theorem nextG_congr {g1 g2 : Grid} (c j : Coord) (h : (g1.nodes c).g = (g2.nodes c).g) :
    nextG g1 c j = nextG g2 c j := by
  unfold nextG; rw [h]

/-- The invariant does not depend on the `tested` flags. -/
theorem SearchInv.of_agree {grid0 : Grid} {S E : Coord} {fuel : Nat}
    {todo : Coord → Coord → Prop} {grid grid1 : Grid} {ol : Heap Coord}
    (hi : SearchInv grid0 S E fuel todo grid ol) (ha : grid1.Agree grid) :
    SearchInv grid0 S E fuel todo grid1 ol := by
  have hn : ∀ c, (grid1.nodes c).g = (grid.nodes c).g ∧
      (grid1.nodes c).parent = (grid.nodes c).parent ∧
      (grid1.nodes c).opened = (grid.nodes c).opened ∧
      (grid1.nodes c).closed = (grid.nodes c).closed := fun c =>
    ⟨(ha.2.2 c).2.1, (ha.2.2 c).2.2.2.2.1, (ha.2.2 c).2.2.2.2.2.1, (ha.2.2 c).2.2.2.2.2.2⟩
  have hnb : ∀ c, _findNeighbors grid1 c = _findNeighbors grid c :=
    fun c => findNeighbors_congr ha.sameMap c (hn c).2.1
  refine ⟨ha.sameMap.trans_map hi.sameMap, ?_, ?_, ?_, ?_, ?_, ?_, ?_, ?_, hi.filled, ?_, ?_, ?_, ?_⟩
  · rw [(hn S).2.2.1]; exact hi.start_opened
  · rw [(hn S).2.1]; exact hi.start_parent
  · rw [(hn S).1]; exact hi.start_g
  · rcases hi.start_closed with h | h
    · left; rw [(hn S).2.2.2]; exact h
    · right; intro c hc; rw [(hn c).2.2.1] at hc; exact h c hc
  · intro c hc; rw [(hn c).2.2.1] at hc; rw [(hn c).1]; exact hi.opened_g c hc
  · intro c hc; rw [(hn c).2.2.2] at hc; rw [(hn c).2.2.1]; exact hi.closed_opened c hc
  · intro c hc; rw [(hn c).2.2.1] at hc; exact hi.opened_inside c hc
  · intro c hc hcs
    rw [(hn c).2.2.1] at hc
    obtain ⟨p, h1, h2, ⟨n, h3, h4⟩, h5⟩ := hi.link c hc hcs
    refine ⟨p, by rw [(hn c).2.1]; exact h1, by rw [(hn p).2.2.2]; exact h2,
      ⟨n, by rw [hnb]; exact h3, h4⟩, ?_⟩
    rw [(hn c).1, h5]; exact (nextG_congr p c (hn p).1).symm
  · intro c hc; rw [(hn c).2.2.1]; exact hi.heap_opened c hc
  · intro c hc hcl
    rw [(hn c).2.2.1] at hc; rw [(hn c).2.2.2] at hcl
    exact hi.open_in_heap c hc hcl
  · rw [(hn E).2.2.2]; exact hi.goal_open
  · intro c hc n hnm htodo j hj
    rw [(hn c).2.2.2] at hc
    rw [hnb] at hnm
    rw [(hn j).2.2.2, (hn j).2.2.1, (hn j).1, nextG_congr c j (hn c).1]
    exact hi.expanded c hc n hnm htodo j hj

/-- The invariant with fewer pending scans implies the one with more. -/
theorem SearchInv.weaken {grid0 : Grid} {S E : Coord} {fuel : Nat}
    {todo todo1 : Coord → Coord → Prop} {grid : Grid} {ol : Heap Coord}
    (hi : SearchInv grid0 S E fuel todo grid ol)
    (ht : ∀ c n, ¬ todo1 c n → ¬ todo c n) : SearchInv grid0 S E fuel todo1 grid ol :=
  ⟨hi.sameMap, hi.start_opened, hi.start_parent, hi.start_g, hi.start_closed, hi.opened_g,
    hi.closed_opened, hi.opened_inside, hi.link, hi.filled, hi.heap_opened, hi.open_in_heap,
    hi.goal_open, fun c hc n hn htodo j hj => hi.expanded c hc n hn (ht c n htodo) j hj⟩

theorem SearchInv.start_closed_of {grid0 : Grid} {S E : Coord} {fuel : Nat}
    {todo : Coord → Coord → Prop} {grid : Grid} {ol : Heap Coord}
    (hi : SearchInv grid0 S E fuel todo grid ol) {c : Coord}
    (hc : (grid.nodes c).closed = true) : (grid.nodes S).closed = true := by
  rcases hi.start_closed with h | h
  · exact h
  · have := h c (hi.closed_opened c hc)
    rw [← this]; exact hc


theorem Grid.isInside_of_walkable {grid : Grid} {x y : Int}
    (h : grid.isWalkableAt x y = true) : grid.isInside x y = true := by
  unfold Grid.isWalkableAt at h
  simp only [Bool.and_eq_true] at h
  exact h.1

/-- A jump point found from a neighbour of `node` is a walkable cell other than `node`. -/
theorem jumpPoint_facts {grid : Grid} {E : Coord} {fuel : Nat} {node n j : Coord}
    (hn : n ∈ _findNeighbors grid node)
    (hj : jumpPt grid E fuel n.1 n.2 node.1 node.2 = .ok (some j)) :
    grid.isWalkableAt j.1 j.2 = true ∧ j ≠ node := by
  obtain ⟨hd, _⟩ := findNeighbors_mem hn
  obtain ⟨k, hk1, hk2⟩ := (jumpPt_sound grid E fuel _ _ _ _ _ hj).geometry j rfl hd
  have hw := hk2 k (le_refl _)
  rw [hk1]
  refine ⟨hw, ?_⟩
  intro he
  have h1 := congrArg Prod.fst he
  have h2 := congrArg Prod.snd he
  simp only at h1 h2
  have hk0 : (0 : Int) ≤ k := Int.ofNat_nonneg k
  unfold UnitDir at hd
  rcases hd with ⟨hx | hx, hy⟩ | ⟨hx, hy | hy⟩
  · rw [hx] at h1; omega
  · rw [hx] at h1; omega
  · rw [hy] at h2; omega
  · rw [hy] at h2; omega

/-- One iteration of the successor loop keeps the invariant; the scan of the neighbour
`n` of `node` is no longer pending afterwards. -/
theorem SearchInv.successorStep {grid0 : Grid} {S E : Coord} {fuel : Nat}
    {todo u : Coord → Coord → Prop} {grid : Grid} {ol : Heap Coord}
    (F : JumpPointFinderBase) (hi : SearchInv grid0 S E fuel todo grid ol) {node n : Coord}
    (hnode : (grid.nodes node).closed = true) (hn : n ∈ _findNeighbors grid node)
    (ht : ∀ c m, ¬ u c m → ¬ todo c m ∨ (c = node ∧ m = n))
    (hfuel : grid0.width.toNat + grid0.height.toNat + 2 ≤ fuel) :
    ∃ grid1 ol1, JumpPointFinderBase.successorStep F E fuel node grid ol n = .ok (grid1, ol1) ∧
      SearchInv grid0 S E fuel u grid1 ol1 ∧ ol1.last ≤ ol.last + 1 ∧
      (∀ c, (grid1.nodes c).closed = (grid.nodes c).closed) ∧
      (∀ c, (grid.nodes c).closed = true → (grid1.nodes c).parent = (grid.nodes c).parent) ∧
      (¬ todo node n → grid1.Agree grid ∧ ol1 = ol) := by
  obtain ⟨hd, _⟩ := findNeighbors_mem hn
  have hfuel2 : grid.width.toNat + grid.height.toNat + 2 ≤ fuel := by
    rw [hi.sameMap.1, hi.sameMap.2.1]; exact hfuel
  obtain ⟨r, hr⟩ := jumpPt_total grid E fuel hfuel2 n.1 n.2 node.1 node.2 hd
  have hr0 : jumpPt grid0 E fuel n.1 n.2 node.1 node.2 = .ok r := by
    rw [← jumpPt_congr hi.sameMap]; exact hr
  obtain ⟨grid1, ol1, hs, hcase⟩ := successorStep_cases F E fuel node grid ol n r hr
  refine ⟨grid1, ol1, hs, ?_⟩
  rcases hcase with ⟨hag, hol, hres⟩ | ⟨j, hrj, hjc, hjo, hup, hl, hent, hfil⟩
  · -- nothing changed
    subst hol
    have hn1 : ∀ c, (grid1.nodes c).closed = (grid.nodes c).closed :=
      fun c => (hag.2.2 c).2.2.2.2.2.2
    have hp1 : ∀ c, (grid1.nodes c).parent = (grid.nodes c).parent :=
      fun c => (hag.2.2 c).2.2.2.2.1
    refine ⟨?_, by omega, hn1, fun c _ => hp1 c, fun _ => ⟨hag, rfl⟩⟩
    have hi2 : SearchInv grid0 S E fuel u grid ol1 := by
      refine ⟨hi.sameMap, hi.start_opened, hi.start_parent, hi.start_g, hi.start_closed,
        hi.opened_g, hi.closed_opened, hi.opened_inside, hi.link, hi.filled, hi.heap_opened,
        hi.open_in_heap, hi.goal_open, ?_⟩
      intro c hc m hm htodo j hj
      rcases ht c m htodo with h | ⟨rfl, rfl⟩
      · exact hi.expanded c hc m hm h j hj
      · rw [hr0] at hj
        cases hj
        rcases hres with h | ⟨j2, h1, h2⟩
        · cases h
        · cases h1
          exact h2
    exact hi2.of_agree hag
  · -- the jump point `j` was updated and pushed
    subst hrj
    have hSc : (grid.nodes S).closed = true := hi.start_closed_of hnode
    have hjS : j ≠ S := by
      intro h; rw [h] at hjc; rw [hjc] at hSc; cases hSc
    have hjnode : j ≠ node := by
      intro h; rw [h] at hjc; rw [hjc] at hnode; cases hnode
    have hjw := (jumpPoint_facts hn hr).1
    have hcl : ∀ c, (grid1.nodes c).closed = (grid.nodes c).closed := by
      intro c
      by_cases h : c = j
      · subst h; exact hup.closed_eq
      · exact (hup.other c h).2.2.2
    have hpar : ∀ c, (grid.nodes c).closed = true →
        (grid1.nodes c).parent = (grid.nodes c).parent := by
      intro c hc
      have : c ≠ j := by intro h; rw [h] at hc; rw [hjc] at hc; cases hc
      exact (hup.other c this).2.1
    have hgc : ∀ c, (grid.nodes c).closed = true → (grid1.nodes c).g = (grid.nodes c).g := by
      intro c hc
      have : c ≠ j := by intro h; rw [h] at hc; rw [hjc] at hc; cases hc
      exact (hup.other c this).1
    have hop : ∀ c, (grid.nodes c).opened = true → (grid1.nodes c).opened = true := by
      intro c hc
      by_cases h : c = j
      · subst h; exact hup.opened_eq
      · rw [(hup.other c h).2.2.1]; exact hc
    have hnb : ∀ c, (grid.nodes c).closed = true →
        _findNeighbors grid1 c = _findNeighbors grid c :=
      fun c hc => findNeighbors_congr hup.sameMap c (hpar c hc)
    have hnodeg : ∃ v, (grid.nodes node).g = some v :=
      hi.opened_g node (hi.closed_opened node hnode)
    refine ⟨?_, by omega, hcl, hpar, ?_⟩
    swap
    · intro hnt
      exfalso
      rcases hi.expanded node hnode n hn hnt j hr0 with h | ⟨h1, h2⟩
      · rw [hjc] at h; cases h
      · rcases hjo with h3 | h3
        · rw [h1] at h3; cases h3
        · rw [h2] at h3; cases h3
    refine ⟨hup.sameMap.trans_map hi.sameMap, ?_, ?_, ?_, ?_, ?_, ?_, ?_, ?_, hfil hi.filled,
      ?_, ?_, ?_, ?_⟩
    · exact hop S hi.start_opened
    · rw [(hup.other S hjS.symm).2.1]; exact hi.start_parent
    · rw [(hup.other S hjS.symm).1]; exact hi.start_g
    · left; rw [hcl]; exact hSc
    · intro c hc
      by_cases h : c = j
      · subst h
        rw [hup.g_eq]
        obtain ⟨v, hv⟩ := hnodeg
        exact ⟨_, by unfold nextG optAdd; rw [hv]⟩
      · rw [(hup.other c h).1]
        rw [(hup.other c h).2.2.1] at hc
        exact hi.opened_g c hc
    · intro c hc
      rw [hcl] at hc
      exact hop c (hi.closed_opened c hc)
    · intro c hc
      by_cases h : c = j
      · subst h
        have := Grid.isInside_of_walkable hjw
        rw [Grid.isInside_congr hi.sameMap.1 hi.sameMap.2.1] at this
        exact this
      · rw [(hup.other c h).2.2.1] at hc
        exact hi.opened_inside c hc
    · intro c hc hcs
      by_cases h : c = j
      · subst h
        refine ⟨node, hup.parent_eq, by rw [hcl]; exact hnode,
          ⟨n, by rw [hnb node hnode]; exact hn, hr0⟩, ?_⟩
        rw [hup.g_eq]
        exact (nextG_congr node c (hgc node hnode)).symm
      · rw [(hup.other c h).2.2.1] at hc
        obtain ⟨p, h1, h2, ⟨m, h3, h4⟩, h5⟩ := hi.link c hc hcs
        refine ⟨p, by rw [(hup.other c h).2.1]; exact h1, by rw [hcl]; exact h2,
          ⟨m, by rw [hnb p h2]; exact h3, h4⟩, ?_⟩
        rw [(hup.other c h).1, h5]
        exact (nextG_congr p c (hgc p h2)).symm
    · intro c hc
      rw [hent] at hc
      rcases Multiset.mem_cons.1 hc with h | h
      · cases h; exact hup.opened_eq
      · exact hop c (hi.heap_opened c h)
    · intro c hc hcc
      rw [hent]
      by_cases h : c = j
      · subst h; exact Multiset.mem_cons_self _ _
      · rw [(hup.other c h).2.2.1] at hc
        rw [hcl] at hcc
        exact Multiset.mem_cons_of_mem (hi.open_in_heap c hc hcc)
    · rw [hcl]; exact hi.goal_open
    · intro c hc m hm htodo j2 hj2
      rw [hcl] at hc
      rw [hnb c hc] at hm
      rw [hcl, nextG_congr c j2 (hgc c hc)]
      rcases ht c m htodo with h | ⟨rfl, rfl⟩
      · rcases hi.expanded c hc m hm h j2 hj2 with h1 | ⟨h1, h2⟩
        · left; exact h1
        · right
          refine ⟨hop j2 h1, ?_⟩
          by_cases hjj : j2 = j
          · subst hjj
            rw [hup.g_eq]
            rcases hjo with h3 | h3
            · rw [h1] at h3; cases h3
            · exact optLt_of_improved h2 h3
          · rw [(hup.other j2 hjj).1]; exact h2
      · rw [hr0] at hj2
        cases hj2
        right
        refine ⟨hup.opened_eq, ?_⟩
        rw [hup.g_eq]
        exact optLt_irrefl _


/-- The successor loop over the neighbours `rest` of the closed node `node` keeps the
invariant and leaves no scan pending; it pushes at most one entry per neighbour. -/
theorem SearchInv.successorLoop {grid0 : Grid} {S E : Coord} {fuel : Nat}
    (F : JumpPointFinderBase) {node : Coord}
    (hfuel : grid0.width.toNat + grid0.height.toNat + 2 ≤ fuel) (rest : List Coord) :
    ∀ (grid : Grid) (ol : Heap Coord),
      SearchInv grid0 S E fuel (fun c m => c = node ∧ m ∈ rest) grid ol →
      (grid.nodes node).closed = true → (∀ m, m ∈ rest → m ∈ _findNeighbors grid node) →
      ∃ grid1 ol1, JumpPointFinderBase.successorLoop F E fuel node rest grid ol = .ok (grid1, ol1) ∧
        SearchInv grid0 S E fuel (fun _ _ => False) grid1 ol1 ∧
        ol1.last ≤ ol.last + rest.length ∧
        (∀ c, (grid1.nodes c).closed = (grid.nodes c).closed) := by
  induction rest with
  | nil =>
    intro grid ol hi _ _
    refine ⟨grid, ol, rfl, hi.weaken ?_, by simp, fun _ => rfl⟩
    intro c n _ h
    simp at h
  | cons n rest ih =>
    intro grid ol hi hnode hmem
    have hn : n ∈ _findNeighbors grid node := hmem n (List.mem_cons_self _ _)
    obtain ⟨g1, o1, hs, hi1, hl1, hc1, hp1, _⟩ :=
      SearchInv.successorStep (u := fun c m => c = node ∧ m ∈ rest) F hi hnode hn
        (by
          intro c m h
          by_cases hcm : c = node ∧ m = n
          · right; exact hcm
          · left
            rintro ⟨h1, h2⟩
            rcases List.mem_cons.1 h2 with h3 | h3
            · exact hcm ⟨h1, h3⟩
            · exact h ⟨h1, h3⟩)
        hfuel
    have hnode1 : (g1.nodes node).closed = true := by rw [hc1]; exact hnode
    have hnb : _findNeighbors g1 node = _findNeighbors grid node :=
      findNeighbors_congr (hi1.sameMap.trans_map hi.sameMap.symm_map) node (hp1 node hnode)
    obtain ⟨g2, o2, hs2, hi2, hl2, hc2⟩ := ih g1 o1 hi1 hnode1
      (fun m hm => by rw [hnb]; exact hmem m (List.mem_cons_of_mem _ hm))
    refine ⟨g2, o2, ?_, hi2, ?_, fun c => (hc2 c).trans (hc1 c)⟩
    · unfold JumpPointFinderBase.successorLoop
      rw [hs]
      exact hs2
    · simp only [List.length_cons]; omega

/-- On a node whose scans were all done before, the successor loop changes nothing but
`tested` flags. -/
theorem SearchInv.successorLoop_again {grid0 : Grid} {S E : Coord} {fuel : Nat}
    (F : JumpPointFinderBase) {node : Coord}
    (hfuel : grid0.width.toNat + grid0.height.toNat + 2 ≤ fuel) (rest : List Coord) :
    ∀ (grid : Grid) (ol : Heap Coord),
      SearchInv grid0 S E fuel (fun _ _ => False) grid ol →
      (grid.nodes node).closed = true → (∀ m, m ∈ rest → m ∈ _findNeighbors grid node) →
      ∃ grid1, JumpPointFinderBase.successorLoop F E fuel node rest grid ol = .ok (grid1, ol) ∧
        grid1.Agree grid := by
  induction rest with
  | nil =>
    intro grid ol _ _ _
    exact ⟨grid, rfl, Grid.Agree.refl_agree grid⟩
  | cons n rest ih =>
    intro grid ol hi hnode hmem
    have hn : n ∈ _findNeighbors grid node := hmem n (List.mem_cons_self _ _)
    obtain ⟨g1, o1, hs, hi1, _, hc1, hp1, hno⟩ :=
      SearchInv.successorStep (u := fun _ _ => False) F hi hnode hn
        (fun c m h => Or.inl h) hfuel
    obtain ⟨hag, hol⟩ := hno (fun h => h)
    subst hol
    have hnode1 : (g1.nodes node).closed = true := by rw [hc1]; exact hnode
    have hnb : _findNeighbors g1 node = _findNeighbors grid node :=
      findNeighbors_congr hag.sameMap node (hp1 node hnode)
    obtain ⟨g2, hs2, hag2⟩ := ih g1 o1 hi1 hnode1
      (fun m hm => by rw [hnb]; exact hmem m (List.mem_cons_of_mem _ hm))
    refine ⟨g2, ?_, hag2.trans_agree hag⟩
    unfold JumpPointFinderBase.successorLoop
    rw [hs]
    exact hs2


/-! ## Path utilities on straight segments -/

theorem segCells_succ (p : Coord) (dx dy : Int) (k : Nat) :
    segCells p dx dy (k + 1) = p :: segCells (p.1 + dx, p.2 + dy) dx dy k := by
  unfold segCells
  rw [List.range_succ_eq_map]
  simp only [List.map_cons, List.map_map]
  congr 1
  · simp
  · apply List.map_congr_left
    intro i _
    simp only [Function.comp, Nat.succ_eq_add_one]
    push_cast
    ext <;> simp <;> ring

theorem segCells_zero (p : Coord) (dx dy : Int) : segCells p dx dy 0 = [p] := by
  simp [segCells, List.range_succ]

/-- The loop of `interpolate` along a row. -/
theorem interpolateLoop_row (x1 y : Int) (k : Int) (dx sy : Int) (hk : 1 ≤ k)
    (hdx : dx = 1 ∨ dx = -1) (fuel : Nat) :
    ∀ (m : Nat) (x : Int) (line : List Coord), x1 = x + m * dx → m < fuel →
      interpolateLoop x1 y k 0 dx sy fuel x y k line =
        .ok (line ++ segCells (x, y) dx 0 m) := by
  induction fuel with
  | zero => intro m x line _ h; omega
  | succ n ih =>
    intro m x line hx hm
    unfold interpolateLoop
    cases m with
    | zero =>
      have : x = x1 := by rw [hx]; simp
      simp [this, segCells_zero]
    | succ m =>
      have hne : ¬ (x = x1 ∧ y = y) := by
        rintro ⟨h, _⟩
        rw [hx] at h
        push_cast at h
        rcases hdx with h1 | h1 <;> rw [h1] at h <;> omega
      rw [if_neg hne]
      have c1 : 2 * k > -0 := by omega
      have c2 : ¬ (2 * k < k) := by omega
      simp only [if_pos c1, if_neg c2, sub_zero]
      rw [ih m (x + dx) _ (by rw [hx]; push_cast; ring) (by omega), segCells_succ]
      simp

/-- The loop of `interpolate` along a column. -/
theorem interpolateLoop_col (x y1 : Int) (k : Int) (sx dy : Int) (hk : 1 ≤ k)
    (hdy : dy = 1 ∨ dy = -1) (fuel : Nat) :
    ∀ (m : Nat) (y : Int) (line : List Coord), y1 = y + m * dy → m < fuel →
      interpolateLoop x y1 0 k sx dy fuel x y (-k) line =
        .ok (line ++ segCells (x, y) 0 dy m) := by
  induction fuel with
  | zero => intro m y line _ h; omega
  | succ n ih =>
    intro m y line hy hm
    unfold interpolateLoop
    cases m with
    | zero =>
      have : y = y1 := by rw [hy]; simp
      simp [this, segCells_zero]
    | succ m =>
      have hne : ¬ (x = x ∧ y = y1) := by
        rintro ⟨_, h⟩
        rw [hy] at h
        push_cast at h
        rcases hdy with h1 | h1 <;> rw [h1] at h <;> omega
      rw [if_neg hne]
      have c1 : ¬ (2 * -k > -k) := by omega
      have c2 : 2 * -k < 0 := by omega
      simp only [if_neg c1, if_pos c2, add_zero]
      rw [ih m (y + dy) _ (by rw [hy]; push_cast; ring) (by omega), segCells_succ]
      simp

/-- On a straight segment `interpolate` returns its cells, end points included. -/
theorem interpolate_seg (p : Coord) (dx dy : Int) (k : Nat) (hd : UnitDir dx dy) (hk : 1 ≤ k)
    (fuel : Nat) (hf : k < fuel) :
    interpolate fuel p.1 p.2 (p.1 + k * dx) (p.2 + k * dy) = .ok (segCells p dx dy k) := by
  have hk0 : (1 : Int) ≤ k := by exact_mod_cast hk
  unfold interpolate
  rcases hd with ⟨hx, hy⟩ | ⟨hx, hy⟩
  · subst hy
    simp only [mul_zero, add_zero, sub_self, abs_zero, lt_self_iff_false, if_false, sub_zero]
    have habs : |p.1 + (k : Int) * dx - p.1| = k := by
      rcases hx with h | h <;> rw [h] <;> simp
    have hsx : (if p.1 < p.1 + (k : Int) * dx then (1 : Int) else -1) = dx := by
      rcases hx with h | h <;> rw [h] <;> simp <;> omega
    rw [habs, hsx]
    have := interpolateLoop_row (p.1 + k * dx) p.2 k dx (-1) hk0 hx fuel k p.1 [] rfl hf
    simpa using this
  · subst hx
    simp only [mul_zero, add_zero, sub_self, abs_zero, lt_self_iff_false, if_false, zero_sub]
    have habs : |p.2 + (k : Int) * dy - p.2| = k := by
      rcases hy with h | h <;> rw [h] <;> simp
    have hsy : (if p.2 < p.2 + (k : Int) * dy then (1 : Int) else -1) = dy := by
      rcases hy with h | h <;> rw [h] <;> simp <;> omega
    rw [habs, hsy]
    have := interpolateLoop_col p.1 (p.2 + k * dy) k (-1) dy hk0 hy fuel k p.2 [] rfl hf
    simpa using this


theorem unitStep_of_dir {p : Coord} {dx dy : Int} (hd : UnitDir dx dy) :
    UnitStep p (p.1 + dx, p.2 + dy) := by
  unfold UnitStep
  rcases hd with ⟨hx | hx, hy⟩ | ⟨hx, hy | hy⟩ <;> subst hx <;> subst hy <;> simp

theorem dense_segCells {dx dy : Int} (hd : UnitDir dx dy) (k : Nat) :
    ∀ p : Coord, Dense (segCells p dx dy k) := by
  induction k with
  | zero => intro p; rw [segCells_zero]; trivial
  | succ k ih =>
    intro p
    rw [segCells_succ]
    cases k with
    | zero => rw [segCells_zero]; exact ⟨unitStep_of_dir hd, trivial⟩
    | succ k =>
      have := ih (p.1 + dx, p.2 + dy)
      rw [segCells_succ] at this ⊢
      exact ⟨unitStep_of_dir hd, this⟩

theorem dense_append : ∀ (a : List Coord) (y : Coord) (b : List Coord),
    Dense (a ++ [y]) → Dense (y :: b) → Dense (a ++ y :: b) := by
  intro a
  induction a with
  | nil => intro y b _ h; exact h
  | cons x a ih =>
    intro y b h1 h2
    cases a with
    | nil => exact ⟨h1.1, h2⟩
    | cons x2 a =>
      exact ⟨h1.1, ih y b h1.2 h2⟩

theorem segCells_snoc (p : Coord) (dx dy : Int) (k : Nat) :
    segCells p dx dy (k + 1) =
      segCells p dx dy k ++ [(p.1 + ((k + 1 : Nat) : Int) * dx, p.2 + ((k + 1 : Nat) : Int) * dy)] := by
  unfold segCells
  rw [List.range_succ, List.map_append]
  rfl

theorem segCells_dropLast (p : Coord) (dx dy : Int) (k : Nat) :
    (segCells p dx dy (k + 1)).dropLast = segCells p dx dy k := by
  rw [segCells_snoc, List.dropLast_concat]

theorem mem_segCells {p c : Coord} {dx dy : Int} {k : Nat} (h : c ∈ segCells p dx dy k) :
    ∃ i : Nat, i ≤ k ∧ c = (p.1 + i * dx, p.2 + i * dy) := by
  unfold segCells at h
  simp only [List.mem_map, List.mem_range] at h
  obtain ⟨i, hi, rfl⟩ := h
  exact ⟨i, by omega, rfl⟩

theorem segCells_head (p : Coord) (dx dy : Int) (k : Nat) :
    ∃ t, segCells p dx dy k = p :: t ∧ ∀ c, c ∈ t →
      ∃ i : Nat, 1 ≤ i ∧ i ≤ k ∧ c = (p.1 + i * dx, p.2 + i * dy) := by
  cases k with
  | zero => exact ⟨[], segCells_zero p dx dy, fun c h => by simp at h⟩
  | succ k =>
    refine ⟨_, segCells_succ p dx dy k, ?_⟩
    intro c hc
    obtain ⟨i, hi, rfl⟩ := mem_segCells hc
    refine ⟨i + 1, by omega, by omega, ?_⟩
    push_cast
    ext <;> simp <;> ring

/-- Bound on the length of a segment between cells inside the grid. -/
theorem seg_length_lt {grid : Grid} {p : Coord} {dx dy : Int} {k : Nat} (hd : UnitDir dx dy)
    (hp : grid.isInside p.1 p.2 = true)
    (hc : grid.isWalkableAt (p.1 + k * dx) (p.2 + k * dy) = true) :
    k < grid.width.toNat + grid.height.toNat + 1 := by
  have h1 := Grid.isInside_iff.1 hp
  have h2 := Grid.inside_of_walkable hc
  rcases hd with ⟨hx | hx, hy⟩ | ⟨hx, hy | hy⟩ <;> subst hx <;> subst hy <;> omega

/-- On a chain of straight walkable segments the loop of `expandPath` returns all cells but
the last. -/
theorem expandSegments_chain (grid : Grid) (fuel : Nat)
    (hfuel : grid.width.toNat + grid.height.toNat + 1 ≤ fuel) :
    ∀ (l : List Coord) (c0 : Coord), DownChain grid (c0 :: l) →
      ∃ e, expandSegments fuel (c0 :: l) = .ok e ∧
        PathFrom grid c0 (e ++ [(c0 :: l).getLast (List.cons_ne_nil _ _)]) := by
  intro l
  induction l with
  | nil =>
    intro c0 _
    refine ⟨[], rfl, rfl, trivial, ?_⟩
    intro c hc; simp at hc
  | cons c1 rest ih =>
    intro c0 hch
    obtain ⟨⟨dx, dy, k, hd, hk, hc1, hin, hw⟩, hrest⟩ := hch
    obtain ⟨e1, he1, hq1, hq2, hq3⟩ := ih c1 hrest
    have hkb : k < fuel := by
      have := seg_length_lt (k := k) hd hin (hw k hk (le_refl _))
      omega
    have hint := interpolate_seg c0 dx dy k hd hk fuel hkb
    have hc1a : c1.1 = c0.1 + k * dx := by rw [hc1]
    have hc1b : c1.2 = c0.2 + k * dy := by rw [hc1]
    obtain ⟨k2, rfl⟩ : ∃ k2, k = k2 + 1 := ⟨k - 1, by omega⟩
    refine ⟨segCells c0 dx dy k2 ++ e1, ?_, ?_⟩
    · unfold expandSegments
      rw [hc1a, hc1b, hint, he1]
      simp only [segCells_dropLast]
    · have hlast : (c0 :: c1 :: rest).getLast (List.cons_ne_nil _ _) =
          (c1 :: rest).getLast (List.cons_ne_nil _ _) := List.getLast_cons (List.cons_ne_nil _ _)
      rw [hlast, List.append_assoc]
      obtain ⟨t, ht, htm⟩ := segCells_head c0 dx dy k2
      -- the expansion of the rest starts with `c1`
      obtain ⟨t1, ht1⟩ : ∃ t1, e1 ++ [(c1 :: rest).getLast (List.cons_ne_nil _ _)] = c1 :: t1 := by
        cases hq : e1 ++ [(c1 :: rest).getLast (List.cons_ne_nil _ _)] with
        | nil => simp at hq
        | cons a t1 =>
          rw [hq] at hq1
          simp only [List.head?_cons, Option.some.injEq] at hq1
          exact ⟨t1, by rw [hq1]⟩
      rw [ht1] at hq2 hq3 ⊢
      refine ⟨by rw [ht]; rfl, ?_, ?_⟩
      · apply dense_append
        · have := dense_segCells hd (k2 + 1) c0
          rw [segCells_snoc] at this
          rw [hc1]
          exact this
        · exact hq2
      · intro c hc
        rw [ht] at hc
        simp only [List.cons_append, List.tail_cons, List.mem_append, List.mem_cons] at hc
        rcases hc with h | h | h
        · obtain ⟨i, hi1, hi2, rfl⟩ := htm c h
          exact hw i hi1 (by omega)
        · rw [h, hc1]; exact hw (k2 + 1) hk (le_refl _)
        · exact hq3 c (by simpa using h)


theorem octile_row (k : Nat) : octile ((k : Int) : ℚ) ((0 : Int) : ℚ) = k := by
  unfold octile
  have : ¬ (((k : Int) : ℚ) < ((0 : Int) : ℚ)) := by
    push_cast; exact not_lt.2 (Nat.cast_nonneg k)
  simp only [this, if_false]
  push_cast; ring

theorem octile_col (k : Nat) : octile ((0 : Int) : ℚ) ((k : Int) : ℚ) = k := by
  unfold octile
  split_ifs <;> push_cast <;> ring_nf
  rename_i h
  push_cast at h
  have h2 : (0 : ℚ) ≤ k := Nat.cast_nonneg k
  have : (k : ℚ) = 0 := le_antisymm (not_lt.1 h) h2
  rw [this]
  simp

/-- The edge cost that `_identifySuccessors` uses on a straight segment of `k` steps. -/
theorem octile_seg {p c : Coord} {dx dy : Int} {k : Nat} (hd : UnitDir dx dy)
    (hc : c = (p.1 + k * dx, p.2 + k * dy)) :
    octile (|c.1 - p.1| : Int) (|c.2 - p.2| : Int) = k := by
  rw [hc]
  simp only [add_sub_cancel_left]
  rcases hd with ⟨hx | hx, hy⟩ | ⟨hx, hy | hy⟩ <;> subst hx <;> subst hy <;>
    simp only [mul_one, mul_neg, mul_zero, abs_neg, abs_zero, Nat.abs_cast]
  · exact octile_row k
  · exact octile_row k
  · exact octile_col k
  · exact octile_col k

/-- A parent link of the invariant is a straight walkable segment. -/
theorem seg_of_jump {grid : Grid} {E : Coord} {fuel : Nat} {p n c : Coord}
    (hp : grid.isInside p.1 p.2 = true) (hd : UnitDir (n.1 - p.1) (n.2 - p.2))
    (hj : jumpPt grid E fuel n.1 n.2 p.1 p.2 = .ok (some c)) : Seg grid p c := by
  obtain ⟨k, hk1, hk2⟩ := (jumpPt_sound grid E fuel _ _ _ _ _ hj).geometry c rfl hd
  refine ⟨n.1 - p.1, n.2 - p.2, k + 1, hd, by omega, ?_, hp, ?_⟩
  · rw [hk1]; push_cast; ext <;> simp <;> ring
  · intro i hi1 hi2
    obtain ⟨i2, rfl⟩ : ∃ i2, i = i2 + 1 := ⟨i - 1, by omega⟩
    have := hk2 i2 (by omega)
    have e1 : p.1 + ((i2 + 1 : Nat) : Int) * (n.1 - p.1) = n.1 + (i2 : Int) * (n.1 - p.1) := by
      push_cast; ring
    have e2 : p.2 + ((i2 + 1 : Nat) : Int) * (n.2 - p.2) = n.2 + (i2 : Int) * (n.2 - p.2) := by
      push_cast; ring
    rw [e1, e2]; exact this

theorem Seg.congr_map {g1 g2 : Grid} (hs : g1.SameMap g2) {p c : Coord} (h : Seg g1 p c) :
    Seg g2 p c := by
  obtain ⟨dx, dy, k, hd, hk, hc, hin, hw⟩ := h
  refine ⟨dx, dy, k, hd, hk, hc, ?_, ?_⟩
  · rw [← Grid.isInside_congr hs.1 hs.2.1]; exact hin
  · intro i h1 h2; rw [← hs.isWalkableAt_eq]; exact hw i h1 h2

/-- Under the invariant every opened node other than the start hangs on a closed parent by
a straight walkable segment, at a cost higher by the length of the segment. -/
theorem SearchInv.parent_seg {grid0 : Grid} {S E : Coord} {fuel : Nat}
    {todo : Coord → Coord → Prop} {grid : Grid} {ol : Heap Coord}
    (hi : SearchInv grid0 S E fuel todo grid ol) {c : Coord}
    (hc : (grid.nodes c).opened = true) (hcs : c ≠ S) :
    ∃ p, (grid.nodes c).parent = some p ∧ (grid.nodes p).closed = true ∧ Seg grid0 p c ∧
      ∃ (k : Nat), 1 ≤ k ∧ grid.gval c = grid.gval p + k ∧
        (k : Int) = |c.1 - p.1| + |c.2 - p.2| := by
  obtain ⟨p, h1, h2, ⟨n, h3, h4⟩, h5⟩ := hi.link c hc hcs
  have hpin := hi.opened_inside p (hi.closed_opened p h2)
  obtain ⟨dx, dy, k, hd, hk, hck, hin, hw⟩ := seg_of_jump hpin (findNeighbors_mem h3).1 h4
  refine ⟨p, h1, h2, ⟨dx, dy, k, hd, hk, hck, hin, hw⟩, k, hk, ?_, ?_⟩
  · obtain ⟨v, hv⟩ := hi.opened_g p (hi.closed_opened p h2)
    unfold Grid.gval
    rw [h5]
    unfold nextG optAdd
    rw [hv, octile_seg hd hck]
    simp
  · rw [hck]
    simp only [add_sub_cancel_left]
    rcases hd with ⟨hx | hx, hy⟩ | ⟨hx, hy | hy⟩ <;> subst hx <;> subst hy <;> simp


theorem Grid.card_insideCells (grid : Grid) :
    grid.insideCells.card = grid.width.toNat * grid.height.toNat := by
  unfold Grid.insideCells
  rw [Finset.card_product, Int.card_Ico, Int.card_Ico]
  simp

theorem Grid.mem_insideCells {grid : Grid} {c : Coord} :
    c ∈ grid.insideCells ↔ grid.isInside c.1 c.2 = true := by
  unfold Grid.insideCells
  rw [Finset.mem_product, Finset.mem_Ico, Finset.mem_Ico, Grid.isInside_iff]
  constructor <;> intro h <;> omega

theorem Grid.rank_le (grid : Grid) (c : Coord) :
    grid.rank c ≤ grid.width.toNat * grid.height.toNat := by
  rw [← Grid.card_insideCells]
  exact Finset.card_filter_le _ _

theorem Grid.rank_lt {grid : Grid} {p c : Coord} (hin : grid.isInside p.1 p.2 = true)
    (hcl : (grid.nodes p).closed = true) (hg : grid.gval p < grid.gval c) :
    grid.rank p < grid.rank c := by
  unfold Grid.rank
  apply Finset.card_lt_card
  rw [Finset.ssubset_iff_of_subset]
  · refine ⟨p, ?_, ?_⟩
    · rw [Finset.mem_filter]
      exact ⟨Grid.mem_insideCells.2 hin, hcl, hg⟩
    · rw [Finset.mem_filter]
      rintro ⟨_, _, h⟩
      exact lt_irrefl _ h
  · intro d hd
    rw [Finset.mem_filter] at hd ⊢
    exact ⟨hd.1, hd.2.1, lt_trans hd.2.2 hg⟩

/-- The loop of `backtrace` climbs from an opened node to the start. -/
theorem SearchInv.backtraceLoop {grid0 : Grid} {S E : Coord} {fuel : Nat}
    {todo : Coord → Coord → Prop} {grid : Grid} {ol : Heap Coord}
    (hi : SearchInv grid0 S E fuel todo grid ol) (gridF : Grid)
    (hF : ∀ c, (gridF.nodes c).parent = (grid.nodes c).parent) (k : Nat) :
    ∀ (c : Coord) (acc : List Coord), (grid.nodes c).opened = true → grid.rank c < k →
      ∃ up, Hola.backtraceLoop gridF k c acc = .ok (acc ++ up) ∧ UpChain grid0 S c up := by
  induction k with
  | zero => intro c acc _ h; omega
  | succ k ih =>
    intro c acc hc hr
    unfold Hola.backtraceLoop
    rw [hF]
    by_cases hcs : c = S
    · subst hcs
      rw [hi.start_parent]
      exact ⟨[], by simp, rfl⟩
    · obtain ⟨p, h1, h2, h3, kk, hk1, hk2, _⟩ := hi.parent_seg hc hcs
      rw [h1]
      simp only
      have hpin : grid.isInside p.1 p.2 = true := by
        rw [Grid.isInside_congr hi.sameMap.1 hi.sameMap.2.1]
        exact hi.opened_inside p (hi.closed_opened p h2)
      have hlt : grid.rank p < grid.rank c := by
        apply Grid.rank_lt hpin h2
        rw [hk2]
        have : (0 : ℚ) < kk := by exact_mod_cast hk1
        linarith
      obtain ⟨up, hu1, hu2⟩ := ih p (acc ++ [p]) (hi.closed_opened p h2) (by omega)
      refine ⟨p :: up, ?_, hcs, h3, hu2⟩
      rw [hu1]; simp

theorem downChain_of_upChain (grid : Grid) (S : Coord) :
    ∀ (up : List Coord) (c : Coord) (tail : List Coord), UpChain grid S c up →
      DownChain grid (c :: tail) →
      ∃ t, up.reverse ++ c :: tail = S :: t ∧ DownChain grid (S :: t) := by
  intro up
  induction up with
  | nil =>
    intro c tail hu hd
    have : c = S := hu
    subst this
    exact ⟨tail, rfl, hd⟩
  | cons p rest ih =>
    intro c tail hu hd
    obtain ⟨_, hseg, hup⟩ := hu
    obtain ⟨t, ht1, ht2⟩ := ih p (c :: tail) hup ⟨hseg, hd⟩
    refine ⟨t, ?_, ht2⟩
    rw [← ht1]; simp

theorem upChain_ne_nil {grid : Grid} {S c : Coord} {up : List Coord}
    (hu : UpChain grid S c up) (hcs : c ≠ S) : up ≠ [] := by
  intro h
  subst h
  exact hcs hu

/-- When the goal is taken from the open list, `backtrace` and `expandPath` return a
unit-step path from the start to the goal, walkable after its first cell (the empty path
when start and goal coincide). -/
theorem SearchInv.goal_found {grid0 : Grid} {S E : Coord} {fuel : Nat}
    {todo : Coord → Coord → Prop} {grid : Grid} {ol : Heap Coord}
    (hi : SearchInv grid0 S E fuel todo grid ol) (hE : (grid.nodes E).opened = true)
    (hfuel : grid0.fuelBound ≤ fuel) (gridF : Grid)
    (hF : ∀ c, (gridF.nodes c).parent = (grid.nodes c).parent) :
    ∃ chain path, backtrace fuel gridF E = .ok chain ∧ expandPath fuel chain = .ok path ∧
      ((S = E ∧ path = []) ∨
        (S ≠ E ∧ PathFrom grid0 S path ∧ path.getLast? = some E)) := by
  have hrank : grid.rank E < fuel := by
    have := Grid.rank_le grid E
    rw [hi.sameMap.1, hi.sameMap.2.1] at this
    unfold Grid.fuelBound at hfuel
    omega
  obtain ⟨up, hu1, hu2⟩ := hi.backtraceLoop gridF hF fuel E [E] hE hrank
  have hbt : backtrace fuel gridF E = .ok (E :: up).reverse := by
    unfold backtrace
    rw [hu1]; rfl
  by_cases hSE : S = E
  · subst hSE
    have hup : up = [] := by
      cases up with
      | nil => rfl
      | cons p rest => exact absurd rfl hu2.1
    subst hup
    exact ⟨_, [], hbt, rfl, Or.inl ⟨rfl, rfl⟩⟩
  · obtain ⟨t, ht1, ht2⟩ := downChain_of_upChain grid0 S up E [] hu2 trivial
    have hrev : (E :: up).reverse = S :: t := by
      rw [List.reverse_cons]; exact ht1
    rw [hrev] at hbt
    have hne : t ≠ [] := by
      intro h
      subst h
      have h1 : up.reverse ++ [E] = [S] := ht1
      have h2 := congrArg List.getLast? h1
      simp at h2
      exact hSE h2.symm
    have hf2 : grid0.width.toNat + grid0.height.toNat + 1 ≤ fuel := by
      unfold Grid.fuelBound at hfuel; omega
    obtain ⟨e, he1, he2⟩ := expandSegments_chain grid0 fuel hf2 t S ht2
    have hlast : (S :: t).getLast (List.cons_ne_nil _ _) = E := by
      have h2 : (S :: t).getLast? = some E := by rw [← ht1]; simp
      rw [List.getLast?_eq_getLast _ (List.cons_ne_nil _ _)] at h2
      exact Option.some.inj h2
    have hlen : ¬ (S :: t).length < 2 := by
      cases t with
      | nil => exact absurd rfl hne
      | cons a b => simp
    refine ⟨_, e ++ [E], hbt, ?_, Or.inr ⟨hSE, ?_, by simp⟩⟩
    · unfold expandPath
      rw [if_neg hlen, he1]
      have h2 : (S :: t).getLast? = some E := by rw [← ht1]; simp
      rw [h2]
    · rw [hlast] at he2; exact he2


/-! ## Finder: the main loop -/

theorem Grid.openCount_congr {g1 g2 : Grid} (hw : g1.width = g2.width)
    (hh : g1.height = g2.height) (hc : ∀ c, (g1.nodes c).closed = (g2.nodes c).closed) :
    g1.openCount = g2.openCount := by
  unfold Grid.openCount Grid.insideCells
  rw [hw, hh]
  congr 1
  apply Finset.filter_congr
  intro c _
  rw [hc]

theorem Grid.openCount_le (grid : Grid) :
    grid.openCount ≤ grid.width.toNat * grid.height.toNat := by
  rw [← Grid.card_insideCells]
  exact Finset.card_filter_le _ _

theorem Grid.openCount_close {grid : Grid} {c0 : Coord} (hin : grid.isInside c0.1 c0.2 = true)
    (hc : (grid.nodes c0).closed = false) :
    (grid.modify c0 (fun nd => { nd with closed := true })).openCount + 1 = grid.openCount := by
  unfold Grid.openCount
  have hmem : c0 ∈ grid.insideCells.filter (fun c => (grid.nodes c).closed = false) := by
    rw [Finset.mem_filter]
    exact ⟨Grid.mem_insideCells.2 hin, hc⟩
  rw [← Finset.card_erase_add_one hmem]
  congr 2
  ext c
  simp only [Finset.mem_filter, Finset.mem_erase]
  have hI : (grid.modify c0 (fun nd => { nd with closed := true })).insideCells =
      grid.insideCells := rfl
  rw [hI]
  by_cases h : c = c0
  · subst h
    rw [Grid.modify_nodes_same]
    simp
  · rw [Grid.modify_nodes_other _ _ h]
    simp [h]

/-- Taking a node from the open list and closing it keeps the invariant; the scans of its
neighbours are pending unless the node was closed before. -/
theorem SearchInv.close {grid0 : Grid} {S E : Coord} {fuel : Nat} {grid : Grid}
    {ol ol1 : Heap Coord} (hi : SearchInv grid0 S E fuel (fun _ _ => False) grid ol)
    {c0 : Coord} (hc0 : (grid.nodes c0).opened = true) (hE : c0 ≠ E)
    (hent : ol.entries = some c0 ::ₘ ol1.entries) (hfil : ol1.Filled) :
    SearchInv grid0 S E fuel
      (fun c m => c = c0 ∧ (grid.nodes c0).closed = false ∧
        m ∈ _findNeighbors (grid.modify c0 (fun nd => { nd with closed := true })) c0)
      (grid.modify c0 (fun nd => { nd with closed := true })) ol1 := by
  have hsm : (grid.modify c0 (fun nd => { nd with closed := true })).SameMap grid :=
    Grid.modify_sameMap _ _ _ rfl
  have hn : ∀ c, ((grid.modify c0 (fun nd => { nd with closed := true })).nodes c).g =
        (grid.nodes c).g ∧
      ((grid.modify c0 (fun nd => { nd with closed := true })).nodes c).parent =
        (grid.nodes c).parent ∧
      ((grid.modify c0 (fun nd => { nd with closed := true })).nodes c).opened =
        (grid.nodes c).opened := by
    intro c
    by_cases h : c = c0
    · subst h; rw [Grid.modify_nodes_same]; exact ⟨rfl, rfl, rfl⟩
    · rw [Grid.modify_nodes_other _ _ h]; exact ⟨rfl, rfl, rfl⟩
  have hcl : ∀ c, ((grid.modify c0 (fun nd => { nd with closed := true })).nodes c).closed =
      true ↔ ((grid.nodes c).closed = true ∨ c = c0) := by
    intro c
    by_cases h : c = c0
    · subst h; rw [Grid.modify_nodes_same]; simp
    · rw [Grid.modify_nodes_other _ _ h]; simp [h]
  have hnb : ∀ c, _findNeighbors (grid.modify c0 (fun nd => { nd with closed := true })) c =
      _findNeighbors grid c := fun c => findNeighbors_congr hsm c (hn c).2.1
  generalize grid.modify c0 (fun nd => { nd with closed := true }) = grid1 at *
  refine ⟨hsm.trans_map hi.sameMap, ?_, ?_, ?_, ?_, ?_, ?_, ?_, ?_, hfil, ?_, ?_, ?_, ?_⟩
  · rw [(hn S).2.2]; exact hi.start_opened
  · rw [(hn S).2.1]; exact hi.start_parent
  · rw [(hn S).1]; exact hi.start_g
  · left
    rw [hcl]
    rcases hi.start_closed with h | h
    · left; exact h
    · right; exact (h c0 hc0).symm
  · intro c hc; rw [(hn c).2.2] at hc; rw [(hn c).1]; exact hi.opened_g c hc
  · intro c hc
    rw [(hn c).2.2]
    rcases (hcl c).1 hc with h | h
    · exact hi.closed_opened c h
    · rw [h]; exact hc0
  · intro c hc; rw [(hn c).2.2] at hc; exact hi.opened_inside c hc
  · intro c hc hcs
    rw [(hn c).2.2] at hc
    obtain ⟨p, h1, h2, ⟨n, h3, h4⟩, h5⟩ := hi.link c hc hcs
    refine ⟨p, by rw [(hn c).2.1]; exact h1, (hcl p).2 (Or.inl h2),
      ⟨n, by rw [hnb]; exact h3, h4⟩, ?_⟩
    rw [(hn c).1, h5]
    exact (nextG_congr p c (hn p).1).symm
  · intro c hc
    rw [(hn c).2.2]
    exact hi.heap_opened c (by rw [hent]; exact Multiset.mem_cons_of_mem hc)
  · intro c hc hcc
    rw [(hn c).2.2] at hc
    have hne : c ≠ c0 := by
      intro h
      have := (hcl c).2 (Or.inr h)
      rw [hcc] at this; cases this
    have hcc2 : (grid.nodes c).closed = false := by
      by_contra h
      have h2 : (grid.nodes c).closed = true := by simpa using h
      have := (hcl c).2 (Or.inl h2)
      rw [hcc] at this; cases this
    have := hi.open_in_heap c hc hcc2
    rw [hent] at this
    rcases Multiset.mem_cons.1 this with h | h
    · exact absurd (Option.some.inj h) hne
    · exact h
  · by_contra h
    have h2 : (grid1.nodes E).closed = true := by simpa using h
    rcases (hcl E).1 h2 with h3 | h3
    · rw [hi.goal_open] at h3; cases h3
    · exact hE h3.symm
  · intro c hc n hnm htodo j hj
    rw [hnb] at hnm
    have hcc : (grid.nodes c).closed = true := by
      rcases (hcl c).1 hc with h | h
      · exact h
      · subst h
        by_contra h2
        have h3 : (grid.nodes c).closed = false := by simpa using h2
        exact htodo ⟨rfl, h3, by rw [hnb]; exact hnm⟩
    rw [(hn j).2.2, (hn j).1, nextG_congr c j (hn c).1]
    rcases hi.expanded c hcc n hnm (fun h => h) j hj with h | h
    · left; exact (hcl j).2 (Or.inl h)
    · right; exact h


/-- What `pop` returns on the open list of a search: an opened node. -/
theorem SearchInv.pop {grid0 : Grid} {S E : Coord} {fuel : Nat} {grid : Grid}
    {ol : Heap Coord} (hi : SearchInv grid0 S E fuel (fun _ _ => False) grid ol)
    (hl : 1 ≤ ol.last) :
    ∃ c0 ol1, (syncOpen ol grid).pop = (some c0, ol1) ∧ (grid.nodes c0).opened = true ∧
      ol1.last + 1 = ol.last ∧ ol.entries = some c0 ::ₘ ol1.entries ∧ ol1.Filled := by
  obtain ⟨p1, p2, _, _, p5, p6⟩ := Heap.pop_content (syncOpen ol grid) hl
  obtain ⟨c0, hc0⟩ := hi.filled 1 (le_refl _) hl
  have h1 : ((syncOpen ol grid).pop).1 = some c0 := by rw [p1]; exact hc0
  refine ⟨c0, ((syncOpen ol grid).pop).2, ?_, ?_, ?_, ?_, p6 hi.filled⟩
  · rw [← h1]
  · apply hi.heap_opened
    rw [← syncOpen_entries ol grid, p5, h1]
    exact Multiset.mem_cons_self _ _
  · rw [p2]; simp only [syncOpen_last]; omega
  · rw [← syncOpen_entries ol grid, p5, h1]

/-- The main loop of `findPath` ends, with a budget above the potential
`5 * (cells not closed) + (entries of the open list)`. -/
theorem findPathLoop_spec (F : JumpPointFinderBase) {grid0 : Grid} {S E : Coord} {fuel : Nat}
    (hfuel : grid0.fuelBound ≤ fuel) (k : Nat) :
    ∀ (grid : Grid) (ol : Heap Coord), SearchInv grid0 S E fuel (fun _ _ => False) grid ol →
      5 * grid.openCount + ol.last < k →
      ∃ path gridF, findPathLoop F E fuel k grid ol = .ok (path, gridF) ∧
        SearchEnd grid0 S E fuel path gridF := by
  have hfuel2 : grid0.width.toNat + grid0.height.toNat + 2 ≤ fuel := by
    unfold Grid.fuelBound at hfuel; omega
  induction k with
  | zero => intro grid ol _ h; omega
  | succ k ih =>
    intro grid ol hi hm
    unfold findPathLoop
    by_cases hemp : ol.isEmpty = true
    · rw [if_pos hemp]
      have hl : ol.last = 0 := by
        unfold Heap.isEmpty at hemp; simpa using hemp
      exact ⟨[], grid, rfl, SearchEnd.exhausted ol rfl hi hl⟩
    rw [if_neg hemp]
    have hl : 1 ≤ ol.last := by
      unfold Heap.isEmpty at hemp
      simp only [beq_iff_eq] at hemp
      omega
    obtain ⟨c0, ol1, hpop, hc0, hl1, hent, hfil⟩ := hi.pop hl
    rw [hpop]
    simp only
    by_cases hE : c0 = E
    · rw [if_pos hE]
      subst hE
      obtain ⟨chain, path, hb, he, hres⟩ := hi.goal_found hc0 hfuel
        (grid.modify c0 (fun nd => { nd with closed := true }))
        (by
          intro c
          by_cases h : c = c0
          · subst h; rw [Grid.modify_nodes_same]
          · rw [Grid.modify_nodes_other _ _ h])
      rw [hb]
      simp only
      rw [he]
      exact ⟨path, _, rfl, SearchEnd.found grid ol hi hc0 rfl hres⟩
    rw [if_neg hE]
    have hcl := hi.close hc0 hE hent hfil
    have hin0 : grid.isInside c0.1 c0.2 = true := by
      rw [Grid.isInside_congr hi.sameMap.1 hi.sameMap.2.1]
      exact hi.opened_inside c0 hc0
    have hc1 : ((grid.modify c0 (fun nd => { nd with closed := true })).nodes c0).closed =
        true := by rw [Grid.modify_nodes_same]
    unfold _identifySuccessors
    by_cases hbefore : (grid.nodes c0).closed = true
    · -- a second extraction of a closed node
      have hi1 : SearchInv grid0 S E fuel (fun _ _ => False)
          (grid.modify c0 (fun nd => { nd with closed := true })) ol1 :=
        hcl.weaken (by
          intro c n _ h
          rw [hbefore] at h
          exact absurd h.2.1 (by simp))
      obtain ⟨g2, hs2, hag2⟩ := SearchInv.successorLoop_again F hfuel2 _ _ ol1 hi1 hc1
        (fun m hm => hm)
      rw [hs2]
      simp only
      have hi2 := hi1.of_agree hag2
      apply ih g2 ol1 hi2
      have hcount : g2.openCount = grid.openCount := by
        apply Grid.openCount_congr (hi2.sameMap.1.trans hi.sameMap.1.symm)
          (hi2.sameMap.2.1.trans hi.sameMap.2.1.symm)
        intro c
        rw [(hag2.2.2 c).2.2.2.2.2.2]
        by_cases h : c = c0
        · subst h; rw [Grid.modify_nodes_same, hbefore]
        · rw [Grid.modify_nodes_other _ _ h]
      omega
    · -- the first extraction
      have hb2 : (grid.nodes c0).closed = false := by simpa using hbefore
      have hi1 : SearchInv grid0 S E fuel (fun c m => c = c0 ∧
          m ∈ _findNeighbors (grid.modify c0 (fun nd => { nd with closed := true })) c0)
          (grid.modify c0 (fun nd => { nd with closed := true })) ol1 :=
        hcl.weaken (by
          intro c n h1 h2
          exact h1 ⟨h2.1, h2.2.2⟩)
      obtain ⟨g2, ol2, hs2, hi2, hl2, hc2⟩ := SearchInv.successorLoop F hfuel2 _ _ ol1 hi1 hc1
        (fun m hm => hm)
      rw [hs2]
      simp only
      apply ih g2 ol2 hi2
      have hcount : g2.openCount + 1 = grid.openCount := by
        rw [← Grid.openCount_close hin0 hb2]
        congr 1
        exact Grid.openCount_congr (hi2.sameMap.1.trans hi1.sameMap.1.symm)
          (hi2.sameMap.2.1.trans hi1.sameMap.2.1.symm) hc2
      have := findNeighbors_length (grid.modify c0 (fun nd => { nd with closed := true })) c0
      omega

/-- The state in which `findPath` enters its loop satisfies the invariant. -/
theorem SearchInv.initial {grid0 : Grid} {S E : Coord} (fuel : Nat)
    (h0 : grid0.NoSearchState) (hS : grid0.isInside S.1 S.2 = true) :
    SearchInv grid0 S E fuel (fun _ _ => False)
      ((grid0.modify S (fun n => { n with g := some 0, f := some 0 })).modify S
        (fun n => { n with opened := true }))
      ((syncOpen (Heap.new none (compareF grid0))
        (grid0.modify S (fun n => { n with g := some 0, f := some 0 }))).push S) := by
  have hn : ∀ c, c ≠ S → ((grid0.modify S (fun n => { n with g := some 0, f := some 0 })).modify S
      (fun n => { n with opened := true })).nodes c = grid0.nodes c := by
    intro c hc
    rw [Grid.modify_nodes_other _ _ hc, Grid.modify_nodes_other _ _ hc]
  have hs : ((grid0.modify S (fun n => { n with g := some 0, f := some 0 })).modify S
      (fun n => { n with opened := true })).nodes S =
      { grid0.nodes S with g := some 0, f := some 0, opened := true } := by
    rw [Grid.modify_nodes_same, Grid.modify_nodes_same]
  have hop : ∀ c, (((grid0.modify S (fun n => { n with g := some 0, f := some 0 })).modify S
      (fun n => { n with opened := true })).nodes c).opened = true → c = S := by
    intro c hc
    by_contra h
    rw [hn c h, (h0 c).2.2.2.2.1] at hc
    cases hc
  have hcl : ∀ c, (((grid0.modify S (fun n => { n with g := some 0, f := some 0 })).modify S
      (fun n => { n with opened := true })).nodes c).closed = false := by
    intro c
    by_cases h : c = S
    · subst h; rw [hs]; exact (h0 c).2.2.2.2.2
    · rw [hn c h]; exact (h0 c).2.2.2.2.2
  obtain ⟨p1, _, _, p4, p5⟩ := Heap.push_content
    (syncOpen (Heap.new none (compareF grid0))
      (grid0.modify S (fun n => { n with g := some 0, f := some 0 }))) S
  have hent : ((syncOpen (Heap.new none (compareF grid0))
      (grid0.modify S (fun n => { n with g := some 0, f := some 0 }))).push S).entries =
      {some S} := by
    rw [p4]
    simp only [syncOpen_entries, Heap.new_entries]
    rfl
  refine ⟨?_, ?_, ?_, ?_, ?_, ?_, ?_, ?_, ?_, ?_, ?_, ?_, ?_, ?_⟩
  · exact (Grid.modify_sameMap _ _ _ rfl).trans_map (Grid.modify_sameMap _ _ _ rfl)
  · rw [hs]
  · rw [hs]; exact (h0 S).2.2.2.1
  · rw [hs]
  · right; exact hop
  · intro c hc
    rw [hop c hc, hs]
    exact ⟨0, rfl⟩
  · intro c hc
    rw [hcl c] at hc; cases hc
  · intro c hc
    rw [hop c hc]; exact hS
  · intro c hc hcs
    exact absurd (hop c hc) hcs
  · exact p5 (syncOpen_filled _ (Heap.new_filled _ _))
  · intro c hc
    rw [hent] at hc
    have : c = S := by simpa using hc
    rw [this, hs]
  · intro c hc _
    rw [hop c hc, hent]
    simp
  · exact hcl E
  · intro c hc
    rw [hcl c] at hc; cases hc

/-- The method `findPath` on a grid without search state returns, whatever the finder
options, once the budget reaches `fuelBound`. -/
theorem findPath_spec (F : JumpPointFinderBase) {grid0 : Grid} {S E : Coord} {fuel : Nat}
    (h0 : grid0.NoSearchState) (hS : grid0.isInside S.1 S.2 = true)
    (hE : grid0.isInside E.1 E.2 = true) (hfuel : grid0.fuelBound ≤ fuel) :
    ∃ path gridF, findPath F fuel S.1 S.2 E.1 E.2 grid0 = .ok (path, gridF) ∧
      SearchEnd grid0 S E fuel path gridF := by
  unfold findPath
  simp only [hS, hE, Bool.not_true, Bool.or_self, Bool.false_eq_true, if_false, Prod.mk.eta]
  have hi := SearchInv.initial (E := E) fuel h0 hS
  apply findPathLoop_spec F hfuel fuel _ _ hi
  obtain ⟨p1, _⟩ := Heap.push_content
    (syncOpen (Heap.new none (compareF grid0))
      (grid0.modify S (fun n => { n with g := some 0, f := some 0 }))) S
  rw [p1]
  simp only [syncOpen_last, Heap.new_last]
  have := Grid.openCount_le ((grid0.modify S (fun n => { n with g := some 0, f := some 0 })).modify
    S (fun n => { n with opened := true }))
  simp only [Grid.modify_width, Grid.modify_height] at this
  unfold Grid.fuelBound at hfuel
  omega


/-- The scan relation is functional. -/
theorem Jump.det {grid : Grid} {E : Coord} {x y px py : Int} {r1 : Option Coord}
    (h1 : Jump grid E x y px py r1) : ∀ {r2 : Option Coord}, Jump grid E x y px py r2 →
      r1 = r2 := by
  induction h1 with
  | blocked hw =>
    intro r2 h2
    cases h2 <;> simp_all
  | goal hw hE =>
    intro r2 h2
    cases h2 <;> simp_all
  | turnH hw hE hdx hf =>
    intro r2 h2
    cases h2 <;> simp_all
  | contH hw hE hdx hf hn ih =>
    intro r2 h2
    cases h2 with
    | contH _ _ _ _ h => exact ih h
    | _ => simp_all
  | turnV hw hE hdx hdy hf =>
    intro r2 h2
    cases h2 <;> simp_all
  | branchR hw hE hdx hdy hf hR ihR =>
    intro r2 h2
    cases h2 with
    | branchL _ _ _ _ _ h _ => exact absurd (ihR h) (by simp)
    | contV _ _ _ _ _ h _ _ => exact absurd (ihR h) (by simp)
    | _ => simp_all
  | branchL hw hE hdx hdy hf hR hL ihR ihL =>
    intro r2 h2
    cases h2 with
    | branchR _ _ _ _ _ h => exact absurd (ihR h) (by simp)
    | contV _ _ _ _ _ _ h _ => exact absurd (ihL h) (by simp)
    | _ => simp_all
  | contV hw hE hdx hdy hf hR hL hn ihR ihL ih =>
    intro r2 h2
    cases h2 with
    | branchR _ _ _ _ _ h => exact absurd (ihR h) (by simp)
    | branchL _ _ _ _ _ _ h => exact absurd (ihL h) (by simp)
    | contV _ _ _ _ _ _ _ h => exact ih h
    | _ => simp_all

/-- Every scan in a unit direction returns. -/
theorem Jump.total (grid : Grid) (E : Coord) (x y px py : Int)
    (hd : UnitDir (x - px) (y - py)) : ∃ r, Jump grid E x y px py r := by
  obtain ⟨r, hr⟩ := jumpPt_total grid E (grid.width.toNat + grid.height.toNat + 2)
    (le_refl _) x y px py hd
  exact ⟨r, jumpPt_sound grid E _ x y px py r hr⟩

/-- With enough fuel `jumpPt` computes the scan relation. -/
theorem jumpPt_eq_of_jump {grid : Grid} {E : Coord} {fuel : Nat} {x y px py : Int}
    {r : Option Coord} (hfuel : grid.width.toNat + grid.height.toNat + 2 ≤ fuel)
    (hd : UnitDir (x - px) (y - py)) (h : Jump grid E x y px py r) :
    jumpPt grid E fuel x y px py = .ok r := by
  obtain ⟨r2, hr⟩ := jumpPt_total grid E fuel hfuel x y px py hd
  rw [hr, (jumpPt_sound grid E _ x y px py r2 hr).det h]

theorem cell_zero (a : Coord) (dx dy : Int) : cell a dx dy 0 = a := by
  simp [cell]

theorem cell_succ (a : Coord) (dx dy : Int) (i : Nat) :
    cell a dx dy (i + 1) = ((cell a dx dy i).1 + dx, (cell a dx dy i).2 + dy) := by
  simp only [cell, Nat.cast_add, Nat.cast_one, Prod.mk.injEq]
  constructor <;> ring

theorem cell_succ_left (a : Coord) (dx dy : Int) (i : Nat) :
    cell a dx dy (i + 1) = cell (a.1 + dx, a.2 + dy) dx dy i := by
  simp only [cell, Nat.cast_add, Nat.cast_one, Prod.mk.injEq]
  constructor <;> ring

theorem cell_add (a : Coord) (dx dy : Int) (i k : Nat) :
    cell (cell a dx dy i) dx dy k = cell a dx dy (i + k) := by
  simp only [cell, Nat.cast_add, Prod.mk.injEq]
  constructor <;> ring

theorem Scan.next_iff {grid : Grid} {E : Coord} {dx dy : Int} {a : Coord} {r : Option Coord} :
    Scan grid E dx dy (a.1 + dx, a.2 + dy) r ↔ Jump grid E (a.1 + dx) (a.2 + dy) a.1 a.2 r := by
  unfold Scan
  simp only [add_sub_cancel_right]

theorem Scan.blocked {grid : Grid} {E : Coord} {dx dy : Int} {a : Coord}
    (hw : grid.isWalkableAt a.1 a.2 = false) : Scan grid E dx dy a none :=
  Jump.blocked hw

/-- A scan that runs over a cell returns what the scan from the next cell returns. -/
theorem Scan.pass {grid : Grid} {E : Coord} {dx dy : Int} {a : Coord} {r : Option Coord}
    (hd : UnitDir dx dy) (hp : Pass grid E dx dy a)
    (h : Scan grid E dx dy (a.1 + dx, a.2 + dy) r) : Scan grid E dx dy a r := by
  rw [Scan.next_iff] at h
  unfold Scan
  have e1 : a.1 - (a.1 - dx) = dx := by omega
  have e2 : a.2 - (a.2 - dy) = dy := by omega
  have hE : (a.1, a.2) ≠ E := by simpa using hp.2.1
  rcases hp.2.2 with ⟨hdx, hf⟩ | ⟨hdx, hf, hR, hL⟩
  · exact Jump.contH hp.1 hE (by rw [e1]; exact hdx) (by rw [e1]; exact hf)
      (by rw [e1, e2]; exact h)
  · have hdy : dy ≠ 0 := by
      rcases hd with ⟨h1, _⟩ | ⟨_, h2⟩ <;> omega
    exact Jump.contV hp.1 hE (by rw [e1]; exact hdx) (by rw [e2]; exact hdy)
      (by rw [e2]; exact hf) hR hL (by rw [e1, e2]; exact h)

/-- A scan stops at a walkable cell that it does not run over. -/
theorem Scan.stop {grid : Grid} {E : Coord} {dx dy : Int} {a : Coord}
    (hd : UnitDir dx dy) (hw : grid.isWalkableAt a.1 a.2 = true)
    (hp : ¬ Pass grid E dx dy a) : Scan grid E dx dy a (some a) := by
  unfold Scan
  have e1 : a.1 - (a.1 - dx) = dx := by omega
  have e2 : a.2 - (a.2 - dy) = dy := by omega
  have ha : (a.1, a.2) = a := rfl
  by_cases hE : (a.1, a.2) = E
  · have := @Jump.goal grid E a.1 a.2 (a.1 - dx) (a.2 - dy) hw hE
    rwa [ha] at this
  have hE2 : a ≠ E := by simpa using hE
  by_cases hdx : dx ≠ 0
  · by_cases hf : forcedH grid a.1 a.2 dx = true
    · have := @Jump.turnH grid E a.1 a.2 (a.1 - dx) (a.2 - dy) hw hE (by rw [e1]; exact hdx)
        (by rw [e1]; exact hf)
      rwa [ha] at this
    · exact absurd ⟨hw, hE2, Or.inl ⟨hdx, by simpa using hf⟩⟩ hp
  · have hdx0 : dx = 0 := by simpa using hdx
    have hdy : dy ≠ 0 := by
      rcases hd with ⟨h1, _⟩ | ⟨_, h2⟩ <;> omega
    by_cases hf : forcedV grid a.1 a.2 dy = true
    · have := @Jump.turnV grid E a.1 a.2 (a.1 - dx) (a.2 - dy) hw hE (by rw [e1]; exact hdx0)
        (by rw [e2]; exact hdy) (by rw [e2]; exact hf)
      rwa [ha] at this
    · have hf2 : forcedV grid a.1 a.2 dy = false := by simpa using hf
      obtain ⟨r1, h1⟩ := Jump.total grid E (a.1 + 1) a.2 a.1 a.2
        (Or.inl ⟨Or.inl (by omega), by omega⟩)
      obtain ⟨r2, h2⟩ := Jump.total grid E (a.1 - 1) a.2 a.1 a.2
        (Or.inl ⟨Or.inr (by omega), by omega⟩)
      cases r1 with
      | some j =>
        have := @Jump.branchR grid E a.1 a.2 (a.1 - dx) (a.2 - dy) j hw hE
          (by rw [e1]; exact hdx0) (by rw [e2]; exact hdy) (by rw [e2]; exact hf2) h1
        rwa [ha] at this
      | none =>
        cases r2 with
        | some j =>
          have := @Jump.branchL grid E a.1 a.2 (a.1 - dx) (a.2 - dy) j hw hE
            (by rw [e1]; exact hdx0) (by rw [e2]; exact hdy) (by rw [e2]; exact hf2) h1 h2
          rwa [ha] at this
        | none => exact absurd ⟨hw, hE2, Or.inr ⟨hdx0, hf2, h1, h2⟩⟩ hp

/-- The three ways a scan in a unit direction treats the cell it enters. -/
theorem Scan.cases_on_cell {grid : Grid} {E : Coord} {dx dy : Int} {a : Coord}
    {r : Option Coord} (hd : UnitDir dx dy) (h : Scan grid E dx dy a r) :
    (grid.isWalkableAt a.1 a.2 = false ∧ r = none) ∨
    (grid.isWalkableAt a.1 a.2 = true ∧ ¬ Pass grid E dx dy a ∧ r = some a) ∨
    (Pass grid E dx dy a ∧ Scan grid E dx dy (a.1 + dx, a.2 + dy) r) := by
  by_cases hw : grid.isWalkableAt a.1 a.2 = true
  · by_cases hp : Pass grid E dx dy a
    · refine Or.inr (Or.inr ⟨hp, ?_⟩)
      obtain ⟨r2, h2⟩ := Jump.total grid E (a.1 + dx) (a.2 + dy) a.1 a.2
        (by simpa only [add_sub_cancel_left] using hd)
      have h3 := Scan.pass hd hp (Scan.next_iff.2 h2)
      have : r = r2 := Jump.det h h3
      rw [this]
      exact Scan.next_iff.2 h2
    · exact Or.inr (Or.inl ⟨hw, hp, Jump.det h (Scan.stop hd hw hp)⟩)
  · have hw2 : grid.isWalkableAt a.1 a.2 = false := by simpa using hw
    exact Or.inl ⟨hw2, Jump.det h (Scan.blocked hw2)⟩

/-- A scan over a run of cells that it runs over returns what the scan from the end of the
run returns. -/
theorem Scan.run {grid : Grid} {E : Coord} {dx dy : Int} {a : Coord} {r : Option Coord}
    (hd : UnitDir dx dy) : ∀ i : Nat, (∀ t, t < i → Pass grid E dx dy (cell a dx dy t)) →
      Scan grid E dx dy (cell a dx dy i) r → Scan grid E dx dy a r := by
  intro i
  induction i with
  | zero => intro _ h; rwa [cell_zero] at h
  | succ i ih =>
    intro hp h
    apply ih (fun t ht => hp t (by omega))
    apply Scan.pass hd (hp i (by omega))
    rwa [cell_succ] at h

/-- A jump point lies ahead of the scan, the cells before it are run over, and the scan
does not run over the jump point. -/
theorem Scan.jump_point {grid : Grid} {E : Coord} {dx dy : Int} (hd : UnitDir dx dy)
    {a j : Coord} (h : Scan grid E dx dy a (some j)) :
    ∃ i : Nat, j = cell a dx dy i ∧ (∀ t, t < i → Pass grid E dx dy (cell a dx dy t)) ∧
      grid.isWalkableAt j.1 j.2 = true ∧ ¬ Pass grid E dx dy j := by
  have e1 : a.1 - (a.1 - dx) = dx := by omega
  have e2 : a.2 - (a.2 - dy) = dy := by omega
  obtain ⟨k, hk, _⟩ := Jump.geometry h j rfl (by rw [e1, e2]; exact hd)
  rw [e1, e2] at hk
  have key : ∀ (k : Nat) (a : Coord), Scan grid E dx dy a (some (cell a dx dy k)) →
      (∀ t, t < k → Pass grid E dx dy (cell a dx dy t)) ∧
      grid.isWalkableAt (cell a dx dy k).1 (cell a dx dy k).2 = true ∧
      ¬ Pass grid E dx dy (cell a dx dy k) := by
    intro k
    induction k with
    | zero =>
      intro a h
      rw [cell_zero] at h ⊢
      rcases Scan.cases_on_cell hd h with ⟨_, h2⟩ | ⟨hw, hp, _⟩ | ⟨hp, h2⟩
      · simp at h2
      · exact ⟨fun t ht => by omega, hw, hp⟩
      · exfalso
        have e3 : (a.1 + dx, a.2 + dy).1 - ((a.1 + dx, a.2 + dy).1 - dx) = dx := by omega
        have e4 : (a.1 + dx, a.2 + dy).2 - ((a.1 + dx, a.2 + dy).2 - dy) = dy := by omega
        obtain ⟨m, hm, _⟩ := Jump.geometry h2 a rfl (by rw [e3, e4]; exact hd)
        rw [e3, e4] at hm
        have h3 := congrArg Prod.fst hm
        have h4 := congrArg Prod.snd hm
        simp only at h3 h4
        rcases hd with ⟨h5 | h5, _⟩ | ⟨_, h5 | h5⟩ <;> subst h5 <;> omega
    | succ k ih =>
      intro a h
      rcases Scan.cases_on_cell hd h with ⟨_, h2⟩ | ⟨hw, hp, h2⟩ | ⟨hp, h2⟩
      · simp at h2
      · exfalso
        simp only [Option.some.injEq] at h2
        have h3 := congrArg Prod.fst h2
        have h4 := congrArg Prod.snd h2
        simp only [cell] at h3 h4
        push_cast at h3 h4
        rcases hd with ⟨h5 | h5, _⟩ | ⟨_, h5 | h5⟩ <;> subst h5 <;> omega
      · rw [cell_succ_left] at h2 ⊢
        obtain ⟨i1, i2, i3⟩ := ih _ h2
        refine ⟨?_, i2, i3⟩
        intro t ht
        cases t with
        | zero => rwa [cell_zero]
        | succ t => rw [cell_succ_left]; exact i1 t (by omega)
  have hj : j = cell a dx dy k := hk
  subst hj
  exact ⟨k, rfl, key k a h⟩

/-- A scan that returns `null` runs over every cell of the walkable run ahead of it. -/
theorem Scan.null_run {grid : Grid} {E : Coord} {dx dy : Int} (hd : UnitDir dx dy) :
    ∀ (i : Nat) (a : Coord), Scan grid E dx dy a none →
      (∀ t, t ≤ i → grid.isWalkableAt (cell a dx dy t).1 (cell a dx dy t).2 = true) →
      ∀ t, t ≤ i → Pass grid E dx dy (cell a dx dy t) := by
  intro i
  induction i with
  | zero =>
    intro a h hw t ht
    have ht0 : t = 0 := by omega
    subst ht0
    have hw0 := hw 0 (le_refl _)
    rw [cell_zero] at hw0 ⊢
    rcases Scan.cases_on_cell hd h with ⟨h1, _⟩ | ⟨_, _, h2⟩ | ⟨hp, _⟩
    · rw [hw0] at h1; simp at h1
    · simp at h2
    · exact hp
  | succ i ih =>
    intro a h hw t ht
    have hw0 := hw 0 (by omega)
    rw [cell_zero] at hw0
    rcases Scan.cases_on_cell hd h with ⟨h1, _⟩ | ⟨_, _, h2⟩ | ⟨hp, h2⟩
    · rw [hw0] at h1; simp at h1
    · simp at h2
    · cases t with
      | zero => rwa [cell_zero]
      | succ t =>
        rw [cell_succ_left]
        apply ih _ h2 _ t (by omega)
        intro t2 ht2
        rw [← cell_succ_left]
        exact hw (t2 + 1) (by omega)


theorem cell_one (a : Coord) (dx dy : Int) : cell a dx dy 1 = (a.1 + dx, a.2 + dy) := by
  simp [cell]

/-- Without a parent, `_findNeighbors` lists every walkable neighbour. -/
theorem findNeighbors_of_no_parent {grid : Grid} {c n : Coord}
    (hp : (grid.nodes c).parent = none) (hd : UnitDir (n.1 - c.1) (n.2 - c.2))
    (hw : grid.isWalkableAt n.1 n.2 = true) : n ∈ _findNeighbors grid c := by
  unfold _findNeighbors
  rw [hp]
  unfold Grid.getWalkableNeighbors
  simp only [List.nil_append]
  have hn : n = (c.1 + 1, c.2) ∨ n = (c.1 - 1, c.2) ∨ n = (c.1, c.2 + 1) ∨
      n = (c.1, c.2 - 1) := by
    rcases hd with ⟨h1 | h1, h2⟩ | ⟨h1, h2 | h2⟩
    · left; exact Prod.ext (by simp; omega) (by simp; omega)
    · right; left; exact Prod.ext (by simp; omega) (by simp; omega)
    · right; right; left; exact Prod.ext (by simp; omega) (by simp; omega)
    · right; right; right; exact Prod.ext (by simp; omega) (by simp; omega)
  rcases hn with h | h | h | h <;> subst h <;> simp only at hw <;>
    split_ifs <;> simp_all

theorem mem_findNeighbors_H {grid : Grid} {c p n : Coord} {s : Int}
    (hp : (grid.nodes c).parent = some p) (hs : (c.1 - p.1) / max |c.1 - p.1| 1 = s)
    (hs0 : s ≠ 0) (hw : grid.isWalkableAt n.1 n.2 = true)
    (hn : n = (c.1, c.2 - 1) ∨ n = (c.1, c.2 + 1) ∨ n = (c.1 + s, c.2)) :
    n ∈ _findNeighbors grid c := by
  unfold _findNeighbors
  rw [hp]
  simp only [hs, List.nil_append, if_pos hs0]
  rcases hn with h | h | h <;> subst h <;> simp only at hw <;> simp only [hw, if_true] <;>
    split_ifs <;> simp

theorem mem_findNeighbors_V {grid : Grid} {c p n : Coord} {s : Int}
    (hp : (grid.nodes c).parent = some p) (hs1 : (c.1 - p.1) / max |c.1 - p.1| 1 = 0)
    (hs : (c.2 - p.2) / max |c.2 - p.2| 1 = s)
    (hs0 : s ≠ 0) (hw : grid.isWalkableAt n.1 n.2 = true)
    (hn : n = (c.1 - 1, c.2) ∨ n = (c.1 + 1, c.2) ∨ n = (c.1, c.2 + s)) :
    n ∈ _findNeighbors grid c := by
  unfold _findNeighbors
  rw [hp]
  have h0 : ¬ ((0 : Int) ≠ 0) := by simp
  simp only [hs1, hs, List.nil_append, if_neg h0, if_pos hs0]
  rcases hn with h | h | h <;> subst h <;> simp only at hw <;> simp only [hw, if_true] <;>
    split_ifs <;> simp

/-- With a parent, `_findNeighbors` lists every walkable neighbour except the one towards
the parent. -/
theorem findNeighbors_of_parent {grid : Grid} {c p n : Coord} {d1 d2 : Int} {j : Nat}
    (hp : (grid.nodes c).parent = some p) (hd1 : UnitDir d1 d2) (hj : 1 ≤ j)
    (hc : c = cell p d1 d2 j) (hd : UnitDir (n.1 - c.1) (n.2 - c.2))
    (hw : grid.isWalkableAt n.1 n.2 = true) :
    n ∈ _findNeighbors grid c ∨ (n.1 - c.1 = -d1 ∧ n.2 - c.2 = -d2) := by
  have h1 : c.1 - p.1 = j * d1 := by rw [hc]; simp [cell]
  have h2 : c.2 - p.2 = j * d2 := by rw [hc]; simp [cell]
  have hj0 : (1 : Int) ≤ j := by exact_mod_cast hj
  rcases hd1 with ⟨h3, h4⟩ | ⟨h3, h4⟩
  · -- the parent lies on the same row
    subst h4
    have hs : (c.1 - p.1) / max |c.1 - p.1| 1 = d1 := by
      rcases sign_div_cases (c.1 - p.1) with ⟨ha0, ha⟩ | ⟨ha0, ha⟩ | ⟨ha0, ha⟩ <;>
        rcases h3 with h3 | h3 <;> subst h3 <;> omega
    have hs0 : d1 ≠ 0 := by omega
    by_cases hb : n.1 - c.1 = -d1 ∧ n.2 - c.2 = -0
    · exact Or.inr hb
    · left
      apply mem_findNeighbors_H hp hs hs0 hw
      rcases hd with ⟨h5, h6⟩ | ⟨h5, h6⟩
      · right; right
        apply Prod.ext
        · simp only; rcases h5 with h5 | h5 <;> rcases h3 with h3 | h3 <;> omega
        · simp only; omega
      · rcases h6 with h6 | h6
        · right; left; exact Prod.ext (by simp only; omega) (by simp only; omega)
        · left; exact Prod.ext (by simp only; omega) (by simp only; omega)
  · -- the parent lies on the same column
    subst h3
    have hs1 : (c.1 - p.1) / max |c.1 - p.1| 1 = 0 := by
      rcases sign_div_cases (c.1 - p.1) with ⟨ha0, ha⟩ | ⟨ha0, ha⟩ | ⟨ha0, ha⟩ <;> omega
    have hs : (c.2 - p.2) / max |c.2 - p.2| 1 = d2 := by
      rcases sign_div_cases (c.2 - p.2) with ⟨ha0, ha⟩ | ⟨ha0, ha⟩ | ⟨ha0, ha⟩ <;>
        rcases h4 with h4 | h4 <;> subst h4 <;> omega
    have hs0 : d2 ≠ 0 := by omega
    by_cases hb : n.1 - c.1 = -0 ∧ n.2 - c.2 = -d2
    · exact Or.inr hb
    · left
      apply mem_findNeighbors_V hp hs1 hs hs0 hw
      rcases hd with ⟨h5, h6⟩ | ⟨h5, h6⟩
      · rcases h5 with h5 | h5
        · right; left; exact Prod.ext (by simp only; omega) (by simp only; omega)
        · left; exact Prod.ext (by simp only; omega) (by simp only; omega)
      · right; right
        apply Prod.ext
        · simp only; omega
        · simp only; rcases h6 with h6 | h6 <;> rcases h4 with h4 | h4 <;> omega


theorem Pass.walkable {grid : Grid} {E : Coord} {dx dy : Int} {a : Coord}
    (h : Pass grid E dx dy a) : grid.isWalkableAt a.1 a.2 = true := h.1

theorem Pass.forcedH_false {grid : Grid} {E : Coord} {s : Int} {a : Coord}
    (h : Pass grid E s 0 a) (hs : s ≠ 0) : forcedH grid a.1 a.2 s = false := by
  rcases h.2.2 with ⟨_, hf⟩ | ⟨h0, _⟩
  · exact hf
  · exact absurd h0 hs

theorem Pass.side_null {grid : Grid} {E : Coord} {dy : Int} {a : Coord}
    (h : Pass grid E 0 dy a) (s : Int) (hs : s = 1 ∨ s = -1) :
    Scan grid E s 0 (cell a s 0 1) none := by
  rcases h.2.2 with ⟨h0, _⟩ | ⟨_, _, hR, hL⟩
  · exact absurd rfl h0
  · rw [cell_one, Scan.next_iff]
    rcases hs with hs | hs <;> subst hs
    · simpa using hR
    · simpa [← sub_eq_add_neg] using hL

namespace Exhausted

variable {grid0 gridF : Grid} {S E : Coord}

theorem walkable_iff (hx : Exhausted grid0 gridF S E) (x y : Int) :
    gridF.isWalkableAt x y = grid0.isWalkableAt x y :=
  hx.sameMap.isWalkableAt_eq x y

/-- The scan from a closed node through a listed neighbour stops at a closed node. -/
theorem stop_closed (hx : Exhausted grid0 gridF S E) {c : Coord} {dx dy : Int} {k : Nat}
    (hc : (gridF.nodes c).closed = true) (hd : UnitDir dx dy) (hk : 1 ≤ k)
    (hn : (c.1 + dx, c.2 + dy) ∈ _findNeighbors gridF c)
    (hp : ∀ t, 1 ≤ t → t < k → Pass grid0 E dx dy (cell c dx dy t))
    (hw : grid0.isWalkableAt (cell c dx dy k).1 (cell c dx dy k).2 = true)
    (hs : ¬ Pass grid0 E dx dy (cell c dx dy k)) :
    (gridF.nodes (cell c dx dy k)).closed = true := by
  obtain ⟨m, hm⟩ : ∃ m, k = 1 + m := Nat.exists_eq_add_of_le hk
  subst hm
  have h1 : Scan grid0 E dx dy (cell c dx dy (1 + m)) (some (cell c dx dy (1 + m))) :=
    Scan.stop hd hw hs
  rw [← cell_add] at h1
  have h2 := Scan.run hd m (fun t ht => by rw [cell_add]; exact hp (1 + t) (by omega) (by omega))
    h1
  rw [cell_one, Scan.next_iff] at h2
  rw [← cell_add, cell_one]
  exact hx.expanded c hc _ hn _ h2

/-- A closed node other than the start lies on a scan from its closed parent. -/
theorem parent_scan (hx : Exhausted grid0 gridF S E) {c : Coord}
    (hc : (gridF.nodes c).closed = true) (hne : c ≠ S) :
    ∃ (p : Coord) (dx dy : Int) (i : Nat), UnitDir dx dy ∧ (gridF.nodes c).parent = some p ∧
      (gridF.nodes p).closed = true ∧ (p.1 + dx, p.2 + dy) ∈ _findNeighbors gridF p ∧
      1 ≤ i ∧ c = cell p dx dy i ∧ ∀ t, 1 ≤ t → t < i → Pass grid0 E dx dy (cell p dx dy t) := by
  obtain ⟨p, n, hp, hpc, hn, hj⟩ := hx.link c hc hne
  have hd := (findNeighbors_mem hn).1
  have en : n = (p.1 + (n.1 - p.1), p.2 + (n.2 - p.2)) :=
    Prod.ext (by simp only; omega) (by simp only; omega)
  have hj2 : Scan grid0 E (n.1 - p.1) (n.2 - p.2) (p.1 + (n.1 - p.1), p.2 + (n.2 - p.2))
      (some c) := by
    rw [Scan.next_iff]
    have e1 : p.1 + (n.1 - p.1) = n.1 := by omega
    have e2 : p.2 + (n.2 - p.2) = n.2 := by omega
    rw [e1, e2]
    exact hj
  obtain ⟨i, hi, hpass, _, _⟩ := Scan.jump_point hd hj2
  refine ⟨p, n.1 - p.1, n.2 - p.2, i + 1, hd, hp, hpc, ?_, by omega, ?_, ?_⟩
  · rw [← en]; exact hn
  · rw [hi, ← cell_one, cell_add, add_comm]
  · intro t ht1 ht2
    obtain ⟨t2, ht⟩ : ∃ t2, t = 1 + t2 := Nat.exists_eq_add_of_le ht1
    subst ht
    have := hpass t2 (by omega)
    rwa [← cell_one, cell_add] at this

/-- Every cell of the walkable run from a closed node, in any direction, is covered. -/
theorem ray (hx : Exhausted grid0 gridF S E) : ∀ (k : Nat) (c : Coord) (dx dy : Int),
    (gridF.nodes c).closed = true → UnitDir dx dy → 1 ≤ k →
    (∀ t, 1 ≤ t → t ≤ k → grid0.isWalkableAt (cell c dx dy t).1 (cell c dx dy t).2 = true) →
    Covered grid0 gridF E (cell c dx dy k) := by
  intro k
  induction k using Nat.strong_induction_on with
  | _ k ih =>
    intro c dx dy hc hd hk hw
    by_cases hn : (c.1 + dx, c.2 + dy) ∈ _findNeighbors gridF c
    · by_cases hall : ∀ t, 1 ≤ t → t ≤ k → Pass grid0 E dx dy (cell c dx dy t)
      · exact Or.inr (Or.inl ⟨dx, dy, hd, c, k, hc, hk, hn, rfl, hall⟩)
      · have hex : ∃ t, 1 ≤ t ∧ t ≤ k ∧ ¬ Pass grid0 E dx dy (cell c dx dy t) := by
          by_contra hcon
          apply hall
          intro t h1 h2
          by_contra h3
          exact hcon ⟨t, h1, h2, h3⟩
        classical
        have hspec := Nat.find_spec hex
        have hmin : ∀ t, 1 ≤ t → t < Nat.find hex → Pass grid0 E dx dy (cell c dx dy t) := by
          intro t h1 h2
          by_contra h3
          exact Nat.find_min hex h2 ⟨h1, by omega, h3⟩
        generalize Nat.find hex = t0 at hspec hmin
        obtain ⟨h1, h2, h3⟩ := hspec
        have hcl := hx.stop_closed hc hd h1 hn hmin (hw t0 h1 h2) h3
        by_cases hk0 : t0 = k
        · subst hk0; exact Or.inl hcl
        · obtain ⟨m, hm⟩ : ∃ m, k = t0 + m := Nat.exists_eq_add_of_le h2
          subst hm
          rw [← cell_add]
          apply ih m (by omega) _ dx dy hcl hd (by omega)
          intro t ht1 ht2
          rw [cell_add]
          exact hw _ (by omega) (by omega)
    · have hwn : gridF.isWalkableAt (c.1 + dx, c.2 + dy).1 (c.1 + dx, c.2 + dy).2 = true := by
        rw [hx.walkable_iff]
        have := hw 1 (le_refl _) hk
        rwa [cell_one] at this
      have hdn : UnitDir ((c.1 + dx, c.2 + dy).1 - c.1) ((c.1 + dx, c.2 + dy).2 - c.2) := by
        simpa only [add_sub_cancel_left] using hd
      have hne : c ≠ S := by
        intro h
        subst h
        exact hn (findNeighbors_of_no_parent hx.start_parent hdn hwn)
      obtain ⟨p, d1, d2, i, hd1, hp, hpc, hpn, hi, hci, hpass⟩ := hx.parent_scan hc hne
      rcases findNeighbors_of_parent hp hd1 hi hci hdn hwn with h | ⟨h1, h2⟩
      · exact absurd h hn
      · simp only [add_sub_cancel_left] at h1 h2
        subst h1
        subst h2
        rcases Nat.lt_trichotomy k i with hlt | heq | hgt
        · obtain ⟨m, hm⟩ : ∃ m, i = k + m := Nat.exists_eq_add_of_le (by omega)
          have e : cell c (-d1) (-d2) k = cell p d1 d2 m := by
            rw [hci, hm]
            simp only [cell, Nat.cast_add, Prod.mk.injEq]
            constructor <;> ring
          rw [e]
          exact Or.inr (Or.inl ⟨d1, d2, hd1, p, m, hpc, by omega, hpn, rfl,
            fun t ht1 ht2 => hpass t ht1 (by omega)⟩)
        · have e : cell c (-d1) (-d2) k = p := by
            rw [hci, heq]
            simp only [cell]
            exact Prod.ext (by simp) (by simp)
          rw [e]
          exact Or.inl hpc
        · obtain ⟨m, hm⟩ : ∃ m, k = i + m := Nat.exists_eq_add_of_le (by omega)
          have e : ∀ t : Nat, cell c (-d1) (-d2) (i + t) = cell p (-d1) (-d2) t := by
            intro t
            rw [hci]
            simp only [cell, Nat.cast_add, Prod.mk.injEq]
            constructor <;> ring
          rw [hm, e]
          apply ih m (by omega) p (-d1) (-d2) hpc hd (by omega)
          intro t ht1 ht2
          rw [← e]
          exact hw _ (by omega) (by omega)

end Exhausted


theorem cell_shift (b : Coord) (s σ : Int) (t : Nat) :
    cell (b.1, b.2 + σ) s 0 t = ((cell b s 0 t).1, (cell b s 0 t).2 + σ) := by
  simp only [cell, mul_zero, add_zero]

/-- Without a forced turn at `(x, y)`, a walkable cell above or below `(x, y)` has a
walkable cell behind it. -/
theorem forcedH_false_back {grid : Grid} {x y s σ : Int} (h : forcedH grid x y s = false)
    (hσ : σ = 1 ∨ σ = -1) (hw : grid.isWalkableAt x (y + σ) = true) :
    grid.isWalkableAt (x - s) (y + σ) = true := by
  unfold forcedH at h
  rcases hσ with h1 | h1 <;> subst h1
  · cases h2 : grid.isWalkableAt (x - s) (y + 1)
    · simp [hw, h2] at h
    · rfl
  · have e : y + -1 = y - 1 := by ring
    rw [e] at hw ⊢
    cases h2 : grid.isWalkableAt (x - s) (y - 1)
    · simp [hw, h2] at h
    · rfl

/-- Along a row of cells without forced turns, a walkable cell beside the end of the row has
walkable cells beside the whole row. -/
theorem ladder {grid : Grid} {b : Coord} {s σ : Int} (hσ : σ = 1 ∨ σ = -1) : ∀ m : Nat,
    (∀ t, 1 ≤ t → t ≤ m → forcedH grid (cell b s 0 t).1 (cell b s 0 t).2 s = false) →
    grid.isWalkableAt (cell b s 0 m).1 ((cell b s 0 m).2 + σ) = true →
    ∀ t, t ≤ m → grid.isWalkableAt (cell b s 0 t).1 ((cell b s 0 t).2 + σ) = true := by
  intro m
  induction m with
  | zero =>
    intro _ hw t ht
    have : t = 0 := by omega
    subst this
    exact hw
  | succ m ih =>
    intro hf hw t ht
    by_cases h : t = m + 1
    · subst h; exact hw
    · apply ih (fun t h1 h2 => hf t h1 (by omega)) _ t (by omega)
      have h1 := forcedH_false_back (hf (m + 1) (by omega) (le_refl _)) hσ hw
      have e1 : (cell b s 0 (m + 1)).1 - s = (cell b s 0 m).1 := by
        simp only [cell, Nat.cast_add, Nat.cast_one]; ring
      have e2 : (cell b s 0 (m + 1)).2 = (cell b s 0 m).2 := by
        simp only [cell, mul_zero]
      rwa [e1, e2] at h1

namespace Exhausted

variable {grid0 gridF : Grid} {S E : Coord}

theorem mainPass_forward (hx : Exhausted grid0 gridF S E) {dx dy : Int} {v : Coord}
    (hd : UnitDir dx dy) (hm : MainPass grid0 gridF E dx dy v)
    (hw : grid0.isWalkableAt (v.1 + dx) (v.2 + dy) = true) :
    Covered grid0 gridF E (v.1 + dx, v.2 + dy) := by
  obtain ⟨c, k, hc, hk, hn, hv, hp⟩ := hm
  have e : (v.1 + dx, v.2 + dy) = cell c dx dy (k + 1) := by rw [cell_succ, ← hv]
  rw [e]
  apply hx.ray (k + 1) c dx dy hc hd (by omega)
  intro t ht1 ht2
  by_cases h : t = k + 1
  · subst h; rw [← e]; exact hw
  · exact (hp t ht1 (by omega)).1

theorem mainPass_backward (_hx : Exhausted grid0 gridF S E) {dx dy : Int} {v : Coord}
    (hd : UnitDir dx dy) (hm : MainPass grid0 gridF E dx dy v) :
    Covered grid0 gridF E (v.1 - dx, v.2 - dy) := by
  obtain ⟨c, k, hc, hk, hn, hv, hp⟩ := hm
  obtain ⟨m, hm⟩ : ∃ m, k = m + 1 := ⟨k - 1, by omega⟩
  subst hm
  have e : (v.1 - dx, v.2 - dy) = cell c dx dy m := by
    rw [hv, cell_succ]
    exact Prod.ext (by simp) (by simp)
  rw [e]
  cases m with
  | zero => rw [cell_zero]; exact Or.inl hc
  | succ m =>
    exact Or.inr (Or.inl ⟨dx, dy, hd, c, m + 1, hc, by omega, hn, rfl,
      fun t h1 h2 => hp t h1 (by omega)⟩)

/-- A covered cell has its walkable left and right neighbours covered. -/
theorem covered_side (hx : Exhausted grid0 gridF S E) {v : Coord}
    (hv : Covered grid0 gridF E v) {s : Int} (hs : s = 1 ∨ s = -1)
    (hw : grid0.isWalkableAt (v.1 + s) v.2 = true) : Covered grid0 gridF E (v.1 + s, v.2) := by
  rcases hv with hc | ⟨dx, dy, hd, hm⟩ | ⟨u, s2, dy, m, hs2, hdy, hm, hm1, hvu, hwu⟩
  · have := hx.ray 1 v s 0 hc (Or.inl ⟨hs, rfl⟩) (le_refl _) (by
      intro t h1 h2
      have : t = 1 := by omega
      subst this
      rw [cell_one]
      simpa using hw)
    rw [cell_one] at this
    simpa using this
  · rcases hd with ⟨hdx, hdy⟩ | ⟨hdx, hdy⟩
    · subst hdy
      by_cases h : s = dx
      · subst h
        have := hx.mainPass_forward (Or.inl ⟨hdx, rfl⟩) hm (by simpa using hw)
        simpa using this
      · have hsd : dx = -s := by omega
        subst hsd
        have := hx.mainPass_backward (Or.inl ⟨hdx, rfl⟩) hm
        simpa using this
    · subst hdx
      refine Or.inr (Or.inr ⟨v, s, dy, 1, hs, hdy, hm, le_refl _, ?_, ?_⟩)
      · rw [cell_one]; simp
      · intro t h1 h2
        have : t = 1 := by omega
        subst this
        rw [cell_one]
        simpa using hw
  · by_cases h : s = s2
    · subst h
      refine Or.inr (Or.inr ⟨u, s, dy, m + 1, hs2, hdy, hm, by omega, ?_, ?_⟩)
      · rw [cell_succ, ← hvu]; simp
      · intro t h1 h2
        by_cases ht : t = m + 1
        · subst ht
          rw [cell_succ, ← hvu]
          simpa using hw
        · exact hwu t h1 (by omega)
    · have hsd : s2 = -s := by omega
      subst hsd
      obtain ⟨m2, hm2⟩ : ∃ m2, m = m2 + 1 := ⟨m - 1, by omega⟩
      subst hm2
      have e : (v.1 + s, v.2) = cell u (-s) 0 m2 := by
        rw [hvu, cell_succ]
        exact Prod.ext (by simp) (by simp)
      rw [e]
      cases m2 with
      | zero =>
        rw [cell_zero]
        exact Or.inr (Or.inl ⟨0, dy, Or.inr ⟨rfl, hdy⟩, hm⟩)
      | succ m3 =>
        exact Or.inr (Or.inr ⟨u, -s, dy, m3 + 1, hs2, hdy, hm, by omega, rfl,
          fun t h1 h2 => hwu t h1 (by omega)⟩)

/-- Every cell of the walkable run to the left or right of a covered cell is covered. -/
theorem covered_side_run (hx : Exhausted grid0 gridF S E) {b : Coord}
    (hb : Covered grid0 gridF E b) {s : Int} (hs : s = 1 ∨ s = -1) : ∀ m : Nat,
    (∀ t, 1 ≤ t → t ≤ m → grid0.isWalkableAt (cell b s 0 t).1 (cell b s 0 t).2 = true) →
    Covered grid0 gridF E (cell b s 0 m) := by
  intro m
  induction m with
  | zero => intro _; rw [cell_zero]; exact hb
  | succ m ih =>
    intro hw
    have h1 := ih (fun t h1 h2 => hw t h1 (by omega))
    have h2 := hw (m + 1) (by omega) (le_refl _)
    rw [cell_succ] at h2 ⊢
    simp only [add_zero] at h2 ⊢
    exact hx.covered_side h1 hs h2

/-- A cell beside a row of cells that scans ran over is covered when the cell beside the
start of the row is. -/
theorem covered_beside_row (hx : Exhausted grid0 gridF S E) {b v : Coord} {s σ : Int} {m : Nat}
    (hs : s = 1 ∨ s = -1) (hσ : σ = 1 ∨ σ = -1) (hv : v = cell b s 0 m)
    (hp : ∀ t, 1 ≤ t → t ≤ m → Pass grid0 E s 0 (cell b s 0 t))
    (hw : grid0.isWalkableAt v.1 (v.2 + σ) = true)
    (hbase : grid0.isWalkableAt b.1 (b.2 + σ) = true → Covered grid0 gridF E (b.1, b.2 + σ)) :
    Covered grid0 gridF E (v.1, v.2 + σ) := by
  have hf : ∀ t, 1 ≤ t → t ≤ m →
      forcedH grid0 (cell b s 0 t).1 (cell b s 0 t).2 s = false :=
    fun t h1 h2 => (hp t h1 h2).forcedH_false (by omega)
  have hl := ladder hσ m hf (by rw [← hv]; exact hw)
  have h0 := hl 0 (by omega)
  rw [cell_zero] at h0
  have := hx.covered_side_run (hbase h0) hs m (by
    intro t h1 h2
    rw [cell_shift]
    exact hl t h2)
  rw [cell_shift, ← hv] at this
  exact this

/-- A covered cell has its walkable neighbours above and below covered. -/
theorem covered_updown (hx : Exhausted grid0 gridF S E) {v : Coord}
    (hv : Covered grid0 gridF E v) {σ : Int} (hσ : σ = 1 ∨ σ = -1)
    (hw : grid0.isWalkableAt v.1 (v.2 + σ) = true) : Covered grid0 gridF E (v.1, v.2 + σ) := by
  have hvert : ∀ (u : Coord) (dy : Int), (dy = 1 ∨ dy = -1) → MainPass grid0 gridF E 0 dy u →
      grid0.isWalkableAt u.1 (u.2 + σ) = true → Covered grid0 gridF E (u.1, u.2 + σ) := by
    intro u dy hdy hm hwu
    by_cases h : σ = dy
    · subst h
      have := hx.mainPass_forward (Or.inr ⟨rfl, hdy⟩) hm (by simpa using hwu)
      simpa using this
    · have hsd : dy = -σ := by omega
      subst hsd
      have := hx.mainPass_backward (Or.inr ⟨rfl, hdy⟩) hm
      simpa using this
  rcases hv with hc | ⟨dx, dy, hd, hm⟩ | ⟨u, s2, dy, m, hs2, hdy, hm, hm1, hvu, hwu⟩
  · have := hx.ray 1 v 0 σ hc (Or.inr ⟨rfl, hσ⟩) (le_refl _) (by
      intro t h1 h2
      have : t = 1 := by omega
      subst this
      rw [cell_one]
      simpa using hw)
    rw [cell_one] at this
    simpa using this
  · rcases hd with ⟨hdx, hdy⟩ | ⟨hdx, hdy⟩
    · subst hdy
      obtain ⟨c, k, hc, hk, hn, hvc, hp⟩ := hm
      apply hx.covered_beside_row hdx hσ hvc hp hw
      intro h0
      have := hx.ray 1 c 0 σ hc (Or.inr ⟨rfl, hσ⟩) (le_refl _) (by
        intro t h1 h2
        have : t = 1 := by omega
        subst this
        rw [cell_one]
        simpa using h0)
      rw [cell_one] at this
      simpa using this
    · subst hdx
      exact hvert v dy hdy hm hw
  · have hpu : Pass grid0 E 0 dy u := by
      obtain ⟨c, k, hc, hk, hn, huc, hp⟩ := hm
      rw [huc]
      exact hp k hk (le_refl _)
    have hnull := hpu.side_null s2 hs2
    obtain ⟨m2, hm2⟩ : ∃ m2, m = 1 + m2 := Nat.exists_eq_add_of_le hm1
    have hp : ∀ t, 1 ≤ t → t ≤ m → Pass grid0 E s2 0 (cell u s2 0 t) := by
      intro t h1 h2
      obtain ⟨t2, ht2⟩ : ∃ t2, t = 1 + t2 := Nat.exists_eq_add_of_le h1
      subst ht2
      rw [← cell_add]
      apply Scan.null_run (Or.inl ⟨hs2, rfl⟩) m2 _ hnull _ t2 (by omega)
      intro t3 ht3
      rw [cell_add]
      exact hwu _ (by omega) (by omega)
    exact hx.covered_beside_row hs2 hσ hvu hp hw (hvert u dy hdy hm)

/-- The covered cells are closed under unit steps to walkable cells. -/
theorem covered_step (hx : Exhausted grid0 gridF S E) {v u : Coord}
    (hv : Covered grid0 gridF E v) (hs : UnitStep v u)
    (hw : grid0.isWalkableAt u.1 u.2 = true) : Covered grid0 gridF E u := by
  rcases hs with ⟨h1, h2⟩ | ⟨h1, h2⟩
  · have hs : u.1 - v.1 = 1 ∨ u.1 - v.1 = -1 := by
      rcases abs_eq (by norm_num : (0 : Int) ≤ 1) |>.1 h1 with h | h <;> omega
    have e : u = (v.1 + (u.1 - v.1), v.2) := Prod.ext (by simp) (by simp [h2])
    rw [e]
    apply hx.covered_side hv hs
    rw [e] at hw
    exact hw
  · have hs : u.2 - v.2 = 1 ∨ u.2 - v.2 = -1 := by
      rcases abs_eq (by norm_num : (0 : Int) ≤ 1) |>.1 h2 with h | h <;> omega
    have e : u = (v.1, v.2 + (u.2 - v.2)) := Prod.ext (by simp [h1]) (by simp)
    rw [e]
    apply hx.covered_updown hv hs
    rw [e] at hw
    exact hw

/-- The goal is not covered. -/
theorem covered_ne_goal (hx : Exhausted grid0 gridF S E) {v : Coord}
    (hv : Covered grid0 gridF E v) : v ≠ E := by
  rcases hv with hc | ⟨dx, dy, hd, c, k, hc, hk, hn, hvc, hp⟩ |
    ⟨u, s2, dy, m, hs2, hdy, hm, hm1, hvu, hwu⟩
  · intro h
    subst h
    rw [hx.goal_open] at hc
    exact absurd hc (by simp)
  · rw [hvc]
    exact (hp k hk (le_refl _)).2.1
  · have hpu : Pass grid0 E 0 dy u := by
      obtain ⟨c, k, hc, hk, hn, huc, hp⟩ := hm
      rw [huc]
      exact hp k hk (le_refl _)
    have hnull := hpu.side_null s2 hs2
    obtain ⟨m2, hm2⟩ : ∃ m2, m = 1 + m2 := Nat.exists_eq_add_of_le hm1
    subst hm2
    rw [hvu, ← cell_add]
    apply (Scan.null_run (Or.inl ⟨hs2, rfl⟩) m2 _ hnull _ m2 (le_refl _)).2.1
    intro t3 ht3
    rw [cell_add]
    exact hwu _ (by omega) (by omega)

/-- Every cell that a walk from the start reaches is covered. -/
theorem covered_of_reach (hx : Exhausted grid0 gridF S E) {t : Coord}
    (h : Reach grid0 S t) : Covered grid0 gridF E t := by
  induction h with
  | start _ => exact Or.inl hx.start_closed
  | step _ hs hw ih => exact hx.covered_step ih hs hw

/-- A search does not run out of open nodes while the goal can be reached. -/
theorem not_reach (hx : Exhausted grid0 gridF S E) : ¬ Reach grid0 S E :=
  fun h => hx.covered_ne_goal (hx.covered_of_reach h) rfl

end Exhausted


/-! ## Heap: main properties -/

theorem Heap.new_type_of_valid {α : Type} (t : ℚ) (cmp : α → α → ℚ)
    (ht : t = HT_MINI_HEAP ∨ t = HT_MAXI_HEAP) : (Heap.new (some t) cmp).type = t := by
  unfold Heap.new
  simp only
  split_ifs with h
  · rcases ht with h1 | h1
    · exact absurd h1 h.2
    · exact absurd h1 h.1
  · rfl

theorem Heap.perm_of_map_some {α : Type} {l vs : List α}
    (h : Multiset.map some (l : Multiset α) = Multiset.map some (vs : Multiset α)) :
    l.Perm vs := by
  have := Multiset.map_injective (Option.some_injective α) h
  exact Multiset.coe_eq_coe.1 this

/-- C8: for a comparator of a total preorder (negative = first argument ranks first) and a
polarity `t` that is `HT_MINI_HEAP` or `HT_MAXI_HEAP`, inserting a list of values into an
empty `Heap(t, cmp)` and extracting until `undefined` returns a permutation of the values in
which every output `a` and later output `b` satisfy `t * cmp(a, b) ≤ 0`; for a max-heap this
is the non-increasing order. -/
theorem heap_drain_sorted_by_comparator {α : Type} (cmp : α → α → ℚ)
    (hc : Heap.TotalPreorderCmp cmp) (t : ℚ) (ht : t = HT_MINI_HEAP ∨ t = HT_MAXI_HEAP)
    (vs : List α) (fuel : Nat) (hfuel : vs.length < fuel) :
    (Heap.drainLoop fuel ((Heap.new (some t) cmp).insertAll vs)).Perm vs ∧
      (Heap.drainLoop fuel ((Heap.new (some t) cmp).insertAll vs)).Pairwise
        (fun a b => t * cmp a b ≤ 0) ∧
      (t = HT_MAXI_HEAP →
        (Heap.drainLoop fuel ((Heap.new (some t) cmp).insertAll vs)).Pairwise
          (fun a b => cmp a b ≥ 0)) := by
  have hty := Heap.new_type_of_valid t cmp ht
  have ht1 : t = 1 ∨ t = -1 := by
    rcases ht with h | h
    · left; exact h
    · right; exact h
  have hc0 : Heap.TotalPreorderCmp
      (fun a b => (Heap.new (some t) cmp).type * (Heap.new (some t) cmp).compareFunc a b) := by
    rw [hty]; exact hc.scaled ht1
  obtain ⟨q1, q2, q3, q4, q5, q6⟩ := Heap.insertAll_spec vs (Heap.new (some t) cmp)
    (Heap.new_filled _ _) hc0 (Heap.new_ordered _ _)
  have hc1 : Heap.TotalPreorderCmp (fun a b => ((Heap.new (some t) cmp).insertAll vs).type *
      ((Heap.new (some t) cmp).insertAll vs).compareFunc a b) := by
    rw [q3, q4]; exact hc0
  have hd := Heap.drainLoop_spec fuel _ q1 hc1 q2 (by rw [q5, Heap.new_last]; omega)
  rw [q6, Heap.new_entries, add_zero, q3, q4, hty] at hd
  have hpair : (Heap.drainLoop fuel ((Heap.new (some t) cmp).insertAll vs)).Pairwise
      (fun a b => t * cmp a b ≤ 0) := hd.2
  refine ⟨Heap.perm_of_map_some hd.1, hpair, ?_⟩
  intro hmax
  refine hpair.imp ?_
  intro a b hab
  rw [hmax] at hab
  unfold HT_MAXI_HEAP at hab
  linarith

theorem heap_drain_sorted_by_comparator_witness :
    Heap.TotalPreorderCmp (fun a b : ℚ => a - b) ∧
    (HT_MAXI_HEAP = HT_MINI_HEAP ∨ HT_MAXI_HEAP = HT_MAXI_HEAP) ∧
    ([3, 1, 2] : List ℚ).length < 4 ∧
    ((Heap.drainLoop 4 ((Heap.new (some HT_MAXI_HEAP) (fun a b : ℚ => a - b)).insertAll
        [3, 1, 2])).Perm [3, 1, 2] ∧
      (Heap.drainLoop 4 ((Heap.new (some HT_MAXI_HEAP) (fun a b : ℚ => a - b)).insertAll
        [3, 1, 2])).Pairwise (fun a b => HT_MAXI_HEAP * (a - b) ≤ 0) ∧
      (HT_MAXI_HEAP = HT_MAXI_HEAP →
        (Heap.drainLoop 4 ((Heap.new (some HT_MAXI_HEAP) (fun a b : ℚ => a - b)).insertAll
          [3, 1, 2])).Pairwise (fun a b => a - b ≥ 0))) :=
  ⟨Heap.sub_totalPreorderCmp, Or.inr rfl, by decide,
    heap_drain_sorted_by_comparator (fun a b : ℚ => a - b) Heap.sub_totalPreorderCmp
      HT_MAXI_HEAP (Or.inr rfl) [3, 1, 2] 4 (by decide)⟩

/-- C7: inserting a finite list of numbers into an empty min-heap built without a
comparator and calling `extractTop` until it returns `undefined` yields the list sorted in
ascending order, with the same elements and multiplicities. -/
theorem heap_drain_numbers_sorted (vs : List ℚ) (fuel : Nat) (hfuel : vs.length < fuel) :
    Heap.drainLoop fuel ((Heap.newNumeric (some HT_MINI_HEAP)).insertAll vs) =
      vs.insertionSort (fun a b => a ≤ b) := by
  have ht : HT_MINI_HEAP = HT_MINI_HEAP ∨ HT_MINI_HEAP = HT_MAXI_HEAP := Or.inl rfl
  have hty := Heap.new_type_of_valid HT_MINI_HEAP (fun a b : ℚ => a - b) ht
  have hc0 : Heap.TotalPreorderCmp (fun a b =>
      (Heap.newNumeric (some HT_MINI_HEAP)).type *
        (Heap.newNumeric (some HT_MINI_HEAP)).compareFunc a b) := by
    unfold Heap.newNumeric
    rw [hty]
    exact Heap.sub_totalPreorderCmp.scaled (Or.inl rfl)
  obtain ⟨q1, q2, q3, q4, q5, q6⟩ := Heap.insertAll_spec vs
    (Heap.newNumeric (some HT_MINI_HEAP)) (Heap.new_filled _ _) hc0 (Heap.new_ordered _ _)
  have hc1 : Heap.TotalPreorderCmp (fun a b =>
      ((Heap.newNumeric (some HT_MINI_HEAP)).insertAll vs).type *
        ((Heap.newNumeric (some HT_MINI_HEAP)).insertAll vs).compareFunc a b) := by
    rw [q3, q4]; exact hc0
  have hl0 : (Heap.newNumeric (some HT_MINI_HEAP)).last = 0 := rfl
  have hd := Heap.drainLoop_spec fuel _ q1 hc1 q2 (by rw [q5, hl0]; omega)
  have he0 : (Heap.newNumeric (some HT_MINI_HEAP)).entries = 0 := Heap.new_entries _ _
  rw [q6, he0, add_zero, q3, q4] at hd
  have hperm := Heap.perm_of_map_some hd.1
  have hsorted : (Heap.drainLoop fuel
      ((Heap.newNumeric (some HT_MINI_HEAP)).insertAll vs)).Sorted (fun a b => a ≤ b) := by
    refine hd.2.imp ?_
    intro a b hab
    have h1 : (Heap.newNumeric (some HT_MINI_HEAP)).type = 1 := hty
    have h2 : (Heap.newNumeric (some HT_MINI_HEAP)).compareFunc a b = a - b := rfl
    rw [h1, h2] at hab
    linarith
  exact List.eq_of_perm_of_sorted (hperm.trans (List.perm_insertionSort _ vs).symm) hsorted
    (List.sorted_insertionSort _ vs)

theorem heap_drain_numbers_sorted_witness :
    ([5, 3, 8, 1] : List ℚ).length < 5 ∧
    Heap.drainLoop 5 ((Heap.newNumeric (some HT_MINI_HEAP)).insertAll [5, 3, 8, 1]) =
      ([5, 3, 8, 1] : List ℚ).insertionSort (fun a b => a ≤ b) :=
  ⟨by decide, heap_drain_numbers_sorted [5, 3, 8, 1] 5 (by decide)⟩

/-- C9: on a heap of size 0, `pop` (and `extractTop`) returns `undefined`, and the heap it
leaves is the same heap, still empty. -/
theorem heap_pop_of_size_zero {α : Type} (h : Heap α) (h0 : h.size = 0) :
    h.pop = (none, h) ∧ h.extractTop = (none, h) ∧ (h.pop).2.size = 0 ∧
      (h.pop).2.isEmpty = true := by
  have hl : h.last = 0 := h0
  have hp := Heap.pop_empty h hl
  refine ⟨hp, hp, ?_, ?_⟩
  · rw [hp]; exact h0
  · rw [hp]; simp [Heap.isEmpty, hl]

theorem heap_pop_of_size_zero_witness :
    ((Heap.newNumeric none).push 7).clear.size = 0 ∧
    (((Heap.newNumeric none).push 7).clear.pop = (none, ((Heap.newNumeric none).push 7).clear) ∧
      ((Heap.newNumeric none).push 7).clear.extractTop =
        (none, ((Heap.newNumeric none).push 7).clear) ∧
      (((Heap.newNumeric none).push 7).clear.pop).2.size = 0 ∧
      (((Heap.newNumeric none).push 7).clear.pop).2.isEmpty = true) :=
  ⟨rfl, heap_pop_of_size_zero _ rfl⟩

/-- The three ways to a heap of size 0: construction, `clear`, and extracting the last
element. -/
theorem Heap.size_zero_cases {α : Type} (t : Option ℚ) (cmp : α → α → ℚ) (h : Heap α) :
    (Heap.new t cmp).size = 0 ∧ h.clear.size = 0 ∧ (h.size = 1 → (h.pop).2.size = 0) := by
  refine ⟨rfl, rfl, ?_⟩
  intro h1
  have hl : h.last = 1 := h1
  have := (Heap.pop_content h (by omega)).2.1
  unfold Heap.size
  omega

/-- C10: the heap-order predicate `type * compare(heap[i >> 1], heap[i]) ≤ 0` for all
`2 ≤ i ≤ last` holds for the empty heap and, for a comparator of a total preorder, is
preserved by `push`/`insert` of any value and by `pop`/`extractTop` (on heaps whose live slots
hold values, which `push` and `pop` preserve as well). -/
theorem heap_order_preserved {α : Type} (h : Heap α) (v : α)
    (hc : Heap.TotalPreorderCmp h.compareFunc)
    (ht : h.type = HT_MINI_HEAP ∨ h.type = HT_MAXI_HEAP) (hf : h.Filled) (ho : h.Ordered) :
    (∀ (t : Option ℚ) (cmp : α → α → ℚ), (Heap.new t cmp).Ordered ∧ (Heap.new t cmp).Filled) ∧
      (h.push v).Ordered ∧ (h.push v).Filled ∧ (h.insert v).Ordered ∧
      (h.pop).2.Ordered ∧ (h.pop).2.Filled ∧ (h.extractTop).2.Ordered := by
  have ht1 : h.type = 1 ∨ h.type = -1 := by
    rcases ht with h1 | h1
    · left; exact h1
    · right; exact h1
  have hc1 := hc.scaled ht1
  have hpf : (h.pop).2.Filled := by
    by_cases hl : h.last = 0
    · rw [Heap.pop_empty h hl]; exact hf
    · exact (Heap.pop_content h (by omega)).2.2.2.2.2 hf
  exact ⟨fun t cmp => ⟨Heap.new_ordered t cmp, Heap.new_filled t cmp⟩,
    Heap.push_ordered v hf hc1 ho, (Heap.push_content h v).2.2.2.2 hf,
    Heap.push_ordered v hf hc1 ho, Heap.pop_ordered hf hc1 ho, hpf,
    Heap.pop_ordered hf hc1 ho⟩

/-- The hypotheses of the heap-order claim hold for the empty numeric heap and survive
`push`. -/
theorem Heap.push_keeps_hypotheses {α : Type} (h : Heap α) (v : α)
    (hyp : Heap.TotalPreorderCmp h.compareFunc ∧
      (h.type = HT_MINI_HEAP ∨ h.type = HT_MAXI_HEAP) ∧ h.Filled ∧ h.Ordered) :
    Heap.TotalPreorderCmp (h.push v).compareFunc ∧
      ((h.push v).type = HT_MINI_HEAP ∨ (h.push v).type = HT_MAXI_HEAP) ∧
      (h.push v).Filled ∧ (h.push v).Ordered := by
  obtain ⟨hc, ht, hf, ho⟩ := hyp
  obtain ⟨_, p2, p3, _, p5⟩ := Heap.push_content h v
  have ht1 : h.type = 1 ∨ h.type = -1 := by
    rcases ht with h1 | h1
    · left; exact h1
    · right; exact h1
  refine ⟨by rw [p3]; exact hc, by rw [p2]; exact ht, p5 hf,
    Heap.push_ordered v hf (hc.scaled ht1) ho⟩

theorem Heap.newNumeric_hypotheses :
    Heap.TotalPreorderCmp (Heap.newNumeric (some HT_MAXI_HEAP)).compareFunc ∧
      ((Heap.newNumeric (some HT_MAXI_HEAP)).type = HT_MINI_HEAP ∨
        (Heap.newNumeric (some HT_MAXI_HEAP)).type = HT_MAXI_HEAP) ∧
      (Heap.newNumeric (some HT_MAXI_HEAP)).Filled ∧
      (Heap.newNumeric (some HT_MAXI_HEAP)).Ordered :=
  ⟨Heap.sub_totalPreorderCmp, Or.inr (Heap.new_type_of_valid _ _ (Or.inr rfl)),
    Heap.new_filled _ _, Heap.new_ordered _ _⟩

theorem heap_order_preserved_witness :
    (Heap.TotalPreorderCmp (((Heap.newNumeric (some HT_MAXI_HEAP)).push 3).push 9).compareFunc ∧
      ((((Heap.newNumeric (some HT_MAXI_HEAP)).push 3).push 9).type = HT_MINI_HEAP ∨
        (((Heap.newNumeric (some HT_MAXI_HEAP)).push 3).push 9).type = HT_MAXI_HEAP) ∧
      (((Heap.newNumeric (some HT_MAXI_HEAP)).push 3).push 9).Filled ∧
      (((Heap.newNumeric (some HT_MAXI_HEAP)).push 3).push 9).Ordered) ∧
    ((∀ (t : Option ℚ) (cmp : ℚ → ℚ → ℚ),
        (Heap.new t cmp).Ordered ∧ (Heap.new t cmp).Filled) ∧
      ((((Heap.newNumeric (some HT_MAXI_HEAP)).push 3).push 9).push 4).Ordered ∧
      ((((Heap.newNumeric (some HT_MAXI_HEAP)).push 3).push 9).push 4).Filled ∧
      ((((Heap.newNumeric (some HT_MAXI_HEAP)).push 3).push 9).insert 4).Ordered ∧
      ((((Heap.newNumeric (some HT_MAXI_HEAP)).push 3).push 9).pop).2.Ordered ∧
      ((((Heap.newNumeric (some HT_MAXI_HEAP)).push 3).push 9).pop).2.Filled ∧
      ((((Heap.newNumeric (some HT_MAXI_HEAP)).push 3).push 9).extractTop).2.Ordered) :=
  have hyp := Heap.push_keeps_hypotheses _ 9
    (Heap.push_keeps_hypotheses _ 3 Heap.newNumeric_hypotheses)
  ⟨hyp, heap_order_preserved _ 4 hyp.1 hyp.2.1 hyp.2.2.1 hyp.2.2.2⟩

/-! ## Path finder: main properties -/


theorem Grid.ofRows_noSearchState (rows : List (List Bool)) :
    (Grid.ofRows rows).NoSearchState := by
  intro c
  exact ⟨rfl, rfl, rfl, rfl, rfl, rfl⟩

theorem findPathResult_eq (F : JumpPointFinderBase) (fuel : Nat) (sx sy ex ey : Int)
    (grid : Grid) {path : List Coord} {gridF : Grid}
    (h : findPath F fuel sx sy ex ey grid = .ok (path, gridF)) :
    findPathResult F fuel sx sy ex ey grid = .ok path := by
  unfold findPathResult; rw [h]

/-- A walk that starts at a reachable cell and continues through walkable cells ends at a
reachable cell. -/
theorem reach_of_dense (grid : Grid) (s : Coord) : ∀ (q : List Coord) (c0 last : Coord),
    Reach grid s c0 → Dense (c0 :: q) → (∀ c, c ∈ q → grid.isWalkableAt c.1 c.2 = true) →
    (c0 :: q).getLast? = some last → Reach grid s last := by
  intro q
  induction q with
  | nil =>
    intro c0 last hr _ _ hl
    simp only [List.getLast?_singleton, Option.some.injEq] at hl
    rw [← hl]; exact hr
  | cons c1 q ih =>
    intro c0 last hr hd hw hl
    apply ih c1 last (Reach.step hr hd.1 (hw c1 (List.mem_cons_self _ _))) hd.2
      (fun c hc => hw c (List.mem_cons_of_mem _ hc))
    rw [← hl]
    simp [List.getLast?_cons_cons]

theorem reach_of_pathFrom {grid : Grid} {S E : Coord} {path : List Coord}
    (hS : grid.isWalkableAt S.1 S.2 = true) (hp : PathFrom grid S path)
    (hl : path.getLast? = some E) : Reach grid S E := by
  obtain ⟨h1, h2, h3⟩ := hp
  cases path with
  | nil => simp at h1
  | cons a q =>
    simp only [List.head?_cons, Option.some.injEq] at h1
    subst h1
    exact reach_of_dense grid a q a E (Reach.start hS) h2 (fun c hc => h3 c hc) hl

theorem Reach.start_walkable {grid : Grid} {s t : Coord} (h : Reach grid s t) :
    grid.isWalkableAt s.1 s.2 = true := by
  induction h with
  | start hs => exact hs
  | step _ _ _ ih => exact ih

/-- When the open list is empty, the search state is that of an exhausted search. -/
theorem SearchInv.exhausted {grid0 gridF : Grid} {S E : Coord} {fuel : Nat} {ol : Heap Coord}
    (h : SearchInv grid0 S E fuel (fun _ _ => False) gridF ol) (hl : ol.last = 0)
    (hfuel : grid0.width.toNat + grid0.height.toNat + 2 ≤ fuel) :
    Exhausted grid0 gridF S E := by
  have hclosed : ∀ c, (gridF.nodes c).opened = true → (gridF.nodes c).closed = true := by
    intro c hc
    cases hcl : (gridF.nodes c).closed with
    | true => rfl
    | false =>
      have := h.open_in_heap c hc hcl
      unfold Heap.entries at this
      rw [hl] at this
      simp at this
  refine ⟨h.sameMap, hclosed S h.start_opened, h.start_parent, h.goal_open, ?_, ?_⟩
  · intro c hc hne
    obtain ⟨p, hp, hpc, ⟨n, hn, hj⟩, _⟩ := h.link c (h.closed_opened c hc) hne
    exact ⟨p, n, hp, hpc, hn, jumpPt_sound grid0 E fuel _ _ _ _ _ hj⟩
  · intro c hc n hn j hj
    have hd := (findNeighbors_mem hn).1
    rcases h.expanded c hc n hn (fun hf => hf) j (jumpPt_eq_of_jump hfuel hd hj) with h1 | h1
    · exact h1
    · exact hclosed j h1.1

theorem Reach.end_walkable {grid : Grid} {s t : Coord} (h : Reach grid s t) :
    grid.isWalkableAt t.1 t.2 = true := by
  cases h with
  | start hs => exact hs
  | step _ _ hw => exact hw


theorem Reach.cons {grid : Grid} {a b t : Coord} (ha : grid.isWalkableAt a.1 a.2 = true)
    (hab : UnitStep a b) (h : Reach grid b t) : Reach grid a t := by
  induction h with
  | start hb => exact Reach.step (Reach.start ha) hab hb
  | step _ hs hw ih => exact Reach.step ih hs hw

/-- A list that passes the test `isWalkList` is a walk from its first to its last cell. -/
theorem reach_of_isWalkList (grid : Grid) : ∀ (q : List Coord) (a last : Coord),
    isWalkList grid (a :: q) = true → (a :: q).getLast? = some last → Reach grid a last := by
  intro q
  induction q with
  | nil =>
    intro a last h hl
    simp only [List.getLast?_singleton, Option.some.injEq] at hl
    subst hl
    exact Reach.start (by simpa [isWalkList] using h)
  | cons b q ih =>
    intro a last h hl
    simp only [isWalkList, Bool.and_eq_true, decide_eq_true_eq] at h
    rw [List.getLast?_cons_cons] at hl
    exact Reach.cons h.1.1 h.1.2 (ih b last h.2 hl)

/-- On `gridWall` no walk leaves the left cell. -/
theorem gridWall_reach {t : Coord} (h : Reach gridWall (0, 0) t) : t = (0, 0) := by
  induction h with
  | start _ => rfl
  | @step a b _ hs hw ih =>
    subst ih
    exfalso
    obtain ⟨b1, b2⟩ := b
    simp only at hw
    rcases hs with ⟨h1, h2⟩ | ⟨h1, h2⟩
    · simp only at h1 h2
      subst h2
      rcases abs_eq (by norm_num : (0 : Int) ≤ 1) |>.1 h1 with h | h
      · have : b1 = -1 := by omega
        subst this
        revert hw; decide
      · have : b1 = 1 := by omega
        subst this
        revert hw; decide
    · simp only at h1 h2
      subst h1
      rcases abs_eq (by norm_num : (0 : Int) ≤ 1) |>.1 h2 with h | h
      · have : b2 = -1 := by omega
        subst this
        revert hw; decide
      · have : b2 = 1 := by omega
        subst this
        revert hw; decide

/-- C1: on a grid with no prior search state, for distinct cells `S` and `E` such that a
walk through orthogonally adjacent walkable cells leads from `S` to `E` (both then walkable
and inside the grid), `findPath` returns a non-empty path whose first element is `S` and
whose last element is `E`. -/
theorem findPath_endpoints (F : JumpPointFinderBase) (grid : Grid) (S E : Coord)
    (fuel : Nat) (h0 : grid.NoSearchState) (hne : S ≠ E) (hr : Reach grid S E)
    (hfuel : grid.fuelBound ≤ fuel) :
    ∃ path, findPathResult F fuel S.1 S.2 E.1 E.2 grid = .ok path ∧ path ≠ [] ∧
      path.head? = some S ∧ path.getLast? = some E := by
  have hS := Grid.isInside_of_walkable hr.start_walkable
  have hE := Grid.isInside_of_walkable hr.end_walkable
  obtain ⟨path, gridF, hrun, hend⟩ := findPath_spec F h0 hS hE hfuel
  refine ⟨path, findPathResult_eq F fuel _ _ _ _ grid hrun, ?_⟩
  cases hend with
  | exhausted ol hp hinv hl =>
    have hf : grid.width.toNat + grid.height.toNat + 2 ≤ fuel := by
      unfold Grid.fuelBound at hfuel; omega
    exact absurd hr (hinv.exhausted hl hf).not_reach
  | found g ol _ _ _ hres =>
    rcases hres with ⟨h, _⟩ | ⟨_, hp, hl⟩
    · exact absurd h hne
    · refine ⟨?_, hp.1, hl⟩
      intro hnil
      rw [hnil] at hl
      simp at hl

theorem findPath_endpoints_witness :
    gridDetour.NoSearchState ∧ ((3, 5) : Coord) ≠ (4, 0) ∧ Reach gridDetour (3, 5) (4, 0) ∧
    gridDetour.fuelBound ≤ 164 ∧
    ∃ path, findPathResult manhattanFinder 164 ((3, 5) : Coord).1 ((3, 5) : Coord).2
        ((4, 0) : Coord).1 ((4, 0) : Coord).2 gridDetour = .ok path ∧ path ≠ [] ∧
      path.head? = some (3, 5) ∧ path.getLast? = some (4, 0) :=
  ⟨Grid.ofRows_noSearchState _, by decide,
    reach_of_isWalkList gridDetour detourWalk.tail (3, 5) (4, 0) (by decide) (by decide),
    by decide,
    findPath_endpoints manhattanFinder gridDetour (3, 5) (4, 0) 164
      (Grid.ofRows_noSearchState _) (by decide)
      (reach_of_isWalkList gridDetour detourWalk.tail (3, 5) (4, 0) (by decide) (by decide))
      (by decide)⟩

/-- C2: on a grid with no prior search state and for a start and a goal inside the grid,
`findPath` returns a path in which every two consecutive coordinates differ by exactly 1 in
exactly one of `x`, `y` and are equal in the other. -/
theorem findPath_unit_steps (F : JumpPointFinderBase) (grid : Grid) (S E : Coord)
    (fuel : Nat) (h0 : grid.NoSearchState) (hS : grid.isInside S.1 S.2 = true)
    (hE : grid.isInside E.1 E.2 = true) (hfuel : grid.fuelBound ≤ fuel) :
    ∃ path, findPathResult F fuel S.1 S.2 E.1 E.2 grid = .ok path ∧ Dense path := by
  obtain ⟨path, gridF, hrun, hend⟩ := findPath_spec F h0 hS hE hfuel
  refine ⟨path, findPathResult_eq F fuel _ _ _ _ grid hrun, ?_⟩
  cases hend with
  | exhausted ol hp _ _ => rw [hp]; trivial
  | found g ol _ _ _ hres =>
    rcases hres with ⟨_, hp⟩ | ⟨_, hp, _⟩
    · rw [hp]; trivial
    · exact hp.2.1

theorem findPath_unit_steps_witness :
    gridDetour.NoSearchState ∧ gridDetour.isInside ((3, 5) : Coord).1 ((3, 5) : Coord).2 = true ∧
    gridDetour.isInside ((4, 0) : Coord).1 ((4, 0) : Coord).2 = true ∧
    gridDetour.fuelBound ≤ 164 ∧
    ∃ path, findPathResult manhattanFinder 164 ((3, 5) : Coord).1 ((3, 5) : Coord).2
        ((4, 0) : Coord).1 ((4, 0) : Coord).2 gridDetour = .ok path ∧ Dense path :=
  ⟨Grid.ofRows_noSearchState _, by decide, by decide, by decide,
    findPath_unit_steps manhattanFinder gridDetour (3, 5) (4, 0) 164
      (Grid.ofRows_noSearchState _) (by decide) (by decide) (by decide)⟩

/-- C3, as stated, fails: on `gridBlockedStart` the start `(0, 0)` is inside the grid and
not walkable, and the path returned for the goal `(1, 0)` begins with it. -/
theorem findPath_cells_walkable_counterexample :
    gridBlockedStart.NoSearchState ∧ gridBlockedStart.isInside 0 0 = true ∧
    gridBlockedStart.isInside 1 0 = true ∧
    findPathResult manhattanFinder 16 0 0 1 0 gridBlockedStart = .ok [(0, 0), (1, 0)] ∧
    gridBlockedStart.isWalkableAt 0 0 = false :=
  ⟨Grid.ofRows_noSearchState _, by decide, by decide, by decide!, by decide⟩

/-- C3, amended: on a grid with no prior search state, for a walkable start and a goal
inside the grid, every coordinate of the path that `findPath` returns is inside the grid and
walkable. -/
theorem findPath_cells_walkable (F : JumpPointFinderBase) (grid : Grid) (S E : Coord)
    (fuel : Nat) (h0 : grid.NoSearchState) (hS : grid.isWalkableAt S.1 S.2 = true)
    (hE : grid.isInside E.1 E.2 = true) (hfuel : grid.fuelBound ≤ fuel) :
    ∃ path, findPathResult F fuel S.1 S.2 E.1 E.2 grid = .ok path ∧
      ∀ c, c ∈ path → grid.isInside c.1 c.2 = true ∧ grid.isWalkableAt c.1 c.2 = true := by
  obtain ⟨path, gridF, hrun, hend⟩ :=
    findPath_spec F h0 (Grid.isInside_of_walkable hS) hE hfuel
  refine ⟨path, findPathResult_eq F fuel _ _ _ _ grid hrun, ?_⟩
  have hnil : ∀ c, c ∈ ([] : List Coord) →
      grid.isInside c.1 c.2 = true ∧ grid.isWalkableAt c.1 c.2 = true := by
    intro c hc; simp at hc
  cases hend with
  | exhausted ol hp _ _ => rw [hp]; exact hnil
  | found g ol _ _ _ hres =>
    rcases hres with ⟨_, hp⟩ | ⟨_, hp, _⟩
    · rw [hp]; exact hnil
    · obtain ⟨h1, _, h3⟩ := hp
      intro c hc
      have hw : grid.isWalkableAt c.1 c.2 = true := by
        cases path with
        | nil => simp at h1
        | cons a q =>
          simp only [List.head?_cons, Option.some.injEq] at h1
          rcases List.mem_cons.1 hc with h | h
          · rw [h, h1]; exact hS
          · exact h3 c h
      exact ⟨Grid.isInside_of_walkable hw, hw⟩

theorem findPath_cells_walkable_witness :
    gridDetour.NoSearchState ∧
    gridDetour.isWalkableAt ((3, 5) : Coord).1 ((3, 5) : Coord).2 = true ∧
    gridDetour.isInside ((4, 0) : Coord).1 ((4, 0) : Coord).2 = true ∧
    gridDetour.fuelBound ≤ 164 ∧
    ∃ path, findPathResult manhattanFinder 164 ((3, 5) : Coord).1 ((3, 5) : Coord).2
        ((4, 0) : Coord).1 ((4, 0) : Coord).2 gridDetour = .ok path ∧
      ∀ c, c ∈ path → gridDetour.isInside c.1 c.2 = true ∧
        gridDetour.isWalkableAt c.1 c.2 = true :=
  ⟨Grid.ofRows_noSearchState _, by decide, by decide, by decide,
    findPath_cells_walkable manhattanFinder gridDetour (3, 5) (4, 0) 164
      (Grid.ofRows_noSearchState _) (by decide) (by decide) (by decide)⟩

/-- C4, failing input: on `gridDetour`, with the Manhattan heuristic, `findPath` from
`(3, 5)` to `(4, 0)` returns `detourPath`, of 10 unit steps, although `detourWalk` is a walk
of 8 unit steps from `(3, 5)` to `(4, 0)` through orthogonally adjacent walkable cells. -/
theorem findPath_detour_not_shortest :
    gridDetour.NoSearchState ∧ gridDetour.fuelBound = 164 ∧
    findPathResult manhattanFinder 164 3 5 4 0 gridDetour = .ok detourPath ∧
    detourPath.length - 1 = 10 ∧
    isWalkList gridDetour detourWalk = true ∧ detourWalk.head? = some (3, 5) ∧
    detourWalk.getLast? = some (4, 0) ∧ detourWalk.length - 1 = 8 :=
  ⟨Grid.ofRows_noSearchState _, by decide, by decide!, by decide, by decide, by decide,
    by decide, by decide⟩

/-- C5, as stated, fails: on `gridBlockedStart` no walk through walkable cells leads from
the unwalkable start `(0, 0)` to the goal `(1, 0)`, and the returned path is not empty. -/
theorem findPath_unreachable_empty_counterexample :
    gridBlockedStart.NoSearchState ∧ gridBlockedStart.isInside 0 0 = true ∧
    gridBlockedStart.isInside 1 0 = true ∧ ((0, 0) : Coord) ≠ (1, 0) ∧
    ¬ Reach gridBlockedStart (0, 0) (1, 0) ∧
    findPathResult manhattanFinder 16 0 0 1 0 gridBlockedStart ≠ .ok [] :=
  ⟨Grid.ofRows_noSearchState _, by decide, by decide, by decide,
    fun h => absurd h.start_walkable (by decide), by decide!⟩

/-- C5, amended: on a grid with no prior search state, for a walkable start and a goal
inside the grid and different from the start, when no walk through orthogonally adjacent
walkable cells leads from the start to the goal, `findPath` returns the empty sequence. -/
theorem findPath_unreachable_empty (F : JumpPointFinderBase) (grid : Grid) (S E : Coord)
    (fuel : Nat) (h0 : grid.NoSearchState) (hS : grid.isWalkableAt S.1 S.2 = true)
    (hE : grid.isInside E.1 E.2 = true) (hne : S ≠ E) (hno : ¬ Reach grid S E)
    (hfuel : grid.fuelBound ≤ fuel) :
    findPathResult F fuel S.1 S.2 E.1 E.2 grid = .ok [] := by
  obtain ⟨path, gridF, hrun, hend⟩ :=
    findPath_spec F h0 (Grid.isInside_of_walkable hS) hE hfuel
  rw [findPathResult_eq F fuel _ _ _ _ grid hrun]
  cases hend with
  | exhausted ol hp _ _ => rw [hp]
  | found g ol _ _ _ hres =>
    rcases hres with ⟨h, _⟩ | ⟨_, hp, hl⟩
    · exact absurd h hne
    · exact absurd (reach_of_pathFrom hS hp hl) hno

theorem findPath_unreachable_empty_witness :
    gridWall.NoSearchState ∧ gridWall.isWalkableAt ((0, 0) : Coord).1 ((0, 0) : Coord).2 = true ∧
    gridWall.isInside ((2, 0) : Coord).1 ((2, 0) : Coord).2 = true ∧
    ((0, 0) : Coord) ≠ (2, 0) ∧ ¬ Reach gridWall (0, 0) (2, 0) ∧ gridWall.fuelBound ≤ 30 ∧
    findPathResult manhattanFinder 30 ((0, 0) : Coord).1 ((0, 0) : Coord).2
      ((2, 0) : Coord).1 ((2, 0) : Coord).2 gridWall = .ok [] :=
  ⟨Grid.ofRows_noSearchState _, by decide, by decide, by decide,
    fun h => absurd (gridWall_reach h) (by decide), by decide,
    findPath_unreachable_empty manhattanFinder gridWall (0, 0) (2, 0) 30
      (Grid.ofRows_noSearchState _) (by decide) (by decide) (by decide)
      (fun h => absurd (gridWall_reach h) (by decide)) (by decide)⟩


/-- C6: on a grid with no prior search state, `findPath(c, c, grid)` returns the empty
sequence for every cell `c` inside the grid. -/
theorem findPath_same_cell_empty (F : JumpPointFinderBase) (grid : Grid) (c : Coord)
    (fuel : Nat) (h0 : grid.NoSearchState) (hin : grid.isInside c.1 c.2 = true)
    (hfuel : grid.fuelBound ≤ fuel) :
    findPathResult F fuel c.1 c.2 c.1 c.2 grid = .ok [] := by
  obtain ⟨path, gridF, hrun, hend⟩ := findPath_spec F (S := c) (E := c) h0 hin hin hfuel
  rw [findPathResult_eq F fuel _ _ _ _ grid hrun]
  cases hend with
  | exhausted ol hp _ _ => rw [hp]
  | found g ol _ _ _ hres =>
    rcases hres with ⟨_, hp⟩ | ⟨hne, _⟩
    · rw [hp]
    · exact absurd rfl hne

theorem findPath_same_cell_empty_witness :
    (Grid.new 2 3).NoSearchState ∧ (Grid.new 2 3).isInside (1, 1).1 (1, 1).2 = true ∧
    (Grid.new 2 3).fuelBound ≤ 100 ∧
    findPathResult JumpPointFinderBase.default 100 (1, 1).1 (1, 1).2 (1, 1).1 (1, 1).2
      (Grid.new 2 3) = .ok [] :=
  ⟨fun _ => ⟨rfl, rfl, rfl, rfl, rfl, rfl⟩, by decide, by decide,
    findPath_same_cell_empty JumpPointFinderBase.default (Grid.new 2 3) (1, 1) 100
      (fun _ => ⟨rfl, rfl, rfl, rfl, rfl, rfl⟩) (by decide) (by decide)⟩

namespace Obj

/-! ## Objects: the store -/

theorem Store.lt_of_get {σ : Store} {a : Addr} {n : Node} (h : σ[a]? = some n) :
    a < σ.length := (List.getElem?_eq_some.1 h).1

theorem Store.modify_length (σ : Store) (a : Addr) (u : Node → Node) :
    (σ.modify a u).length = σ.length := by
  unfold Store.modify
  cases σ[a]? <;> simp

theorem Store.modify_other (σ : Store) {a b : Addr} (u : Node → Node) (h : b ≠ a) :
    (σ.modify a u)[b]? = σ[b]? := by
  unfold Store.modify
  cases σ[a]? with
  | none => rfl
  | some n => simp [List.getElem?_set, Ne.symm h]

theorem Store.modify_same (σ : Store) {a : Addr} {n : Node} (u : Node → Node)
    (h : σ[a]? = some n) : (σ.modify a u)[a]? = some (u n) := by
  unfold Store.modify
  rw [h]
  have hlt : a < σ.length := Store.lt_of_get h
  simp [List.getElem?_set, hlt]

theorem Store.Frame.refl_frame (P : Addr → Prop) (σ : Store) : Store.Frame P σ σ :=
  ⟨rfl, fun _ _ => rfl⟩

theorem Store.Frame.trans_frame {P : Addr → Prop} {σ σ1 σ2 : Store}
    (h1 : Store.Frame P σ σ1) (h2 : Store.Frame P σ1 σ2) : Store.Frame P σ σ2 :=
  ⟨h2.1.trans h1.1, fun a ha => (h2.2 a ha).trans (h1.2 a ha)⟩

theorem Store.Frame.of_modify {P : Addr → Prop} (σ : Store) {a : Addr} (u : Node → Node)
    (ha : P a) : Store.Frame P σ (σ.modify a u) :=
  ⟨Store.modify_length σ a u, fun _ hb => Store.modify_other σ u (fun h => hb (h ▸ ha))⟩

theorem Store.prefix_get {σ σ1 : Store} (h : σ <+: σ1) {a : Addr} {n : Node}
    (ha : σ[a]? = some n) : σ1[a]? = some n := by
  obtain ⟨ext, rfl⟩ := h
  have hlt : a < σ.length := Store.lt_of_get ha
  rw [List.getElem?_append_left hlt]
  exact ha

theorem Store.alloc_prefix (σ : Store) (n : Node) : σ <+: (σ.alloc n).2 :=
  ⟨[n], rfl⟩

theorem Store.alloc_get (σ : Store) (n : Node) : (σ.alloc n).2[(σ.alloc n).1]? = some n := by
  simp [Store.alloc]

end Obj
namespace Obj
namespace Grid

/-! ## Objects: construction of grids -/

theorem RowSpec.mono_row {σ σ1 : Store} {row : List Addr} {Q : Nat → Addr → Node → Prop}
    (hp : σ <+: σ1) (h : RowSpec σ row Q) : RowSpec σ1 row Q := by
  intro x a hx
  obtain ⟨n, hn, hq⟩ := h x a hx
  exact ⟨n, Store.prefix_get hp hn, hq⟩

theorem RowSpec.snoc_row {σ : Store} {row : List Addr} {Q : Nat → Addr → Node → Prop} {a : Addr}
    {n : Node} (h : RowSpec σ row Q) (ha : σ[a]? = some n) (hq : Q row.length a n) :
    RowSpec σ (row ++ [a]) Q := by
  intro x b hx
  rw [List.getElem?_append] at hx
  split_ifs at hx with hlt
  · exact h x b hx
  · have hx0 : x = row.length := by
      by_contra hne
      have : x - row.length ≠ 0 := by omega
      obtain ⟨k, hk⟩ : ∃ k, x - row.length = k + 1 := ⟨x - row.length - 1, by omega⟩
      rw [hk] at hx
      simp at hx
    subst hx0
    simp only [Nat.sub_self, List.getElem?_cons_zero, Option.some.injEq] at hx
    subst hx
    exact ⟨n, ha, hq⟩

theorem RowSpec.imp_row {σ : Store} {row : List Addr} {Q Q2 : Nat → Addr → Node → Prop}
    (h : RowSpec σ row Q) (hi : ∀ x a n, Q x a n → Q2 x a n) : RowSpec σ row Q2 := by
  intro x a hx
  obtain ⟨n, hn, hq⟩ := h x a hx
  exact ⟨n, hn, hi x a n hq⟩

theorem RowsSpec.mono_rows {σ σ1 : Store} {nodes : List (List Addr)} {w : Nat}
    {R : Nat → Nat → Addr → Node → Prop} (hp : σ <+: σ1) (h : RowsSpec σ nodes w R) :
    RowsSpec σ1 nodes w R :=
  fun y row hy => ⟨(h y row hy).1, (h y row hy).2.mono_row hp⟩

theorem RowsSpec.snoc_rows {σ : Store} {nodes : List (List Addr)} {w : Nat}
    {R : Nat → Nat → Addr → Node → Prop} {row : List Addr} (h : RowsSpec σ nodes w R)
    (hl : row.length = w) (hr : RowSpec σ row (R nodes.length)) :
    RowsSpec σ (nodes ++ [row]) w R := by
  intro y r hy
  rw [List.getElem?_append] at hy
  split_ifs at hy with hlt
  · exact h y r hy
  · have hy0 : y = nodes.length := by
      by_contra hne
      obtain ⟨k, hk⟩ : ∃ k, y - nodes.length = k + 1 := ⟨y - nodes.length - 1, by omega⟩
      rw [hk] at hy
      simp at hy
    subst hy0
    simp only [Nat.sub_self, List.getElem?_cons_zero, Option.some.injEq] at hy
    subst hy
    exact ⟨hl, hr⟩

theorem RowsSpec.imp_rows {σ : Store} {nodes : List (List Addr)} {w : Nat}
    {R R2 : Nat → Nat → Addr → Node → Prop} (h : RowsSpec σ nodes w R)
    (hi : ∀ y x a n, R y x a n → R2 y x a n) : RowsSpec σ nodes w R2 :=
  fun y row hy => ⟨(h y row hy).1, (h y row hy).2.imp_row (hi y)⟩

theorem RowsSpec.nil (σ : Store) (w : Nat) (R : Nat → Nat → Addr → Node → Prop) :
    RowsSpec σ [] w R := by
  intro y row hy
  simp at hy

theorem newArray_ok {n : Int} (h1 : 0 ≤ n) (h2 : n < 4294967296) : newArray n = .ok n.toNat := by
  unfold newArray
  rw [if_pos ⟨h1, h2⟩]

/-- The inner loop of `_buildNodes` fills the row with new nodes of row `y`. -/
theorem buildRow_spec (y : Int) (N : Nat) : ∀ (count : Nat) (x : Int) (σ : Store)
    (row : List Addr), x = row.length → N ≤ σ.length →
    RowSpec σ row (fun i a n => n = Node.new i y (some true) ∧ N ≤ a) →
    σ <+: (buildRow y count x σ row).2 ∧
    (buildRow y count x σ row).1.length = row.length + count ∧
    RowSpec (buildRow y count x σ row).2 (buildRow y count x σ row).1
      (fun i a n => n = Node.new i y (some true) ∧ N ≤ a) := by
  intro count
  induction count with
  | zero =>
    intro x σ row _ _ h
    exact ⟨List.prefix_refl _, rfl, h⟩
  | succ count ih =>
    intro x σ row hx hN h
    unfold buildRow
    simp only
    have hp := Store.alloc_prefix σ (Node.new x y (some true))
    have hsn : RowSpec (σ.alloc (Node.new x y (some true))).2
        (row ++ [(σ.alloc (Node.new x y (some true))).1])
        (fun i a n => n = Node.new i y (some true) ∧ N ≤ a) :=
      (h.mono_row hp).snoc_row (Store.alloc_get σ _) ⟨by rw [hx], hN⟩
    obtain ⟨h1, h2, h3⟩ := ih (x + 1) (σ.alloc (Node.new x y (some true))).2
      (row ++ [(σ.alloc (Node.new x y (some true))).1]) (by simp [hx])
      (by simp [Store.alloc]; omega) hsn
    refine ⟨hp.trans h1, ?_, h3⟩
    rw [h2]; simp; omega

/-- The outer loop of `_buildNodes` adds rows of new nodes. -/
theorem buildRows_spec (width : Int) (N : Nat) : ∀ (count : Nat) (y : Int) (σ : Store)
    (nodes : List (List Addr)), y = nodes.length → N ≤ σ.length →
    (count = 0 ∨ (0 ≤ width ∧ width < 4294967296)) →
    RowsSpec σ nodes width.toNat (fun j i a n => n = Node.new i j (some true) ∧ N ≤ a) →
    ∃ nodes1 σ1, buildRows width count y σ nodes = .ok (nodes1, σ1) ∧ σ <+: σ1 ∧
      nodes1.length = nodes.length + count ∧
      RowsSpec σ1 nodes1 width.toNat (fun j i a n => n = Node.new i j (some true) ∧ N ≤ a) := by
  intro count
  induction count with
  | zero =>
    intro y σ nodes _ _ _ h
    exact ⟨nodes, σ, rfl, List.prefix_refl _, rfl, h⟩
  | succ count ih =>
    intro y σ nodes hy hN hw h
    have hw2 : 0 ≤ width ∧ width < 4294967296 := by
      rcases hw with h0 | h0
      · omega
      · exact h0
    unfold buildRows
    rw [newArray_ok hw2.1 hw2.2]
    simp only
    obtain ⟨b1, b2, b3⟩ := buildRow_spec y N width.toNat 0 σ [] rfl hN
      (fun x a hx => by simp at hx)
    have hrow : RowSpec (buildRow y width.toNat 0 σ []).2 (buildRow y width.toNat 0 σ []).1
        (fun i a n => n = Node.new i (nodes.length : Nat) (some true) ∧ N ≤ a) := by
      rw [← hy]; exact b3
    obtain ⟨nodes1, σ1, e1, e2, e3, e4⟩ := ih (y + 1) (buildRow y width.toNat 0 σ []).2
      (nodes ++ [(buildRow y width.toNat 0 σ []).1]) (by simp [hy])
      (le_trans hN b1.length_le) (Or.inr hw2)
      ((h.mono_rows b1).snoc_rows (by simpa using b2) hrow)
    refine ⟨nodes1, σ1, e1, b1.trans e2, ?_, e4⟩
    rw [e3]; simp; omega

/-- The constructor returns a well-formed grid of new walkable nodes and keeps the objects
that exist. -/
theorem new_spec (σ : Store) (height width : Int) (hh : 0 ≤ height ∧ height < 4294967296)
    (hw : height = 0 ∨ (0 ≤ width ∧ width < 4294967296)) :
    ∃ G σ1, Grid.new σ height width = .ok (G, σ1) ∧ G.height = height ∧ G.width = width ∧
      σ <+: σ1 ∧ G.nodes.length = height.toNat ∧
      RowsSpec σ1 G.nodes width.toNat
        (fun j i a n => n = Node.new i j (some true) ∧ σ.length ≤ a) := by
  unfold Grid.new
  rw [newArray_ok hh.1 hh.2]
  simp only
  obtain ⟨nodes1, σ1, e1, e2, e3, e4⟩ := buildRows_spec width σ.length height.toNat 0 σ [] rfl
    (le_refl _) (by rcases hw with h | h; · left; rw [h]; rfl
                    · right; exact h) (RowsSpec.nil _ _ _)
  rw [e1]
  exact ⟨_, σ1, rfl, rfl, rfl, e2, by simpa using e3, e4⟩

end Grid
end Obj
namespace Obj
namespace Grid

theorem isInside_iff_obj {G : Grid} {x y : Int} :
    G.isInside x y = true ↔ 0 ≤ x ∧ x < G.width ∧ 0 ≤ y ∧ y < G.height := by
  unfold isInside
  simp only [ge_iff_le, Bool.and_eq_true, decide_eq_true_eq]
  tauto

theorem getNodeAt_some {G : Grid} {x y : Int} {a : Addr} :
    G.getNodeAt x y = .ok (some a) ↔
      0 ≤ y ∧ 0 ≤ x ∧ ∃ row, G.nodes[y.toNat]? = some row ∧ row[x.toNat]? = some a := by
  unfold getNodeAt
  by_cases hy : 0 ≤ y
  · rw [if_pos hy]
    cases hrow : G.nodes[y.toNat]? with
    | none => simp
    | some row =>
      by_cases hx : 0 ≤ x
      · simp [hx, hy]
      · simp [hx]
  · rw [if_neg hy]
    simp [hy]

/-- In a well-formed grid the slot of a cell inside the grid holds a node of that cell. -/
theorem WellFormed.getNode {G : Grid} {σ : Store} (hwf : G.WellFormed σ) {x y : Int}
    (hin : G.isInside x y = true) :
    ∃ a n, G.getNodeAt x y = .ok (some a) ∧ σ[a]? = some n ∧ n.x = x ∧ n.y = y ∧ G.Has a := by
  obtain ⟨h1, h2, h3, h4⟩ := isInside_iff_obj.1 hin
  obtain ⟨_, _, hlen, _, hrows⟩ := hwf
  have hy : y.toNat < G.nodes.length := by omega
  have hrow : G.nodes[y.toNat]? = some (G.nodes[y.toNat]) := List.getElem?_eq_getElem hy
  obtain ⟨hrl, hrs⟩ := hrows y.toNat _ hrow
  have hx : x.toNat < (G.nodes[y.toNat]).length := by omega
  have ha : (G.nodes[y.toNat])[x.toNat]? = some ((G.nodes[y.toNat])[x.toNat]) :=
    List.getElem?_eq_getElem hx
  obtain ⟨n, hn, hnx, hny⟩ := hrs x.toNat _ ha
  refine ⟨_, n, ?_, hn, by omega, by omega, ⟨_, List.getElem_mem hy, List.getElem_mem hx⟩⟩
  unfold getNodeAt
  rw [if_pos h3, hrow]
  simp only [if_pos h1, ha]

/-- A reference found in a slot of a well-formed grid is to a node of that cell. -/
theorem WellFormed.node_of_slot {G : Grid} {σ : Store} (hwf : G.WellFormed σ) {x y : Int}
    {a : Addr} (h : G.getNodeAt x y = .ok (some a)) :
    ∃ n, σ[a]? = some n ∧ n.x = x ∧ n.y = y := by
  obtain ⟨hy, hx, row, hrow, h⟩ := getNodeAt_some.1 h
  obtain ⟨n, hn, hnx, hny⟩ := (hwf.2.2.2.2 y.toNat row hrow).2 x.toNat a h
  exact ⟨n, hn, by omega, by omega⟩

/-- Every reference held by a well-formed grid is to an allocated node, found in the slot
of the cell that the node names. -/
theorem WellFormed.node_of_has {G : Grid} {σ : Store} (hwf : G.WellFormed σ) {a : Addr}
    (h : G.Has a) : ∃ n, σ[a]? = some n ∧ G.getNodeAt n.x n.y = .ok (some a) := by
  obtain ⟨row, hrow, ha⟩ := h
  obtain ⟨y, hy⟩ := List.mem_iff_getElem?.1 hrow
  obtain ⟨x, hx⟩ := List.mem_iff_getElem?.1 ha
  obtain ⟨n, hn, hnx, hny⟩ := (hwf.2.2.2.2 y row hy).2 x a hx
  refine ⟨n, hn, ?_⟩
  unfold getNodeAt
  rw [hnx, hny]
  simp [hy, hx]

theorem has_of_getNodeAt {G : Grid} {x y : Int} {a : Addr}
    (h : G.getNodeAt x y = .ok (some a)) : G.Has a := by
  obtain ⟨hy, hx, row, hrow, h⟩ := getNodeAt_some.1 h
  exact ⟨row, List.mem_iff_getElem?.2 ⟨_, hrow⟩, List.mem_iff_getElem?.2 ⟨_, h⟩⟩

theorem WellFormed.readNode_ok {G : Grid} {σ : Store} (hwf : G.WellFormed σ) {x y : Int}
    (hin : G.isInside x y = true) :
    ∃ a n, G.getNodeAt x y = .ok (some a) ∧ σ[a]? = some n ∧ G.readNode σ x y = .ok n := by
  obtain ⟨a, n, h1, h2, _, _, _⟩ := hwf.getNode hin
  refine ⟨a, n, h1, h2, ?_⟩
  unfold readNode
  rw [h1]
  simp only [h2]

theorem readNode_prefix {G : Grid} {σ σ1 : Store} {x y : Int} {m : Node}
    (h : G.readNode σ x y = .ok m) (hp : σ <+: σ1) : G.readNode σ1 x y = .ok m := by
  unfold readNode at h ⊢
  cases hg : G.getNodeAt x y with
  | ok o =>
    rw [hg] at h
    cases o with
    | none => simp at h
    | some a =>
      simp only at h ⊢
      cases ha : σ[a]? with
      | none => rw [ha] at h; simp at h
      | some n =>
        rw [ha] at h
        rw [Store.prefix_get hp ha]
        exact h
  | fault => rw [hg] at h; simp at h
  | timeout => rw [hg] at h; simp at h

theorem WellFormed.mono_store {G : Grid} {σ σ1 : Store} (hwf : G.WellFormed σ) (hp : σ <+: σ1) :
    G.WellFormed σ1 :=
  ⟨hwf.1, hwf.2.1, hwf.2.2.1, hwf.2.2.2.1, hwf.2.2.2.2.mono_rows hp⟩

end Grid
end Obj
namespace Obj
namespace Grid

theorem RowsSpec.wellFormed {G : Grid} {σ : Store} {R : Nat → Nat → Addr → Node → Prop}
    (hh : 0 ≤ G.height ∧ G.height < 4294967296) (hl : G.nodes.length = G.height.toNat)
    (hw : G.height = 0 ∨ (0 ≤ G.width ∧ G.width < 4294967296))
    (h : RowsSpec σ G.nodes G.width.toNat R)
    (hR : ∀ y x a n, R y x a n → n.x = x ∧ n.y = y) : G.WellFormed σ := by
  refine ⟨hh.1, hh.2, hl, ?_, h.imp_rows hR⟩
  rcases hw with h0 | h0
  · left
    rw [h0] at hl
    exact List.eq_nil_of_length_eq_zero (by simpa using hl)
  · exact Or.inr h0

/-- The grid made by the constructor is well formed. -/
theorem new_wellFormed {σ σ1 : Store} {height width : Int} {G : Grid}
    (hh : 0 ≤ height ∧ height < 4294967296)
    (hw : height = 0 ∨ (0 ≤ width ∧ width < 4294967296))
    (h : Grid.new σ height width = .ok (G, σ1)) : G.WellFormed σ1 := by
  obtain ⟨G2, σ2, e1, e2, e3, _, e5, e6⟩ := new_spec σ height width hh hw
  rw [h] at e1
  simp only [Outcome.ok.injEq, Prod.mk.injEq] at e1
  obtain ⟨rfl, rfl⟩ := e1
  apply RowsSpec.wellFormed (by rw [e2]; exact hh) (by rw [e5, e2]) (by rw [e2, e3]; exact hw)
    (by rw [e3]; exact e6)
  intro y x a n hq
  rw [hq.1]
  exact ⟨rfl, rfl⟩

/-- An assignment that keeps the fields `x` and `y` of a node keeps a grid well formed. -/
theorem WellFormed.modify {G : Grid} {σ : Store} (hwf : G.WellFormed σ) (a : Addr)
    (u : Node → Node) (hu : ∀ n, (u n).x = n.x ∧ (u n).y = n.y) :
    G.WellFormed (σ.modify a u) := by
  refine ⟨hwf.1, hwf.2.1, hwf.2.2.1, hwf.2.2.2.1, ?_⟩
  intro y row hy
  refine ⟨(hwf.2.2.2.2 y row hy).1, ?_⟩
  intro x b hx
  obtain ⟨n, hn, hnx, hny⟩ := (hwf.2.2.2.2 y row hy).2 x b hx
  by_cases hb : b = a
  · subst hb
    exact ⟨u n, Store.modify_same σ u hn, by rw [(hu n).1, hnx], by rw [(hu n).2, hny]⟩
  · exact ⟨n, by rw [Store.modify_other σ u hb]; exact hn, hnx, hny⟩

/-- A store that differs only at addresses the grid does not hold gives the same answers. -/
theorem isWalkableAt_frame {G : Grid} {σ σ1 : Store} {P : Addr → Prop}
    (hf : Store.Frame P σ σ1) (hP : ∀ a, G.Has a → ¬ P a) (x y : Int) :
    G.isWalkableAt σ1 x y = G.isWalkableAt σ x y := by
  unfold isWalkableAt readNode
  cases hg : G.getNodeAt x y with
  | ok o =>
    cases o with
    | none => rfl
    | some a => simp only [hf.2 a (hP a (has_of_getNodeAt hg))]
  | fault => rfl
  | timeout => rfl

/-- What `setWalkableAt` does on a cell inside a well-formed grid. -/
theorem setWalkableAt_inside {G : Grid} {σ : Store} (hwf : G.WellFormed σ) {x y : Int}
    (hin : G.isInside x y = true) (b : Bool) :
    ∃ a n, G.getNodeAt x y = .ok (some a) ∧ σ[a]? = some n ∧ n.x = x ∧ n.y = y ∧
      G.setWalkableAt σ x y b = .ok (σ.modify a (fun n => { n with walkable := b })) := by
  obtain ⟨a, n, h1, h2, h3, h4, _⟩ := hwf.getNode hin
  refine ⟨a, n, h1, h2, h3, h4, ?_⟩
  unfold setWalkableAt
  rw [h1]
  simp only [h2]

end Grid
end Obj
namespace Obj

namespace JumpPointFinderBase

/-! ## Objects: the finder writes only to nodes of its grid -/

/-- The scan `_jump` writes only to nodes of the grid. -/
theorem jump_frame (F : Hola.JumpPointFinderBase) (e : Option Addr) (G : Grid) :
    ∀ (fuel : Nat) (σ : Store) (x y px py : Int),
      Store.Frame G.Has σ (_jump F e G fuel σ x y px py).2 := by
  intro fuel
  induction fuel with
  | zero => intro σ x y px py; exact Store.Frame.refl_frame _ _
  | succ n ih =>
    intro σ x y px py
    unfold _jump
    simp only
    split
    · exact Store.Frame.refl_frame _ _
    · split
      · rename_i here hg
        split
        · exact Store.Frame.refl_frame _ _
        · rename_i σ1 hfl
          have hf1 : Store.Frame G.Has σ σ1 := by
            by_cases ht : F.trackJumpRecursion = true
            · rw [if_pos ht] at hfl
              cases here with
              | none => simp at hfl
              | some a =>
                simp only [Option.some.injEq] at hfl
                rw [← hfl]
                exact Store.Frame.of_modify σ _ (Grid.has_of_getNodeAt hg)
            · rw [if_neg ht] at hfl
              simp only [Option.some.injEq] at hfl
              rw [← hfl]
              exact Store.Frame.refl_frame _ _
          refine hf1.trans_frame ?_
          split_ifs
          · exact Store.Frame.refl_frame _ _
          · split
            · exact Store.Frame.refl_frame _ _
            · exact ih _ _ _ _ _
            · exact Store.Frame.refl_frame _ _
            · exact Store.Frame.refl_frame _ _
          · split
            · exact Store.Frame.refl_frame _ _
            · have h1 := ih σ1 (x + 1) y x y
              split
              · rename_i σ2 heq
                rw [heq] at h1
                exact h1
              · rename_i σ2 heq
                rw [heq] at h1
                have h2 := ih σ2 (x - 1) y x y
                refine h1.trans_frame ?_
                split
                · rename_i σ3 heq2
                  rw [heq2] at h2
                  exact h2
                · rename_i σ3 heq2
                  rw [heq2] at h2
                  exact h2.trans_frame (ih _ _ _ _ _)
                · rename_i σ3 heq2
                  rw [heq2] at h2
                  exact h2
                · rename_i σ3 heq2
                  rw [heq2] at h2
                  exact h2
              · rename_i σ2 heq
                rw [heq] at h1
                exact h1
              · rename_i σ2 heq
                rw [heq] at h1
                exact h1
            · exact Store.Frame.refl_frame _ _
            · exact Store.Frame.refl_frame _ _
          · exact Store.Frame.refl_frame _ _
      · exact Store.Frame.refl_frame _ _
      · exact Store.Frame.refl_frame _ _
    · exact Store.Frame.refl_frame _ _
    · exact Store.Frame.refl_frame _ _

end JumpPointFinderBase
end Obj
namespace Obj

namespace JumpPointFinderBase

theorem syncOpen_entries_obj (ol : Heap Addr) (σ : Store) : (syncOpen ol σ).entries = ol.entries :=
  rfl

theorem heapIn_push {G : Grid} {ol : Heap Addr} {a : Addr} (h : HeapIn G ol) (ha : G.Has a)
    (σ : Store) : HeapIn G ((syncOpen ol σ).push a) := by
  intro b hb
  rw [(Heap.push_content (syncOpen ol σ) a).2.2.2.1, syncOpen_entries_obj] at hb
  rcases Multiset.mem_cons.1 hb with h1 | h1
  · simp only [Option.some.injEq] at h1
    rw [h1]; exact ha
  · exact h b h1

/-- One iteration of the successor loop writes only to nodes of the grid and keeps the open
list within the grid. -/
theorem successorStep_frame (F : Hola.JumpPointFinderBase) (e : Option Addr) (G : Grid)
    (fuel : Nat) (node : Addr) (x y endX endY : Int) (σ : Store) (ol : Heap Addr)
    (nb : Coord) (hol : HeapIn G ol) :
    Store.Frame G.Has σ (successorStep F e G fuel node x y endX endY σ ol nb).2.1 ∧
      HeapIn G (successorStep F e G fuel node x y endX endY σ ol nb).2.2 := by
  unfold successorStep
  have hj := jump_frame F e G fuel σ nb.1 nb.2 x y
  split
  · rename_i σ1 heq
    rw [heq] at hj
    exact ⟨hj, hol⟩
  · rename_i jp σ1 heq
    rw [heq] at hj
    simp only
    split
    · rename_i jumpNode jn hr hg
      have hjn : G.Has jn := Grid.has_of_getNodeAt hg
      split_ifs
      · exact ⟨hj, hol⟩
      · refine ⟨hj.trans_frame ((Store.Frame.of_modify _ _ hjn).trans_frame
          (Store.Frame.of_modify _ _ hjn)), heapIn_push hol hjn _⟩
      · exact ⟨hj, hol⟩
    · exact ⟨hj, hol⟩
    · exact ⟨hj, hol⟩
  · rename_i σ1 heq
    rw [heq] at hj
    exact ⟨hj, hol⟩
  · rename_i σ1 heq
    rw [heq] at hj
    exact ⟨hj, hol⟩

theorem successorLoop_frame (F : Hola.JumpPointFinderBase) (e : Option Addr) (G : Grid)
    (fuel : Nat) (node : Addr) (x y endX endY : Int) :
    ∀ (l : List Coord) (σ : Store) (ol : Heap Addr), HeapIn G ol →
      Store.Frame G.Has σ (successorLoop F e G fuel node x y endX endY l σ ol).2.1 ∧
        HeapIn G (successorLoop F e G fuel node x y endX endY l σ ol).2.2 := by
  intro l
  induction l with
  | nil => intro σ ol hol; exact ⟨Store.Frame.refl_frame _ _, hol⟩
  | cons nb rest ih =>
    intro σ ol hol
    unfold successorLoop
    have hs := successorStep_frame F e G fuel node x y endX endY σ ol nb hol
    split
    · rename_i u σ1 ol1 heq
      rw [heq] at hs
      have := ih σ1 ol1 hs.2
      exact ⟨hs.1.trans_frame this.1, this.2⟩
    · rename_i σ1 ol1 heq
      rw [heq] at hs
      exact hs
    · rename_i σ1 ol1 heq
      rw [heq] at hs
      exact hs

theorem identifySuccessors_frame (F : Hola.JumpPointFinderBase) (e : Option Addr) (G : Grid)
    (fuel : Nat) (node : Addr) (σ : Store) (ol : Heap Addr) (hol : HeapIn G ol) :
    Store.Frame G.Has σ (_identifySuccessors F e G fuel node σ ol).2.1 ∧
      HeapIn G (_identifySuccessors F e G fuel node σ ol).2.2 := by
  unfold _identifySuccessors
  split
  · split
    · exact successorLoop_frame F e G fuel node _ _ _ _ _ σ ol hol
    · exact ⟨Store.Frame.refl_frame _ _, hol⟩
    · exact ⟨Store.Frame.refl_frame _ _, hol⟩
  · exact ⟨Store.Frame.refl_frame _ _, hol⟩

/-- The main loop of `findPath` writes only to nodes of the grid. -/
theorem findPathLoop_frame (F : Hola.JumpPointFinderBase) (e : Option Addr) (G : Grid)
    (fuel : Nat) : ∀ (n : Nat) (σ : Store) (ol : Heap Addr), HeapIn G ol →
      Store.Frame G.Has σ (findPathLoop F e G fuel n σ ol).2 := by
  intro n
  induction n with
  | zero => intro σ ol _; exact Store.Frame.refl_frame _ _
  | succ n ih =>
    intro σ ol hol
    unfold findPathLoop
    split_ifs with hemp
    · exact Store.Frame.refl_frame _ _
    · have hl : 1 ≤ (syncOpen ol σ).last := by
        have : ol.last ≠ 0 := by
          intro h0
          apply hemp
          simp [Heap.isEmpty, h0]
        show 1 ≤ ol.last
        omega
      have hpc := Heap.pop_content (syncOpen ol σ) hl
      split
      · exact Store.Frame.refl_frame _ _
      · rename_i node ol1 heq
        rw [heq] at hpc
        simp only at hpc
        have hnode : G.Has node := by
          apply hol
          rw [← syncOpen_entries_obj ol σ, hpc.2.2.2.2.1]
          exact Multiset.mem_cons_self _ _
        have hol1 : HeapIn G ol1 := by
          intro b hb
          apply hol
          rw [← syncOpen_entries_obj ol σ, hpc.2.2.2.2.1]
          exact Multiset.mem_cons_of_mem hb
        have hm : Store.Frame G.Has σ (σ.modify node (fun nd => { nd with closed := true })) :=
          Store.Frame.of_modify σ _ hnode
        simp only
        split_ifs
        · split <;> exact hm
        · have hi := identifySuccessors_frame F e G fuel node
            (σ.modify node (fun nd => { nd with closed := true })) ol1 hol1
          split
          · rename_i u σ2 ol2 heq2
            rw [heq2] at hi
            exact hm.trans_frame (hi.1.trans_frame (ih σ2 ol2 hi.2))
          · rename_i σ2 ol2 heq2
            rw [heq2] at hi
            exact hm.trans_frame hi.1
          · rename_i σ2 ol2 heq2
            rw [heq2] at hi
            exact hm.trans_frame hi.1

/-- A run of `findPath`, however it ends, writes only to nodes of the grid that it is
given, and allocates no node. -/
theorem findPath_frame (F : Hola.JumpPointFinderBase) (fuel : Nat) (sx sy ex ey : Int)
    (G : Grid) (σ : Store) : Store.Frame G.Has σ (findPath F fuel sx sy ex ey G σ).2 := by
  unfold findPath
  simp only
  split
  · rename_i s en hs he
    have hsn : G.Has s := Grid.has_of_getNodeAt hs
    have h1 := Store.Frame.of_modify (P := G.Has) σ
      (fun n : Node => { n with g := some 0, f := some 0 }) hsn
    have h2 := Store.Frame.of_modify (P := G.Has)
      (σ.modify s (fun n : Node => { n with g := some 0, f := some 0 }))
      (fun n : Node => { n with opened := true }) hsn
    have h0 : HeapIn G (Heap.new none (compareF σ)) := by
      intro b hb
      rw [Heap.new_entries] at hb
      simp at hb
    exact h1.trans_frame (h2.trans_frame
      (findPathLoop_frame F en G fuel fuel _ _ (heapIn_push h0 hsn _)))
  · exact Store.Frame.refl_frame _ _
  · exact Store.Frame.refl_frame _ _

end JumpPointFinderBase
end Obj
namespace Obj

namespace Grid

/-! ## Objects: `clone` -/

/-- The inner loop of `clone` fills the row with new nodes that copy the `walkable` fields
of row `i`. -/
theorem cloneRow_spec (G : Grid) (σ0 : Store) (hwf : G.WellFormed σ0) (i : Int)
    (hi : 0 ≤ i ∧ i < G.height) (N : Nat) : ∀ (count : Nat) (j : Int) (σ : Store)
    (row : List Addr), j = row.length → σ0 <+: σ → N ≤ σ.length →
    row.length + count ≤ G.width.toNat →
    RowSpec σ row (fun x a n => ∃ m, G.readNode σ0 x i = .ok m ∧
      n = Node.new x i (some m.walkable) ∧ N ≤ a) →
    ∃ row1 σ1, cloneRow G i count j σ row = .ok (row1, σ1) ∧ σ <+: σ1 ∧
      row1.length = row.length + count ∧
      RowSpec σ1 row1 (fun x a n => ∃ m, G.readNode σ0 x i = .ok m ∧
        n = Node.new x i (some m.walkable) ∧ N ≤ a) := by
  intro count
  induction count with
  | zero =>
    intro j σ row _ _ _ _ h
    exact ⟨row, σ, rfl, List.prefix_refl _, rfl, h⟩
  | succ count ih =>
    intro j σ row hj hp hN hlen h
    have hin : G.isInside j i = true := isInside_iff_obj.2 (by omega)
    obtain ⟨a, m, _, _, hr⟩ := hwf.readNode_ok hin
    have hr1 := readNode_prefix hr hp
    unfold cloneRow
    rw [hr1]
    simp only
    have hpa := Store.alloc_prefix σ (Node.new j i (some m.walkable))
    have hsn : RowSpec (σ.alloc (Node.new j i (some m.walkable))).2
        (row ++ [(σ.alloc (Node.new j i (some m.walkable))).1])
        (fun x a n => ∃ m, G.readNode σ0 x i = .ok m ∧
          n = Node.new x i (some m.walkable) ∧ N ≤ a) :=
      (h.mono_row hpa).snoc_row (Store.alloc_get σ _) ⟨m, by rw [← hj]; exact hr, by rw [hj], hN⟩
    obtain ⟨row1, σ1, e1, e2, e3, e4⟩ := ih (j + 1) (σ.alloc (Node.new j i (some m.walkable))).2
      (row ++ [(σ.alloc (Node.new j i (some m.walkable))).1]) (by simp [hj])
      (hp.trans hpa) (by simp [Store.alloc]; omega) (by simp; omega) hsn
    refine ⟨row1, σ1, e1, hpa.trans e2, ?_, e4⟩
    rw [e3]; simp; omega

/-- The outer loop of `clone` adds rows of new nodes that copy the `walkable` fields. -/
theorem cloneRows_spec (G : Grid) (σ0 : Store) (hwf : G.WellFormed σ0) (N : Nat) :
    ∀ (count : Nat) (i : Int) (σ : Store) (newNodes : List (List Addr)),
    i = newNodes.length → σ0 <+: σ → N ≤ σ.length →
    newNodes.length + count ≤ G.height.toNat →
    RowsSpec σ newNodes G.width.toNat (fun y x a n => ∃ m, G.readNode σ0 x y = .ok m ∧
      n = Node.new x y (some m.walkable) ∧ N ≤ a) →
    ∃ nodes1 σ1, cloneRows G count i σ newNodes = .ok (nodes1, σ1) ∧ σ <+: σ1 ∧
      nodes1.length = newNodes.length + count ∧
      RowsSpec σ1 nodes1 G.width.toNat (fun y x a n => ∃ m, G.readNode σ0 x y = .ok m ∧
        n = Node.new x y (some m.walkable) ∧ N ≤ a) := by
  intro count
  induction count with
  | zero =>
    intro i σ newNodes _ _ _ _ h
    exact ⟨newNodes, σ, rfl, List.prefix_refl _, rfl, h⟩
  | succ count ih =>
    intro i σ newNodes hi hp hN hlen h
    have hw : 0 ≤ G.width ∧ G.width < 4294967296 := by
      rcases hwf.2.2.2.1 with h0 | h0
      · have := hwf.2.2.1
        rw [h0] at this
        simp at this
        omega
      · exact h0
    unfold cloneRows
    rw [newArray_ok hw.1 hw.2]
    simp only
    obtain ⟨row1, σ1, c1, c2, c3, c4⟩ := cloneRow_spec G σ0 hwf i (by omega) N G.width.toNat 0 σ []
      rfl hp hN (by simp) (fun x a hx => by simp at hx)
    rw [c1]
    simp only
    have hrow : RowSpec σ1 row1 (fun x a n => ∃ m,
        G.readNode σ0 x ((newNodes.length : Nat) : Int) = .ok m ∧
        n = Node.new x ((newNodes.length : Nat) : Int) (some m.walkable) ∧ N ≤ a) := by
      rw [← hi]; exact c4
    obtain ⟨nodes1, σ2, e1, e2, e3, e4⟩ := ih (i + 1) σ1 (newNodes ++ [row1]) (by simp [hi])
      (hp.trans c2) (le_trans hN c2.length_le) (by simp; omega)
      ((h.mono_rows c2).snoc_rows (by simpa using c3) hrow)
    refine ⟨nodes1, σ2, e1, c2.trans e2, ?_, e4⟩
    rw [e3]; simp; omega

/-- What `clone` returns on a well-formed grid: a grid of the same size whose slots hold
new nodes that copy the `walkable` fields; the objects that exist are kept. -/
theorem clone_spec (G : Grid) (σ : Store) (hwf : G.WellFormed σ) :
    ∃ C σ1, G.clone σ = .ok (C, σ1) ∧ C.height = G.height ∧ C.width = G.width ∧
      σ <+: σ1 ∧ C.nodes.length = G.height.toNat ∧
      RowsSpec σ1 C.nodes G.width.toNat (fun y x a n => ∃ m, G.readNode σ x y = .ok m ∧
        n = Node.new x y (some m.walkable) ∧ σ.length ≤ a) := by
  have hh : 0 ≤ G.height ∧ G.height < 4294967296 := ⟨hwf.1, hwf.2.1⟩
  have hw : G.height = 0 ∨ (0 ≤ G.width ∧ G.width < 4294967296) := by
    rcases hwf.2.2.2.1 with h0 | h0
    · left
      have := hwf.2.2.1
      rw [h0] at this
      simp at this
      omega
    · exact Or.inr h0
  obtain ⟨G2, σ2, n1, n2, n3, n4, _, _⟩ := new_spec σ G.height G.width hh hw
  obtain ⟨nodes1, σ3, c1, c2, c3, c4⟩ := cloneRows_spec G σ hwf σ.length G.height.toNat 0 σ2 []
    rfl n4 n4.length_le (by simp) (RowsSpec.nil _ _ _)
  unfold clone
  rw [n1]
  simp only
  rw [newArray_ok hh.1 hh.2]
  simp only
  rw [c1]
  exact ⟨_, σ3, rfl, n2, n3, n4.trans c2, by simpa using c3, c4⟩

theorem has_iff {G : Grid} {a : Addr} :
    G.Has a ↔ ∃ (y x : Nat) (row : List Addr), G.nodes[y]? = some row ∧ row[x]? = some a := by
  constructor
  · rintro ⟨row, hrow, ha⟩
    obtain ⟨y, hy⟩ := List.mem_iff_getElem?.1 hrow
    obtain ⟨x, hx⟩ := List.mem_iff_getElem?.1 ha
    exact ⟨y, x, row, hy, hx⟩
  · rintro ⟨y, x, row, hy, hx⟩
    exact ⟨row, List.mem_iff_getElem?.2 ⟨y, hy⟩, List.mem_iff_getElem?.2 ⟨x, hx⟩⟩

theorem WellFormed.has_lt {G : Grid} {σ : Store} (hwf : G.WellFormed σ) {a : Addr}
    (h : G.Has a) : a < σ.length := by
  obtain ⟨n, hn, _⟩ := hwf.node_of_has h
  exact Store.lt_of_get hn

/-- A call of `setWalkableAt` writes only to a node of its grid. -/
theorem setWalkableAt_frame {G : Grid} {σ σ1 : Store} {x y : Int} {b : Bool}
    (h : G.setWalkableAt σ x y b = .ok σ1) : Store.Frame G.Has σ σ1 := by
  unfold setWalkableAt at h
  cases hg : G.getNodeAt x y with
  | ok o =>
    rw [hg] at h
    cases o with
    | none => simp at h
    | some a =>
      simp only at h
      cases ha : σ[a]? with
      | none => rw [ha] at h; simp at h
      | some n =>
        rw [ha] at h
        simp only [Outcome.ok.injEq] at h
        rw [← h]
        exact Store.Frame.of_modify σ _ (has_of_getNodeAt hg)
  | fault => rw [hg] at h; simp at h
  | timeout => rw [hg] at h; simp at h

end Grid

theorem demo_new : Grid.new [] 1 2 = .ok (demoGrid, demoStore) := by
  rfl

theorem demo_wellFormed : demoGrid.WellFormed demoStore :=
  Grid.new_wellFormed (by decide) (Or.inr (by decide)) demo_new

end Obj

namespace Obj
namespace Grid

/-! ## Objects and coordinates: the two views of a grid agree -/

theorem view_isInside (G : Grid) (σ : Store) (x y : Int) :
    (G.view σ).isInside x y = G.isInside x y := rfl

/-- On a well-formed grid the method `isWalkableAt` on objects returns what it returns on
the grid seen as a function of coordinates. -/
theorem isWalkableAt_view {G : Grid} {σ : Store} (hwf : G.WellFormed σ) (x y : Int) :
    G.isWalkableAt σ x y = .ok ((G.view σ).isWalkableAt x y) := by
  unfold Hola.Grid.isWalkableAt
  rw [view_isInside]
  unfold isWalkableAt
  by_cases hin : G.isInside x y = true
  · obtain ⟨a, n, _, _, hr⟩ := hwf.readNode_ok hin
    rw [if_pos hin, hr, hin]
    simp only [view, hr, Bool.true_and]
  · rw [if_neg hin]
    have : G.isInside x y = false := by simpa using hin
    rw [this]
    simp

/-- On a well-formed grid `setWalkableAt` on objects does what it does on the grid seen as
a function of coordinates. -/
theorem setWalkableAt_view {G : Grid} {σ : Store} (hwf : G.WellFormed σ) {x y : Int}
    (hin : G.isInside x y = true) (b : Bool) :
    ∃ σ1, G.setWalkableAt σ x y b = .ok σ1 ∧
      ∀ x2 y2, (G.view σ1).isWalkableAt x2 y2 = ((G.view σ).setWalkableAt x y b).isWalkableAt x2 y2 := by
  obtain ⟨a, n, h1, h2, h3, h4, h5⟩ := setWalkableAt_inside hwf hin b
  refine ⟨_, h5, ?_⟩
  intro x2 y2
  have hwf1 : G.WellFormed (σ.modify a (fun n => { n with walkable := b })) :=
    hwf.modify a _ (fun _ => ⟨rfl, rfl⟩)
  unfold Hola.Grid.isWalkableAt
  have e1 : ((G.view σ).setWalkableAt x y b).isInside x2 y2 = G.isInside x2 y2 := rfl
  rw [view_isInside, e1]
  by_cases hi2 : G.isInside x2 y2 = true
  · rw [hi2]
    simp only [Bool.true_and]
    obtain ⟨a2, n2, g1, g2, g3, g4, _⟩ := hwf.getNode hi2
    by_cases hxy : (x2, y2) = (x, y)
    · have hx : x2 = x := congrArg Prod.fst hxy
      have hy : y2 = y := congrArg Prod.snd hxy
      subst hx; subst hy
      have ha : a2 = a := by
        rw [h1] at g1
        simpa using g1.symm
      subst ha
      simp only [view, readNode, g1, Store.modify_same σ _ g2, Hola.Grid.setWalkableAt,
        Hola.Grid.modify, Function.update_same]
    · have hne2 : a2 ≠ a := by
        intro h
        rw [h, h2] at g2
        simp only [Option.some.injEq] at g2
        apply hxy
        rw [← g3, ← g4, ← g2, h3, h4]
      simp only [view, readNode, g1, Store.modify_other σ _ hne2, g2, Hola.Grid.setWalkableAt,
        Hola.Grid.modify, Function.update_noteq hxy]
  · have : G.isInside x2 y2 = false := by simpa using hi2
    rw [this]
    simp

end Grid
end Obj
namespace Obj
namespace Grid

/-- On a well-formed grid `clone` on objects returns a grid that, seen as a function of
coordinates, has the cells of the clone of the original and carries no search state. -/
theorem clone_view {G : Grid} {σ : Store} (hwf : G.WellFormed σ) :
    ∃ C σ1, G.clone σ = .ok (C, σ1) ∧ (C.view σ1).width = (G.view σ).clone.width ∧
      (C.view σ1).height = (G.view σ).clone.height ∧
      (∀ x y, (C.view σ1).isWalkableAt x y = (G.view σ).clone.isWalkableAt x y) ∧
      (C.view σ1).NoSearchState := by
  obtain ⟨C, σ1, hc, hh, hw, hp, hlen, hrows⟩ := clone_spec G σ hwf
  refine ⟨C, σ1, hc, hw, hh, ?_, ?_⟩
  · intro x y
    unfold Hola.Grid.isWalkableAt
    have e1 : (C.view σ1).isInside x y = G.isInside x y := by
      unfold Hola.Grid.isInside
      simp only [view, hh, hw]
      rfl
    have e2 : (G.view σ).clone.isInside x y = G.isInside x y := rfl
    rw [e1, e2]
    by_cases hin : G.isInside x y = true
    · rw [hin]
      simp only [Bool.true_and]
      have hinC : C.isInside x y = true := by
        rw [isInside_iff_obj] at hin ⊢
        rw [hh, hw]; exact hin
      have hwfC : C.WellFormed σ1 := by
        apply RowsSpec.wellFormed (by rw [hh]; exact ⟨hwf.1, hwf.2.1⟩) (by rw [hlen, hh])
          _ (by rw [hw]; exact hrows)
        · intro y x a n hq
          obtain ⟨m, _, hn, _⟩ := hq
          rw [hn]
          exact ⟨rfl, rfl⟩
        · rw [hh, hw]
          rcases hwf.2.2.2.1 with h0 | h0
          · left
            have h1 := hwf.2.2.1
            have h2 := hwf.1
            rw [h0] at h1
            simp at h1
            omega
          · exact Or.inr h0
      obtain ⟨a, n, h1, h2, hr⟩ := hwfC.readNode_ok hinC
      obtain ⟨_, _, row, hrow, hx⟩ := getNodeAt_some.1 h1
      obtain ⟨n2, hn2, m, hm, hnm, _⟩ := (hrows y.toNat row hrow).2 x.toNat a hx
      have hxy := isInside_iff_obj.1 hin
      have ex : ((x.toNat : Nat) : Int) = x := by omega
      have ey : ((y.toNat : Nat) : Int) = y := by omega
      rw [ex, ey] at hm hnm
      rw [h2] at hn2
      simp only [Option.some.injEq] at hn2
      simp only [view, hr, Hola.Grid.clone, hm, Hola.Node.new]
      rw [hn2, hnm]
      rfl
    · have : G.isInside x y = false := by simpa using hin
      rw [this]
      simp
  · intro c
    simp only [view]
    cases hr : C.readNode σ1 c.1 c.2 with
    | ok n =>
      simp only
      have hn : ∃ a, C.Has a ∧ σ1[a]? = some n := by
        unfold readNode at hr
        cases hg : C.getNodeAt c.1 c.2 with
        | ok o =>
          rw [hg] at hr
          cases o with
          | none => simp at hr
          | some a =>
            simp only at hr
            cases ha : σ1[a]? with
            | none => rw [ha] at hr; simp at hr
            | some n2 =>
              rw [ha] at hr
              simp only [Outcome.ok.injEq] at hr
              exact ⟨a, has_of_getNodeAt hg, by rw [← hr]; exact ha⟩
        | fault => rw [hg] at hr; simp at hr
        | timeout => rw [hg] at hr; simp at hr
      obtain ⟨a, ha, hσ⟩ := hn
      obtain ⟨y, x, row, hy, hx⟩ := has_iff.1 ha
      obtain ⟨n2, hn2, m, _, hnm, _⟩ := (hrows y row hy).2 x a hx
      rw [hσ] at hn2
      simp only [Option.some.injEq] at hn2
      rw [hn2, hnm]
      exact ⟨rfl, rfl, rfl, rfl, rfl, rfl⟩
    | fault => exact ⟨rfl, rfl, rfl, rfl, rfl, rfl⟩
    | timeout => exact ⟨rfl, rfl, rfl, rfl, rfl, rfl⟩

end Grid
end Obj

/-! ## Grid queries, path expansion and scenarios: main properties -/

/-! ## Grid queries -/

theorem mem_forRange {lo hi i : Int} : i ∈ Grid.forRange lo hi ↔ lo ≤ i ∧ i ≤ hi := by
  unfold Grid.forRange
  simp only [List.mem_map, List.mem_range]
  constructor
  · rintro ⟨k, hk, rfl⟩
    omega
  · rintro ⟨h1, h2⟩
    exact ⟨(i - lo).toNat, by omega, by omega⟩

theorem forRange_sorted (lo hi : Int) : (Grid.forRange lo hi).Pairwise (· < ·) := by
  unfold Grid.forRange
  rw [List.pairwise_map]
  exact (List.pairwise_lt_range _).imp (fun h => by omega)

/-- A loop that appends to a list returns the list with the appended items. -/
theorem foldl_append_eq {α β : Type} (f : α → List β) : ∀ (l : List α) (acc : List β),
    l.foldl (fun acc a => acc ++ f a) acc = acc ++ l.flatMap f := by
  intro l
  induction l with
  | nil => intro acc; simp
  | cons a l ih => intro acc; simp [ih]

/-- The cells that `getNeighbors` collects, row by row. -/
theorem getNeighbors_eq (grid : Grid) (node : Coord) (r : Int) :
    grid.getNeighbors node (some r) =
      (Grid.forRange (-r) r).flatMap (fun dy =>
        (Grid.forRange (-r) r).flatMap (fun dx =>
          if grid.isInside (node.1 + dx) (node.2 + dy) = true then [(node.1 + dx, node.2 + dy)]
          else [])) := by
  unfold Grid.getNeighbors
  simp only
  have inner : ∀ (dy : Int) (acc : List Coord),
      (Grid.forRange (-r) r).foldl (fun neighbors dx =>
        if (!grid.isInside (node.1 + dx) (node.2 + dy)) = true then neighbors
        else neighbors ++ [(node.1 + dx, node.2 + dy)]) acc =
      acc ++ (Grid.forRange (-r) r).flatMap (fun dx =>
          if grid.isInside (node.1 + dx) (node.2 + dy) = true then [(node.1 + dx, node.2 + dy)]
          else []) := by
    intro dy acc
    rw [← foldl_append_eq]
    congr 1
    funext neighbors dx
    cases grid.isInside (node.1 + dx) (node.2 + dy) <;> simp
  simp only [inner]
  rw [foldl_append_eq]
  simp

/-- C15: `getNeighbors(node, r)` returns precisely the cells inside the grid within
Chebyshev distance `r` of the node (walkable or not, the node's own cell included), in
row-major order and hence each exactly once; with the radius omitted it behaves as
`r = 1`. -/
theorem getNeighbors_spec (grid : Grid) (node : Coord) (r : Int) :
    (∀ c : Coord, c ∈ grid.getNeighbors node (some r) ↔
      grid.isInside c.1 c.2 = true ∧ max |c.1 - node.1| |c.2 - node.2| ≤ r) ∧
    (grid.getNeighbors node (some r)).Pairwise RowMajorLt ∧
    (grid.getNeighbors node (some r)).Nodup ∧
    grid.getNeighbors node none = grid.getNeighbors node (some 1) := by
  have hpw : (grid.getNeighbors node (some r)).Pairwise RowMajorLt := by
    rw [getNeighbors_eq, List.pairwise_flatMap]
    constructor
    · intro dy _
      rw [List.pairwise_flatMap]
      constructor
      · intro dx _
        split_ifs <;> simp
      · refine (forRange_sorted (-r) r).imp ?_
        intro a b hab x hx y hy
        split_ifs at hx hy <;> simp only [List.mem_singleton, List.not_mem_nil] at hx hy
        subst hx; subst hy
        right
        exact ⟨rfl, by simp only; omega⟩
    · refine (forRange_sorted (-r) r).imp ?_
      intro a b hab x hx y hy
      simp only [List.mem_flatMap] at hx hy
      obtain ⟨dx1, _, hx⟩ := hx
      obtain ⟨dx2, _, hy⟩ := hy
      split_ifs at hx hy <;> simp only [List.mem_singleton, List.not_mem_nil] at hx hy
      subst hx; subst hy
      left
      simp only; omega
  refine ⟨?_, hpw, ?_, rfl⟩
  · intro c
    rw [getNeighbors_eq]
    simp only [List.mem_flatMap, mem_forRange]
    constructor
    · rintro ⟨dy, hdy, dx, hdx, hc⟩
      split_ifs at hc with hin <;> simp only [List.mem_singleton, List.not_mem_nil] at hc
      subst hc
      refine ⟨hin, ?_⟩
      simp only [add_sub_cancel_left, max_le_iff, abs_le]
      omega
    · rintro ⟨hin, hmax⟩
      simp only [max_le_iff, abs_le] at hmax
      refine ⟨c.2 - node.2, by omega, c.1 - node.1, by omega, ?_⟩
      have e1 : node.1 + (c.1 - node.1) = c.1 := by omega
      have e2 : node.2 + (c.2 - node.2) = c.2 := by omega
      rw [e1, e2, if_pos hin]
      simp
  · refine hpw.imp ?_
    intro a b hab heq
    subst heq
    unfold RowMajorLt at hab
    omega


/-- C16: `getWalkableNeighbors` returns exactly those of the cells `(x, y-1)`, `(x+1, y)`,
`(x, y+1)`, `(x-1, y)` for which `isWalkableAt` is true, in that order; every returned cell
is inside the grid and walkable and there are at most 4 of them. -/
theorem getWalkableNeighbors_spec (grid : Grid) (x y : Int) :
    grid.getWalkableNeighbors (x, y) =
      [(x, y - 1), (x + 1, y), (x, y + 1), (x - 1, y)].filter
        (fun c => grid.isWalkableAt c.1 c.2) ∧
    (∀ c, c ∈ grid.getWalkableNeighbors (x, y) →
      grid.isInside c.1 c.2 = true ∧ grid.isWalkableAt c.1 c.2 = true) ∧
    (grid.getWalkableNeighbors (x, y)).length ≤ 4 := by
  have heq : grid.getWalkableNeighbors (x, y) =
      [(x, y - 1), (x + 1, y), (x, y + 1), (x - 1, y)].filter
        (fun c => grid.isWalkableAt c.1 c.2) := by
    unfold Grid.getWalkableNeighbors
    simp only [List.nil_append, List.filter_cons, List.filter_nil]
    cases grid.isWalkableAt x (y - 1) <;> cases grid.isWalkableAt (x + 1) y <;>
      cases grid.isWalkableAt x (y + 1) <;> cases grid.isWalkableAt (x - 1) y <;> rfl
  refine ⟨heq, ?_, ?_⟩
  · intro c hc
    rw [heq, List.mem_filter] at hc
    exact ⟨Grid.isInside_of_walkable hc.2, hc.2⟩
  · rw [heq]
    exact le_trans (List.length_filter_le _ _) (by simp)

/-! ## Path expansion -/

/-- C19: for a path with fewer than 2 waypoints `expandPath` returns the empty sequence;
a single waypoint is dropped. -/
theorem expandPath_short (fuel : Nat) (path : List Coord) (h : path.length < 2) :
    expandPath fuel path = .ok [] := by
  unfold expandPath
  rw [if_pos h]

theorem expandPath_short_witness :
    [((3, 4) : Coord)].length < 2 ∧ expandPath 0 [((3, 4) : Coord)] = .ok [] :=
  ⟨by decide, expandPath_short 0 [(3, 4)] (by decide)⟩

theorem interpolate_same (fuel : Nat) (hf : 0 < fuel) (a : Coord) :
    interpolate fuel a.1 a.2 a.1 a.2 = .ok [a] := by
  obtain ⟨n, rfl⟩ : ∃ n, fuel = n + 1 := ⟨fuel - 1, by omega⟩
  unfold interpolate
  simp only
  unfold interpolateLoop
  simp

/-- Between two waypoints on a common row or column `interpolate` returns the cells of the
straight segment that joins them. -/
theorem interpolate_aligned (fuel : Nat) {a b : Coord} (hal : Aligned a b)
    (hf : dist1 a b < fuel) :
    ∃ dx dy, UnitDir dx dy ∧ b = (a.1 + (dist1 a b : Int) * dx, a.2 + (dist1 a b : Int) * dy) ∧
      interpolate fuel a.1 a.2 b.1 b.2 = .ok (segCells a dx dy (dist1 a b)) := by
  by_cases hab : a = b
  · subst hab
    have hd : dist1 a a = 0 := by simp [dist1]
    refine ⟨1, 0, Or.inl ⟨Or.inl rfl, rfl⟩, ?_, ?_⟩
    · rw [hd]; simp
    · rw [hd, segCells_zero]
      exact interpolate_same fuel (by omega) a
  · have hne : a.1 ≠ b.1 ∨ a.2 ≠ b.2 := by
      by_contra h
      push_neg at h
      exact hab (Prod.ext h.1 h.2)
    rcases hal with h1 | h2
    · -- common column
      have h2 : a.2 ≠ b.2 := by
        rcases hne with h | h
        · exact absurd h1 h
        · exact h
      have hk : (dist1 a b : Int) = |b.2 - a.2| := by
        unfold dist1
        rw [h1]
        simp
      by_cases hlt : a.2 < b.2
      · have hk2 : (dist1 a b : Int) = b.2 - a.2 := by rw [hk, abs_of_pos (by omega)]
        have hb : b = (a.1 + (dist1 a b : Int) * 0, a.2 + (dist1 a b : Int) * 1) :=
          Prod.ext (by simp [h1]) (by simp only; omega)
        refine ⟨0, 1, Or.inr ⟨rfl, Or.inl rfl⟩, hb, ?_⟩
        have := interpolate_seg a 0 1 (dist1 a b) (Or.inr ⟨rfl, Or.inl rfl⟩) (by omega) fuel hf
        have e1 := congrArg Prod.fst hb
        have e2 := congrArg Prod.snd hb
        simp only at e1 e2
        rw [← e1, ← e2] at this
        exact this
      · have hk2 : (dist1 a b : Int) = a.2 - b.2 := by
          rw [hk, abs_of_neg (by omega)]; ring
        have hb : b = (a.1 + (dist1 a b : Int) * 0, a.2 + (dist1 a b : Int) * -1) :=
          Prod.ext (by simp [h1]) (by simp only; omega)
        refine ⟨0, -1, Or.inr ⟨rfl, Or.inr rfl⟩, hb, ?_⟩
        have := interpolate_seg a 0 (-1) (dist1 a b) (Or.inr ⟨rfl, Or.inr rfl⟩) (by omega)
          fuel hf
        have e1 := congrArg Prod.fst hb
        have e2 := congrArg Prod.snd hb
        simp only at e1 e2
        rw [← e1, ← e2] at this
        exact this
    · -- common row
      have h1 : a.1 ≠ b.1 := by
        rcases hne with h | h
        · exact h
        · exact absurd h2 h
      have hk : (dist1 a b : Int) = |b.1 - a.1| := by
        unfold dist1
        rw [h2]
        simp
      by_cases hlt : a.1 < b.1
      · have hk2 : (dist1 a b : Int) = b.1 - a.1 := by rw [hk, abs_of_pos (by omega)]
        have hb : b = (a.1 + (dist1 a b : Int) * 1, a.2 + (dist1 a b : Int) * 0) :=
          Prod.ext (by simp only; omega) (by simp [h2])
        refine ⟨1, 0, Or.inl ⟨Or.inl rfl, rfl⟩, hb, ?_⟩
        have := interpolate_seg a 1 0 (dist1 a b) (Or.inl ⟨Or.inl rfl, rfl⟩) (by omega) fuel hf
        have e1 := congrArg Prod.fst hb
        have e2 := congrArg Prod.snd hb
        simp only at e1 e2
        rw [← e1, ← e2] at this
        exact this
      · have hk2 : (dist1 a b : Int) = a.1 - b.1 := by
          rw [hk, abs_of_neg (by omega)]; ring
        have hb : b = (a.1 + (dist1 a b : Int) * -1, a.2 + (dist1 a b : Int) * 0) :=
          Prod.ext (by simp only; omega) (by simp [h2])
        refine ⟨-1, 0, Or.inl ⟨Or.inr rfl, rfl⟩, hb, ?_⟩
        have := interpolate_seg a (-1) 0 (dist1 a b) (Or.inl ⟨Or.inr rfl, rfl⟩) (by omega)
          fuel hf
        have e1 := congrArg Prod.fst hb
        have e2 := congrArg Prod.snd hb
        simp only at e1 e2
        rw [← e1, ← e2] at this
        exact this

theorem segCells_length (p : Coord) (dx dy : Int) (k : Nat) :
    (segCells p dx dy k).length = k + 1 := by
  simp [segCells]

/-- The loop of `expandPath` on waypoints that are aligned two by two: with the last
waypoint appended, its result starts at the first waypoint, moves by unit steps, has one
cell more than the distance covered, and holds each waypoint at the distance covered up to
it. -/
theorem expandSegments_aligned (fuel : Nat) : ∀ (rest : List Coord) (a : Coord),
    AlignedChain (a :: rest) → pathDist (a :: rest) < fuel →
    ∃ e, expandSegments fuel (a :: rest) = .ok e ∧
      (e ++ [(a :: rest).getLast (List.cons_ne_nil _ _)]).head? = some a ∧
      Dense (e ++ [(a :: rest).getLast (List.cons_ne_nil _ _)]) ∧
      e.length = pathDist (a :: rest) ∧
      ∀ k, k < (a :: rest).length →
        (e ++ [(a :: rest).getLast (List.cons_ne_nil _ _)])[pathDist ((a :: rest).take (k + 1))]? =
          (a :: rest)[k]? := by
  intro rest
  induction rest with
  | nil =>
    intro a _ _
    refine ⟨[], rfl, rfl, trivial, rfl, ?_⟩
    intro k hk
    have : k = 0 := by simpa using hk
    subst this
    simp [pathDist]
  | cons b rest ih =>
    intro a hch hfuel
    obtain ⟨hal, hrest⟩ := hch
    have hd : pathDist (a :: b :: rest) = dist1 a b + pathDist (b :: rest) := rfl
    obtain ⟨e1, he1, hh1, hden1, hlen1, hidx1⟩ := ih b hrest (by omega)
    obtain ⟨dx, dy, hdir, hb, hint⟩ := interpolate_aligned fuel hal (by omega)
    have hlast : (a :: b :: rest).getLast (List.cons_ne_nil _ _) =
        (b :: rest).getLast (List.cons_ne_nil _ _) := List.getLast_cons (List.cons_ne_nil _ _)
    -- the expansion of the rest starts with `b`
    obtain ⟨t1, ht1⟩ : ∃ t1, e1 ++ [(b :: rest).getLast (List.cons_ne_nil _ _)] = b :: t1 := by
      cases hq : e1 ++ [(b :: rest).getLast (List.cons_ne_nil _ _)] with
      | nil => simp at hq
      | cons c t1 =>
        rw [hq] at hh1
        simp only [List.head?_cons, Option.some.injEq] at hh1
        exact ⟨t1, by rw [hh1]⟩
    have hlenpre : ((segCells a dx dy (dist1 a b)).dropLast).length = dist1 a b := by
      rw [List.length_dropLast, segCells_length]; omega
    refine ⟨(segCells a dx dy (dist1 a b)).dropLast ++ e1, ?_, ?_, ?_, ?_, ?_⟩
    · unfold expandSegments
      rw [hint, he1]
    · rw [hlast, List.append_assoc, ht1]
      cases hk : dist1 a b with
      | zero =>
        rw [segCells_zero]
        have : b = a := by
          rw [hb, hk]; simp
        simp [this]
      | succ k =>
        rw [segCells_dropLast]
        obtain ⟨t, ht, _⟩ := segCells_head a dx dy k
        rw [ht]; rfl
    · rw [hlast, List.append_assoc, ht1]
      rw [ht1] at hden1
      cases hk : dist1 a b with
      | zero =>
        rw [segCells_zero]
        exact hden1
      | succ k =>
        rw [segCells_dropLast]
        apply dense_append
        · have := dense_segCells hdir (k + 1) a
          rw [segCells_snoc] at this
          rw [hb, hk]
          exact this
        · exact hden1
    · rw [List.length_append, hlenpre, hlen1, hd]
    · intro k hk
      rw [hlast, List.append_assoc]
      cases k with
      | zero =>
        have h0 : pathDist (List.take (0 + 1) (a :: b :: rest)) = 0 := by simp [pathDist]
        rw [h0, ht1]
        cases hk2 : dist1 a b with
        | zero =>
          rw [segCells_zero]
          have : b = a := by
            rw [hb, hk2]; simp
          simp [this]
        | succ k2 =>
          rw [segCells_dropLast]
          obtain ⟨t, ht, _⟩ := segCells_head a dx dy k2
          rw [ht]; simp
      | succ j =>
        have h1 : pathDist (List.take (j + 1 + 1) (a :: b :: rest)) =
            dist1 a b + pathDist (List.take (j + 1) (b :: rest)) := by
          simp [pathDist]
        rw [h1, List.getElem?_append_right (by rw [hlenpre]; omega), hlenpre]
        have h2 : dist1 a b + pathDist (List.take (j + 1) (b :: rest)) - dist1 a b =
            pathDist (List.take (j + 1) (b :: rest)) := by omega
        rw [h2, hidx1 j (by simpa using hk)]
        simp

/-- C20: for a sparse path of at least 2 waypoints in which every two consecutive waypoints
lie on a common row or column, `expandPath` returns a sequence that starts at the first
waypoint, ends at the last, moves by exactly one unit along one axis between consecutive
elements, has length 1 + the sum of the distances between consecutive waypoints, and holds
the waypoint number `k` at the position given by the distance covered up to it (so the
waypoints appear in order and a shared end point appears once). -/
theorem expandPath_aligned (fuel : Nat) (path : List Coord) (hlen : 2 ≤ path.length)
    (hal : AlignedChain path) (hfuel : pathDist path < fuel) :
    ∃ out, expandPath fuel path = .ok out ∧ out.head? = path.head? ∧
      out.getLast? = path.getLast? ∧ Dense out ∧ out.length = 1 + pathDist path ∧
      ∀ k, k < path.length → out[pathDist (path.take (k + 1))]? = path[k]? := by
  cases path with
  | nil => simp at hlen
  | cons a rest =>
    obtain ⟨e, he, hhead, hden, hl, hidx⟩ := expandSegments_aligned fuel rest a hal hfuel
    have hlast : (a :: rest).getLast? = some ((a :: rest).getLast (List.cons_ne_nil _ _)) :=
      List.getLast?_eq_getLast _ _
    refine ⟨e ++ [(a :: rest).getLast (List.cons_ne_nil _ _)], ?_, hhead, ?_, hden, ?_, hidx⟩
    · unfold expandPath
      have : ¬ (a :: rest).length < 2 := by omega
      rw [if_neg this, he, hlast]
    · rw [hlast]; simp
    · rw [List.length_append, hl]; simp; omega

theorem expandPath_aligned_witness :
    2 ≤ [((1, 1) : Coord), (1, 3), (4, 3)].length ∧ AlignedChain [(1, 1), (1, 3), (4, 3)] ∧
    pathDist [(1, 1), (1, 3), (4, 3)] < 6 ∧
    ∃ out, expandPath 6 [(1, 1), (1, 3), (4, 3)] = .ok out ∧
      out.head? = [((1, 1) : Coord), (1, 3), (4, 3)].head? ∧
      out.getLast? = [((1, 1) : Coord), (1, 3), (4, 3)].getLast? ∧ Dense out ∧
      out.length = 1 + pathDist [(1, 1), (1, 3), (4, 3)] ∧
      ∀ k, k < [((1, 1) : Coord), (1, 3), (4, 3)].length →
        out[pathDist ([((1, 1) : Coord), (1, 3), (4, 3)].take (k + 1))]? =
          [((1, 1) : Coord), (1, 3), (4, 3)][k]? :=
  ⟨by decide, by simp [AlignedChain, Aligned], by decide,
    expandPath_aligned 6 [(1, 1), (1, 3), (4, 3)] (by decide) (by simp [AlignedChain, Aligned])
      (by decide)⟩

/-! ## Scenarios -/

theorem dense_of_isWalkList (grid : Grid) : ∀ (q : List Coord),
    isWalkList grid q = true → Dense q := by
  intro q
  induction q with
  | nil => intro _; trivial
  | cons a q ih =>
    intro h
    cases q with
    | nil => trivial
    | cons b q =>
      simp only [isWalkList, Bool.and_eq_true, decide_eq_true_eq] at h
      exact ⟨h.1.2, ih h.2⟩

set_option maxRecDepth 1000000 in
/-- C11: on the 5x5 grid in which every cell is walkable, `findPath` from `(0, 0)` to
`(4, 4)` returns, for every heuristic, a path of exactly 9 coordinates that starts at
`(0, 0)`, ends at `(4, 4)` and changes exactly one coordinate by 1 at each step. -/
theorem findPath_open_grid (F : JumpPointFinderBase) (fuel : Nat)
    (hfuel : (Grid.new 5 5).fuelBound ≤ fuel) :
    ∃ path, findPathResult F fuel 0 0 4 4 (Grid.new 5 5) = .ok path ∧ path.length = 9 ∧
      path.head? = some (0, 0) ∧ path.getLast? = some (4, 4) ∧ Dense path := by
  have hb : (Grid.new 5 5).fuelBound = 138 := by decide
  rw [hb] at hfuel
  obtain ⟨n, rfl⟩ : ∃ n, fuel = n + 138 := ⟨fuel - 138, by omega⟩
  have hrun : findPathResult F (n + 138) 0 0 4 4 (Grid.new 5 5) = .ok openPath := by
    obtain ⟨h, t⟩ := F
    cases t <;> rfl
  exact ⟨openPath, hrun, by decide, by decide, by decide,
    dense_of_isWalkList (Grid.new 5 5) openPath (by decide)⟩

theorem findPath_open_grid_witness :
    (Grid.new 5 5).fuelBound ≤ 138 ∧
    ∃ path, findPathResult manhattanFinder 138 0 0 4 4 (Grid.new 5 5) = .ok path ∧
      path.length = 9 ∧ path.head? = some (0, 0) ∧ path.getLast? = some (4, 4) ∧ Dense path :=
  ⟨by decide, findPath_open_grid manhattanFinder 138 (by decide)⟩

/-- What `findPath` returns when the goal can be reached: a walk from the start to the goal. -/
theorem findPath_walk (F : JumpPointFinderBase) (grid : Grid) (S E : Coord)
    (fuel : Nat) (h0 : grid.NoSearchState) (hne : S ≠ E) (hr : Reach grid S E)
    (hfuel : grid.fuelBound ≤ fuel) :
    ∃ path, findPathResult F fuel S.1 S.2 E.1 E.2 grid = .ok path ∧
      path.head? = some S ∧ path.getLast? = some E ∧ Dense path ∧
      ∀ c, c ∈ path → grid.isWalkableAt c.1 c.2 = true := by
  have hS := Grid.isInside_of_walkable hr.start_walkable
  have hE := Grid.isInside_of_walkable hr.end_walkable
  obtain ⟨path, gridF, hrun, hend⟩ := findPath_spec F h0 hS hE hfuel
  refine ⟨path, findPathResult_eq F fuel _ _ _ _ grid hrun, ?_⟩
  cases hend with
  | exhausted ol hp hinv hl =>
    have hf : grid.width.toNat + grid.height.toNat + 2 ≤ fuel := by
      unfold Grid.fuelBound at hfuel; omega
    exact absurd hr (hinv.exhausted hl hf).not_reach
  | found g ol _ _ _ hres =>
    rcases hres with ⟨h, _⟩ | ⟨_, hp, hl⟩
    · exact absurd h hne
    · refine ⟨hp.1, hl, hp.2.1, ?_⟩
      obtain ⟨h1, _, h3⟩ := hp
      intro c hc
      cases path with
      | nil => simp at h1
      | cons a q =>
        simp only [List.head?_cons, Option.some.injEq] at h1
        rcases List.mem_cons.1 hc with h | h
        · rw [h, h1]; exact hr.start_walkable
        · exact h3 c h

/-- A list that moves by unit steps takes every column between its first and its last. -/
theorem dense_crossing (t : Int) : ∀ (q : List Coord) (a last : Coord), Dense (a :: q) →
    (a :: q).getLast? = some last → a.1 ≤ t → t ≤ last.1 → ∃ c, c ∈ a :: q ∧ c.1 = t := by
  intro q
  induction q with
  | nil =>
    intro a last _ hl h1 h2
    simp only [List.getLast?_singleton, Option.some.injEq] at hl
    subst hl
    exact ⟨a, List.mem_cons_self _ _, by omega⟩
  | cons b q ih =>
    intro a last hd hl h1 h2
    by_cases hat : a.1 = t
    · exact ⟨a, List.mem_cons_self _ _, hat⟩
    · rw [List.getLast?_cons_cons] at hl
      have hb : b.1 ≤ t := by
        rcases hd.1 with ⟨h, _⟩ | ⟨h, _⟩
        · rcases abs_eq (by norm_num : (0 : Int) ≤ 1) |>.1 h with h | h <;> omega
        · omega
      obtain ⟨c, hc, hct⟩ := ih b last hd.2 hl hb h2
      exact ⟨c, List.mem_cons_of_mem _ hc, hct⟩

/-- C12: on a grid (with no prior search state) of width 5 and height at least 4 whose
unwalkable cells are exactly the cells `(2, y)` with `y ≠ 3`, `findPath` from `(0, 0)` to
`(4, 0)` returns a non-empty path that contains `(2, 3)`. -/
theorem findPath_through_gap (F : JumpPointFinderBase) (grid : Grid) (fuel : Nat)
    (h0 : grid.NoSearchState) (hw : grid.width = 5) (hh : 4 ≤ grid.height)
    (hwall : ∀ x y, grid.isInside x y = true →
      ((grid.nodes (x, y)).walkable = false ↔ (x = 2 ∧ y ≠ 3)))
    (hfuel : grid.fuelBound ≤ fuel) :
    ∃ path, findPathResult F fuel 0 0 4 0 grid = .ok path ∧ path ≠ [] ∧ (2, 3) ∈ path := by
  have W : ∀ x y : Int, 0 ≤ x → x < 5 → 0 ≤ y → y < 4 → ¬ (x = 2 ∧ y ≠ 3) →
      grid.isWalkableAt x y = true := by
    intro x y h1 h2 h3 h4 h5
    have hin : grid.isInside x y = true := Grid.isInside_iff.2 (by omega)
    unfold Grid.isWalkableAt
    rw [hin]
    cases hv : (grid.nodes (x, y)).walkable with
    | true => rfl
    | false => exact absurd ((hwall x y hin).1 hv) h5
  have hwalk : isWalkList grid gapWalk = true := by
    simp only [gapWalk, isWalkList, Bool.and_eq_true, decide_eq_true_eq]
    refine ⟨⟨W _ _ ?_ ?_ ?_ ?_ ?_, ?_⟩, ⟨W _ _ ?_ ?_ ?_ ?_ ?_, ?_⟩, ⟨W _ _ ?_ ?_ ?_ ?_ ?_, ?_⟩,
      ⟨W _ _ ?_ ?_ ?_ ?_ ?_, ?_⟩, ⟨W _ _ ?_ ?_ ?_ ?_ ?_, ?_⟩, ⟨W _ _ ?_ ?_ ?_ ?_ ?_, ?_⟩,
      ⟨W _ _ ?_ ?_ ?_ ?_ ?_, ?_⟩, ⟨W _ _ ?_ ?_ ?_ ?_ ?_, ?_⟩, ⟨W _ _ ?_ ?_ ?_ ?_ ?_, ?_⟩,
      ⟨W _ _ ?_ ?_ ?_ ?_ ?_, ?_⟩, W _ _ ?_ ?_ ?_ ?_ ?_⟩ <;> decide
  have hr : Reach grid (0, 0) (4, 0) :=
    reach_of_isWalkList grid gapWalk.tail (0, 0) (4, 0) hwalk (by decide)
  obtain ⟨path, hrun, hhead, hlast, hden, hwk⟩ :=
    findPath_walk F grid (0, 0) (4, 0) fuel h0 (by decide) hr hfuel
  refine ⟨path, hrun, ?_, ?_⟩
  · intro h
    rw [h] at hhead
    simp at hhead
  · cases path with
    | nil => simp at hhead
    | cons a q =>
      simp only [List.head?_cons, Option.some.injEq] at hhead
      subst hhead
      obtain ⟨c, hc, hc2⟩ := dense_crossing 2 q (0, 0) (4, 0) hden hlast (by decide) (by decide)
      have hcw := hwk c hc
      have hin := Grid.isInside_of_walkable hcw
      have hy : c.2 = 3 := by
        by_contra hy
        have := (hwall c.1 c.2 hin).2 ⟨hc2, hy⟩
        unfold Grid.isWalkableAt at hcw
        rw [hin] at hcw
        simp only [Bool.true_and, Prod.mk.eta] at hcw
        rw [hcw] at this
        exact absurd this (by simp)
      have : c = (2, 3) := Prod.ext hc2 hy
      rw [← this]
      exact hc

theorem findPath_through_gap_witness :
    gridGap.NoSearchState ∧ gridGap.width = 5 ∧ 4 ≤ gridGap.height ∧
    (∀ x y, gridGap.isInside x y = true →
      ((gridGap.nodes (x, y)).walkable = false ↔ (x = 2 ∧ y ≠ 3))) ∧
    gridGap.fuelBound ≤ 112 ∧
    ∃ path, findPathResult manhattanFinder 112 0 0 4 0 gridGap = .ok path ∧ path ≠ [] ∧
      (2, 3) ∈ path :=
  have hwall : ∀ x y, gridGap.isInside x y = true →
      ((gridGap.nodes (x, y)).walkable = false ↔ (x = 2 ∧ y ≠ 3)) := by
    intro x y hin
    have h := Grid.isInside_iff.1 hin
    have hw : gridGap.width = 5 := by decide
    have hh : gridGap.height = 4 := by decide
    rw [hw, hh] at h
    obtain ⟨h1, h2, h3, h4⟩ := h
    interval_cases x <;> interval_cases y <;> decide
  ⟨Grid.ofRows_noSearchState _, by decide, by decide, hwall, by decide,
    findPath_through_gap manhattanFinder gridGap 112 (Grid.ofRows_noSearchState _) (by decide)
      (by decide) hwall (by decide)⟩

/-- C13, as stated, fails: on the grid of one cell the start `(0, 0)` has no walkable
neighbour, and for the goal `(5, 5)`, which lies outside the grid, `findPath` raises an
error instead of returning the empty sequence. -/
theorem findPath_isolated_start_counterexample :
    (Grid.new 1 1).NoSearchState ∧ (Grid.new 1 1).isInside 0 0 = true ∧
    (Grid.new 1 1).isWalkableAt 0 (0 - 1) = false ∧ (Grid.new 1 1).isWalkableAt (0 + 1) 0 = false ∧
    (Grid.new 1 1).isWalkableAt 0 (0 + 1) = false ∧ (Grid.new 1 1).isWalkableAt (0 - 1) 0 = false ∧
    ((5, 5) : Coord) ≠ (0, 0) ∧
    findPathResult manhattanFinder 10 0 0 5 5 (Grid.new 1 1) = .fault :=
  ⟨fun _ => ⟨rfl, rfl, rfl, rfl, rfl, rfl⟩, by decide, by decide, by decide, by decide, by decide,
    by decide, by decide⟩

/-- C13, amended: on a grid with no prior search state, for a start inside the grid none of
whose four orthogonal neighbours is walkable and a goal inside the grid and different from
the start, `findPath` returns the empty sequence. -/
theorem findPath_isolated_start (F : JumpPointFinderBase) (grid : Grid) (S E : Coord)
    (fuel : Nat) (h0 : grid.NoSearchState) (hS : grid.isInside S.1 S.2 = true)
    (hup : grid.isWalkableAt S.1 (S.2 - 1) = false)
    (hright : grid.isWalkableAt (S.1 + 1) S.2 = false)
    (hdown : grid.isWalkableAt S.1 (S.2 + 1) = false)
    (hleft : grid.isWalkableAt (S.1 - 1) S.2 = false)
    (hE : grid.isInside E.1 E.2 = true) (hne : E ≠ S) (hfuel : grid.fuelBound ≤ fuel) :
    findPathResult F fuel S.1 S.2 E.1 E.2 grid = .ok [] := by
  obtain ⟨path, gridF, hrun, hend⟩ := findPath_spec F h0 hS hE hfuel
  rw [findPathResult_eq F fuel _ _ _ _ grid hrun]
  cases hend with
  | exhausted ol hp _ _ => rw [hp]
  | found g ol _ _ _ hres =>
    rcases hres with ⟨h, _⟩ | ⟨_, ⟨h1, h2, h3⟩, hl⟩
    · exact absurd h.symm hne
    · exfalso
      cases path with
      | nil => simp at h1
      | cons a q =>
        simp only [List.head?_cons, Option.some.injEq] at h1
        subst h1
        cases q with
        | nil =>
          simp only [List.getLast?_singleton, Option.some.injEq] at hl
          exact hne hl.symm
        | cons b q =>
          have hb := h3 b (by simp)
          rcases h2.1 with ⟨h4, h5⟩ | ⟨h4, h5⟩
          · rcases abs_eq (by norm_num : (0 : Int) ≤ 1) |>.1 h4 with h | h
            · have e : a.1 - 1 = b.1 := by omega
              rw [e, h5, hb] at hleft
              exact absurd hleft (by simp)
            · have e : a.1 + 1 = b.1 := by omega
              rw [e, h5, hb] at hright
              exact absurd hright (by simp)
          · rcases abs_eq (by norm_num : (0 : Int) ≤ 1) |>.1 h5 with h | h
            · have e : a.2 - 1 = b.2 := by omega
              rw [e, h4, hb] at hup
              exact absurd hup (by simp)
            · have e : a.2 + 1 = b.2 := by omega
              rw [e, h4, hb] at hdown
              exact absurd hdown (by simp)

theorem findPath_isolated_start_witness :
    gridWall.NoSearchState ∧ gridWall.isInside ((0, 0) : Coord).1 ((0, 0) : Coord).2 = true ∧
    gridWall.isWalkableAt ((0, 0) : Coord).1 (((0, 0) : Coord).2 - 1) = false ∧
    gridWall.isWalkableAt (((0, 0) : Coord).1 + 1) ((0, 0) : Coord).2 = false ∧
    gridWall.isWalkableAt ((0, 0) : Coord).1 (((0, 0) : Coord).2 + 1) = false ∧
    gridWall.isWalkableAt (((0, 0) : Coord).1 - 1) ((0, 0) : Coord).2 = false ∧
    gridWall.isInside ((2, 0) : Coord).1 ((2, 0) : Coord).2 = true ∧
    ((2, 0) : Coord) ≠ (0, 0) ∧ gridWall.fuelBound ≤ 22 ∧
    findPathResult manhattanFinder 22 ((0, 0) : Coord).1 ((0, 0) : Coord).2
      ((2, 0) : Coord).1 ((2, 0) : Coord).2 gridWall = .ok [] :=
  ⟨Grid.ofRows_noSearchState _, by decide, by decide, by decide, by decide, by decide,
    by decide, by decide, by decide,
    findPath_isolated_start manhattanFinder gridWall (0, 0) (2, 0) 22
      (Grid.ofRows_noSearchState _) (by decide) (by decide) (by decide) (by decide) (by decide)
      (by decide) (by decide) (by decide)⟩

/-! ## Grids of node objects: main properties -/

namespace Obj

namespace Grid

/-- C14: in a well-formed grid (one made by the constructor or `clone`), for all integers
`x`, `y`, `isWalkableAt(x, y)` returns without error; it returns `false` when `(x, y)` is
outside `[0, width) x [0, height)` and otherwise the `walkable` field of the node stored
for the cell `(x, y)`. -/
theorem isWalkableAt_defined (G : Grid) (σ : Store) (hwf : G.WellFormed σ) (x y : Int) :
    (¬ (0 ≤ x ∧ x < G.width ∧ 0 ≤ y ∧ y < G.height) → G.isWalkableAt σ x y = .ok false) ∧
    ((0 ≤ x ∧ x < G.width ∧ 0 ≤ y ∧ y < G.height) →
      ∃ a n, G.getNodeAt x y = .ok (some a) ∧ σ[a]? = some n ∧ n.x = x ∧ n.y = y ∧
        G.isWalkableAt σ x y = .ok n.walkable) := by
  constructor
  · intro h
    have : G.isInside x y = false := by
      cases hi : G.isInside x y with
      | false => rfl
      | true => exact absurd (isInside_iff_obj.1 hi) h
    unfold isWalkableAt
    rw [this]
    simp
  · intro h
    have hin := isInside_iff_obj.2 h
    obtain ⟨a, n, h1, h2, h3, h4, _⟩ := hwf.getNode hin
    refine ⟨a, n, h1, h2, h3, h4, ?_⟩
    unfold isWalkableAt readNode
    rw [hin, h1]
    simp only [if_true, h2]

end Grid

open Grid in
theorem isWalkableAt_defined_witness :
    demoGrid.WellFormed demoStore ∧
    ((¬ (0 ≤ (5 : Int) ∧ (5 : Int) < demoGrid.width ∧ 0 ≤ (0 : Int) ∧ (0 : Int) < demoGrid.height) →
        demoGrid.isWalkableAt demoStore 5 0 = .ok false) ∧
      ((0 ≤ (5 : Int) ∧ (5 : Int) < demoGrid.width ∧ 0 ≤ (0 : Int) ∧ (0 : Int) < demoGrid.height) →
        ∃ a n, demoGrid.getNodeAt 5 0 = .ok (some a) ∧ demoStore[a]? = some n ∧ n.x = 5 ∧
          n.y = 0 ∧ demoGrid.isWalkableAt demoStore 5 0 = .ok n.walkable)) :=
  ⟨demo_wellFormed, isWalkableAt_defined demoGrid demoStore demo_wellFormed 5 0⟩

/-- C17: on a well-formed grid `g`, `g.clone()` returns a grid `c` with the same width and
height and the same `isWalkableAt` value at every coordinate; no node of `c` is opened,
closed, tested or has a parent or costs, whatever the state of the nodes of `g`; the nodes
of `g` are as before the call; and the two grids share no node, so that in every later store
a call of `setWalkableAt` or a run of `findPath` (however it ends) on one of the two grids
leaves every node of the other one unchanged in every field. -/
theorem clone_independent (G : Grid) (σ : Store) (hwf : G.WellFormed σ) :
    ∃ C σ1, G.clone σ = .ok (C, σ1) ∧ C.height = G.height ∧ C.width = G.width ∧
      (∀ x y, C.isWalkableAt σ1 x y = G.isWalkableAt σ x y) ∧
      (∀ a, C.Has a → ∃ n, σ1[a]? = some n ∧ n.opened = false ∧ n.closed = false ∧
        n.parent = none ∧ n.g = none ∧ n.h = none ∧ n.f = none ∧ n.tested = false) ∧
      (∀ a, G.Has a → σ1[a]? = σ[a]?) ∧ C.WellFormed σ1 ∧ G.WellFormed σ1 ∧
      (∀ a, C.Has a → ¬ G.Has a) ∧
      (∀ (τ τ1 : Store) (x y : Int) (b : Bool), C.setWalkableAt τ x y b = .ok τ1 →
        ∀ a, G.Has a → τ1[a]? = τ[a]?) ∧
      (∀ (τ τ1 : Store) (x y : Int) (b : Bool), G.setWalkableAt τ x y b = .ok τ1 →
        ∀ a, C.Has a → τ1[a]? = τ[a]?) ∧
      (∀ (F : Hola.JumpPointFinderBase) (fuel : Nat) (sx sy ex ey : Int) (τ : Store),
        ∀ a, G.Has a → (JumpPointFinderBase.findPath F fuel sx sy ex ey C τ).2[a]? = τ[a]?) ∧
      (∀ (F : Hola.JumpPointFinderBase) (fuel : Nat) (sx sy ex ey : Int) (τ : Store),
        ∀ a, C.Has a → (JumpPointFinderBase.findPath F fuel sx sy ex ey G τ).2[a]? = τ[a]?) := by
  obtain ⟨C, σ1, hc, hh, hw, hp, hlen, hrows⟩ := Grid.clone_spec G σ hwf
  have hfresh : ∀ a, C.Has a → σ.length ≤ a := by
    intro a ha
    obtain ⟨y, x, row, hy, hx⟩ := Grid.has_iff.1 ha
    obtain ⟨n, _, m, _, _, hN⟩ := (hrows y row hy).2 x a hx
    exact hN
  have hdisj : ∀ a, C.Has a → ¬ G.Has a := by
    intro a ha hg
    have h1 := hfresh a ha
    exact absurd (Grid.WellFormed.has_lt hwf hg) (Nat.not_lt.2 h1)
  have hwfC : C.WellFormed σ1 := by
    apply Grid.RowsSpec.wellFormed (by rw [hh]; exact ⟨hwf.1, hwf.2.1⟩) (by rw [hlen, hh])
      _ (by rw [hw]; exact hrows)
    · intro y x a n hq
      obtain ⟨m, _, hn, _⟩ := hq
      rw [hn]
      exact ⟨rfl, rfl⟩
    · rw [hh, hw]
      rcases hwf.2.2.2.1 with h0 | h0
      · left
        have h1 := hwf.2.2.1
        have h2 := hwf.1
        rw [h0] at h1
        simp at h1
        omega
      · exact Or.inr h0
  refine ⟨C, σ1, hc, hh, hw, ?_, ?_, ?_, hwfC, hwf.mono_store hp, hdisj, ?_, ?_, ?_, ?_⟩
  · intro x y
    by_cases hin : G.isInside x y = true
    · have hinC : C.isInside x y = true := by
        rw [Grid.isInside_iff_obj] at hin ⊢
        rw [hh, hw]; exact hin
      obtain ⟨a, n, h1, h2, _, _, _⟩ := hwfC.getNode hinC
      obtain ⟨_, _, row, hrow, hx⟩ := Grid.getNodeAt_some.1 h1
      obtain ⟨n2, hn2, m, hm, hnm, _⟩ := (hrows y.toNat row hrow).2 x.toNat a hx
      have hxy := Grid.isInside_iff_obj.1 hin
      have ex : ((x.toNat : Nat) : Int) = x := by omega
      have ey : ((y.toNat : Nat) : Int) = y := by omega
      rw [ex, ey] at hm hnm
      rw [h2] at hn2
      simp only [Option.some.injEq] at hn2
      unfold Grid.isWalkableAt
      rw [hin, hinC, hm]
      unfold Grid.readNode
      rw [h1]
      simp only [if_true, h2]
      rw [hn2, hnm]
      rfl
    · have hinC : ¬ C.isInside x y = true := by
        rw [Grid.isInside_iff_obj] at hin ⊢
        rw [hh, hw]; exact hin
      unfold Grid.isWalkableAt
      rw [if_neg hin, if_neg hinC]
  · intro a ha
    obtain ⟨y, x, row, hy, hx⟩ := Grid.has_iff.1 ha
    obtain ⟨n, hn, m, _, hnm, _⟩ := (hrows y row hy).2 x a hx
    refine ⟨n, hn, ?_⟩
    rw [hnm]
    exact ⟨rfl, rfl, rfl, rfl, rfl, rfl, rfl⟩
  · intro a ha
    obtain ⟨n, hn, _⟩ := hwf.node_of_has ha
    rw [hn]
    exact Store.prefix_get hp hn
  · intro τ τ1 x y b h a ha
    exact (Grid.setWalkableAt_frame h).2 a (fun hc => hdisj a hc ha)
  · intro τ τ1 x y b h a ha
    exact (Grid.setWalkableAt_frame h).2 a (hdisj a ha)
  · intro F fuel sx sy ex ey τ a ha
    exact (JumpPointFinderBase.findPath_frame F fuel sx sy ex ey C τ).2 a (fun hc => hdisj a hc ha)
  · intro F fuel sx sy ex ey τ a ha
    exact (JumpPointFinderBase.findPath_frame F fuel sx sy ex ey G τ).2 a (hdisj a ha)

theorem clone_independent_witness :
    demoGrid.WellFormed demoStore ∧
    (∃ C σ1, demoGrid.clone demoStore = .ok (C, σ1) ∧ C.height = demoGrid.height ∧ C.width = demoGrid.width ∧
      (∀ x y, C.isWalkableAt σ1 x y = demoGrid.isWalkableAt demoStore x y) ∧
      (∀ a, C.Has a → ∃ n, σ1[a]? = some n ∧ n.opened = false ∧ n.closed = false ∧
        n.parent = none ∧ n.g = none ∧ n.h = none ∧ n.f = none ∧ n.tested = false) ∧
      (∀ a, demoGrid.Has a → σ1[a]? = demoStore[a]?) ∧ C.WellFormed σ1 ∧ demoGrid.WellFormed σ1 ∧
      (∀ a, C.Has a → ¬ demoGrid.Has a) ∧
      (∀ (τ τ1 : Store) (x y : Int) (b : Bool), C.setWalkableAt τ x y b = .ok τ1 →
        ∀ a, demoGrid.Has a → τ1[a]? = τ[a]?) ∧
      (∀ (τ τ1 : Store) (x y : Int) (b : Bool), demoGrid.setWalkableAt τ x y b = .ok τ1 →
        ∀ a, C.Has a → τ1[a]? = τ[a]?) ∧
      (∀ (F : Hola.JumpPointFinderBase) (fuel : Nat) (sx sy ex ey : Int) (τ : Store),
        ∀ a, demoGrid.Has a → (JumpPointFinderBase.findPath F fuel sx sy ex ey C τ).2[a]? = τ[a]?) ∧
      (∀ (F : Hola.JumpPointFinderBase) (fuel : Nat) (sx sy ex ey : Int) (τ : Store),
        ∀ a, C.Has a → (JumpPointFinderBase.findPath F fuel sx sy ex ey demoGrid τ).2[a]? = τ[a]?)) :=
  ⟨demo_wellFormed, clone_independent demoGrid demoStore demo_wellFormed⟩

/-- C18: in a well-formed grid, for a cell `(x, y)` inside the grid and a boolean `b`,
`setWalkableAt(x, y, b)` returns without error; afterwards `isWalkableAt(x, y)` is `b` and
`isWalkableAt` is unchanged at every other coordinate; the method assigns to one node field
only, so the grid keeps its width, height and node references and stays well formed. -/
theorem setWalkableAt_spec (G : Grid) (σ : Store) (hwf : G.WellFormed σ) (x y : Int)
    (hin : 0 ≤ x ∧ x < G.width ∧ 0 ≤ y ∧ y < G.height) (b : Bool) :
    ∃ σ1, G.setWalkableAt σ x y b = .ok σ1 ∧ G.isWalkableAt σ1 x y = .ok b ∧
      (∀ x2 y2 : Int, (x2, y2) ≠ (x, y) → G.isWalkableAt σ1 x2 y2 = G.isWalkableAt σ x2 y2) ∧
      G.WellFormed σ1 ∧ σ1.length = σ.length := by
  have hi := Grid.isInside_iff_obj.2 hin
  obtain ⟨a, n, h1, h2, h3, h4, h5⟩ := Grid.setWalkableAt_inside hwf hi b
  have hwf1 : G.WellFormed (σ.modify a (fun n => { n with walkable := b })) :=
    hwf.modify a _ (fun _ => ⟨rfl, rfl⟩)
  refine ⟨_, h5, ?_, ?_, hwf1, Store.modify_length _ _ _⟩
  · unfold Grid.isWalkableAt Grid.readNode
    rw [hi, h1]
    simp only [if_true, Store.modify_same σ _ h2]
  · intro x2 y2 hne
    by_cases hi2 : G.isInside x2 y2 = true
    · obtain ⟨a2, n2, g1, g2, g3, g4, _⟩ := hwf.getNode hi2
      have hne2 : a2 ≠ a := by
        intro h
        rw [h, h2] at g2
        simp only [Option.some.injEq] at g2
        apply hne
        rw [← g3, ← g4, ← g2, h3, h4]
      unfold Grid.isWalkableAt Grid.readNode
      rw [g1]
      simp only [Store.modify_other σ _ hne2]
    · unfold Grid.isWalkableAt
      rw [if_neg hi2, if_neg hi2]

theorem setWalkableAt_spec_witness :
    demoGrid.WellFormed demoStore ∧
    (0 ≤ (1 : Int) ∧ (1 : Int) < demoGrid.width ∧ 0 ≤ (0 : Int) ∧ (0 : Int) < demoGrid.height) ∧
    (∃ σ1, demoGrid.setWalkableAt demoStore 1 0 false = .ok σ1 ∧ demoGrid.isWalkableAt σ1 1 0 = .ok false ∧
      (∀ x2 y2 : Int, (x2, y2) ≠ (1, 0) → demoGrid.isWalkableAt σ1 x2 y2 = demoGrid.isWalkableAt demoStore x2 y2) ∧
      demoGrid.WellFormed σ1 ∧ σ1.length = demoStore.length) :=
  ⟨demo_wellFormed, by decide,
    setWalkableAt_spec demoGrid demoStore demo_wellFormed 1 0 (by decide) false⟩

end Obj

/-! ## Third group of main properties -/

/-! ### The `trackJumpRecursion` option -/

theorem Grid.Agree.symm_agree {g1 g2 : Grid} (h : g1.Agree g2) : g2.Agree g1 := by
  refine ⟨h.1.symm, h.2.1.symm, fun c => ?_⟩
  obtain ⟨a1, a2, a3, a4, a5, a6, a7⟩ := h.2.2 c
  exact ⟨a1.symm, a2.symm, a3.symm, a4.symm, a5.symm, a6.symm, a7.symm⟩

theorem compareF_agree {g1 g2 : Grid} (h : g1.Agree g2) : compareF g1 = compareF g2 := by
  funext a b
  unfold compareF
  rw [(h.2.2 a).2.2.2.1, (h.2.2 b).2.2.2.1]

theorem syncOpen_agree {g1 g2 : Grid} (h : g1.Agree g2) (ol : Heap Coord) :
    syncOpen ol g1 = syncOpen ol g2 := by
  unfold syncOpen
  rw [compareF_agree h]

theorem Grid.Agree.modify_agree {g1 g2 : Grid} (h : g1.Agree g2) (c : Coord) (u : Node → Node)
    (hu : ∀ n1 n2 : Node, (n1.walkable = n2.walkable ∧ n1.g = n2.g ∧ n1.h = n2.h ∧
      n1.f = n2.f ∧ n1.parent = n2.parent ∧ n1.opened = n2.opened ∧ n1.closed = n2.closed) →
      ((u n1).walkable = (u n2).walkable ∧ (u n1).g = (u n2).g ∧ (u n1).h = (u n2).h ∧
      (u n1).f = (u n2).f ∧ (u n1).parent = (u n2).parent ∧ (u n1).opened = (u n2).opened ∧
      (u n1).closed = (u n2).closed)) :
    (g1.modify c u).Agree (g2.modify c u) := by
  refine ⟨h.1, h.2.1, fun c2 => ?_⟩
  by_cases hc : c2 = c
  · subst hc
    rw [Grid.modify_nodes_same, Grid.modify_nodes_same]
    exact hu _ _ (h.2.2 c2)
  · rw [Grid.modify_nodes_other _ _ hc, Grid.modify_nodes_other _ _ hc]
    exact h.2.2 c2

theorem jump_agree (F1 F2 : JumpPointFinderBase) (E : Coord) (fuel : Nat) {g1 g2 : Grid}
    (h : g1.Agree g2) (x y px py : Int) :
    (∃ r a1 a2, a1.Agree a2 ∧ _jump F1 E fuel g1 x y px py = .ok (r, a1) ∧
      _jump F2 E fuel g2 x y px py = .ok (r, a2)) ∨
    (_jump F1 E fuel g1 x y px py = .fault ∧ _jump F2 E fuel g2 x y px py = .fault) ∨
    (_jump F1 E fuel g1 x y px py = .timeout ∧ _jump F2 E fuel g2 x y px py = .timeout) := by
  have hc := jumpPt_congr h.sameMap E fuel x y px py
  rcases jump_eq F1 E fuel g1 x y px py with ⟨r1, a1, h1, e1, p1⟩ | ⟨e1, p1⟩ | ⟨e1, p1⟩ <;>
    rcases jump_eq F2 E fuel g2 x y px py with ⟨r2, a2, h2, e2, p2⟩ | ⟨e2, p2⟩ | ⟨e2, p2⟩ <;>
    rw [hc, p2] at p1 <;> cases p1
  · exact Or.inl ⟨_, a1, a2, (h1.trans_agree h).trans_agree h2.symm_agree, e1, e2⟩
  · exact Or.inr (Or.inl ⟨e1, e2⟩)
  · exact Or.inr (Or.inr ⟨e1, e2⟩)

theorem successorStep_agree (F1 F2 : JumpPointFinderBase) (hh : F1.heuristic = F2.heuristic)
    (E : Coord) (fuel : Nat) (node : Coord) {g1 g2 : Grid} (h : g1.Agree g2)
    (ol : Heap Coord) (n : Coord) :
    SameStep (successorStep F1 E fuel node g1 ol n) (successorStep F2 E fuel node g2 ol n) := by
  unfold successorStep
  rcases jump_agree F1 F2 E fuel h n.1 n.2 node.1 node.2 with
    ⟨r, a1, a2, ha, e1, e2⟩ | ⟨e1, e2⟩ | ⟨e1, e2⟩
  · rw [e1, e2]
    cases r with
    | none => exact ⟨ha, rfl⟩
    | some j =>
      obtain ⟨b1, b2, b3, b4, b5, b6, b7⟩ := ha.2.2 j
      have bn := (ha.2.2 node).2.1
      simp only [Grid.getNodeAt, Prod.mk.eta, b2, b3, b6, b7, bn, hh]
      split_ifs
      · exact ⟨ha, rfl⟩
      · refine ⟨?_, ?_⟩
        · apply Grid.Agree.modify_agree
          · apply Grid.Agree.modify_agree ha
            intro n1 n2 hn
            obtain ⟨c1, c2, c3, c4, c5, c6, c7⟩ := hn
            exact ⟨c1, rfl, rfl, rfl, rfl, c6, c7⟩
          · intro n1 n2 hn
            obtain ⟨c1, c2, c3, c4, c5, c6, c7⟩ := hn
            exact ⟨c1, c2, c3, c4, c5, rfl, c7⟩
        · rw [syncOpen_agree]
          apply Grid.Agree.modify_agree ha
          intro n1 n2 hn
          obtain ⟨c1, c2, c3, c4, c5, c6, c7⟩ := hn
          exact ⟨c1, rfl, rfl, rfl, rfl, c6, c7⟩
      · exact ⟨ha, rfl⟩
  · rw [e1, e2]; trivial
  · rw [e1, e2]; trivial

theorem successorLoop_agree (F1 F2 : JumpPointFinderBase) (hh : F1.heuristic = F2.heuristic)
    (E : Coord) (fuel : Nat) (node : Coord) :
    ∀ (ns : List Coord) {g1 g2 : Grid}, g1.Agree g2 → ∀ ol : Heap Coord,
      SameStep (successorLoop F1 E fuel node ns g1 ol) (successorLoop F2 E fuel node ns g2 ol) := by
  intro ns
  induction ns with
  | nil => intro g1 g2 h ol; exact ⟨h, rfl⟩
  | cons n rest ih =>
    intro g1 g2 h ol
    have hs := successorStep_agree F1 F2 hh E fuel node h ol n
    unfold successorLoop
    cases e1 : successorStep F1 E fuel node g1 ol n with
    | ok r1 =>
      cases e2 : successorStep F2 E fuel node g2 ol n with
      | ok r2 =>
        rw [e1, e2] at hs
        obtain ⟨a1, o1⟩ := r1
        obtain ⟨a2, o2⟩ := r2
        obtain ⟨ha, ho⟩ := hs
        subst ho
        exact ih ha o1
      | fault => rw [e1, e2] at hs; exact hs.elim
      | timeout => rw [e1, e2] at hs; exact hs.elim
    | fault =>
      cases e2 : successorStep F2 E fuel node g2 ol n with
      | ok r2 => rw [e1, e2] at hs; exact hs.elim
      | fault => trivial
      | timeout => rw [e1, e2] at hs; exact hs.elim
    | timeout =>
      cases e2 : successorStep F2 E fuel node g2 ol n with
      | ok r2 => rw [e1, e2] at hs; exact hs.elim
      | fault => rw [e1, e2] at hs; exact hs.elim
      | timeout => trivial

theorem backtraceLoop_agree {g1 g2 : Grid} (h : g1.Agree g2) :
    ∀ (k : Nat) (c : Coord) (acc : List Coord),
      backtraceLoop g1 k c acc = backtraceLoop g2 k c acc := by
  intro k
  induction k with
  | zero => intro c acc; rfl
  | succ k ih =>
    intro c acc
    unfold backtraceLoop
    rw [(h.2.2 c).2.2.2.2.1]
    cases (g2.nodes c).parent with
    | none => rfl
    | some p => exact ih p _

theorem findPathLoop_agree (F1 F2 : JumpPointFinderBase) (hh : F1.heuristic = F2.heuristic)
    (E : Coord) (fuel : Nat) :
    ∀ (n : Nat) {g1 g2 : Grid}, g1.Agree g2 → ∀ ol : Heap Coord,
      SameSearch (findPathLoop F1 E fuel n g1 ol) (findPathLoop F2 E fuel n g2 ol) := by
  intro n
  induction n with
  | zero => intro g1 g2 h ol; trivial
  | succ n ih =>
    intro g1 g2 h ol
    unfold findPathLoop
    by_cases he : ol.isEmpty = true
    · simp only [he, if_true]
      exact ⟨rfl, h⟩
    · simp only [he, if_false]
      rw [syncOpen_agree h]
      cases hp : (syncOpen ol g2).pop with
      | mk v ol1 =>
        cases v with
        | none => trivial
        | some node =>
          simp only
          have hcl : (g1.modify node (fun nd => { nd with closed := true })).Agree
              (g2.modify node (fun nd => { nd with closed := true })) := by
            apply Grid.Agree.modify_agree h
            intro n1 n2 hn
            obtain ⟨c1, c2, c3, c4, c5, c6, c7⟩ := hn
            exact ⟨c1, c2, c3, c4, c5, c6, rfl⟩
          by_cases hE : node = E
          · simp only [hE, if_true]
            unfold backtrace
            rw [backtraceLoop_agree (hE ▸ hcl)]
            cases backtraceLoop (g2.modify E fun nd => { nd with closed := true }) fuel E [E] with
            | ok path =>
              simp only
              cases expandPath fuel path.reverse with
              | ok ex => exact ⟨rfl, hE ▸ hcl⟩
              | fault => trivial
              | timeout => trivial
            | fault => trivial
            | timeout => trivial
          · simp only [hE, if_false]
            unfold _identifySuccessors
            rw [findNeighbors_congr hcl.sameMap node (hcl.2.2 node).2.2.2.2.1]
            have hs := successorLoop_agree F1 F2 hh E fuel node
              (_findNeighbors (g2.modify node fun nd => { nd with closed := true }) node) hcl ol1
            revert hs
            cases successorLoop F1 E fuel node
                (_findNeighbors (g2.modify node fun nd => { nd with closed := true }) node)
                (g1.modify node fun nd => { nd with closed := true }) ol1 with
            | ok r1 =>
              cases successorLoop F2 E fuel node
                (_findNeighbors (g2.modify node fun nd => { nd with closed := true }) node)
                (g2.modify node fun nd => { nd with closed := true }) ol1 with
              | ok r2 =>
                intro hs
                obtain ⟨a1, o1⟩ := r1
                obtain ⟨a2, o2⟩ := r2
                obtain ⟨ha, ho⟩ := hs
                subst ho
                exact ih ha o1
              | fault => intro hs; exact hs.elim
              | timeout => intro hs; exact hs.elim
            | fault =>
              cases successorLoop F2 E fuel node
                (_findNeighbors (g2.modify node fun nd => { nd with closed := true }) node)
                (g2.modify node fun nd => { nd with closed := true }) ol1 with
              | ok r2 => intro hs; exact hs.elim
              | fault => intro _; trivial
              | timeout => intro hs; exact hs.elim
            | timeout =>
              cases successorLoop F2 E fuel node
                (_findNeighbors (g2.modify node fun nd => { nd with closed := true }) node)
                (g2.modify node fun nd => { nd with closed := true }) ol1 with
              | ok r2 => intro hs; exact hs.elim
              | fault => intro hs; exact hs.elim
              | timeout => intro _; trivial

theorem findPath_agree (F1 F2 : JumpPointFinderBase) (hh : F1.heuristic = F2.heuristic)
    (fuel : Nat) (sx sy ex ey : Int) (grid : Grid) :
    SameSearch (findPath F1 fuel sx sy ex ey grid) (findPath F2 fuel sx sy ex ey grid) := by
  unfold findPath
  split_ifs
  · trivial
  · exact findPathLoop_agree F1 F2 hh (ex, ey) fuel fuel (Grid.Agree.refl_agree _) _

theorem findPathResult_agree (F1 F2 : JumpPointFinderBase) (hh : F1.heuristic = F2.heuristic)
    (fuel : Nat) (sx sy ex ey : Int) (grid : Grid) :
    findPathResult F1 fuel sx sy ex ey grid = findPathResult F2 fuel sx sy ex ey grid := by
  have h := findPath_agree F1 F2 hh fuel sx sy ex ey grid
  unfold findPathResult
  revert h
  cases findPath F1 fuel sx sy ex ey grid with
  | ok r1 =>
    cases findPath F2 fuel sx sy ex ey grid with
    | ok r2 => intro h; obtain ⟨p1, g1⟩ := r1; obtain ⟨p2, g2⟩ := r2; rw [h.1]
    | fault => intro h; exact h.elim
    | timeout => intro h; exact h.elim
  | fault =>
    cases findPath F2 fuel sx sy ex ey grid with
    | ok r2 => intro h; exact h.elim
    | fault => intro _; rfl
    | timeout => intro h; exact h.elim
  | timeout =>
    cases findPath F2 fuel sx sy ex ey grid with
    | ok r2 => intro h; exact h.elim
    | fault => intro h; exact h.elim
    | timeout => intro _; rfl

/-- C21: on a grid with no prior search state, with start and goal inside the grid, and for
every heuristic, `findPath` of a finder built with `trackJumpRecursion = true` returns a
path, and `findPath` of a finder built with `trackJumpRecursion = false` returns exactly
the same path on the same grid. -/
theorem findPath_tracking_irrelevant (heuristic : ℚ → ℚ → ℚ) (grid : Grid) (S E : Coord)
    (fuel : Nat) (h0 : grid.NoSearchState) (hS : grid.isInside S.1 S.2 = true)
    (hE : grid.isInside E.1 E.2 = true) (hfuel : grid.fuelBound ≤ fuel) :
    ∃ path,
      findPathResult { heuristic := heuristic, trackJumpRecursion := true } fuel
        S.1 S.2 E.1 E.2 grid = .ok path ∧
      findPathResult { heuristic := heuristic, trackJumpRecursion := false } fuel
        S.1 S.2 E.1 E.2 grid = .ok path := by
  obtain ⟨path, gridF, hrun, _⟩ :=
    findPath_spec { heuristic := heuristic, trackJumpRecursion := true } h0 hS hE hfuel
  have h1 := findPathResult_eq _ fuel S.1 S.2 E.1 E.2 grid hrun
  refine ⟨path, h1, ?_⟩
  rw [← findPathResult_agree { heuristic := heuristic, trackJumpRecursion := true }
    { heuristic := heuristic, trackJumpRecursion := false } rfl]
  exact h1

theorem findPath_tracking_irrelevant_witness :
    (Grid.new 1 2).NoSearchState ∧
    (Grid.new 1 2).isInside ((0, 0) : Coord).1 ((0, 0) : Coord).2 = true ∧
    (Grid.new 1 2).isInside ((1, 0) : Coord).1 ((1, 0) : Coord).2 = true ∧
    (Grid.new 1 2).fuelBound ≤ 16 ∧
    ∃ path,
      findPathResult { heuristic := chebyshev, trackJumpRecursion := true } 16
        ((0, 0) : Coord).1 ((0, 0) : Coord).2 ((1, 0) : Coord).1 ((1, 0) : Coord).2
        (Grid.new 1 2) = .ok path ∧
      findPathResult { heuristic := chebyshev, trackJumpRecursion := false } 16
        ((0, 0) : Coord).1 ((0, 0) : Coord).2 ((1, 0) : Coord).1 ((1, 0) : Coord).2
        (Grid.new 1 2) = .ok path :=
  ⟨fun _ => ⟨rfl, rfl, rfl, rfl, rfl, rfl⟩, by decide, by decide, by decide,
    findPath_tracking_irrelevant chebyshev (Grid.new 1 2) (0, 0) (1, 0) 16
      (fun _ => ⟨rfl, rfl, rfl, rfl, rfl, rfl⟩) (by decide) (by decide) (by decide)⟩

/-! ### Heuristics -/

theorem octile_zero_right (d : ℚ) (hd : 0 ≤ d) : octile d 0 = d := by
  unfold octile
  rw [if_neg (not_lt.2 hd)]
  ring

theorem octile_zero_left (d : ℚ) (hd : 0 ≤ d) : octile 0 d = d := by
  unfold octile
  split_ifs with h
  · ring
  · have : d = 0 := le_antisymm (not_lt.1 h) hd
    rw [this]; ring

/-- C22: for every number `d ≥ 0`, `octile(d, 0) = d` and `octile(0, d) = d`; hence for a
node and a jump point on a common row or column the edge cost `octile(|dx|, |dy|)` that
`_identifySuccessors` adds to the cost of the node equals the number `|dx| + |dy|` of unit
steps between them. -/
theorem octile_straight (d : ℚ) (hd : 0 ≤ d) (grid : Grid) (node j : Coord)
    (h : node.1 = j.1 ∨ node.2 = j.2) :
    octile d 0 = d ∧ octile 0 d = d ∧
    octile (|j.1 - node.1| : Int) (|j.2 - node.2| : Int) =
      ((|j.1 - node.1| + |j.2 - node.2| : Int) : ℚ) ∧
    nextG grid node j =
      optAdd (grid.nodes node).g (some ((|j.1 - node.1| + |j.2 - node.2| : Int) : ℚ)) := by
  have key : octile (|j.1 - node.1| : Int) (|j.2 - node.2| : Int) =
      ((|j.1 - node.1| + |j.2 - node.2| : Int) : ℚ) := by
    rcases h with h | h
    · rw [h, sub_self, abs_zero, zero_add]
      exact octile_zero_left _ (by exact_mod_cast abs_nonneg _)
    · rw [h, sub_self, abs_zero, add_zero]
      exact octile_zero_right _ (by exact_mod_cast abs_nonneg _)
  refine ⟨octile_zero_right d hd, octile_zero_left d hd, key, ?_⟩
  unfold nextG
  rw [key]

theorem octile_straight_witness :
    (0 : ℚ) ≤ 5 ∧ (((0, 0) : Coord).1 = ((3, 0) : Coord).1 ∨
      ((0, 0) : Coord).2 = ((3, 0) : Coord).2) ∧
    (octile 5 0 = 5 ∧ octile 0 5 = 5 ∧
    octile (|((3, 0) : Coord).1 - ((0, 0) : Coord).1| : Int)
        (|((3, 0) : Coord).2 - ((0, 0) : Coord).2| : Int) =
      ((|((3, 0) : Coord).1 - ((0, 0) : Coord).1| +
        |((3, 0) : Coord).2 - ((0, 0) : Coord).2| : Int) : ℚ) ∧
    nextG (Grid.new 1 4) (0, 0) (3, 0) =
      optAdd ((Grid.new 1 4).nodes (0, 0)).g
        (some ((|((3, 0) : Coord).1 - ((0, 0) : Coord).1| +
          |((3, 0) : Coord).2 - ((0, 0) : Coord).2| : Int) : ℚ))) :=
  ⟨by norm_num, Or.inr rfl,
    octile_straight 5 (by norm_num) (Grid.new 1 4) (0, 0) (3, 0) (Or.inr rfl)⟩

/-- A walk by unit steps makes at least as many steps as the Manhattan distance between
its ends. -/
theorem dense_length_ge : ∀ (path : List Coord) (a b : Coord),
    (a :: path).getLast? = some b → Dense (a :: path) →
      |b.1 - a.1| + |b.2 - a.2| ≤ (path.length : Int) := by
  intro path
  induction path with
  | nil =>
    intro a b hl _
    simp at hl
    subst hl
    simp
  | cons c rest ih =>
    intro a b hl hd
    have hl2 : (c :: rest).getLast? = some b := by
      rw [List.getLast?_cons_cons] at hl; exact hl
    obtain ⟨hu, hd2⟩ := hd
    have := ih c b hl2 hd2
    have hstep : |c.1 - a.1| + |c.2 - a.2| = 1 := by
      rcases hu with ⟨h1, h2⟩ | ⟨h1, h2⟩
      · rw [h2, sub_self, abs_zero, abs_sub_comm, h1]; rfl
      · rw [h1, sub_self, abs_zero, abs_sub_comm, h2]; rfl
    have t1 := abs_sub_le b.1 c.1 a.1
    have t2 := abs_sub_le b.2 c.2 a.2
    simp only [List.length_cons]
    push_cast
    omega

/-! ### A second search on a used grid -/

/-- C24: there are a grid, a start and a reachable goal for which a second call of
`findPath` on the same `Grid` object returns another result than the same call on a fresh
copy.  On the grid of one row with two walkable cells, from `(0, 0)` to `(1, 0)`: the
first call returns `[(0, 0), (1, 0)]`; the second call on the grid as the first call left
it returns the empty sequence; the second call on a `clone()` of that grid returns
`[(0, 0), (1, 0)]`. -/
theorem findPath_reuse_differs :
    (Grid.new 1 2).NoSearchState ∧ Reach (Grid.new 1 2) (0, 0) (1, 0) ∧
    (Grid.new 1 2).fuelBound ≤ 16 ∧
    findPathResult JumpPointFinderBase.default 16 0 0 1 0 (Grid.new 1 2) =
      .ok [(0, 0), (1, 0)] ∧
    findPathAgain JumpPointFinderBase.default false 16 0 0 1 0 (Grid.new 1 2) = .ok [] ∧
    findPathAgain JumpPointFinderBase.default true 16 0 0 1 0 (Grid.new 1 2) =
      .ok [(0, 0), (1, 0)] :=
  ⟨fun _ => ⟨rfl, rfl, rfl, rfl, rfl, rfl⟩,
    reach_of_isWalkList (Grid.new 1 2) [(1, 0)] (0, 0) (1, 0) (by decide) (by decide),
    by decide, by decide!, by decide!, by decide!⟩

/-! ### The grid of `src/solution/Grid.js` -/

namespace Solution

open Grid

theorem buildRow_eq (matrix : Option (List (List Entry))) (i : Nat)
    (hi : ∀ m, matrix = some m → i < m.length) :
    ∀ (count j : Nat) (row : List Node),
      buildRow matrix i count j row =
        .ok (row ++ (List.range count).map (fun k =>
          Node.new ((j + k : Nat) : Int) i (some (flagAt matrix i (j + k))))) := by
  intro count
  induction count with
  | zero => intro j row; simp [buildRow]
  | succ n ih =>
    intro j row
    unfold buildRow
    cases matrix with
    | none =>
      simp only
      rw [ih]
      simp only [List.range_succ_eq_map, List.map_cons, List.map_map, List.append_assoc,
        List.singleton_append, flagAt]
      congr 2
      simp only [List.cons.injEq]
      refine ⟨by simp, ?_⟩
      apply List.map_congr_left
      intro k _
      simp only [Function.comp]
      congr 1
      · push_cast; ring
    | some m =>
      have hlt := hi m rfl
      simp only [List.getElem?_eq_getElem hlt]
      rw [ih]
      simp only [List.range_succ_eq_map, List.map_cons, List.map_map, List.append_assoc,
        List.singleton_append, flagAt, List.getD_eq_getElem?_getD, List.getElem?_eq_getElem hlt,
        Option.getD_some]
      congr 2
      simp only [List.cons.injEq]
      refine ⟨by simp, ?_⟩
      apply List.map_congr_left
      intro k _
      simp only [Function.comp]
      have e : j + 1 + k = j + (k + 1) := by ring
      rw [e]

theorem buildRows_eq (matrix : Option (List (List Entry))) (width : Int) (hw0 : 0 ≤ width)
    (hw1 : width < 4294967296) :
    ∀ (count i : Nat) (nodes : List (List Node)),
      (∀ m, matrix = some m → i + count ≤ m.length) →
      buildRows matrix width count i nodes =
        .ok (nodes ++ (List.range count).map (fun k =>
          (List.range width.toNat).map (fun (j : Nat) =>
            Node.new (j : Int) ((i + k : Nat) : Int) (some (flagAt matrix (i + k) j))))) := by
  intro count
  induction count with
  | zero => intro i nodes _; simp [buildRows]
  | succ n ih =>
    intro i nodes hm
    unfold buildRows
    rw [if_neg (by omega)]
    rw [buildRow_eq matrix i (fun m e => by have := hm m e; omega)]
    simp only [List.nil_append, zero_add]
    rw [ih (i + 1) _ (fun m e => by have := hm m e; omega)]
    simp only [List.range_succ_eq_map, List.map_cons, List.map_map, List.append_assoc,
      List.singleton_append, add_zero]
    congr 2
    simp only [List.cons.injEq, true_and]
    apply List.map_congr_left
    intro k _
    simp only [Function.comp]
    have e : i + 1 + k = i + (k + 1) := by ring
    rw [e]

theorem buildRows_zero (matrix : Option (List (List Entry))) (width : Int) (i : Nat)
    (nodes : List (List Node)) : buildRows matrix width 0 i nodes = .ok nodes := rfl

theorem buildRows_fault (matrix : Option (List (List Entry))) (width : Int)
    (hw : width < 0 ∨ 4294967296 ≤ width) (count i : Nat) (nodes : List (List Node)) :
    buildRows matrix width (count + 1) i nodes = .fault := by
  unfold buildRows
  rw [if_pos hw]

theorem table_get (matrix : Option (List (List Entry))) (width height : Nat) (x y : Nat)
    (hx : x < width) (hy : y < height) :
    ∃ row, (table matrix width height)[y]? = some row ∧
      row[x]? = some (Node.new (x : Int) y (some (flagAt matrix y x))) := by
  refine ⟨(List.range width).map
    (fun (j : Nat) => Node.new (j : Int) y (some (flagAt matrix y j))), ?_, ?_⟩
  · unfold table
    rw [List.getElem?_map, List.getElem?_range hy]
    rfl
  · rw [List.getElem?_map, List.getElem?_range hx]
    rfl

theorem isWalkableAt_table (matrix mx : Option (List (List Entry))) (width height : Nat)
    (x y : Int)
    (hin : Grid.isInside { width := width, height := height, matrix := mx,
                           nodes := table matrix width height } x y = true) :
    Grid.isWalkableAt { width := width, height := height, matrix := mx,
                        nodes := table matrix width height } x y =
      .ok (flagAt matrix y.toNat x.toNat) := by
  unfold Grid.isWalkableAt
  rw [if_pos hin]
  unfold Grid.isInside at hin
  simp only [Bool.and_eq_true, decide_eq_true_eq] at hin
  obtain ⟨⟨hx0, hx1⟩, hy0, hy1⟩ := hin
  obtain ⟨row, h1, h2⟩ := table_get matrix width height x.toNat y.toNat (by omega) (by omega)
  simp only [h1, h2]
  rfl

theorem toBoolean_false_iff (e : Entry) :
    toBoolean (some e) = false ↔ (e = .num 0 ∨ e = .bool false) := by
  cases e with
  | num v => simp [toBoolean]
  | bool b => simp [toBoolean]

/-- The grid made from a matrix with at least one row whose size is that of an array. -/
theorem new_matrix_eq (m : List (List Entry)) (r : List Entry) (hr : m[0]? = some r)
    (hlen : m.length < 4294967296) (hn : r.length < 4294967296) (height : Int)
    (mx : Option (List (List Entry))) :
    Grid.new (.inr m) height mx =
      .ok { width := r.length, height := m.length, matrix := some m,
            nodes := table (some m) r.length m.length } := by
  unfold Grid.new
  simp only [hr]
  unfold Grid.buildNodes
  simp only [hr, ne_eq, not_true_eq_false, if_false]
  rw [if_neg (by omega)]
  rw [buildRows_eq (some m) r.length (by omega) (by omega) _ 0 []
    (fun m2 e => by cases e; simp)]
  simp only [List.nil_append, zero_add, Int.toNat_ofNat]
  rfl

/-- A grid is made from a matrix only if the matrix has a row and the sizes are those of
arrays. -/
theorem new_matrix_inv (m : List (List Entry)) (height : Int)
    (mx : Option (List (List Entry))) (g : Grid) (h : Grid.new (.inr m) height mx = .ok g) :
    ∃ r, m[0]? = some r ∧ m.length < 4294967296 ∧ r.length < 4294967296 := by
  unfold Grid.new at h
  simp only at h
  cases hr : m[0]? with
  | none => rw [hr] at h; cases h
  | some r =>
    refine ⟨r, rfl, ?_⟩
    simp only [hr] at h
    unfold Grid.buildNodes at h
    simp only [hr, ne_eq, not_true_eq_false, if_false] at h
    by_cases hl : ((m.length : Int) < 0 ∨ 4294967296 ≤ (m.length : Int))
    · rw [if_pos hl] at h; cases h
    · rw [if_neg hl] at h
      refine ⟨by omega, ?_⟩
      by_contra hn
      have hpos : 0 < m.length := by
        cases m with
        | nil => simp at hr
        | cons a t => simp
      obtain ⟨c, hc⟩ : ∃ c, m.length = c + 1 := ⟨m.length - 1, by omega⟩
      rw [Int.toNat_ofNat, hc, buildRows_fault _ _ (by omega)] at h
      cases h

theorem new_size_inv (w h : Int) (g : Grid) (hg : Grid.new (.inl w) h none = .ok g) :
    0 ≤ h ∧ h < 4294967296 ∧
      ((h = 0 ∧ g = { width := w, height := h, matrix := none, nodes := [] }) ∨
        (0 ≤ w ∧ w < 4294967296 ∧
          g = { width := w, height := h, matrix := none,
                nodes := table none w.toNat h.toNat })) := by
  unfold Grid.new at hg
  simp only at hg
  unfold Grid.buildNodes at hg
  simp only at hg
  by_cases hh : (h < 0 ∨ 4294967296 ≤ h)
  · rw [if_pos hh] at hg; cases hg
  · rw [if_neg hh] at hg
    refine ⟨by omega, by omega, ?_⟩
    by_cases h0 : h = 0
    · left
      subst h0
      simp only [Int.toNat_zero, buildRows_zero] at hg
      cases hg
      exact ⟨rfl, rfl⟩
    · right
      by_cases hw : (w < 0 ∨ 4294967296 ≤ w)
      · obtain ⟨c, hc⟩ : ∃ c, h.toNat = c + 1 := ⟨h.toNat - 1, by omega⟩
        rw [hc, buildRows_fault _ _ hw] at hg
        cases hg
      · rw [buildRows_eq none w (by omega) (by omega) _ 0 [] (fun m e => by cases e)] at hg
        simp only [List.nil_append, zero_add] at hg
        cases hg
        exact ⟨by omega, by omega, rfl⟩

theorem new_size_eq (w h : Int) (hw0 : 0 ≤ w) (hw1 : w < 4294967296) (hh0 : 0 ≤ h)
    (hh1 : h < 4294967296) :
    Grid.new (.inl w) h none =
      .ok { width := w, height := h, matrix := none, nodes := table none w.toNat h.toNat } := by
  unfold Grid.new
  simp only
  unfold Grid.buildNodes
  simp only
  rw [if_neg (by omega)]
  rw [buildRows_eq none w hw0 hw1 _ 0 [] (fun m e => by cases e)]
  simp only [List.nil_append, zero_add]
  rfl

/-- C25: the grid that `src/solution/Grid.js` builds from a matrix whose rows all have the
same length has the number of rows as its height and the row length as its width, and its
cell `(x, y)` is walkable exactly when `matrix[y][x]` is `0` or `false`; the constructor
does build a grid when the matrix has a row (and the sizes are array lengths).  A grid built
from a width and a height with no matrix has every cell inside it walkable, and one is built
whenever the two numbers are array lengths. -/
theorem grid_from_matrix (m : List (List Entry)) (n : Nat) (hrows : ∀ r ∈ m, r.length = n)
    (height : Int) (mx : Option (List (List Entry))) :
    (m ≠ [] → m.length < 4294967296 → n < 4294967296 →
      ∃ g, Grid.new (.inr m) height mx = .ok g) ∧
    (∀ g, Grid.new (.inr m) height mx = .ok g →
      g.height = m.length ∧ g.width = n ∧
      ∀ x y : Int, g.isInside x y = true →
        ∃ r e, m[y.toNat]? = some r ∧ r[x.toNat]? = some e ∧
          g.isWalkableAt x y = .ok (decide (e = .num 0 ∨ e = .bool false))) ∧
    (∀ w h : Int,
      (0 ≤ w → w < 4294967296 → 0 ≤ h → h < 4294967296 →
        ∃ g, Grid.new (.inl w) h none = .ok g) ∧
      ∀ g, Grid.new (.inl w) h none = .ok g →
        g.width = w ∧ g.height = h ∧
        ∀ x y : Int, g.isInside x y = true → g.isWalkableAt x y = .ok true) := by
  refine ⟨?_, ?_, ?_⟩
  · intro hne hlen hn
    cases m with
    | nil => exact absurd rfl hne
    | cons r t =>
      have hr : r.length = n := hrows r (List.mem_cons_self _ _)
      exact ⟨_, new_matrix_eq (r :: t) r (by simp) hlen (by omega) height mx⟩
  · intro g hg
    obtain ⟨r0, hr0, hlen, hn⟩ := new_matrix_inv m height mx g hg
    rw [new_matrix_eq m r0 hr0 hlen hn height mx] at hg
    have hr0n : r0.length = n := hrows r0 (List.getElem?_mem hr0)
    cases hg
    refine ⟨rfl, by simp only [hr0n], ?_⟩
    intro x y hin
    have hw := isWalkableAt_table (some m) (some m) r0.length m.length x y hin
    unfold Grid.isInside at hin
    simp only [Bool.and_eq_true, decide_eq_true_eq] at hin
    obtain ⟨⟨hx0, hx1⟩, hy0, hy1⟩ := hin
    have hy : y.toNat < m.length := by omega
    have hrn : (m[y.toNat]).length = n := hrows _ (List.getElem_mem _)
    have hx : x.toNat < (m[y.toNat]).length := by omega
    refine ⟨m[y.toNat], (m[y.toNat])[x.toNat], List.getElem?_eq_getElem hy,
      List.getElem?_eq_getElem hx, ?_⟩
    rw [hw]
    congr 1
    unfold flagAt
    simp only [List.getD_eq_getElem?_getD, List.getElem?_eq_getElem hy, Option.getD_some,
      List.getElem?_eq_getElem hx]
    cases hb : toBoolean (some (m[y.toNat])[x.toNat]) with
    | false =>
      have := (toBoolean_false_iff _).1 hb
      simp [this]
    | true =>
      have hne : ¬ ((m[y.toNat])[x.toNat] = .num 0 ∨ (m[y.toNat])[x.toNat] = .bool false) := by
        intro hh
        have := (toBoolean_false_iff _).2 hh
        rw [hb] at this
        cases this
      simp [hne]
  · intro w h
    refine ⟨fun hw0 hw1 hh0 hh1 => ⟨_, new_size_eq w h hw0 hw1 hh0 hh1⟩, ?_⟩
    intro g hg
    obtain ⟨hh0, hh1, ⟨h0, rfl⟩ | ⟨hw0, hw1, rfl⟩⟩ := new_size_inv w h g hg
    · refine ⟨rfl, rfl, ?_⟩
      intro x y hin
      unfold Grid.isInside at hin
      simp only [Bool.and_eq_true, decide_eq_true_eq] at hin
      omega
    · refine ⟨rfl, rfl, ?_⟩
      intro x y hin
      have e1 : w = (w.toNat : Int) := (Int.toNat_of_nonneg hw0).symm
      have e2 : h = (h.toNat : Int) := (Int.toNat_of_nonneg hh0).symm
      have := isWalkableAt_table none none w.toNat h.toNat x y (by rw [← e1, ← e2]; exact hin)
      rw [← e1, ← e2] at this
      rw [this]
      rfl

theorem grid_from_matrix_witness :
    (∀ r ∈ [[Entry.num 0, .num 1], [.bool false, .bool true]], r.length = 2) ∧
    ((([[Entry.num 0, .num 1], [.bool false, .bool true]] : List (List Entry)) ≠ [] →
      ([[Entry.num 0, .num 1], [.bool false, .bool true]] : List (List Entry)).length <
        4294967296 → 2 < 4294967296 →
      ∃ g, Grid.new (.inr [[.num 0, .num 1], [.bool false, .bool true]]) 0 none = .ok g) ∧
    (∀ g, Grid.new (.inr [[.num 0, .num 1], [.bool false, .bool true]]) 0 none = .ok g →
      g.height = ([[Entry.num 0, .num 1], [.bool false, .bool true]] : List (List Entry)).length ∧
      g.width = (2 : Nat) ∧
      ∀ x y : Int, g.isInside x y = true →
        ∃ r e, ([[Entry.num 0, .num 1], [.bool false, .bool true]] : List (List Entry))[y.toNat]? =
            some r ∧ r[x.toNat]? = some e ∧
          g.isWalkableAt x y = .ok (decide (e = .num 0 ∨ e = .bool false))) ∧
    (∀ w h : Int,
      (0 ≤ w → w < 4294967296 → 0 ≤ h → h < 4294967296 →
        ∃ g, Grid.new (.inl w) h none = .ok g) ∧
      ∀ g, Grid.new (.inl w) h none = .ok g →
        g.width = w ∧ g.height = h ∧
        ∀ x y : Int, g.isInside x y = true → g.isWalkableAt x y = .ok true)) :=
  ⟨by decide,
    grid_from_matrix [[.num 0, .num 1], [.bool false, .bool true]] 2 (by decide) 0 none⟩

end Solution

/-! ### The heap after `clear()` -/

namespace Heap

variable {α : Type}

theorem Alike.comparator_eq {h1 h2 : Heap α} (h : h1.Alike h2) {a b : Nat} (ha1 : 1 ≤ a)
    (ha2 : a ≤ h1.last) (hb1 : 1 ≤ b) (hb2 : b ≤ h1.last) :
    h1.comparator a b = h2.comparator a b := by
  unfold comparator
  rw [h.2.2.2 a ha1 ha2, h.2.2.2 b hb1 hb2, h.1, h.2.1]

theorem swap_last_eq (h : Heap α) (a b : Nat) : (h.swap a b).last = h.last := by
  unfold swap; split_ifs <;> rfl

theorem Alike.swap_alike {h1 h2 : Heap α} (h : h1.Alike h2) {a b : Nat} (ha1 : 1 ≤ a)
    (ha2 : a ≤ h1.last) (hb1 : 1 ≤ b) (hb2 : b ≤ h1.last) :
    (h1.swap a b).Alike (h2.swap a b) := by
  unfold swap
  split_ifs with hab
  · exact h
  · refine ⟨h.1, h.2.1, h.2.2.1, fun i hi1 hi2 => ?_⟩
    simp only [Function.update_apply]
    rw [h.2.2.2 a ha1 ha2, h.2.2.2 b hb1 hb2, h.2.2.2 i hi1 hi2]

theorem Alike.shiftUpLoop_alike : ∀ (fuel : Nat) {h1 h2 : Heap α}, h1.Alike h2 →
    ∀ {index parentIndex : Nat}, 1 ≤ index → index ≤ h1.last → 1 ≤ parentIndex →
      parentIndex ≤ h1.last →
      (shiftUpLoop fuel h1 index parentIndex).Alike (shiftUpLoop fuel h2 index parentIndex) := by
  intro fuel
  induction fuel with
  | zero => intro h1 h2 h _ _ _ _ _ _; exact h
  | succ n ih =>
    intro h1 h2 h index parentIndex hi1 hi2 hp1 hp2
    have hs := h.swap_alike hi1 hi2 hp1 hp2
    have hl := swap_last_eq h1 index parentIndex
    unfold shiftUpLoop
    simp only
    by_cases h0 : parentIndex >>> 1 = 0
    · simp only [h0, if_true]; exact hs
    · simp only [h0, if_false]
      have hle : parentIndex >>> 1 ≤ parentIndex := by
        rw [Nat.shiftRight_eq_div_pow]; exact Nat.div_le_self _ _
      have hc := hs.comparator_eq (a := parentIndex) (b := parentIndex >>> 1) hp1
        (by rw [hl]; exact hp2) (by omega) (by rw [hl]; omega)
      rw [hc]
      split_ifs
      · exact ih hs hp1 (by rw [hl]; exact hp2) (by omega) (by rw [hl]; omega)
      · exact hs

theorem Alike.shiftDownLoop_alike : ∀ (fuel : Nat) {h1 h2 : Heap α}, h1.Alike h2 →
    ∀ {index workChildIndex : Nat}, 1 ≤ index → index ≤ h1.last → 1 ≤ workChildIndex →
      workChildIndex ≤ h1.last →
      (shiftDownLoop fuel h1 index workChildIndex).Alike
        (shiftDownLoop fuel h2 index workChildIndex) := by
  intro fuel
  induction fuel with
  | zero => intro h1 h2 h _ _ _ _ _ _; exact h
  | succ n ih =>
    intro h1 h2 h index w hi1 hi2 hw1 hw2
    have hs := h.swap_alike hi1 hi2 hw1 hw2
    have hl := swap_last_eq h1 index w
    have hl2 : (h2.swap index w).last = h1.last := by rw [swap_last_eq]; exact h.2.2.1.symm
    have e2 : w <<< 1 = 2 * w := by rw [Nat.shiftLeft_eq]; ring
    unfold shiftDownLoop
    simp only [hl, hl2]
    by_cases h0 : w <<< 1 > h1.last
    · simp only [h0, if_true]; exact hs
    · simp only [h0, if_false]
      by_cases h1c : w <<< 1 + 1 > h1.last
      · simp only [h1c, if_true]
        have hc := hs.comparator_eq (a := w) (b := w <<< 1) hw1
          (by rw [hl]; exact hw2) (by omega) (by rw [hl]; omega)
        rw [hc]
        split_ifs
        · exact ih hs hw1 (by rw [hl]; exact hw2) (by omega) (by rw [hl]; omega)
        · exact hs
      · simp only [h1c, if_false]
        have hm : (h1.swap index w)._minmax (w <<< 1) (w <<< 1 + 1) =
            (h2.swap index w)._minmax (w <<< 1) (w <<< 1 + 1) := by
          unfold _minmax
          rw [hs.comparator_eq (a := w <<< 1) (b := w <<< 1 + 1) (by omega)
            (by rw [hl]; omega) (by omega) (by rw [hl]; omega)]
        have hmr : 1 ≤ (h2.swap index w)._minmax (w <<< 1) (w <<< 1 + 1) ∧
            (h2.swap index w)._minmax (w <<< 1) (w <<< 1 + 1) ≤ h1.last := by
          unfold _minmax
          split_ifs <;> omega
        rw [hm]
        have hc := hs.comparator_eq (a := w)
          (b := (h2.swap index w)._minmax (w <<< 1) (w <<< 1 + 1)) hw1
          (by rw [hl]; exact hw2) hmr.1 (by rw [hl]; exact hmr.2)
        rw [hc]
        split_ifs
        · exact ih hs hw1 (by rw [hl]; exact hw2) hmr.1 (by rw [hl]; exact hmr.2)
        · exact hs

theorem Alike.push_alike {h1 h2 : Heap α} (h : h1.Alike h2) (value : α) :
    (h1.push value).Alike (h2.push value) := by
  unfold push _shiftUp
  simp only
  rw [← h.2.2.1]
  have hb : Alike
      { h1 with last := h1.last + 1, heap := Function.update h1.heap (h1.last + 1) (some value) }
      { h2 with last := h1.last + 1, heap := Function.update h2.heap (h1.last + 1) (some value) } := by
    refine ⟨h.1, h.2.1, rfl, fun i hi1 hi2 => ?_⟩
    simp only at hi2
    simp only [Function.update_apply]
    split_ifs with hi
    · rfl
    · exact h.2.2.2 i hi1 (by omega)
  split_ifs with hl
  · exact hb
  · exact hb.shiftUpLoop_alike _ (Nat.le_add_left 1 _) le_rfl (Nat.le_add_left 1 _) le_rfl

theorem Alike.pop_alike {h1 h2 : Heap α} (h : h1.Alike h2) :
    h1.pop.1 = h2.pop.1 ∧ h1.pop.2.Alike h2.pop.2 := by
  unfold pop
  rw [← h.2.2.1]
  split_ifs with hl
  · exact ⟨rfl, h⟩
  · simp only
    have hl1 : 1 ≤ h1.last := by omega
    refine ⟨h.2.2.2 1 le_rfl hl1, ?_⟩
    have hb : Alike
        { h1 with heap := Function.update h1.heap 1 (h1.heap h1.last), last := h1.last - 1 }
        { h2 with heap := Function.update h2.heap 1 (h2.heap h1.last), last := h1.last - 1 } := by
      refine ⟨h.1, h.2.1, rfl, fun i hi1 hi2 => ?_⟩
      simp only at hi2
      simp only [Function.update_apply]
      rw [h.2.2.2 i hi1 (by omega), h.2.2.2 h1.last hl1 le_rfl]
    unfold _shiftDown
    simp only
    split_ifs with h2l
    · exact hb
    · exact hb.shiftDownLoop_alike _ le_rfl (by simp only; omega) le_rfl (by simp only; omega)

theorem Alike.runOps_eq : ∀ (ops : List (HeapOp α)) {h1 h2 : Heap α}, h1.Alike h2 →
    runOps ops h1 = runOps ops h2 := by
  intro ops
  induction ops with
  | nil => intro h1 h2 _; rfl
  | cons op rest ih =>
    intro h1 h2 h
    cases op with
    | insert value =>
      unfold runOps
      exact ih (h.push_alike value)
    | extractTop =>
      unfold runOps
      have hp := h.pop_alike
      unfold extractTop
      rw [hp.1, ih hp.2]

/-- C26: for every heap, whatever it holds (any number `last` of entries and any backing
array), after `clear()` the method `isEmpty()` returns true, `size()` returns 0 and
`extractTop` / `pop` return no value, and every sequence of `insert` and `extractTop` calls
returns the same values as on a heap newly constructed with the same polarity and
comparator. -/
theorem clear_like_new (type : Option ℚ) (compareFunc : α → α → ℚ) (last : Nat)
    (heap : Nat → Option α) :
    ({ (new type compareFunc) with last := last, heap := heap } : Heap α).clear.isEmpty = true ∧
    ({ (new type compareFunc) with last := last, heap := heap } : Heap α).clear.size = 0 ∧
    ({ (new type compareFunc) with last := last, heap := heap } : Heap α).clear.extractTop.1 =
      none ∧
    ({ (new type compareFunc) with last := last, heap := heap } : Heap α).clear.pop.1 = none ∧
    ∀ ops : List (HeapOp α),
      runOps ops ({ (new type compareFunc) with last := last, heap := heap } : Heap α).clear =
        runOps ops (new type compareFunc) := by
  refine ⟨rfl, rfl, rfl, rfl, fun ops => ?_⟩
  apply Alike.runOps_eq
  refine ⟨rfl, rfl, rfl, fun i hi1 hi2 => ?_⟩
  simp only [clear] at hi2
  omega

end Heap

/-! ### The jump scan with a zero direction -/

/-- C27 does not hold as stated: the tests for an unwalkable cell and for the goal come
before the test of the direction.  On the grid of one row whose cell `(0, 0)` is
unwalkable, `_jump(0, 0, 0, 0)` returns `null`, and with the goal `(1, 0)`,
`_jump(1, 0, 1, 0)` returns `[1, 0]`; neither call throws. -/
theorem jump_zero_direction_counterexample :
    gridBlockedStart.isInside 0 0 = true ∧ gridBlockedStart.isInside 1 0 = true ∧
    _jump JumpPointFinderBase.default (1, 0) 1 gridBlockedStart 0 0 0 0 =
      .ok (none, gridBlockedStart) ∧
    _jump JumpPointFinderBase.default (1, 0) 1 gridBlockedStart 1 0 1 0 =
      .ok (some (1, 0), gridBlockedStart) :=
  ⟨by decide, by decide, rfl, rfl⟩

/-- C27, amended: for every grid and every walkable cell `(x, y)` other than the goal, the
jump scan called with a zero direction, `_jump(x, y, x, y)`, throws (the `throw` statement
of the last `else` branch is the only one that can be reached); for a cell that is not
walkable the call returns `null`, and for the goal it returns `[x, y]`. -/
theorem jump_zero_direction (F : JumpPointFinderBase) (endNode : Coord) (fuel : Nat)
    (grid : Grid) (x y : Int) :
    (grid.isWalkableAt x y = true → (x, y) ≠ endNode →
      _jump F endNode (fuel + 1) grid x y x y = .fault) ∧
    (grid.isWalkableAt x y = false →
      _jump F endNode (fuel + 1) grid x y x y = .ok (none, grid)) ∧
    (grid.isWalkableAt x y = true → (x, y) = endNode →
      ∃ grid1, grid1.Agree grid ∧
        _jump F endNode (fuel + 1) grid x y x y = .ok (some (x, y), grid1)) := by
  refine ⟨?_, ?_, ?_⟩
  · intro hw hne
    unfold _jump
    simp [hw, hne]
  · intro hw
    unfold _jump
    simp [hw]
  · intro hw he
    unfold _jump
    simp only [hw, Bool.not_true, Bool.false_eq_true, if_false, he, if_true]
    split_ifs
    · exact ⟨_, Grid.agree_setTested grid _, rfl⟩
    · exact ⟨_, Grid.Agree.refl_agree grid, rfl⟩

theorem jump_zero_direction_witness :
    (Grid.new 1 2).isWalkableAt 0 0 = true ∧ ((0, 0) : Coord) ≠ (1, 0) ∧
    _jump JumpPointFinderBase.default (1, 0) (0 + 1) (Grid.new 1 2) 0 0 0 0 = .fault :=
  ⟨by decide, by decide,
    (jump_zero_direction JumpPointFinderBase.default (1, 0) 0 (Grid.new 1 2) 0 0).1
      (by decide) (by decide)⟩

/-! ### The extractions of the main loop -/

theorem findPathLoopTrace_fst (F : JumpPointFinderBase) (E : Coord) (fuel : Nat) :
    ∀ (n : Nat) (grid : Grid) (ol : Heap Coord),
      (findPathLoopTrace F E fuel n grid ol).1 = findPathLoop F E fuel n grid ol := by
  intro n
  induction n with
  | zero => intro grid ol; rfl
  | succ n ih =>
    intro grid ol
    unfold findPathLoopTrace findPathLoop
    split_ifs with h1
    · rfl
    · cases hp : (syncOpen ol grid).pop with
      | mk v ol1 =>
        cases v with
        | none => rfl
        | some node =>
          simp only
          split_ifs with h2
          · cases backtrace fuel (grid.modify node fun nd => { nd with closed := true }) E with
            | ok path =>
              simp only
              cases expandPath fuel path <;> rfl
            | fault => rfl
            | timeout => rfl
          · cases _identifySuccessors F E fuel node
                (grid.modify node fun nd => { nd with closed := true }) ol1 with
            | ok r => obtain ⟨g2, o2⟩ := r; exact ih g2 o2
            | fault => rfl
            | timeout => rfl

theorem findPathTrace_fst (F : JumpPointFinderBase) (fuel : Nat) (sx sy ex ey : Int)
    (grid : Grid) :
    (findPathTrace F fuel sx sy ex ey grid).1 = findPath F fuel sx sy ex ey grid := by
  unfold findPathTrace findPath
  split_ifs
  · rfl
  · exact findPathLoopTrace_fst F (ex, ey) fuel fuel _ _

/-- C28 fails in the code: on the grid `gridDetour` (no prior search state), with the
Manhattan heuristic, from `(3, 5)` to `(4, 0)`, the seventh extraction of the main loop
takes the node `(2, 2)` with `f = 10` out of the open list while the node `(2, 3)`, whose
`f` is `8`, is still held in it. -/
theorem findPath_extracts_non_minimal :
    gridDetour.NoSearchState ∧ gridDetour.isInside 3 5 = true ∧
    gridDetour.isInside 4 0 = true ∧ gridDetour.fuelBound ≤ 164 ∧
    (findPathTrace manhattanFinder 164 3 5 4 0 gridDetour).1 =
      findPath manhattanFinder 164 3 5 4 0 gridDetour ∧
    (findPathTrace manhattanFinder 164 3 5 4 0 gridDetour).2[6]? =
      some { node := (2, 2), f := some 10, closed := false,
             held := [((2, 3), some 8), ((2, 3), some 8), ((0, 4), some 12)] } ∧
    optLt (some 8) (some 10) = true :=
  ⟨Grid.ofRows_noSearchState _, by decide, by decide, by decide,
    findPathTrace_fst manhattanFinder 164 3 5 4 0 gridDetour, by decide!, by decide!⟩

/-- C29 fails in the code: on the grid `gridTwice` (no prior search state), with the
default finder, from `(2, 0)` to `(2, 3)`, the main loop extracts the node `(1, 2)` twice
in a row; at the second extraction the node is already closed, and as it is not the goal it
is passed to `_identifySuccessors` a second time. -/
theorem findPath_extracts_closed_node :
    gridTwice.NoSearchState ∧ gridTwice.isInside 2 0 = true ∧
    gridTwice.isInside 2 3 = true ∧ gridTwice.fuelBound ≤ 91 ∧
    (findPathTrace JumpPointFinderBase.default 91 2 0 2 3 gridTwice).1 =
      findPath JumpPointFinderBase.default 91 2 0 2 3 gridTwice ∧
    (findPathTrace JumpPointFinderBase.default 91 2 0 2 3 gridTwice).2.map
        (fun e => (e.node, e.closed)) =
      [((2, 0), false), ((3, 0), false), ((1, 0), false), ((3, 2), false), ((1, 1), false),
       ((1, 2), false), ((1, 2), true), ((1, 3), false), ((3, 3), false), ((2, 3), false)] :=
  ⟨Grid.ofRows_noSearchState _, by decide, by decide, by decide,
    findPathTrace_fst JumpPointFinderBase.default 91 2 0 2 3 gridTwice, by decide!⟩

/-! ### The neighbours that are scanned -/

theorem findNeighbors_row (grid : Grid) (x y px : Int) (hp : (grid.nodes (x, y)).parent = some (px, y))
    (hne : px ≠ x) :
    _findNeighbors grid (x, y) =
      [(x, y - 1), (x, y + 1), (x + Int.sign (x - px), y)].filter
        (fun c => grid.isWalkableAt c.1 c.2) := by
  have hs : (x - px) / max |x - px| 1 = Int.sign (x - px) := by
    rcases sign_div_cases (x - px) with ⟨h, e⟩ | ⟨h, e⟩ | ⟨h, e⟩
    · omega
    · rw [e, Int.sign_eq_one_of_pos h]
    · rw [e, Int.sign_eq_neg_one_of_neg h]
  have hs0 : Int.sign (x - px) ≠ 0 := by
    intro h
    have := Int.sign_eq_zero_iff_zero.1 h
    omega
  unfold _findNeighbors
  rw [hp]
  simp only [hs, if_pos hs0, List.nil_append]
  rw [List.filter]
  split_ifs <;> simp_all [List.filter]

theorem findNeighbors_col (grid : Grid) (x y py : Int) (hp : (grid.nodes (x, y)).parent = some (x, py))
    (hne : py ≠ y) :
    _findNeighbors grid (x, y) =
      [(x - 1, y), (x + 1, y), (x, y + Int.sign (y - py))].filter
        (fun c => grid.isWalkableAt c.1 c.2) := by
  have hs : (y - py) / max |y - py| 1 = Int.sign (y - py) := by
    rcases sign_div_cases (y - py) with ⟨h, e⟩ | ⟨h, e⟩ | ⟨h, e⟩
    · omega
    · rw [e, Int.sign_eq_one_of_pos h]
    · rw [e, Int.sign_eq_neg_one_of_neg h]
  have hs0 : Int.sign (y - py) ≠ 0 := by
    intro h
    have := Int.sign_eq_zero_iff_zero.1 h
    omega
  have hx : ¬ ((x - x) / max |x - x| 1 ≠ 0) := by simp
  unfold _findNeighbors
  rw [hp]
  simp only [hx, if_false, hs, if_pos hs0, List.nil_append]
  rw [List.filter]
  split_ifs <;> simp_all [List.filter]

/-- C30: for the node at `(x, y)` of any grid: if it has no parent, `_findNeighbors` returns
exactly its walkable orthogonal neighbours, in the order up, right, down, left; if its
parent lies elsewhere on the same row (column), `_findNeighbors` returns exactly the
walkable cells among the two neighbours across the direction of travel and the neighbour
one step further along it, so that the neighbour back toward the parent is not returned and
at most 3 cells are. -/
theorem findNeighbors_spec (grid : Grid) (x y : Int) :
    ((grid.nodes (x, y)).parent = none →
      _findNeighbors grid (x, y) =
        [(x, y - 1), (x + 1, y), (x, y + 1), (x - 1, y)].filter
          (fun c => grid.isWalkableAt c.1 c.2)) ∧
    (∀ px : Int, (grid.nodes (x, y)).parent = some (px, y) → px ≠ x →
      _findNeighbors grid (x, y) =
          [(x, y - 1), (x, y + 1), (x + Int.sign (x - px), y)].filter
            (fun c => grid.isWalkableAt c.1 c.2) ∧
        (x - Int.sign (x - px), y) ∉ _findNeighbors grid (x, y) ∧
        (_findNeighbors grid (x, y)).length ≤ 3) ∧
    (∀ py : Int, (grid.nodes (x, y)).parent = some (x, py) → py ≠ y →
      _findNeighbors grid (x, y) =
          [(x - 1, y), (x + 1, y), (x, y + Int.sign (y - py))].filter
            (fun c => grid.isWalkableAt c.1 c.2) ∧
        (x, y - Int.sign (y - py)) ∉ _findNeighbors grid (x, y) ∧
        (_findNeighbors grid (x, y)).length ≤ 3) := by
  refine ⟨?_, ?_, ?_⟩
  · intro hp
    unfold _findNeighbors
    rw [hp]
    exact (getWalkableNeighbors_spec grid x y).1
  · intro px hp hne
    have he := findNeighbors_row grid x y px hp hne
    have hs : Int.sign (x - px) = 1 ∨ Int.sign (x - px) = -1 := by
      rcases lt_trichotomy (x - px) 0 with h | h | h
      · right; exact Int.sign_eq_neg_one_of_neg h
      · omega
      · left; exact Int.sign_eq_one_of_pos h
    refine ⟨he, ?_, ?_⟩
    · rw [he]
      intro hmem
      have := List.mem_of_mem_filter hmem
      simp only [List.mem_cons, Prod.mk.injEq, List.mem_singleton, List.not_mem_nil,
        or_false] at this
      omega
    · rw [he]
      exact le_trans (List.length_filter_le _ _) (by simp)
  · intro py hp hne
    have he := findNeighbors_col grid x y py hp hne
    have hs : Int.sign (y - py) = 1 ∨ Int.sign (y - py) = -1 := by
      rcases lt_trichotomy (y - py) 0 with h | h | h
      · right; exact Int.sign_eq_neg_one_of_neg h
      · omega
      · left; exact Int.sign_eq_one_of_pos h
    refine ⟨he, ?_, ?_⟩
    · rw [he]
      intro hmem
      have := List.mem_of_mem_filter hmem
      simp only [List.mem_cons, Prod.mk.injEq, List.mem_singleton, List.not_mem_nil,
        or_false] at this
      omega
    · rw [he]
      exact le_trans (List.length_filter_le _ _) (by simp)

theorem findNeighbors_spec_witness :
    (gridParent.nodes (1, 1)).parent = some (0, 1) ∧ (0 : Int) ≠ 1 ∧
    (_findNeighbors gridParent (1, 1) =
        [(1, 1 - 1), (1, 1 + 1), (1 + Int.sign (1 - 0), 1)].filter
          (fun c => gridParent.isWalkableAt c.1 c.2) ∧
      (1 - Int.sign (1 - 0), 1) ∉ _findNeighbors gridParent (1, 1) ∧
      (_findNeighbors gridParent (1, 1)).length ≤ 3) :=
  ⟨by decide, by decide, (findNeighbors_spec gridParent 1 1).2.1 0 (by decide) (by decide)⟩

/-! ## Fourth group of main properties -/

/-! ### The parent chain read by `backtrace` -/

theorem backtraceLoop_chain (grid : Grid) : ∀ (up : List Coord) (c : Coord)
    (acc : List Coord) (fuel : Nat), ParentChain grid c up → up.length < fuel →
    backtraceLoop grid fuel c acc = .ok (acc ++ up) := by
  intro up
  induction up with
  | nil =>
    intro c acc fuel h hf
    obtain ⟨n, rfl⟩ : ∃ n, fuel = n + 1 := ⟨fuel - 1, by omega⟩
    unfold backtraceLoop
    have h' : (grid.nodes c).parent = none := h
    rw [h']
    simp
  | cons p rest ih =>
    intro c acc fuel h hf
    obtain ⟨n, rfl⟩ : ∃ n, fuel = n + 1 := ⟨fuel - 1, by omega⟩
    unfold backtraceLoop
    rw [h.1]
    simp only
    rw [ih p (acc ++ [p]) n h.2 (by simp at hf; omega)]
    simp

/-- In a parent chain read from the root, each node is the parent of the next. -/
theorem parentChain_links (grid : Grid) : ∀ (up : List Coord) (c : Coord),
    ParentChain grid c up → ∀ (i : Nat) (a b : Coord),
      ((c :: up).reverse)[i]? = some a → ((c :: up).reverse)[i + 1]? = some b →
      (grid.nodes b).parent = some a := by
  intro up
  induction up with
  | nil =>
    intro c _ i a b h1 h2
    simp at h2
  | cons p rest ih =>
    intro c h i a b h1 h2
    have hrev : (c :: p :: rest).reverse = (p :: rest).reverse ++ [c] := by simp
    rw [hrev] at h1 h2
    have hlen : ((p :: rest).reverse).length = rest.length + 1 := by simp
    by_cases hi : i + 1 < rest.length + 1
    · rw [List.getElem?_append_left (by omega)] at h1 h2
      exact ih p h.2 i a b h1 h2
    · have hi2 : i + 1 = rest.length + 1 := by
        by_contra hne
        have : rest.length + 1 < i + 1 := by omega
        rw [List.getElem?_append_right (by omega)] at h2
        rw [hlen] at h2
        have : i + 1 - (rest.length + 1) ≥ 1 := by omega
        obtain ⟨m, hm⟩ : ∃ m, i + 1 - (rest.length + 1) = m + 1 := ⟨_, (Nat.sub_add_cancel this).symm⟩
        rw [hm] at h2
        simp at h2
      rw [List.getElem?_append_right (by omega), hlen, hi2] at h2
      simp only [Nat.sub_self, List.getElem?_cons_zero, Option.some.injEq] at h2
      rw [List.getElem?_append_left (by omega)] at h1
      have : i = rest.length := by omega
      subst this
      have h3 : ((p :: rest).reverse)[rest.length]? = some p := by
        rw [List.reverse_cons, List.getElem?_append_right (by simp)]
        simp
      rw [h3] at h1
      cases h1
      rw [← h2]
      exact h.1

theorem parentChain_root (grid : Grid) : ∀ (up : List Coord) (c : Coord),
    ParentChain grid c up → ∃ root, (c :: up).getLast? = some root ∧
      (grid.nodes root).parent = none := by
  intro up
  induction up with
  | nil => intro c h; exact ⟨c, rfl, h⟩
  | cons p rest ih =>
    intro c h
    obtain ⟨root, h1, h2⟩ := ih p h.2
    exact ⟨root, by rw [List.getLast?_cons_cons]; exact h1, h2⟩

/-- C31: for a node whose parent chain has `k` links (the node, its parent, ..., a root
that has no parent), `backtrace` returns the `k + 1` coordinates of the chain, the root
first and the given node last, each element followed by the coordinate of the node whose
parent it is; for a node with no parent it returns the single coordinate of that node. -/
theorem backtrace_spec (grid : Grid) (node : Coord) (up : List Coord) (fuel : Nat)
    (hc : ParentChain grid node up) (hf : up.length < fuel) :
    backtrace fuel grid node = .ok (node :: up).reverse ∧
    ((node :: up).reverse).length = up.length + 1 ∧
    ((node :: up).reverse).getLast? = some node ∧
    (∃ root, ((node :: up).reverse).head? = some root ∧ (grid.nodes root).parent = none) ∧
    (∀ (i : Nat) (a b : Coord), ((node :: up).reverse)[i]? = some a →
      ((node :: up).reverse)[i + 1]? = some b → (grid.nodes b).parent = some a) ∧
    (up = [] → backtrace fuel grid node = .ok [node]) := by
  have hb : backtrace fuel grid node = .ok (node :: up).reverse := by
    unfold backtrace
    rw [backtraceLoop_chain grid up node [node] fuel hc hf]
    rfl
  refine ⟨hb, by simp, by simp, ?_, parentChain_links grid up node hc, ?_⟩
  · obtain ⟨root, h1, h2⟩ := parentChain_root grid up node hc
    refine ⟨root, ?_, h2⟩
    rw [List.head?_reverse]; exact h1
  · intro h
    rw [hb, h]; rfl

theorem backtrace_spec_witness :
    ParentChain gridParent (1, 1) [(0, 1)] ∧ [((0, 1) : Coord)].length < 2 ∧
    (backtrace 2 gridParent (1, 1) = .ok ((1, 1) :: [((0, 1) : Coord)]).reverse ∧
    (((1, 1) :: [((0, 1) : Coord)]).reverse).length = [((0, 1) : Coord)].length + 1 ∧
    (((1, 1) :: [((0, 1) : Coord)]).reverse).getLast? = some (1, 1) ∧
    (∃ root, (((1, 1) :: [((0, 1) : Coord)]).reverse).head? = some root ∧
      (gridParent.nodes root).parent = none) ∧
    (∀ (i : Nat) (a b : Coord), (((1, 1) :: [((0, 1) : Coord)]).reverse)[i]? = some a →
      (((1, 1) :: [((0, 1) : Coord)]).reverse)[i + 1]? = some b →
      (gridParent.nodes b).parent = some a) ∧
    ([((0, 1) : Coord)] = [] → backtrace 2 gridParent (1, 1) = .ok [(1, 1)])) :=
  have hc : ParentChain gridParent (1, 1) [(0, 1)] :=
    ⟨by decide, (by decide : (gridParent.nodes (0, 1)).parent = none)⟩
  ⟨hc, by decide, backtrace_spec gridParent (1, 1) [(0, 1)] 2 hc (by decide)⟩

/-! ### The line drawn by `interpolate` -/

theorem kingStep_of_moves {x y : Int} {a b : Int} (ha : a = 1 ∨ a = -1)
    (hb : b = 0 ∨ b = 1 ∨ b = -1) : KingStep (x, y) (x + a, y + b) := by
  unfold KingStep
  simp only [add_sub_cancel_left]
  rcases ha with h | h <;> rcases hb with h2 | h2 | h2 <;> subst h <;> subst h2 <;> simp

theorem kingStep_of_moves_y {x y : Int} {a b : Int} (ha : a = 0 ∨ a = 1 ∨ a = -1)
    (hb : b = 1 ∨ b = -1) : KingStep (x, y) (x + a, y + b) := by
  unfold KingStep
  simp only [add_sub_cancel_left]
  rcases hb with h | h <;> rcases ha with h2 | h2 | h2 <;> subst h <;> subst h2 <;> simp

/-- The loop of `interpolate` while the line is no steeper than a diagonal: `r` steps
along x remain, `c` steps along y. -/
theorem interpolateLoop_flat (x1 y1 dx dy sx sy : Int) (hsx : sx = 1 ∨ sx = -1)
    (hsy : sy = 1 ∨ sy = -1) (hdy : 0 ≤ dy) (hle : dy ≤ dx) (hdx : 0 < dx) :
    ∀ (r fuel : Nat) (x y err c : Int) (line : List Coord), r < fuel →
      x1 = x + r * sx → y1 = y + c * sy → err = dx - dy + r * dy - c * dx →
      -dy < 2 * err → 2 * err < 3 * dx - 2 * dy →
      ∃ out, interpolateLoop x1 y1 dx dy sx sy fuel x y err line = .ok (line ++ out) ∧
        out.length = r + 1 ∧ out.head? = some (x, y) ∧ out.getLast? = some (x1, y1) ∧
        KingChain out := by
  intro r
  induction r with
  | zero =>
    intro fuel x y err c line hf hx hy he h1 h2
    obtain ⟨n, rfl⟩ : ∃ n, fuel = n + 1 := ⟨fuel - 1, by omega⟩
    have hc : c = 0 := by
      simp only [Nat.cast_zero, zero_mul, add_zero] at he
      by_contra hne
      rcases lt_or_gt_of_ne hne with h | h
      · have : c * dx ≤ -dx := by nlinarith
        omega
      · have : dx ≤ c * dx := by nlinarith
        omega
    subst hc
    have ex : x = x1 := by rw [hx]; simp
    have ey : y = y1 := by rw [hy]; simp
    unfold interpolateLoop
    refine ⟨[(x, y)], by simp [ex, ey], rfl, rfl, by simp [ex, ey], trivial⟩
  | succ r ih =>
    intro fuel x y err c line hf hx hy he h1 h2
    obtain ⟨n, rfl⟩ : ∃ n, fuel = n + 1 := ⟨fuel - 1, by omega⟩
    have hne : ¬ (x = x1 ∧ y = y1) := by
      intro h
      have h3 := h.1
      rw [hx] at h3
      push_cast at h3
      rcases hsx with h4 | h4 <;> subst h4 <;> omega
    have hx2 : x1 = (x + sx) + (r : Int) * sx := by rw [hx]; push_cast; ring
    unfold interpolateLoop
    simp only [hne, if_false]
    have hstep : 2 * err > -dy := h1
    simp only [hstep, if_true]
    by_cases hy2 : 2 * err < dx
    · simp only [hy2, if_true]
      obtain ⟨out, ho, hl, hh, hlast, hk⟩ := ih n (x + sx) (y + sy) (err - dy + dx) (c - 1)
        (line ++ [(x, y)]) (by omega) hx2 (by rw [hy]; ring)
        (by rw [he]; push_cast; ring) (by omega) (by omega)
      refine ⟨(x, y) :: out, by rw [ho]; simp, by simp [hl], rfl, ?_, ?_⟩
      · cases out with
        | nil => simp at hl
        | cons a t => rw [List.getLast?_cons_cons]; exact hlast
      · cases out with
        | nil => trivial
        | cons a t =>
          simp only [List.head?_cons, Option.some.injEq] at hh
          subst hh
          exact ⟨kingStep_of_moves hsx (by tauto), hk⟩
    · simp only [hy2, if_false]
      obtain ⟨out, ho, hl, hh, hlast, hk⟩ := ih n (x + sx) y (err - dy) c
        (line ++ [(x, y)]) (by omega) hx2 hy
        (by rw [he]; push_cast; ring) (by omega) (by omega)
      refine ⟨(x, y) :: out, by rw [ho]; simp, by simp [hl], rfl, ?_, ?_⟩
      · cases out with
        | nil => simp at hl
        | cons a t => rw [List.getLast?_cons_cons]; exact hlast
      · cases out with
        | nil => trivial
        | cons a t =>
          simp only [List.head?_cons, Option.some.injEq] at hh
          subst hh
          have := kingStep_of_moves (x := x) (y := y) (a := sx) (b := 0) hsx (Or.inl rfl)
          rw [add_zero] at this
          exact ⟨this, hk⟩

/-- The loop of `interpolate` while the line is at least as steep as a diagonal: `r` steps
along y remain, `c` steps along x. -/
theorem interpolateLoop_steep (x1 y1 dx dy sx sy : Int) (hsx : sx = 1 ∨ sx = -1)
    (hsy : sy = 1 ∨ sy = -1) (hdx : 0 ≤ dx) (hle : dx ≤ dy) (hdy : 0 < dy) :
    ∀ (r fuel : Nat) (x y err c : Int) (line : List Coord), r < fuel →
      x1 = x + c * sx → y1 = y + r * sy → err = dx - dy + c * dy - r * dx →
      2 * dx - 3 * dy < 2 * err → 2 * err < dx →
      ∃ out, interpolateLoop x1 y1 dx dy sx sy fuel x y err line = .ok (line ++ out) ∧
        out.length = r + 1 ∧ out.head? = some (x, y) ∧ out.getLast? = some (x1, y1) ∧
        KingChain out := by
  intro r
  induction r with
  | zero =>
    intro fuel x y err c line hf hx hy he h1 h2
    obtain ⟨n, rfl⟩ : ∃ n, fuel = n + 1 := ⟨fuel - 1, by omega⟩
    have hc : c = 0 := by
      simp only [Nat.cast_zero, zero_mul, sub_zero] at he
      by_contra hne
      rcases lt_or_gt_of_ne hne with h | h
      · have : c * dy ≤ -dy := by nlinarith
        omega
      · have : dy ≤ c * dy := by nlinarith
        omega
    subst hc
    have ex : x = x1 := by rw [hx]; simp
    have ey : y = y1 := by rw [hy]; simp
    unfold interpolateLoop
    refine ⟨[(x, y)], by simp [ex, ey], rfl, rfl, by simp [ex, ey], trivial⟩
  | succ r ih =>
    intro fuel x y err c line hf hx hy he h1 h2
    obtain ⟨n, rfl⟩ : ∃ n, fuel = n + 1 := ⟨fuel - 1, by omega⟩
    have hne : ¬ (x = x1 ∧ y = y1) := by
      intro h
      have h3 := h.2
      rw [hy] at h3
      push_cast at h3
      rcases hsy with h4 | h4 <;> subst h4 <;> omega
    have hy2 : y1 = (y + sy) + (r : Int) * sy := by rw [hy]; push_cast; ring
    unfold interpolateLoop
    simp only [hne, if_false]
    have hstep : 2 * err < dx := h2
    simp only [hstep, if_true]
    by_cases hx2 : 2 * err > -dy
    · simp only [hx2, if_true]
      obtain ⟨out, ho, hl, hh, hlast, hk⟩ := ih n (x + sx) (y + sy) (err - dy + dx) (c - 1)
        (line ++ [(x, y)]) (by omega) (by rw [hx]; ring) hy2
        (by rw [he]; push_cast; ring) (by omega) (by omega)
      refine ⟨(x, y) :: out, by rw [ho]; simp, by simp [hl], rfl, ?_, ?_⟩
      · cases out with
        | nil => simp at hl
        | cons a t => rw [List.getLast?_cons_cons]; exact hlast
      · cases out with
        | nil => trivial
        | cons a t =>
          simp only [List.head?_cons, Option.some.injEq] at hh
          subst hh
          exact ⟨kingStep_of_moves hsx (by tauto), hk⟩
    · simp only [hx2, if_false]
      obtain ⟨out, ho, hl, hh, hlast, hk⟩ := ih n x (y + sy) (err + dx) c
        (line ++ [(x, y)]) (by omega) hx hy2
        (by rw [he]; push_cast; ring) (by omega) (by omega)
      refine ⟨(x, y) :: out, by rw [ho]; simp, by simp [hl], rfl, ?_, ?_⟩
      · cases out with
        | nil => simp at hl
        | cons a t => rw [List.getLast?_cons_cons]; exact hlast
      · cases out with
        | nil => trivial
        | cons a t =>
          simp only [List.head?_cons, Option.some.injEq] at hh
          subst hh
          have := kingStep_of_moves_y (x := x) (y := y) (a := 0) (b := sy) (Or.inl rfl) hsy
          rw [add_zero] at this
          exact ⟨this, hk⟩

/-- The function `interpolate` returns a line of king's moves from the first point to the
second, of `max(|dx|, |dy|) + 1` cells. -/
theorem interpolate_king (fuel : Nat) (x0 y0 x1 y1 : Int)
    (hf : (max |x1 - x0| |y1 - y0|).toNat < fuel) :
    ∃ line, interpolate fuel x0 y0 x1 y1 = .ok line ∧
      line.length = (max |x1 - x0| |y1 - y0|).toNat + 1 ∧ line.head? = some (x0, y0) ∧
      line.getLast? = some (x1, y1) ∧ KingChain line := by
  have hsx : (if x0 < x1 then (1 : Int) else -1) = 1 ∨ (if x0 < x1 then (1 : Int) else -1) = -1 := by
    split_ifs <;> simp
  have hsy : (if y0 < y1 then (1 : Int) else -1) = 1 ∨ (if y0 < y1 then (1 : Int) else -1) = -1 := by
    split_ifs <;> simp
  have hx : x1 = x0 + |x1 - x0| * (if x0 < x1 then (1 : Int) else -1) := by
    split_ifs with h
    · rw [abs_of_pos (by omega)]; ring
    · rw [abs_of_nonpos (by omega)]; ring
  have hy : y1 = y0 + |y1 - y0| * (if y0 < y1 then (1 : Int) else -1) := by
    split_ifs with h
    · rw [abs_of_pos (by omega)]; ring
    · rw [abs_of_nonpos (by omega)]; ring
  have hdx := abs_nonneg (x1 - x0)
  have hdy := abs_nonneg (y1 - y0)
  unfold interpolate
  simp only
  rcases le_total |y1 - y0| |x1 - x0| with hle | hle
  · rw [max_eq_left hle] at hf ⊢
    by_cases h0 : |x1 - x0| = 0
    · have h0y : |y1 - y0| = 0 := by omega
      obtain ⟨n, rfl⟩ : ∃ n, fuel = n + 1 := ⟨fuel - 1, by omega⟩
      have ex : x0 = x1 := by have := abs_eq_zero.1 h0; omega
      have ey : y0 = y1 := by have := abs_eq_zero.1 h0y; omega
      unfold interpolateLoop
      refine ⟨[(x0, y0)], by simp [ex, ey], by simp [h0], rfl, by simp [ex, ey], trivial⟩
    · have hr : ((|x1 - x0|.toNat : Nat) : Int) = |x1 - x0| := Int.toNat_of_nonneg hdx
      obtain ⟨out, ho, hl, hh, hlast, hk⟩ := interpolateLoop_flat x1 y1 |x1 - x0| |y1 - y0|
        (if x0 < x1 then 1 else -1) (if y0 < y1 then 1 else -1) hsx hsy hdy hle (by omega)
        |x1 - x0|.toNat fuel x0 y0 (|x1 - x0| - |y1 - y0|) |y1 - y0| [] hf
        (by rw [hr]; exact hx) hy (by rw [hr]; ring) (by omega) (by omega)
      exact ⟨out, by simpa using ho, hl, hh, hlast, hk⟩
  · rw [max_eq_right hle] at hf ⊢
    by_cases h0 : |y1 - y0| = 0
    · have h0x : |x1 - x0| = 0 := by omega
      obtain ⟨n, rfl⟩ : ∃ n, fuel = n + 1 := ⟨fuel - 1, by omega⟩
      have ex : x0 = x1 := by have := abs_eq_zero.1 h0x; omega
      have ey : y0 = y1 := by have := abs_eq_zero.1 h0; omega
      unfold interpolateLoop
      refine ⟨[(x0, y0)], by simp [ex, ey], by simp [h0], rfl, by simp [ex, ey], trivial⟩
    · have hr : ((|y1 - y0|.toNat : Nat) : Int) = |y1 - y0| := Int.toNat_of_nonneg hdy
      obtain ⟨out, ho, hl, hh, hlast, hk⟩ := interpolateLoop_steep x1 y1 |x1 - x0| |y1 - y0|
        (if x0 < x1 then 1 else -1) (if y0 < y1 then 1 else -1) hsx hsy hdx hle (by omega)
        |y1 - y0|.toNat fuel x0 y0 (|x1 - x0| - |y1 - y0|) |x1 - x0| [] hf
        hx (by rw [hr]; exact hy) (by rw [hr]; ring) (by omega) (by omega)
      exact ⟨out, by simpa using ho, hl, hh, hlast, hk⟩

/-- Between two cells of a row `interpolate` returns the run of cells of that row. -/
theorem interpolate_row (fuel : Nat) (x0 y x1 : Int) (hf : |x1 - x0|.toNat < fuel) :
    interpolate fuel x0 y x1 y = .ok ((List.range (|x1 - x0|.toNat + 1)).map
      (fun i : Nat => (x0 + i * Int.sign (x1 - x0), y))) := by
  by_cases h0 : x1 = x0
  · subst h0
    rw [interpolate_same fuel (by omega) (x1, y)]
    simp
  · have hs : Int.sign (x1 - x0) = 1 ∨ Int.sign (x1 - x0) = -1 := by
      rcases lt_trichotomy (x1 - x0) 0 with h | h | h
      · right; exact Int.sign_eq_neg_one_of_neg h
      · omega
      · left; exact Int.sign_eq_one_of_pos h
    have hk : ((|x1 - x0|.toNat : Nat) : Int) = |x1 - x0| := Int.toNat_of_nonneg (abs_nonneg _)
    have hk1 : 1 ≤ |x1 - x0|.toNat := by
      have : 0 < |x1 - x0| := abs_pos.2 (by omega)
      omega
    have hx : x1 = x0 + (|x1 - x0|.toNat : Int) * Int.sign (x1 - x0) := by
      rw [hk, mul_comm, Int.sign_mul_abs]
      ring
    have := interpolate_seg (x0, y) (Int.sign (x1 - x0)) 0 |x1 - x0|.toNat
      (Or.inl ⟨hs, rfl⟩) hk1 fuel hf
    simp only [mul_zero, add_zero] at this
    rw [← hx] at this
    rw [this]
    simp [segCells]

/-- Between two cells of a column `interpolate` returns the run of cells of that column. -/
theorem interpolate_column (fuel : Nat) (x y0 y1 : Int) (hf : |y1 - y0|.toNat < fuel) :
    interpolate fuel x y0 x y1 = .ok ((List.range (|y1 - y0|.toNat + 1)).map
      (fun i : Nat => (x, y0 + i * Int.sign (y1 - y0)))) := by
  by_cases h0 : y1 = y0
  · subst h0
    rw [interpolate_same fuel (by omega) (x, y1)]
    simp
  · have hs : Int.sign (y1 - y0) = 1 ∨ Int.sign (y1 - y0) = -1 := by
      rcases lt_trichotomy (y1 - y0) 0 with h | h | h
      · right; exact Int.sign_eq_neg_one_of_neg h
      · omega
      · left; exact Int.sign_eq_one_of_pos h
    have hk : ((|y1 - y0|.toNat : Nat) : Int) = |y1 - y0| := Int.toNat_of_nonneg (abs_nonneg _)
    have hk1 : 1 ≤ |y1 - y0|.toNat := by
      have : 0 < |y1 - y0| := abs_pos.2 (by omega)
      omega
    have hy : y1 = y0 + (|y1 - y0|.toNat : Int) * Int.sign (y1 - y0) := by
      rw [hk, mul_comm, Int.sign_mul_abs]
      ring
    have := interpolate_seg (x, y0) 0 (Int.sign (y1 - y0)) |y1 - y0|.toNat
      (Or.inr ⟨rfl, hs⟩) hk1 fuel hf
    simp only [mul_zero, add_zero] at this
    rw [← hy] at this
    rw [this]
    simp [segCells]

/-- C32: for all integers `x0, y0, x1, y1`, `interpolate` returns (with a budget of more
than `max(|x1 - x0|, |y1 - y0|)` iterations) a list whose first element is `(x0, y0)`, whose
last element is `(x1, y1)`, whose length is `max(|x1 - x0|, |y1 - y0|) + 1` and in which
consecutive elements are different and differ by at most 1 in each coordinate; when
`y0 = y1` (`x0 = x1`) it is the run of cells of that row (column) from the first to the
last. -/
theorem interpolate_spec (fuel : Nat) (x0 y0 x1 y1 : Int)
    (hf : (max |x1 - x0| |y1 - y0|).toNat < fuel) :
    ∃ line, interpolate fuel x0 y0 x1 y1 = .ok line ∧
      line.head? = some (x0, y0) ∧ line.getLast? = some (x1, y1) ∧
      line.length = (max |x1 - x0| |y1 - y0|).toNat + 1 ∧ KingChain line ∧
      (y0 = y1 → line = (List.range (|x1 - x0|.toNat + 1)).map
        (fun i : Nat => (x0 + i * Int.sign (x1 - x0), y0))) ∧
      (x0 = x1 → line = (List.range (|y1 - y0|.toNat + 1)).map
        (fun i : Nat => (x0, y0 + i * Int.sign (y1 - y0)))) := by
  obtain ⟨line, hl, hlen, hhead, hlast, hk⟩ := interpolate_king fuel x0 y0 x1 y1 hf
  refine ⟨line, hl, hhead, hlast, hlen, hk, ?_, ?_⟩
  · intro hy
    subst hy
    have hf2 : |x1 - x0|.toNat < fuel := by simpa using hf
    have := interpolate_row fuel x0 y0 x1 hf2
    rw [hl] at this
    cases this
    rfl
  · intro hx
    subst hx
    have hf2 : |y1 - y0|.toNat < fuel := by simpa using hf
    have := interpolate_column fuel x0 y0 y1 hf2
    rw [hl] at this
    cases this
    rfl

theorem interpolate_spec_witness :
    (max |(5 : Int) - 0| |(2 : Int) - 0|).toNat < 6 ∧
    ∃ line, interpolate 6 0 0 5 2 = .ok line ∧
      line.head? = some (0, 0) ∧ line.getLast? = some (5, 2) ∧
      line.length = (max |(5 : Int) - 0| |(2 : Int) - 0|).toNat + 1 ∧ KingChain line ∧
      ((0 : Int) = 2 → line = (List.range (|(5 : Int) - 0|.toNat + 1)).map
        (fun i : Nat => ((0 : Int) + i * Int.sign (5 - 0), (0 : Int)))) ∧
      ((0 : Int) = 5 → line = (List.range (|(2 : Int) - 0|.toNat + 1)).map
        (fun i : Nat => ((0 : Int), (0 : Int) + i * Int.sign (2 - 0)))) :=
  ⟨by decide, interpolate_spec 6 0 0 5 2 (by decide)⟩

/-! ### Player moves -/

/-- C34: for every player position `p` and every destination `q` one unit away along
exactly one axis, `whereToMove(q)` is one of `MOVE_UP`, `MOVE_RIGHT`, `MOVE_DOWN`,
`MOVE_LEFT`, and `move` of that direction yields a cell with the coordinates of `q`;
`whereToMove(q)` is `MOVE_STOP` exactly when `q` has the coordinates of `p`; and
`encodeMovement` maps the four directions to `u`, `r`, `d`, `l` and everything else to
`s`. -/
theorem whereToMove_spec (p : Player) (q : Coord)
    (hq : (|q.1 - p.x| = 1 ∧ q.2 = p.y) ∨ (q.1 = p.x ∧ |q.2 - p.y| = 1)) :
    (p.whereToMove q = MOVE_UP ∨ p.whereToMove q = MOVE_RIGHT ∨
      p.whereToMove q = MOVE_DOWN ∨ p.whereToMove q = MOVE_LEFT) ∧
    p.move (p.whereToMove q) = some q ∧
    (∀ d : Coord, p.whereToMove d = MOVE_STOP ↔ d = (p.x, p.y)) ∧
    encodeMovement (some MOVE_UP) = 'u' ∧ encodeMovement (some MOVE_RIGHT) = 'r' ∧
    encodeMovement (some MOVE_DOWN) = 'd' ∧ encodeMovement (some MOVE_LEFT) = 'l' ∧
    (∀ m : Option Int, m ≠ some MOVE_UP → m ≠ some MOVE_RIGHT → m ≠ some MOVE_DOWN →
      m ≠ some MOVE_LEFT → encodeMovement m = 's') := by
  obtain ⟨qx, qy⟩ := q
  simp only at hq
  refine ⟨?_, ?_, ?_, by decide, by decide, by decide, by decide, ?_⟩
  · unfold Player.whereToMove Player.whereXMove Player.whereYMove MOVE_UP MOVE_RIGHT
      MOVE_DOWN MOVE_LEFT MOVE_STOP
    simp only
    rcases hq with ⟨h1, h2⟩ | ⟨h1, h2⟩
    · have hne : p.x - qx ≠ 0 := by
        intro h; have : qx - p.x = 0 := by omega
        rw [this] at h1; simp at h1
      split_ifs <;> simp_all
    · subst h1
      have hne : p.y - qy ≠ 0 := by
        intro h; have : qy - p.y = 0 := by omega
        rw [this] at h2; simp at h2
      split_ifs <;> simp_all
  · unfold Player.move Player.whereToMove Player.whereXMove Player.whereYMove Player.up
      Player.right Player.down Player.left MOVE_UP MOVE_RIGHT MOVE_DOWN MOVE_LEFT MOVE_STOP
    simp only
    rcases hq with ⟨h1, h2⟩ | ⟨h1, h2⟩
    · subst h2
      rcases abs_eq (by norm_num : (0 : Int) ≤ 1) |>.1 h1 with h | h
      · have e : p.x - qx = -1 := by omega
        have e2 : qx = p.x + 1 := by omega
        simp [e, e2]
      · have e : p.x - qx = 1 := by omega
        have e2 : qx = p.x - 1 := by omega
        simp [e, e2]
    · subst h1
      rcases abs_eq (by norm_num : (0 : Int) ≤ 1) |>.1 h2 with h | h
      · have e : p.y - qy = -1 := by omega
        have e2 : qy = p.y + 1 := by omega
        simp [e, e2]
      · have e : p.y - qy = 1 := by omega
        have e2 : qy = p.y - 1 := by omega
        simp [e, e2]
  · intro d
    obtain ⟨dx, dy⟩ := d
    unfold Player.whereToMove Player.whereXMove Player.whereYMove MOVE_UP MOVE_RIGHT
      MOVE_DOWN MOVE_LEFT MOVE_STOP
    simp only [Prod.mk.injEq]
    constructor
    · intro h
      split_ifs at h <;> omega
    · rintro ⟨h1, h2⟩
      subst h1; subst h2
      simp
  · intro m h1 h2 h3 h4
    cases m with
    | none => rfl
    | some v =>
      have a1 : v ≠ MOVE_UP := fun h => h1 (by rw [h])
      have a2 : v ≠ MOVE_RIGHT := fun h => h2 (by rw [h])
      have a3 : v ≠ MOVE_DOWN := fun h => h3 (by rw [h])
      have a4 : v ≠ MOVE_LEFT := fun h => h4 (by rw [h])
      unfold encodeMovement
      simp only [a1, a2, a3, a4, if_false]

theorem whereToMove_spec_witness :
    ((|((3, 3) : Coord).1 - (Player.mk 2 3).x| = 1 ∧ ((3, 3) : Coord).2 = (Player.mk 2 3).y) ∨
      (((3, 3) : Coord).1 = (Player.mk 2 3).x ∧ |((3, 3) : Coord).2 - (Player.mk 2 3).y| = 1)) ∧
    ((Player.mk 2 3).whereToMove (3, 3) = MOVE_RIGHT ∧
      (Player.mk 2 3).move ((Player.mk 2 3).whereToMove (3, 3)) = some (3, 3)) :=
  ⟨Or.inl ⟨by decide, by decide⟩, by decide,
    (whereToMove_spec (Player.mk 2 3) (3, 3) (Or.inl ⟨by decide, by decide⟩)).2.1⟩

/-! ### Calls of the jump scan -/

theorem jumpCalls_fst (F : JumpPointFinderBase) (E : Coord) (fuel : Nat) :
    ∀ (grid : Grid) (x y px py : Int),
      (_jumpCalls F E fuel grid x y px py).1 = _jump F E fuel grid x y px py := by
  induction fuel with
  | zero => intro grid x y px py; rfl
  | succ n ih =>
    intro grid x y px py
    unfold _jumpCalls _jump
    simp only [← ih]
    split_ifs <;> try rfl
    all_goals
      generalize _jumpCalls F E n _ (x + 1) y x y = r1
      obtain ⟨o1, c1⟩ := r1
      cases o1 with
      | ok v1 =>
        obtain ⟨j1, g1⟩ := v1
        cases j1 with
        | some _ => rfl
        | none =>
          simp only
          generalize _jumpCalls F E n g1 (x - 1) y x y = r2
          obtain ⟨o2, c2⟩ := r2
          cases o2 with
          | ok v2 =>
            obtain ⟨j2, g2⟩ := v2
            cases j2 with
            | some _ => rfl
            | none => rfl
          | fault => rfl
          | timeout => rfl
      | fault => rfl
      | timeout => rfl

theorem successorLoopCalls_fst (F : JumpPointFinderBase) (E : Coord) (fuel : Nat)
    (node : Coord) : ∀ (ns : List Coord) (grid : Grid) (ol : Heap Coord),
      (successorLoopCalls F E fuel node ns grid ol).1 = successorLoop F E fuel node ns grid ol := by
  intro ns
  induction ns with
  | nil => intro grid ol; rfl
  | cons n rest ih =>
    intro grid ol
    unfold successorLoopCalls successorLoop successorStepCalls
    cases successorStep F E fuel node grid ol n with
    | ok r => obtain ⟨g1, o1⟩ := r; exact ih g1 o1
    | fault => rfl
    | timeout => rfl

theorem findPathLoopCalls_fst (F : JumpPointFinderBase) (E : Coord) (fuel : Nat) :
    ∀ (n : Nat) (grid : Grid) (ol : Heap Coord),
      (findPathLoopCalls F E fuel n grid ol).1 = findPathLoop F E fuel n grid ol := by
  intro n
  induction n with
  | zero => intro grid ol; rfl
  | succ n ih =>
    intro grid ol
    unfold findPathLoopCalls findPathLoop
    split_ifs with h1
    · rfl
    · cases hp : (syncOpen ol grid).pop with
      | mk v ol1 =>
        cases v with
        | none => rfl
        | some node =>
          simp only
          split_ifs with h2
          · cases backtrace fuel (grid.modify node fun nd => { nd with closed := true }) E with
            | ok path =>
              simp only
              cases expandPath fuel path <;> rfl
            | fault => rfl
            | timeout => rfl
          · unfold _identifySuccessors
            rw [← successorLoopCalls_fst]
            generalize successorLoopCalls F E fuel node _ _ ol1 = r
            obtain ⟨o, c⟩ := r
            cases o with
            | ok v => obtain ⟨g2, o2⟩ := v; exact ih g2 o2
            | fault => rfl
            | timeout => rfl

theorem findPathCalls_fst (F : JumpPointFinderBase) (fuel : Nat) (sx sy ex ey : Int)
    (grid : Grid) :
    (findPathCalls F fuel sx sy ex ey grid).1 = findPath F fuel sx sy ex ey grid := by
  unfold findPathCalls findPath
  split_ifs
  · rfl
  · exact findPathLoopCalls_fst F (ex, ey) fuel fuel _ _

theorem jumpCalls_unit (F : JumpPointFinderBase) (E : Coord) (fuel : Nat) :
    ∀ (grid : Grid) (x y px py : Int), UnitDir (x - px) (y - py) →
      ∀ c, c ∈ (_jumpCalls F E fuel grid x y px py).2 → UnitCall c := by
  induction fuel with
  | zero =>
    intro grid x y px py hd c hc
    simp only [_jumpCalls, List.mem_singleton] at hc
    subst hc; exact hd
  | succ n ih =>
    intro grid x y px py hd c hc
    have a1 : ∀ g c, c ∈ (_jumpCalls F E n g (x + 1) y x y).2 → UnitCall c :=
      fun g => ih g _ _ _ _ (Or.inl ⟨Or.inl (by omega), by omega⟩)
    have a2 : ∀ g c, c ∈ (_jumpCalls F E n g (x - 1) y x y).2 → UnitCall c :=
      fun g => ih g _ _ _ _ (Or.inl ⟨Or.inr (by omega), by omega⟩)
    have a3 : ∀ g c, c ∈ (_jumpCalls F E n g (x + (x - px)) (y + (y - py)) x y).2 →
        UnitCall c := fun g => ih g _ _ _ _ (by
      have e1 : x + (x - px) - x = x - px := by omega
      have e2 : y + (y - py) - y = y - py := by omega
      rw [e1, e2]; exact hd)
    have h0 : UnitCall ((x, y), (px, py)) := hd
    unfold _jumpCalls at hc
    simp only at hc
    split_ifs at hc
    all_goals first
      | (simp only [List.mem_singleton] at hc; subst hc; exact h0)
      | (simp only [List.mem_cons] at hc
         rcases hc with hc | hc
         · subst hc; exact h0
         · exact a3 _ c hc)
      | (revert hc
         generalize hg1 : _jumpCalls F E n _ (x + 1) y x y = r1
         have m1 : ∀ c, c ∈ r1.2 → UnitCall c := by rw [← hg1]; exact a1 _
         clear hg1
         cases r1 with
         | mk o1 c1 =>
           cases o1 with
           | ok v1 =>
             obtain ⟨j1, g1⟩ := v1
             cases j1 with
             | some _ =>
               intro hc
               simp only [List.mem_cons] at hc
               rcases hc with hc | hc
               · subst hc; exact h0
               · exact m1 c hc
             | none =>
               simp only
               cases h2 : _jumpCalls F E n g1 (x - 1) y x y with
               | mk o2 c2 =>
                 have e2 : c2 = (_jumpCalls F E n g1 (x - 1) y x y).2 := by rw [h2]
                 cases o2 with
                 | ok v2 =>
                   obtain ⟨j2, g2⟩ := v2
                   cases j2 with
                   | some _ =>
                     intro hc
                     simp only [List.mem_cons, List.mem_append, List.cons_append] at hc
                     rcases hc with hc | hc | hc
                     · subst hc; exact h0
                     · exact m1 c hc
                     · rw [e2] at hc; exact a2 _ c hc
                   | none =>
                     intro hc
                     simp only [List.mem_cons, List.mem_append, List.cons_append] at hc
                     rcases hc with hc | (hc | hc) | hc
                     · subst hc; exact h0
                     · exact m1 c hc
                     · rw [e2] at hc; exact a2 _ c hc
                     · exact a3 _ c hc
                 | fault =>
                   intro hc
                   simp only [List.mem_cons, List.mem_append, List.cons_append] at hc
                   rcases hc with hc | hc | hc
                   · subst hc; exact h0
                   · exact m1 c hc
                   · rw [e2] at hc; exact a2 _ c hc
                 | timeout =>
                   intro hc
                   simp only [List.mem_cons, List.mem_append, List.cons_append] at hc
                   rcases hc with hc | hc | hc
                   · subst hc; exact h0
                   · exact m1 c hc
                   · rw [e2] at hc; exact a2 _ c hc
           | fault =>
             intro hc
             simp only [List.mem_cons] at hc
             rcases hc with hc | hc
             · subst hc; exact h0
             · exact m1 c hc
           | timeout =>
             intro hc
             simp only [List.mem_cons] at hc
             rcases hc with hc | hc
             · subst hc; exact h0
             · exact m1 c hc)

theorem successorLoopCalls_unit (F : JumpPointFinderBase) (E : Coord) (fuel : Nat)
    (node : Coord) : ∀ (ns : List Coord) (grid : Grid) (ol : Heap Coord),
      (∀ n, n ∈ ns → UnitDir (n.1 - node.1) (n.2 - node.2)) →
      ∀ c, c ∈ (successorLoopCalls F E fuel node ns grid ol).2 → UnitCall c := by
  intro ns
  induction ns with
  | nil => intro grid ol _ c hc; simp [successorLoopCalls] at hc
  | cons n rest ih =>
    intro grid ol hns c hc
    have hj := jumpCalls_unit F E fuel grid n.1 n.2 node.1 node.2 (hns n (List.mem_cons_self _ _))
    unfold successorLoopCalls successorStepCalls at hc
    revert hc
    cases successorStep F E fuel node grid ol n with
    | ok r =>
      obtain ⟨g1, o1⟩ := r
      intro hc
      simp only [List.mem_append] at hc
      rcases hc with hc | hc
      · exact hj c hc
      · exact ih g1 o1 (fun m hm => hns m (List.mem_cons_of_mem _ hm)) c hc
    | fault => intro hc; exact hj c hc
    | timeout => intro hc; exact hj c hc

theorem findPathLoopCalls_unit (F : JumpPointFinderBase) (E : Coord) (fuel : Nat) :
    ∀ (n : Nat) (grid : Grid) (ol : Heap Coord),
      ∀ c, c ∈ (findPathLoopCalls F E fuel n grid ol).2 → UnitCall c := by
  intro n
  induction n with
  | zero => intro grid ol c hc; simp [findPathLoopCalls] at hc
  | succ n ih =>
    intro grid ol c hc
    unfold findPathLoopCalls at hc
    split_ifs at hc with h1
    · simp at hc
    · revert hc
      cases hp : (syncOpen ol grid).pop with
      | mk v ol1 =>
        cases v with
        | none => intro hc; simp at hc
        | some node =>
          simp only
          split_ifs with h2
          · cases backtrace fuel (grid.modify node fun nd => { nd with closed := true }) E with
            | ok path =>
              simp only
              cases expandPath fuel path <;> intro hc <;> simp at hc
            | fault => intro hc; simp at hc
            | timeout => intro hc; simp at hc
          · have hs := successorLoopCalls_unit F E fuel node
              (_findNeighbors (grid.modify node fun nd => { nd with closed := true }) node)
              (grid.modify node fun nd => { nd with closed := true }) ol1
              (fun m hm => (findNeighbors_mem hm).1)
            revert hs
            generalize successorLoopCalls F E fuel node _ _ ol1 = r
            obtain ⟨o, cs⟩ := r
            cases o with
            | ok v =>
              obtain ⟨g2, o2⟩ := v
              intro hs hc
              simp only [List.mem_append] at hc
              rcases hc with hc | hc
              · exact hs c hc
              · exact ih g2 o2 c hc
            | fault => intro hs hc; exact hs c hc
            | timeout => intro hs hc; exact hs c hc

theorem findPathCalls_unit (F : JumpPointFinderBase) (fuel : Nat) (sx sy ex ey : Int)
    (grid : Grid) : ∀ c, c ∈ (findPathCalls F fuel sx sy ex ey grid).2 → UnitCall c := by
  intro c hc
  unfold findPathCalls at hc
  split_ifs at hc
  · simp at hc
  · exact findPathLoopCalls_unit F (ex, ey) fuel fuel _ _ c hc

theorem jumpCalls_horizontal (F : JumpPointFinderBase) (E : Coord) (fuel : Nat) :
    ∀ (grid : Grid) (x y px py : Int), x - px ≠ 0 → y - py = 0 →
      ∀ (i : Nat) (c : Coord × Coord), (_jumpCalls F E fuel grid x y px py).2[i]? = some c →
        c = ((x + i * (x - px), y), (x + i * (x - px) - (x - px), y)) := by
  induction fuel with
  | zero =>
    intro grid x y px py hdx hdy i c hc
    simp only [_jumpCalls] at hc
    cases i with
    | zero =>
      simp only [List.getElem?_cons_zero, Option.some.injEq] at hc
      subst hc
      have : py = y := by omega
      simp [this]
    | succ i => simp at hc
  | succ n ih =>
    intro grid x y px py hdx hdy i c hc
    have h0 : ((x, y), (px, py)) =
        (((x + ((0 : Nat) : Int) * (x - px), y), (x + ((0 : Nat) : Int) * (x - px) - (x - px), y)) :
          Coord × Coord) := by
      have : py = y := by omega
      simp [this]
    have hrec : ∀ (g : Grid) (i : Nat) (c : Coord × Coord),
        (_jumpCalls F E n g (x + (x - px)) (y + (y - py)) x y).2[i]? = some c →
        c = ((x + ((i + 1 : Nat) : Int) * (x - px), y),
          (x + ((i + 1 : Nat) : Int) * (x - px) - (x - px), y)) := by
      intro g i c h
      have := ih g (x + (x - px)) (y + (y - py)) x y (by omega) (by omega) i c h
      rw [this]
      have e1 : x + (x - px) - x = x - px := by omega
      rw [e1, hdy]
      simp only [add_zero, Prod.mk.injEq, and_true]
      push_cast
      constructor <;> ring
    unfold _jumpCalls at hc
    simp only at hc
    split_ifs at hc
    all_goals first
      | (cases i with
         | zero =>
           simp only [List.getElem?_cons_zero, Option.some.injEq] at hc
           rw [← hc]; exact h0
         | succ i => simp at hc)
      | (cases i with
         | zero =>
           simp only [List.getElem?_cons_zero, Option.some.injEq] at hc
           rw [← hc]; exact h0
         | succ i =>
           simp only [List.getElem?_cons_succ] at hc
           exact hrec _ i c hc)



theorem jump_total (F : JumpPointFinderBase) (E : Coord) (fuel : Nat) (grid : Grid)
    (hfuel : grid.width.toNat + grid.height.toNat + 2 ≤ fuel) (x y px py : Int)
    (hd : UnitDir (x - px) (y - py)) :
    ∃ r grid1, _jump F E fuel grid x y px py = .ok (r, grid1) ∧ grid1.Agree grid := by
  obtain ⟨r, hr⟩ := jumpPt_total grid E fuel hfuel x y px py hd
  rcases jump_eq F E fuel grid x y px py with ⟨r2, a, ha, hj, hp⟩ | ⟨_, hp⟩ | ⟨_, hp⟩
  · exact ⟨r2, a, hj, ha⟩
  · rw [hr] at hp; cases hp
  · rw [hr] at hp; cases hp

theorem jump_total_H (F : JumpPointFinderBase) (E : Coord) (fuel : Nat) (grid : Grid)
    (x y px py : Int) (hdx : x - px = 1 ∨ x - px = -1) (hdy : y - py = 0)
    (hfuel : (if x - px = 1 then (grid.width - x).toNat else (x + 1).toNat) < fuel) :
    ∃ r grid1, _jump F E fuel grid x y px py = .ok (r, grid1) ∧ grid1.Agree grid := by
  obtain ⟨r, hr⟩ := jumpPt_ok_H grid E fuel x y px py hdx hdy hfuel
  rcases jump_eq F E fuel grid x y px py with ⟨r2, a, ha, hj, hp⟩ | ⟨_, hp⟩ | ⟨_, hp⟩
  · exact ⟨r2, a, hj, ha⟩
  · rw [hr] at hp; cases hp
  · rw [hr] at hp; cases hp

theorem jump_geometry (F : JumpPointFinderBase) (E : Coord) (fuel : Nat) (grid : Grid)
    (x y px py : Int) (hd : UnitDir (x - px) (y - py)) {j : Coord} {grid1 : Grid}
    (h : _jump F E fuel grid x y px py = .ok (some j, grid1)) :
    ∃ k : Nat, j = (x + k * (x - px), y + k * (y - py)) ∧
      ∀ i : Nat, i ≤ k → grid.isInside (x + i * (x - px)) (y + i * (y - py)) = true ∧
        grid.isWalkableAt (x + i * (x - px)) (y + i * (y - py)) = true := by
  rcases jump_eq F E fuel grid x y px py with ⟨r2, a, ha, hj, hp⟩ | ⟨hj, _⟩ | ⟨hj, _⟩
  · rw [hj] at h
    cases h
    obtain ⟨k, hk1, hk2⟩ := (jumpPt_sound grid E fuel x y px py _ hp).geometry j rfl hd
    exact ⟨k, hk1, fun i hi => ⟨Grid.isInside_of_walkable (hk2 i hi), hk2 i hi⟩⟩
  · rw [hj] at h; cases h
  · rw [hj] at h; cases h

theorem jump_blocked (F : JumpPointFinderBase) (E : Coord) (fuel : Nat) (grid : Grid)
    (x y px py : Int) (hw : grid.isWalkableAt x y = false) :
    _jump F E (fuel + 1) grid x y px py = .ok (none, grid) := by
  unfold _jump
  simp [hw]

/-- C35: on every grid, for every goal, a call `_jump(x, y, px, py)` whose direction is one
of `(1, 0)`, `(-1, 0)`, `(0, 1)`, `(0, -1)` returns (a budget of `width + height + 2` nested
calls is never exhausted); a horizontal scan makes only calls on its own row, each one cell
further along the direction of the scan, and returns within as many calls as there are
cells up to the edge of the grid, plus one. -/
theorem jump_terminates (F : JumpPointFinderBase) (E : Coord) (grid : Grid) (x y px py : Int)
    (hd : UnitDir (x - px) (y - py)) (fuel : Nat)
    (hfuel : grid.width.toNat + grid.height.toNat + 2 ≤ fuel) :
    (∃ r grid1, _jump F E fuel grid x y px py = .ok (r, grid1)) ∧
    (y - py = 0 →
      (∀ (k i : Nat) (c : Coord × Coord), (_jumpCalls F E k grid x y px py).2[i]? = some c →
        c = ((x + i * (x - px), y), (x + i * (x - px) - (x - px), y))) ∧
      ∀ k : Nat, (if x - px = 1 then (grid.width - x).toNat else (x + 1).toNat) < k →
        ∃ r grid1, _jump F E k grid x y px py = .ok (r, grid1)) := by
  refine ⟨?_, ?_⟩
  · obtain ⟨r, g1, h, _⟩ := jump_total F E fuel grid hfuel x y px py hd
    exact ⟨r, g1, h⟩
  · intro hy
    have hx : x - px = 1 ∨ x - px = -1 := by
      rcases hd with ⟨h, _⟩ | ⟨_, h⟩
      · exact h
      · omega
    refine ⟨fun k i c hc => jumpCalls_horizontal F E k grid x y px py (by omega) hy i c hc, ?_⟩
    intro k hk
    obtain ⟨r, g1, h, _⟩ := jump_total_H F E k grid x y px py hx hy hk
    exact ⟨r, g1, h⟩

theorem jump_terminates_witness :
    UnitDir ((1 : Int) - 0) ((0 : Int) - 0) ∧
    (Grid.new 1 4).width.toNat + (Grid.new 1 4).height.toNat + 2 ≤ 7 ∧
    ∃ r grid1, _jump JumpPointFinderBase.default (3, 0) 7 (Grid.new 1 4) 1 0 0 0 =
      .ok (r, grid1) :=
  ⟨Or.inl ⟨Or.inl (by decide), by decide⟩, by decide,
    (jump_terminates JumpPointFinderBase.default (3, 0) (Grid.new 1 4) 1 0 0 0
      (Or.inl ⟨Or.inl (by decide), by decide⟩) 7 (by decide)).1⟩

/-- C36: on a grid with no prior search state, with start and goal inside the grid,
`findPath` returns without a fault, and every call of `_jump` made during the search,
from `_identifySuccessors` or from `_jump` itself, has a direction of one unit along one
axis, never the zero direction. -/
theorem findPath_jump_directions (F : JumpPointFinderBase) (grid : Grid) (S E : Coord)
    (fuel : Nat) (h0 : grid.NoSearchState) (hS : grid.isInside S.1 S.2 = true)
    (hE : grid.isInside E.1 E.2 = true) (hfuel : grid.fuelBound ≤ fuel) :
    (∃ path gridF, findPath F fuel S.1 S.2 E.1 E.2 grid = .ok (path, gridF)) ∧
    (findPathCalls F fuel S.1 S.2 E.1 E.2 grid).1 = findPath F fuel S.1 S.2 E.1 E.2 grid ∧
    ∀ c, c ∈ (findPathCalls F fuel S.1 S.2 E.1 E.2 grid).2 →
      UnitCall c ∧ ¬ (c.1.1 - c.2.1 = 0 ∧ c.1.2 - c.2.2 = 0) := by
  obtain ⟨path, gridF, hrun, _⟩ := findPath_spec F h0 hS hE hfuel
  refine ⟨⟨path, gridF, hrun⟩, findPathCalls_fst F fuel S.1 S.2 E.1 E.2 grid, ?_⟩
  intro c hc
  have hu := findPathCalls_unit F fuel S.1 S.2 E.1 E.2 grid c hc
  refine ⟨hu, ?_⟩
  unfold UnitCall UnitDir at hu
  omega

theorem findPath_jump_directions_witness :
    (Grid.new 1 2).NoSearchState ∧
    (Grid.new 1 2).isInside ((0, 0) : Coord).1 ((0, 0) : Coord).2 = true ∧
    (Grid.new 1 2).isInside ((1, 0) : Coord).1 ((1, 0) : Coord).2 = true ∧
    (Grid.new 1 2).fuelBound ≤ 16 ∧
    ((∃ path gridF, findPath manhattanFinder 16 ((0, 0) : Coord).1 ((0, 0) : Coord).2
        ((1, 0) : Coord).1 ((1, 0) : Coord).2 (Grid.new 1 2) = .ok (path, gridF)) ∧
    (findPathCalls manhattanFinder 16 ((0, 0) : Coord).1 ((0, 0) : Coord).2
        ((1, 0) : Coord).1 ((1, 0) : Coord).2 (Grid.new 1 2)).1 =
      findPath manhattanFinder 16 ((0, 0) : Coord).1 ((0, 0) : Coord).2
        ((1, 0) : Coord).1 ((1, 0) : Coord).2 (Grid.new 1 2) ∧
    ∀ c, c ∈ (findPathCalls manhattanFinder 16 ((0, 0) : Coord).1 ((0, 0) : Coord).2
        ((1, 0) : Coord).1 ((1, 0) : Coord).2 (Grid.new 1 2)).2 →
      UnitCall c ∧ ¬ (c.1.1 - c.2.1 = 0 ∧ c.1.2 - c.2.2 = 0)) :=
  ⟨fun _ => ⟨rfl, rfl, rfl, rfl, rfl, rfl⟩, by decide, by decide, by decide,
    findPath_jump_directions manhattanFinder (Grid.new 1 2) (0, 0) (1, 0) 16
      (fun _ => ⟨rfl, rfl, rfl, rfl, rfl, rfl⟩) (by decide) (by decide) (by decide)⟩

/-- C37: for a call `_jump(x, y, px, py)` with a unit direction `(dx, dy)` along one axis, a
result other than `null` is a cell `(x + k * dx, y + k * dy)` with `k ≥ 0`, and every cell
`(x + i * dx, y + i * dy)` with `0 ≤ i ≤ k` is inside the grid and walkable; the result is
`null` whenever `(x, y)` is not walkable, whatever the goal; and the call returns. -/
theorem jump_result_spec (F : JumpPointFinderBase) (E : Coord) (fuel : Nat) (grid : Grid)
    (x y px py : Int) (hd : UnitDir (x - px) (y - py)) :
    (∀ (j : Coord) (grid1 : Grid), _jump F E fuel grid x y px py = .ok (some j, grid1) →
      ∃ k : Nat, j = (x + k * (x - px), y + k * (y - py)) ∧
        ∀ i : Nat, i ≤ k → grid.isInside (x + i * (x - px)) (y + i * (y - py)) = true ∧
          grid.isWalkableAt (x + i * (x - px)) (y + i * (y - py)) = true) ∧
    (grid.isWalkableAt x y = false →
      ∀ goal : Coord, _jump F goal (fuel + 1) grid x y px py = .ok (none, grid)) ∧
    (grid.width.toNat + grid.height.toNat + 2 ≤ fuel →
      ∃ r grid1, _jump F E fuel grid x y px py = .ok (r, grid1)) := by
  refine ⟨fun j grid1 h => jump_geometry F E fuel grid x y px py hd h,
    fun hw goal => jump_blocked F goal fuel grid x y px py hw, ?_⟩
  intro hf
  obtain ⟨r, g1, h, _⟩ := jump_total F E fuel grid hf x y px py hd
  exact ⟨r, g1, h⟩

theorem jump_result_spec_witness :
    UnitDir ((1 : Int) - 0) ((0 : Int) - 0) ∧
    (Grid.new 1 4).width.toNat + (Grid.new 1 4).height.toNat + 2 ≤ 7 ∧
    ∃ r grid1, _jump JumpPointFinderBase.default (3, 0) 7 (Grid.new 1 4) 1 0 0 0 =
      .ok (r, grid1) :=
  ⟨Or.inl ⟨Or.inl (by decide), by decide⟩, by decide,
    (jump_result_spec JumpPointFinderBase.default (3, 0) 7 (Grid.new 1 4) 1 0 0 0
      (Or.inl ⟨Or.inl (by decide), by decide⟩)).2.2 (by decide)⟩

/-! ### What a search leaves unchanged -/

theorem successorStep_sameMap (F : JumpPointFinderBase) (E : Coord) (fuel : Nat) (node : Coord)
    (grid : Grid) (ol : Heap Coord) (n : Coord) {g1 : Grid} {o1 : Heap Coord}
    (h : successorStep F E fuel node grid ol n = .ok (g1, o1)) : g1.SameMap grid := by
  rcases jump_eq F E fuel grid n.1 n.2 node.1 node.2 with ⟨r, a, ha, hj, hp⟩ | ⟨hj, _⟩ | ⟨hj, _⟩
  · obtain ⟨g2, o2, hs, hc⟩ := successorStep_cases F E fuel node grid ol n r hp
    rw [hs] at h
    cases h
    rcases hc with ⟨hag, _, _⟩ | ⟨j, _, _, _, hu, _⟩
    · exact hag.sameMap
    · exact hu.sameMap
  · unfold successorStep at h; rw [hj] at h; cases h
  · unfold successorStep at h; rw [hj] at h; cases h

theorem successorLoop_sameMap (F : JumpPointFinderBase) (E : Coord) (fuel : Nat) (node : Coord) :
    ∀ (ns : List Coord) (grid : Grid) (ol : Heap Coord) {g1 : Grid} {o1 : Heap Coord},
      successorLoop F E fuel node ns grid ol = .ok (g1, o1) → g1.SameMap grid := by
  intro ns
  induction ns with
  | nil =>
    intro grid ol g1 o1 h
    unfold successorLoop at h
    cases h
    exact Grid.SameMap.refl_map _
  | cons n rest ih =>
    intro grid ol g1 o1 h
    unfold successorLoop at h
    cases hs : successorStep F E fuel node grid ol n with
    | ok r =>
      obtain ⟨g2, o2⟩ := r
      rw [hs] at h
      exact (ih g2 o2 h).trans_map (successorStep_sameMap F E fuel node grid ol n hs)
    | fault => rw [hs] at h; cases h
    | timeout => rw [hs] at h; cases h

theorem findPathLoop_sameMap (F : JumpPointFinderBase) (E : Coord) (fuel : Nat) :
    ∀ (n : Nat) (grid : Grid) (ol : Heap Coord) {path : List Coord} {gridF : Grid},
      findPathLoop F E fuel n grid ol = .ok (path, gridF) → gridF.SameMap grid := by
  intro n
  induction n with
  | zero => intro grid ol path gridF h; cases h
  | succ n ih =>
    intro grid ol path gridF h
    unfold findPathLoop at h
    split_ifs at h with h1
    · cases h; exact Grid.SameMap.refl_map _
    · revert h
      cases hp : (syncOpen ol grid).pop with
      | mk v ol1 =>
        cases v with
        | none => intro h; cases h
        | some node =>
          simp only
          have hcl : (grid.modify node fun nd => { nd with closed := true }).SameMap grid :=
            Grid.modify_sameMap grid node _ rfl
          split_ifs with h2
          · cases backtrace fuel (grid.modify node fun nd => { nd with closed := true }) E with
            | ok chain =>
              simp only
              cases expandPath fuel chain with
              | ok ex => intro h; cases h; exact hcl
              | fault => intro h; cases h
              | timeout => intro h; cases h
            | fault => intro h; cases h
            | timeout => intro h; cases h
          · unfold _identifySuccessors
            cases hs : successorLoop F E fuel node
                (_findNeighbors (grid.modify node fun nd => { nd with closed := true }) node)
                (grid.modify node fun nd => { nd with closed := true }) ol1 with
            | ok r =>
              obtain ⟨g2, o2⟩ := r
              intro h
              exact ((ih g2 o2 h).trans_map (successorLoop_sameMap F E fuel node _ _ _ hs)).trans_map
                hcl
            | fault => intro h; cases h
            | timeout => intro h; cases h

theorem findPath_sameMap (F : JumpPointFinderBase) (fuel : Nat) (sx sy ex ey : Int)
    (grid : Grid) {path : List Coord} {gridF : Grid}
    (h : findPath F fuel sx sy ex ey grid = .ok (path, gridF)) : gridF.SameMap grid := by
  unfold findPath at h
  split_ifs at h
  have h1 := findPathLoop_sameMap F (ex, ey) fuel fuel _ _ h
  exact (h1.trans_map (Grid.modify_sameMap _ _ _ rfl)).trans_map (Grid.modify_sameMap _ _ _ rfl)

/-- When the main loop returns a path that is not empty, the path is the expansion of the
parent chain of the goal on the final grid. -/
theorem findPathLoop_path (F : JumpPointFinderBase) (E : Coord) (fuel : Nat) :
    ∀ (n : Nat) (grid : Grid) (ol : Heap Coord) {path : List Coord} {gridF : Grid},
      findPathLoop F E fuel n grid ol = .ok (path, gridF) → path ≠ [] →
      ∃ chain, backtrace fuel gridF E = .ok chain ∧ expandPath fuel chain = .ok path := by
  intro n
  induction n with
  | zero => intro grid ol path gridF h; cases h
  | succ n ih =>
    intro grid ol path gridF h hne
    unfold findPathLoop at h
    split_ifs at h with h1
    · cases h; exact absurd rfl hne
    · revert h
      cases hp : (syncOpen ol grid).pop with
      | mk v ol1 =>
        cases v with
        | none => intro h; cases h
        | some node =>
          simp only
          split_ifs with h2
          · cases hb : backtrace fuel (grid.modify node fun nd => { nd with closed := true }) E with
            | ok chain =>
              simp only
              cases he : expandPath fuel chain with
              | ok ex => intro h; cases h; exact ⟨chain, hb, he⟩
              | fault => intro h; cases h
              | timeout => intro h; cases h
            | fault => intro h; cases h
            | timeout => intro h; cases h
          · cases hs : _identifySuccessors F E fuel node
                (grid.modify node fun nd => { nd with closed := true }) ol1 with
            | ok r =>
              obtain ⟨g2, o2⟩ := r
              intro h
              exact ih g2 o2 h hne
            | fault => intro h; cases h
            | timeout => intro h; cases h

theorem findPath_path (F : JumpPointFinderBase) (fuel : Nat) (sx sy ex ey : Int)
    (grid : Grid) {path : List Coord} {gridF : Grid}
    (h : findPath F fuel sx sy ex ey grid = .ok (path, gridF)) (hne : path ≠ []) :
    ∃ chain, backtrace fuel gridF (ex, ey) = .ok chain ∧ expandPath fuel chain = .ok path := by
  unfold findPath at h
  split_ifs at h
  exact findPathLoop_path F (ex, ey) fuel fuel _ _ h hne

theorem findPath_inside (F : JumpPointFinderBase) (fuel : Nat) (sx sy ex ey : Int)
    (grid : Grid) {path : List Coord} {gridF : Grid}
    (h : findPath F fuel sx sy ex ey grid = .ok (path, gridF)) :
    grid.isInside sx sy = true ∧ grid.isInside ex ey = true := by
  unfold findPath at h
  split_ifs at h with h1
  simp only [Bool.or_eq_true, Bool.not_eq_true', not_or, Bool.not_eq_false] at h1
  exact h1

/-- C38: for every grid, whatever its state, when `findPath` returns, the width, the height
and `isWalkableAt(x, y)` for every coordinate are as before the call (only the search fields
of nodes have changed); on a grid with no prior search state and with start and goal inside
the grid the call does return. -/
theorem findPath_keeps_map (F : JumpPointFinderBase) (fuel : Nat) (S E : Coord) (grid : Grid) :
    (∀ (path : List Coord) (gridF : Grid),
      findPath F fuel S.1 S.2 E.1 E.2 grid = .ok (path, gridF) →
      gridF.width = grid.width ∧ gridF.height = grid.height ∧
      (∀ x y, gridF.isWalkableAt x y = grid.isWalkableAt x y) ∧
      ∀ c, (gridF.nodes c).walkable = (grid.nodes c).walkable) ∧
    (grid.NoSearchState → grid.isInside S.1 S.2 = true → grid.isInside E.1 E.2 = true →
      grid.fuelBound ≤ fuel →
      ∃ path gridF, findPath F fuel S.1 S.2 E.1 E.2 grid = .ok (path, gridF)) := by
  refine ⟨?_, ?_⟩
  · intro path gridF h
    have hs := findPath_sameMap F fuel S.1 S.2 E.1 E.2 grid h
    exact ⟨hs.1, hs.2.1, fun x y => hs.isWalkableAt_eq x y, hs.2.2⟩
  · intro h0 hS hE hf
    obtain ⟨path, gridF, hrun, _⟩ := findPath_spec F h0 hS hE hf
    exact ⟨path, gridF, hrun⟩

theorem findPath_keeps_map_witness :
    (Grid.new 1 2).NoSearchState ∧
    (Grid.new 1 2).isInside ((0, 0) : Coord).1 ((0, 0) : Coord).2 = true ∧
    (Grid.new 1 2).isInside ((1, 0) : Coord).1 ((1, 0) : Coord).2 = true ∧
    (Grid.new 1 2).fuelBound ≤ 16 ∧
    ∃ path gridF, findPath manhattanFinder 16 ((0, 0) : Coord).1 ((0, 0) : Coord).2
      ((1, 0) : Coord).1 ((1, 0) : Coord).2 (Grid.new 1 2) = .ok (path, gridF) :=
  ⟨fun _ => ⟨rfl, rfl, rfl, rfl, rfl, rfl⟩, by decide, by decide, by decide,
    (findPath_keeps_map manhattanFinder 16 (0, 0) (1, 0) (Grid.new 1 2)).2
      (fun _ => ⟨rfl, rfl, rfl, rfl, rfl, rfl⟩) (by decide) (by decide) (by decide)⟩

/-! ### Expanding twice -/

theorem kingChain_append : ∀ (a : List Coord) (y : Coord) (b : List Coord),
    KingChain (a ++ [y]) → KingChain (y :: b) → KingChain (a ++ y :: b) := by
  intro a
  induction a with
  | nil => intro y b _ h; exact h
  | cons x a ih =>
    intro y b h1 h2
    cases a with
    | nil => exact ⟨h1.1, h2⟩
    | cons x2 a => exact ⟨h1.1, ih y b h1.2 h2⟩

theorem dropLast_append_getLast? {α : Type} (l : List α) (b : α) (h : l.getLast? = some b) :
    l.dropLast ++ [b] = l := by
  cases l with
  | nil => simp at h
  | cons a t =>
    have h2 := List.dropLast_append_getLast (l := a :: t) (List.cons_ne_nil _ _)
    rw [List.getLast?_eq_getLast _ (List.cons_ne_nil _ _)] at h
    cases h
    exact h2

/-- The loop of `expandPath` on any waypoints: with the last waypoint appended, its result
starts at the first waypoint and moves by king's moves. -/
theorem expandSegments_king (fuel : Nat) : ∀ (rest : List Coord) (a : Coord),
    pathSpan (a :: rest) < fuel →
    ∃ e, expandSegments fuel (a :: rest) = .ok e ∧
      (e ++ [(a :: rest).getLast (List.cons_ne_nil _ _)]).head? = some a ∧
      KingChain (e ++ [(a :: rest).getLast (List.cons_ne_nil _ _)]) ∧
      (e = [] ↔ ∀ c, c ∈ rest → c = a) := by
  intro rest
  induction rest with
  | nil =>
    intro a _
    exact ⟨[], rfl, rfl, trivial, by simp⟩
  | cons b rest ih =>
    intro a hf
    have hf1 : chebDist a b < fuel := by unfold pathSpan at hf; omega
    have hf2 : pathSpan (b :: rest) < fuel := by unfold pathSpan at hf; omega
    obtain ⟨e1, he1, hh1, hk1, hn1⟩ := ih b hf2
    obtain ⟨line, hl, hlen, hhead, hlast, hk⟩ := interpolate_king fuel a.1 a.2 b.1 b.2 hf1
    have hlast2 : (a :: b :: rest).getLast (List.cons_ne_nil _ _) =
        (b :: rest).getLast (List.cons_ne_nil _ _) := List.getLast_cons (List.cons_ne_nil _ _)
    obtain ⟨t1, ht1⟩ : ∃ t1, e1 ++ [(b :: rest).getLast (List.cons_ne_nil _ _)] = b :: t1 := by
      cases hq : e1 ++ [(b :: rest).getLast (List.cons_ne_nil _ _)] with
      | nil => simp at hq
      | cons c t1 =>
        rw [hq] at hh1
        simp only [List.head?_cons, Option.some.injEq] at hh1
        exact ⟨t1, by rw [hh1]⟩
    have hline : line.dropLast ++ [b] = line := dropLast_append_getLast? line b hlast
    refine ⟨line.dropLast ++ e1, ?_, ?_, ?_, ?_⟩
    · unfold expandSegments
      rw [hl, he1]
    · rw [hlast2, List.append_assoc, ht1]
      rw [← hline] at hhead
      cases hd : line.dropLast with
      | nil =>
        rw [hd] at hhead
        simp only [List.nil_append, List.head?_cons, Option.some.injEq] at hhead ⊢
        exact hhead
      | cons c t =>
        rw [hd] at hhead
        simpa using hhead
    · rw [hlast2, List.append_assoc, ht1]
      apply kingChain_append
      · rw [hline]; exact hk
      · rw [← ht1]; exact hk1
    · constructor
      · intro he c hc
        have h1 : line.dropLast = [] := (List.append_eq_nil.1 he).1
        have h2 : e1 = [] := (List.append_eq_nil.1 he).2
        have hl1 : line.length = 1 := by
          have := congrArg List.length hline
          rw [h1] at this
          simpa using this.symm
        have hba : b = a := by
          rw [← hline, h1] at hhead
          simpa using hhead
        simp only [List.mem_cons] at hc
        rcases hc with h | h
        · rw [h, hba]
        · rw [(hn1.1 h2) c h, hba]
      · intro hall
        have hba : b = a := hall b (List.mem_cons_self _ _)
        have h2 : e1 = [] := hn1.2 (fun c hc => by rw [hall c (List.mem_cons_of_mem _ hc), hba])
        have hl1 : line.length = 1 := by
          rw [hlen, hba]; simp
        have h1 : line.dropLast = [] := by
          have := List.length_dropLast line
          rw [hl1] at this
          exact List.length_eq_zero.1 this
        rw [h1, h2]; rfl

/-- The function `expandPath` leaves a path of at least two cells that moves by king's
moves as it is. -/
theorem expandSegments_of_king (fuel : Nat) (hf : 1 < fuel) : ∀ (rest : List Coord) (a : Coord),
    KingChain (a :: rest) → expandSegments fuel (a :: rest) = .ok (a :: rest).dropLast := by
  intro rest
  induction rest with
  | nil => intro a _; rfl
  | cons b rest ih =>
    intro a hk
    have hd : chebDist a b = 1 := by
      unfold chebDist
      have := hk.1
      unfold KingStep at this
      rw [this]; rfl
    obtain ⟨line, hl, hlen, hhead, hlast, _⟩ :=
      interpolate_king fuel a.1 a.2 b.1 b.2 (by
        have : (max |b.1 - a.1| |b.2 - a.2|).toNat = chebDist a b := rfl
        rw [this, hd]; exact hf)
    have hline : line = [a, b] := by
      have h2 : line.length = 2 := by
        rw [hlen]
        have : (max |b.1 - a.1| |b.2 - a.2|).toNat = chebDist a b := rfl
        rw [this, hd]
      match line, h2, hhead, hlast with
      | [u, v], _, hh, hl2 =>
        simp only [List.head?_cons, Option.some.injEq] at hh
        have : v = b := by simpa using hl2
        rw [hh, this]
    unfold expandSegments
    rw [hl, ih b hk.2, hline]
    rfl

theorem expandPath_of_king (fuel : Nat) (hf : 1 < fuel) (q : List Coord) (hlen : 2 ≤ q.length)
    (hk : KingChain q) : expandPath fuel q = .ok q := by
  cases q with
  | nil => simp at hlen
  | cons a rest =>
    unfold expandPath
    have : ¬ (a :: rest).length < 2 := by omega
    rw [if_neg this, expandSegments_of_king fuel hf rest a hk,
      List.getLast?_eq_getLast _ (List.cons_ne_nil _ _)]
    simp only
    rw [List.dropLast_append_getLast]

theorem pathSpan_pos : ∀ (rest : List Coord) (a : Coord), (∃ c, c ∈ rest ∧ c ≠ a) →
    0 < pathSpan (a :: rest) := by
  intro rest
  induction rest with
  | nil => intro a h; obtain ⟨c, hc, _⟩ := h; simp at hc
  | cons b rest ih =>
    intro a h
    unfold pathSpan
    by_cases hba : b = a
    · subst hba
      obtain ⟨c, hc, hne⟩ := h
      simp only [List.mem_cons] at hc
      rcases hc with hc | hc
      · exact absurd hc hne
      · have := ih b ⟨c, hc, hne⟩
        omega
    · have : 0 < chebDist a b := by
        unfold chebDist
        have h1 : b.1 - a.1 ≠ 0 ∨ b.2 - a.2 ≠ 0 := by
          by_contra hcon
          push_neg at hcon
          exact hba (Prod.ext (by omega) (by omega))
        have h2 : 0 < max |b.1 - a.1| |b.2 - a.2| := by
          rcases h1 with h | h
          · exact lt_of_lt_of_le (abs_pos.2 h) (le_max_left _ _)
          · exact lt_of_lt_of_le (abs_pos.2 h) (le_max_right _ _)
        omega
      omega

/-- C39 does not hold for every path: a path of two equal coordinates expands to one
coordinate, and a path of one coordinate expands to the empty path. -/
theorem expandPath_twice_counterexample :
    expandPath 5 [(0, 0), (0, 0)] = .ok [(0, 0)] ∧ expandPath 5 [(0, 0)] = .ok [] ∧
    (.ok [] : Outcome (List Coord)) ≠ .ok [(0, 0)] :=
  ⟨by decide, by decide, by decide⟩

/-- C39, amended: for every path `p` of integer coordinates, `expandPath(p)` returns a
path `q`; unless `q` is a single coordinate, which happens exactly when `p` holds one
coordinate two or more times and nothing else, `expandPath(q) = q`.  Expanding a path of at
least two cells in which consecutive cells are at Chebyshev distance 1 returns it unchanged,
and expanding the empty path returns the empty path. -/
theorem expandPath_twice (fuel : Nat) (p : List Coord) (hf : pathSpan p < fuel) :
    ∃ q, expandPath fuel p = .ok q ∧
      (q.length ≠ 1 → expandPath fuel q = .ok q) ∧
      (q.length = 1 ↔ 2 ≤ p.length ∧ ∀ c, c ∈ p → some c = p.head?) ∧
      (∀ d : List Coord, 2 ≤ d.length → KingChain d → 1 < fuel → expandPath fuel d = .ok d) ∧
      expandPath fuel [] = .ok [] := by
  have hdense : ∀ d : List Coord, 2 ≤ d.length → KingChain d → 1 < fuel →
      expandPath fuel d = .ok d := fun d h1 h2 h3 => expandPath_of_king fuel h3 d h1 h2
  cases p with
  | nil => exact ⟨[], rfl, fun _ => rfl, by simp, hdense, rfl⟩
  | cons a rest =>
    cases rest with
    | nil => exact ⟨[], rfl, fun _ => rfl, by simp, hdense, rfl⟩
    | cons b rest =>
      obtain ⟨e, he, hh, hk, hn⟩ := expandSegments_king fuel (b :: rest) a hf
      have hlast : (a :: b :: rest).getLast? =
          some ((a :: b :: rest).getLast (List.cons_ne_nil _ _)) :=
        List.getLast?_eq_getLast _ _
      have hq : expandPath fuel (a :: b :: rest) =
          .ok (e ++ [(a :: b :: rest).getLast (List.cons_ne_nil _ _)]) := by
        unfold expandPath
        have : ¬ (a :: b :: rest).length < 2 := by simp
        rw [if_neg this, he, hlast]
      refine ⟨_, hq, ?_, ?_, hdense, rfl⟩
      · intro hne
        have hene : e ≠ [] := by
          intro h0; rw [h0] at hne; simp at hne
        have hlen : 2 ≤ (e ++ [(a :: b :: rest).getLast (List.cons_ne_nil _ _)]).length := by
          rw [List.length_append]
          have : 0 < e.length := List.length_pos.2 hene
          simp; omega
        have hex : ∃ c, c ∈ b :: rest ∧ c ≠ a := by
          by_contra hcon
          push_neg at hcon
          exact hene (hn.2 hcon)
        have := pathSpan_pos (b :: rest) a hex
        exact expandPath_of_king fuel (by omega) _ hlen hk
      · constructor
        · intro h1
          have he0 : e = [] := by
            rw [List.length_append] at h1
            simp at h1
            exact h1
          refine ⟨by simp, ?_⟩
          intro c hc
          simp only [List.head?_cons, Option.some.injEq]
          simp only [List.mem_cons] at hc
          rcases hc with hc | hc
          · exact hc
          · exact hn.1 he0 c (by simpa using hc)
        · rintro ⟨_, hall⟩
          have he0 : e = [] := by
            apply hn.2
            intro c hc
            have := hall c (List.mem_cons_of_mem _ hc)
            simpa using this
          rw [he0]; rfl

theorem expandPath_twice_witness :
    pathSpan [(0, 0), (2, 1)] < 3 ∧
    ∃ q, expandPath 3 [(0, 0), (2, 1)] = .ok q ∧
      (q.length ≠ 1 → expandPath 3 q = .ok q) ∧
      (q.length = 1 ↔ 2 ≤ [((0, 0) : Coord), (2, 1)].length ∧
        ∀ c, c ∈ [((0, 0) : Coord), (2, 1)] → some c = [((0, 0) : Coord), (2, 1)].head?) ∧
      (∀ d : List Coord, 2 ≤ d.length → KingChain d → 1 < 3 → expandPath 3 d = .ok d) ∧
      expandPath 3 [] = .ok [] :=
  ⟨by decide, expandPath_twice 3 [(0, 0), (2, 1)] (by decide)⟩

/-! ### The cost of the goal -/

theorem dist1_comm (a b : Coord) : dist1 a b = dist1 b a := by
  unfold dist1
  rw [abs_sub_comm b.1 a.1, abs_sub_comm b.2 a.2]

theorem pathDist_snoc : ∀ (l : List Coord) (a b : Coord),
    pathDist (l ++ [a, b]) = pathDist (l ++ [a]) + dist1 a b := by
  intro l
  induction l with
  | nil => intro a b; simp [pathDist]
  | cons x l ih =>
    intro a b
    cases l with
    | nil => simp [pathDist]
    | cons y l2 =>
      have h := ih a b
      simp only [List.cons_append] at h ⊢
      unfold pathDist
      rw [h]; omega

theorem pathDist_reverse : ∀ (l : List Coord), pathDist l.reverse = pathDist l := by
  intro l
  induction l with
  | nil => rfl
  | cons a l ih =>
    cases l with
    | nil => rfl
    | cons b rest =>
      have e : (a :: b :: rest).reverse = rest.reverse ++ [b, a] := by simp
      rw [e, pathDist_snoc]
      have e2 : rest.reverse ++ [b] = (b :: rest).reverse := by simp
      rw [e2, ih]
      show pathDist (b :: rest) + dist1 b a = dist1 a b + pathDist (b :: rest)
      rw [dist1_comm b a]; omega

/-- The loop of `backtrace` climbs from an opened node to the start, and the cost `g` of
the node is the distance covered by its chain of ancestors. -/
theorem SearchInv.backtraceLoop_cost {grid0 : Grid} {S E : Coord} {fuel : Nat}
    {todo : Coord → Coord → Prop} {grid : Grid} {ol : Heap Coord}
    (hi : SearchInv grid0 S E fuel todo grid ol) (gridF : Grid)
    (hF : ∀ c, (gridF.nodes c).parent = (grid.nodes c).parent) (k : Nat) :
    ∀ (c : Coord) (acc : List Coord), (grid.nodes c).opened = true → grid.rank c < k →
      ∃ up, Hola.backtraceLoop gridF k c acc = .ok (acc ++ up) ∧ UpChain grid0 S c up ∧
        (grid.nodes c).g = some ((pathDist (c :: up) : Nat) : ℚ) := by
  induction k with
  | zero => intro c acc _ h; omega
  | succ k ih =>
    intro c acc hc hr
    unfold Hola.backtraceLoop
    rw [hF]
    by_cases hcs : c = S
    · subst hcs
      rw [hi.start_parent]
      refine ⟨[], by simp, rfl, ?_⟩
      rw [hi.start_g]
      simp [pathDist]
    · obtain ⟨p, h1, h2, h3, kk, hk1, hk2, hk3⟩ := hi.parent_seg hc hcs
      rw [h1]
      simp only
      have hpin : grid.isInside p.1 p.2 = true := by
        rw [Grid.isInside_congr hi.sameMap.1 hi.sameMap.2.1]
        exact hi.opened_inside p (hi.closed_opened p h2)
      have hlt : grid.rank p < grid.rank c := by
        apply Grid.rank_lt hpin h2
        rw [hk2]
        have : (0 : ℚ) < kk := by exact_mod_cast hk1
        linarith
      obtain ⟨up, hu1, hu2, hu3⟩ := ih p (acc ++ [p]) (hi.closed_opened p h2) (by omega)
      refine ⟨p :: up, ?_, ⟨hcs, h3, hu2⟩, ?_⟩
      · rw [hu1]; simp
      · obtain ⟨v, hv⟩ := hi.opened_g c hc
        have hgc : grid.gval c = v := by unfold Grid.gval; rw [hv]; rfl
        have hgp : grid.gval p = ((pathDist (p :: up) : Nat) : ℚ) := by
          unfold Grid.gval; rw [hu3]; rfl
        have hd : dist1 c p = kk := by
          unfold dist1
          rw [abs_sub_comm p.1 c.1, abs_sub_comm p.2 c.2, ← hk3]
          simp
        rw [hv]
        congr 1
        rw [← hgc, hk2, hgp]
        show _ = ((dist1 c p + pathDist (p :: up) : Nat) : ℚ)
        rw [hd]
        push_cast
        ring

/-- On a chain of straight walkable segments the loop of `expandPath` returns as many
cells as the distance covered. -/
theorem expandSegments_chain_length (grid : Grid) (fuel : Nat)
    (hfuel : grid.width.toNat + grid.height.toNat + 1 ≤ fuel) :
    ∀ (l : List Coord) (c0 : Coord), DownChain grid (c0 :: l) →
      ∃ e, expandSegments fuel (c0 :: l) = .ok e ∧ e.length = pathDist (c0 :: l) := by
  intro l
  induction l with
  | nil => intro c0 _; exact ⟨[], rfl, rfl⟩
  | cons c1 rest ih =>
    intro c0 hch
    obtain ⟨⟨dx, dy, k, hd, hk, hc1, hin, hw⟩, hrest⟩ := hch
    obtain ⟨e1, he1, hl1⟩ := ih c1 hrest
    have hkb : k < fuel := by
      have := seg_length_lt (k := k) hd hin (hw k hk (le_refl _))
      omega
    have hint := interpolate_seg c0 dx dy k hd hk fuel hkb
    have hc1a : c1.1 = c0.1 + k * dx := by rw [hc1]
    have hc1b : c1.2 = c0.2 + k * dy := by rw [hc1]
    have hdist : dist1 c0 c1 = k := by
      unfold dist1
      rw [hc1a, hc1b]
      simp only [add_sub_cancel_left]
      rcases hd with ⟨hx | hx, hy⟩ | ⟨hx, hy | hy⟩ <;> subst hx <;> subst hy <;> simp
    obtain ⟨k2, rfl⟩ : ∃ k2, k = k2 + 1 := ⟨k - 1, by omega⟩
    refine ⟨segCells c0 dx dy k2 ++ e1, ?_, ?_⟩
    · unfold expandSegments
      rw [hc1a, hc1b, hint, he1]
      simp only [segCells_dropLast]
    · rw [List.length_append, segCells_length, hl1]
      show _ = dist1 c0 c1 + pathDist (c1 :: rest)
      rw [hdist]

/-- The cost of the goal when the search has found it: the number of steps of the path. -/
theorem findPath_cost (F : JumpPointFinderBase) {grid : Grid} {S E : Coord} {fuel : Nat}
    (h0 : grid.NoSearchState) (hfuel : grid.fuelBound ≤ fuel) {path : List Coord}
    {gridF : Grid} (h : findPath F fuel S.1 S.2 E.1 E.2 grid = .ok (path, gridF))
    (hne : path ≠ []) :
    ∃ chain, backtrace fuel gridF E = .ok chain ∧ expandPath fuel chain = .ok path ∧
      chain.head? = some S ∧ chain.getLast? = some E ∧
      (gridF.nodes E).g = some ((pathDist chain : Nat) : ℚ) ∧
      path.length = pathDist chain + 1 := by
  obtain ⟨hS, hE⟩ := findPath_inside F fuel S.1 S.2 E.1 E.2 grid h
  obtain ⟨path2, gridF2, hrun, hend⟩ := findPath_spec F h0 hS hE hfuel
  rw [hrun] at h
  cases h
  obtain ⟨chain, hb, he⟩ := findPath_path F fuel S.1 S.2 E.1 E.2 grid hrun hne
  cases hend with
  | exhausted ol hp _ _ => exact absurd hp hne
  | found g ol hi hEo hgF hpath =>
    have hF : ∀ c, (gridF.nodes c).parent = (g.nodes c).parent := by
      intro c
      rw [hgF]
      by_cases hc : c = E
      · subst hc; rw [Grid.modify_nodes_same]
      · rw [Grid.modify_nodes_other _ _ hc]
    have hgE : (gridF.nodes E).g = (g.nodes E).g := by
      rw [hgF, Grid.modify_nodes_same]
    have hrank : g.rank E < fuel := by
      have := Grid.rank_le g E
      rw [hi.sameMap.1, hi.sameMap.2.1] at this
      unfold Grid.fuelBound at hfuel
      omega
    obtain ⟨up, hu1, hu2, hu3⟩ := hi.backtraceLoop_cost gridF hF fuel E [E] hEo hrank
    have hbt : backtrace fuel gridF E = .ok (E :: up).reverse := by
      unfold backtrace
      rw [hu1]; rfl
    have hchain : chain = (E :: up).reverse := by
      rw [hbt] at hb; cases hb; rfl
    have hSE : S ≠ E := by
      rcases hpath with ⟨_, hp⟩ | ⟨h1, _⟩
      · exact absurd hp hne
      · exact h1
    obtain ⟨t, ht1, ht2⟩ := downChain_of_upChain grid S up E [] hu2 trivial
    have hrev : (E :: up).reverse = S :: t := by
      rw [List.reverse_cons]; exact ht1
    have hf2 : grid.width.toNat + grid.height.toNat + 1 ≤ fuel := by
      unfold Grid.fuelBound at hfuel; omega
    obtain ⟨e, he1, he2⟩ := expandSegments_chain_length grid fuel hf2 t S ht2
    have hlast : (S :: t).getLast? = some E := by rw [← ht1]; simp
    have htne : t ≠ [] := by
      intro h
      subst h
      simp at hlast
      exact hSE hlast
    have hlen : ¬ (S :: t).length < 2 := by
      cases t with
      | nil => exact absurd rfl htne
      | cons a b => simp
    have hdist : pathDist chain = pathDist (E :: up) := by
      rw [hchain, pathDist_reverse]
    refine ⟨chain, hb, he, ?_, ?_, ?_, ?_⟩
    · rw [hchain, hrev]; rfl
    · rw [hchain, hrev]; exact hlast
    · rw [hgE, hu3, hdist]
    · rw [hchain, hrev] at he
      unfold expandPath at he
      rw [if_neg hlen, he1, hlast] at he
      simp only at he
      cases he
      rw [List.length_append, he2, hdist, ← pathDist_reverse (E :: up), hrev]
      rfl

/-- C40: on a grid with no prior search state, when `findPath` returns a path that is not
empty, the `g` stored on the goal node is the number of unit steps of that path (its length
minus 1), which is the sum of the distances between consecutive nodes of the parent chain
of the goal, from the start to the goal. -/
theorem findPath_goal_cost (F : JumpPointFinderBase) (grid : Grid) (S E : Coord) (fuel : Nat)
    (h0 : grid.NoSearchState) (hfuel : grid.fuelBound ≤ fuel) (path : List Coord)
    (gridF : Grid) (h : findPath F fuel S.1 S.2 E.1 E.2 grid = .ok (path, gridF))
    (hne : path ≠ []) :
    (gridF.nodes E).g = some ((path.length : ℚ) - 1) ∧
    ∃ chain, backtrace fuel gridF E = .ok chain ∧ chain.head? = some S ∧
      chain.getLast? = some E ∧ (gridF.nodes E).g = some ((pathDist chain : Nat) : ℚ) ∧
      path.length = pathDist chain + 1 := by
  obtain ⟨chain, hb, _, hh, hl, hg, hlen⟩ := findPath_cost F h0 hfuel h hne
  refine ⟨?_, chain, hb, hh, hl, hg, hlen⟩
  rw [hg, hlen]
  push_cast
  ring_nf

theorem findPath_goal_cost_witness :
    (Grid.new 1 2).NoSearchState ∧ (Grid.new 1 2).fuelBound ≤ 16 ∧
    ∃ path gridF, findPath manhattanFinder 16 ((0, 0) : Coord).1 ((0, 0) : Coord).2
        ((1, 0) : Coord).1 ((1, 0) : Coord).2 (Grid.new 1 2) = .ok (path, gridF) ∧
      path ≠ [] ∧ (gridF.nodes (1, 0)).g = some ((path.length : ℚ) - 1) := by
  have h0 : (Grid.new 1 2).NoSearchState := fun _ => ⟨rfl, rfl, rfl, rfl, rfl, rfl⟩
  obtain ⟨path, gridF, hrun, _⟩ :=
    @findPath_spec manhattanFinder (Grid.new 1 2) (0, 0) (1, 0) 16 h0 (by decide)
      (by decide) (by decide)
  have hres := findPathResult_eq manhattanFinder 16 0 0 1 0 (Grid.new 1 2) hrun
  have hval : findPathResult manhattanFinder 16 0 0 1 0 (Grid.new 1 2) =
      .ok [(0, 0), (1, 0)] := by decide!
  have hne : path ≠ [] := by
    rw [hval] at hres
    cases hres
    simp
  exact ⟨h0, by decide, path, gridF, hrun, hne,
    (findPath_goal_cost manhattanFinder (Grid.new 1 2) (0, 0) (1, 0) 16 h0 (by decide) path
      gridF hrun hne).1⟩

/-! ## Double-precision arithmetic: proofs -/

namespace Double

theorem roundHalfEven_floor (m : ℚ) :
    roundHalfEven m = ⌊m⌋ ∨ roundHalfEven m = ⌊m⌋ + 1 := by
  unfold roundHalfEven
  split_ifs <;> simp

theorem roundHalfEven_intCast (k : ℤ) : roundHalfEven (k : ℚ) = k := by
  unfold roundHalfEven
  simp

theorem roundHalfEven_eq {m : ℚ} {k : ℤ} (h1 : (k : ℚ) - 1 / 2 < m) (h2 : m < k + 1 / 2) :
    roundHalfEven m = k := by
  rcases lt_or_le m k with h | h
  · have hf : ⌊m⌋ = k - 1 := by
      rw [Int.floor_eq_iff]; push_cast; constructor <;> linarith
    unfold roundHalfEven
    rw [hf]; push_cast
    rw [if_neg (by linarith), if_pos (by linarith)]
    ring
  · have hf : ⌊m⌋ = k := by
      rw [Int.floor_eq_iff]; constructor <;> linarith
    unfold roundHalfEven
    rw [hf, if_pos (by linarith)]

theorem roundHalfEven_tie {m : ℚ} {k : ℤ} (h : m = k + 1 / 2) (hk : k % 2 = 0) :
    roundHalfEven m = k := by
  have hf : ⌊m⌋ = k := by
    rw [Int.floor_eq_iff]; constructor <;> linarith
  unfold roundHalfEven
  rw [hf, if_neg (by linarith), if_neg (by linarith), if_pos hk]

theorem roundHalfEven_mono {a b : ℚ} (h : a ≤ b) : roundHalfEven a ≤ roundHalfEven b := by
  have hfl : ⌊a⌋ ≤ ⌊b⌋ := Int.floor_mono h
  rcases lt_or_eq_of_le hfl with h1 | h1
  · rcases roundHalfEven_floor a with ha | ha <;> rcases roundHalfEven_floor b with hb | hb <;>
      omega
  · unfold roundHalfEven
    rw [h1]
    split_ifs <;> first | omega | (exfalso; linarith)

theorem log_eq {q : ℚ} {e : ℤ} (h1 : (2 : ℚ) ^ e ≤ q) (h2 : q < 2 ^ (e + 1)) :
    Int.log 2 q = e := by
  have hq : 0 < q := lt_of_lt_of_le (by positivity) h1
  have a1 : e ≤ Int.log 2 q := by
    rw [← Int.zpow_le_iff_le_log (by norm_num) hq]; exact_mod_cast h1
  have a2 : Int.log 2 q < e + 1 := by
    rw [← Int.lt_zpow_iff_log_lt (by norm_num) hq]; exact_mod_cast h2
  omega

theorem pow_log_le {q : ℚ} (hq : 0 < q) : (2 : ℚ) ^ Int.log 2 q ≤ q := by
  have := Int.zpow_log_le_self (b := 2) (by norm_num) hq
  exact_mod_cast this

theorem lt_pow_log (q : ℚ) : q < (2 : ℚ) ^ (Int.log 2 q + 1) := by
  have := Int.lt_zpow_succ_log_self (b := 2) (by norm_num) q
  exact_mod_cast this

theorem exponent_eq {q : ℚ} {e : ℤ} (h1 : (2 : ℚ) ^ e ≤ q) (h2 : q < 2 ^ (e + 1))
    (h3 : -1022 ≤ e) : exponent q = e := by
  unfold exponent
  rw [log_eq h1 h2]
  exact max_eq_left h3

theorem exponent_small {q : ℚ} (h0 : 0 < q) (h : q < 2 ^ (-1022 : ℤ)) :
    exponent q = -1022 := by
  unfold exponent
  have : Int.log 2 q < -1022 := by
    rw [← Int.lt_zpow_iff_log_lt (by norm_num) h0]; exact_mod_cast h
  exact max_eq_right this.le

theorem exponent_ge (q : ℚ) : -1022 ≤ exponent q := le_max_right _ _

theorem exponent_mono {x y : ℚ} (hx : 0 < x) (h : x ≤ y) : exponent x ≤ exponent y :=
  max_le_max (Int.log_mono_right hx h) le_rfl

theorem ulp_pos (q : ℚ) : 0 < ulp q := by
  unfold ulp; positivity

theorem lt_pow_exponent (q : ℚ) : q < (2 : ℚ) ^ (exponent q + 1) :=
  lt_of_lt_of_le (lt_pow_log q)
    (zpow_le_zpow_right₀ (by norm_num) (by unfold exponent; have := le_max_left (Int.log 2 q) (-1022); omega))

theorem pow_mul_ulp (q : ℚ) (n : ℕ) (e : ℤ) (he : exponent q - 52 + n = e) :
    (((2 : ℤ) ^ n : ℤ) : ℚ) * ulp q = 2 ^ e := by
  unfold ulp
  rw [← he, zpow_add₀ (by norm_num), zpow_natCast]
  push_cast
  ring

theorem nearest_zero : nearest 0 = 0 := by
  unfold nearest
  rw [zero_div]
  have : roundHalfEven 0 = 0 := by
    have := roundHalfEven_intCast 0
    simpa using this
  rw [this]; simp

theorem nearest_nonneg {q : ℚ} (h : 0 ≤ q) : 0 ≤ nearest q := by
  unfold nearest
  have h1 : roundHalfEven 0 ≤ roundHalfEven (q / ulp q) :=
    roundHalfEven_mono (div_nonneg h (ulp_pos q).le)
  have h0 : roundHalfEven 0 = 0 := by
    have := roundHalfEven_intCast 0
    simpa using this
  rw [h0] at h1
  exact mul_nonneg (by exact_mod_cast h1) (ulp_pos q).le

/-- The rounded value does not leave the binade of `q` upwards. -/
theorem nearest_le_pow (q : ℚ) : nearest q ≤ (2 : ℚ) ^ (exponent q + 1) := by
  unfold nearest
  have h1 : q / ulp q ≤ ((2 ^ 53 : ℤ) : ℚ) := by
    rw [div_le_iff₀ (ulp_pos q)]
    rw [pow_mul_ulp q 53 (exponent q + 1) (by push_cast; ring)]
    exact (lt_pow_exponent q).le
  have h2 := roundHalfEven_mono h1
  rw [roundHalfEven_intCast] at h2
  have h3 : ((roundHalfEven (q / ulp q) : ℤ) : ℚ) ≤ ((2 ^ 53 : ℤ) : ℚ) := by exact_mod_cast h2
  calc ((roundHalfEven (q / ulp q) : ℤ) : ℚ) * ulp q ≤ ((2 ^ 53 : ℤ) : ℚ) * ulp q :=
        mul_le_mul_of_nonneg_right h3 (ulp_pos q).le
    _ = (2 : ℚ) ^ (exponent q + 1) :=
        pow_mul_ulp q 53 (exponent q + 1) (by push_cast; ring)

/-- The rounded value of a normal `q` does not leave the binade of `q` downwards. -/
theorem pow_le_nearest {q : ℚ} (hq : 0 < q) (h : -1022 < exponent q) :
    (2 : ℚ) ^ exponent q ≤ nearest q := by
  have hl : exponent q = Int.log 2 q := by
    unfold exponent at h ⊢
    rcases max_cases (Int.log 2 q) (-1022) with ⟨h1, _⟩ | ⟨h1, _⟩
    · exact h1
    · rw [h1] at h; omega
  unfold nearest
  have h1 : ((2 ^ 52 : ℤ) : ℚ) ≤ q / ulp q := by
    rw [le_div_iff₀ (ulp_pos q)]
    rw [pow_mul_ulp q 52 (exponent q) (by push_cast; ring), hl]
    exact pow_log_le hq
  have h2 := roundHalfEven_mono h1
  rw [roundHalfEven_intCast] at h2
  have h3 : ((2 ^ 52 : ℤ) : ℚ) ≤ ((roundHalfEven (q / ulp q) : ℤ) : ℚ) := by exact_mod_cast h2
  calc (2 : ℚ) ^ exponent q = ((2 ^ 52 : ℤ) : ℚ) * ulp q :=
        (pow_mul_ulp q 52 (exponent q) (by push_cast; ring)).symm
    _ ≤ ((roundHalfEven (q / ulp q) : ℤ) : ℚ) * ulp q :=
        mul_le_mul_of_nonneg_right h3 (ulp_pos q).le

/-- Rounding is monotone. -/
theorem nearest_mono {x y : ℚ} (hx : 0 ≤ x) (h : x ≤ y) : nearest x ≤ nearest y := by
  rcases eq_or_lt_of_le hx with h0 | h0
  · rw [← h0, nearest_zero]; exact nearest_nonneg (hx.trans h)
  · rcases eq_or_lt_of_le (exponent_mono h0 h) with he | he
    · unfold nearest ulp
      rw [he]
      have hu : (0 : ℚ) < 2 ^ (exponent y - 52) := by positivity
      have := roundHalfEven_mono (div_le_div_of_nonneg_right h hu.le)
      exact mul_le_mul_of_nonneg_right (by exact_mod_cast this) hu.le
    · have a1 := nearest_le_pow x
      have a2 := pow_le_nearest (lt_of_lt_of_le h0 h)
        (lt_of_le_of_lt (exponent_ge x) he)
      have a3 : (2 : ℚ) ^ (exponent x + 1) ≤ 2 ^ exponent y :=
        zpow_le_zpow_right₀ (by norm_num) (by omega)
      linarith

/-- A multiple of the spacing is its own rounded value. -/
theorem nearest_of_multiple {q : ℚ} {k : ℤ} (h : q / ulp q = k) : nearest q = q := by
  unfold nearest
  rw [h, roundHalfEven_intCast, ← h]
  exact div_mul_cancel₀ q (ulp_pos q).ne'

theorem round_of_nonneg {q : ℚ} (h : 0 ≤ q) :
    round q = if nearest q < 2 ^ 1024 then fin (nearest q) else inf := by
  unfold round
  rw [if_pos h]

theorem round_zero : round 0 = fin 0 := by
  rw [round_of_nonneg le_rfl, nearest_zero, if_pos (by norm_num)]

theorem round_fin_iff {a : ℚ} (ha : 0 ≤ a) :
    round a = fin a ↔ nearest a = a ∧ a < 2 ^ 1024 := by
  rw [round_of_nonneg ha]
  constructor
  · intro h
    split_ifs at h with h1
    · have : nearest a = a := by injection h
      exact ⟨this, this ▸ h1⟩
  · rintro ⟨h1, h2⟩
    rw [h1, if_pos h2]

/-- Rounding is monotone on the non-negative numbers. -/
theorem round_le_round {x y : ℚ} (hx : 0 ≤ x) (h : x ≤ y) :
    le (round x) (round y) = true := by
  rw [round_of_nonneg hx, round_of_nonneg (hx.trans h)]
  have := nearest_mono hx h
  split_ifs with h1 h2 h2
  · simpa [le] using this
  · rfl
  · exfalso; linarith
  · rfl

/-- An exact result between zero and a finite double rounds to a finite value between
them. -/
theorem round_between {x a : ℚ} (hx : 0 ≤ x) (h : x ≤ a) (ha : round a = fin a) :
    ∃ t, round x = fin t ∧ 0 ≤ t ∧ t ≤ a := by
  obtain ⟨h1, h2⟩ := (round_fin_iff (hx.trans h)).1 ha
  have hm := nearest_mono hx h
  rw [h1] at hm
  exact ⟨nearest x, by rw [round_of_nonneg hx, if_pos (lt_of_le_of_lt hm h2)],
    nearest_nonneg hx, hm⟩

/-- Evaluation of a rounding from the binade of the exact result and the rounded
significand. -/
theorem round_eq {q : ℚ} {e k : ℤ} (h1 : (2 : ℚ) ^ e ≤ q) (h2 : q < 2 ^ (e + 1))
    (h3 : -1022 ≤ e) (hk : roundHalfEven (q / 2 ^ (e - 52)) = k)
    (h4 : (k : ℚ) * 2 ^ (e - 52) < 2 ^ 1024) : round q = fin (k * 2 ^ (e - 52)) := by
  have hq : 0 ≤ q := le_trans (by positivity) h1
  rw [round_of_nonneg hq]
  unfold nearest ulp
  rw [exponent_eq h1 h2 h3, hk, if_pos h4]

/-- A natural number below `2 ^ 53` is a double. -/
theorem round_natCast {n : ℕ} (h : n < 2 ^ 53) : round (n : ℚ) = fin n := by
  rcases Nat.eq_zero_or_pos n with h0 | h0
  · subst h0; simpa using round_zero
  · have hL : Nat.log 2 n < 53 := Nat.log_lt_of_lt_pow (by omega) h
    have he : exponent (n : ℚ) = Nat.log 2 n := by
      unfold exponent
      rw [Int.log_natCast]
      exact max_eq_left (by omega)
    rw [round_fin_iff (by positivity)]
    refine ⟨nearest_of_multiple (k := (n : ℤ) * 2 ^ (52 - Nat.log 2 n)) ?_, ?_⟩
    · unfold ulp
      rw [he]
      have : ((Nat.log 2 n : ℤ) - 52) = -((52 - Nat.log 2 n : ℕ) : ℤ) := by omega
      rw [this, zpow_neg, zpow_natCast, div_inv_eq_mul]
      push_cast
      ring
    · calc (n : ℚ) < 2 ^ 53 := by exact_mod_cast h
        _ < 2 ^ 1024 := by norm_num

/-- The factor `F = Math.SQRT2 - 1` of `octile` is computed exactly. -/
theorem sub_sqrt2_one : sub SQRT2 (fin 1) = fin (Hola.SQRT2 - 1) := by
  have h : round (Hola.SQRT2 + -1) = fin ((7461808180621108 : ℤ) * 2 ^ ((-2 : ℤ) - 52)) := by
    apply round_eq
    · unfold Hola.SQRT2; norm_num
    · unfold Hola.SQRT2; norm_num
    · norm_num
    · apply roundHalfEven_eq
      · unfold Hola.SQRT2; norm_num
      · unfold Hola.SQRT2; norm_num
    · norm_num
  show round (Hola.SQRT2 + -1) = fin (Hola.SQRT2 - 1)
  rw [h]
  congr 1
  unfold Hola.SQRT2
  norm_num

theorem factor_bounds : (0 : ℚ) < Hola.SQRT2 - 1 ∧ Hola.SQRT2 - 1 ≤ 1 := by
  unfold Hola.SQRT2; constructor <;> norm_num

theorem chebyshev_fin (a b : ℚ) : chebyshev (fin a) (fin b) = fin (Max.max a b) := by
  unfold chebyshev max
  simp only [lt]
  by_cases h : a < b
  · simp [h, max_eq_right h.le]
  · simp [h, max_eq_left (not_lt.1 h)]

theorem manhattan_fin (a b : ℚ) : manhattan (fin a) (fin b) = round (a + b) := rfl

/-- The value of `octile` on finite non-negative doubles: the rounded sum of the larger
argument and a number between zero and the smaller one. -/
theorem octile_fin {a b : ℚ} (ha : 0 ≤ a) (hb : 0 ≤ b) (hra : round a = fin a)
    (hrb : round b = fin b) :
    ∃ t, 0 ≤ t ∧ t ≤ min a b ∧ octile (fin a) (fin b) = round (t + Max.max a b) := by
  obtain ⟨hF0, hF1⟩ := factor_bounds
  unfold octile
  simp only [sub_sqrt2_one, lt]
  by_cases h : a < b
  · obtain ⟨t, ht, h0, h1⟩ := round_between (mul_nonneg hF0.le ha)
      (mul_le_of_le_one_left ha hF1) hra
    refine ⟨t, h0, by rw [min_eq_left h.le]; exact h1, ?_⟩
    simp only [h, decide_True, if_true, mul, ht, add, max_eq_right h.le]
  · have h' := not_lt.1 h
    obtain ⟨t, ht, h0, h1⟩ := round_between (mul_nonneg hF0.le hb)
      (mul_le_of_le_one_left hb hF1) hrb
    refine ⟨t, h0, by rw [min_eq_right h']; exact h1, ?_⟩
    simp only [h, decide_False, mul, ht, add, max_eq_left h']
    rfl

/-- In double arithmetic `chebyshev ≤ octile ≤ manhattan` on all non-negative numbers,
`Infinity` included. -/
theorem chebyshev_octile_manhattan (dx dy : Double) (hdx : IsDouble dx) (hdy : IsDouble dy)
    (hx : le (fin 0) dx = true) (hy : le (fin 0) dy = true) :
    le (chebyshev dx dy) (octile dx dy) = true ∧
      le (octile dx dy) (manhattan dx dy) = true := by
  obtain ⟨hF0, hF1⟩ := factor_bounds
  cases dx with
  | nan => simp [le] at hx
  | ninf => simp [le] at hx
  | fin a =>
    have ha : 0 ≤ a := by simpa [le] using hx
    cases dy with
    | nan => simp [le] at hy
    | ninf => simp [le] at hy
    | fin b =>
      have hb : 0 ≤ b := by simpa [le] using hy
      obtain ⟨t, h0, h1, ho⟩ := octile_fin ha hb hdx hdy
      have hm : round (Max.max a b) = fin (Max.max a b) := by
        rcases max_cases a b with ⟨h, _⟩ | ⟨h, _⟩ <;> rw [h] <;> assumption
      rw [chebyshev_fin, ho, manhattan_fin]
      constructor
      · rw [← hm]
        exact round_le_round (le_max_of_le_left ha) (by linarith)
      · exact round_le_round (add_nonneg h0 (le_max_of_le_left ha))
          (by rw [← min_add_max a b]; linarith)
    | inf =>
      obtain ⟨t, ht, -, -⟩ := round_between (mul_nonneg hF0.le ha)
        (mul_le_of_le_one_left ha hF1) hdx
      have : octile (fin a) inf = inf := by
        unfold octile
        simp only [sub_sqrt2_one, lt, if_true, mul, ht, add]
      rw [this]
      exact ⟨rfl, rfl⟩
  | inf =>
    cases dy with
    | nan => simp [le] at hy
    | ninf => simp [le] at hy
    | fin b =>
      have hb : 0 ≤ b := by simpa [le] using hy
      obtain ⟨t, ht, -, -⟩ := round_between (mul_nonneg hF0.le hb)
        (mul_le_of_le_one_left hb hF1) hdy
      have : octile inf (fin b) = inf := by
        unfold octile
        simp [sub_sqrt2_one, lt, mul, ht, add]
      rw [this]
      exact ⟨rfl, rfl⟩
    | inf =>
      have : octile inf inf = inf := by
        unfold octile
        simp [sub_sqrt2_one, lt, mul, mulInf, add, hF0, hF0.ne']
      rw [this]
      exact ⟨rfl, rfl⟩

/-- The rounded square root of a natural number below `2 ^ 53` lies between any two natural
numbers whose squares enclose it. -/
theorem sqrtNearest_natCast {n m M : ℕ} (hn : n < 2 ^ 53) (h1 : m * m ≤ n) (h2 : n ≤ M * M) :
    (m : ℚ) ≤ sqrtNearest n ∧ sqrtNearest n ≤ M := by
  have hL : Nat.log 2 n < 53 := by
    rcases Nat.eq_zero_or_pos n with h0 | h0
    · subst h0; simp
    · exact Nat.log_lt_of_lt_pow (by omega) hn
  have he : Int.log 2 (n : ℚ) / 2 - 52 = -((52 - Nat.log 2 n / 2 : ℕ) : ℤ) := by
    rw [Int.log_natCast]; omega
  obtain ⟨j, hj⟩ : ∃ j : ℕ, j = 52 - Nat.log 2 n / 2 := ⟨_, rfl⟩
  rw [← hj] at he
  have hP : (0 : ℚ) < ((2 ^ j : ℕ) : ℚ) := by positivity
  have hu : (2 : ℚ) ^ (Int.log 2 (n : ℚ) / 2 - 52) = 1 / ((2 ^ j : ℕ) : ℚ) := by
    rw [he, zpow_neg, zpow_natCast]; push_cast; rw [one_div]
  have hs : (n : ℚ) / (1 / ((2 ^ j : ℕ) : ℚ) * (1 / ((2 ^ j : ℕ) : ℚ))) =
      ((n * 2 ^ j * 2 ^ j : ℕ) : ℚ) := by
    push_cast
    field_simp
    ring
  unfold sqrtNearest
  simp only [hu, hs, Nat.floor_natCast]
  obtain ⟨P, hPd⟩ : ∃ P : ℕ, P = 2 ^ j := ⟨_, rfl⟩
  rw [← hPd] at hP ⊢
  obtain ⟨f, hf⟩ : ∃ f : ℕ, f = Nat.sqrt (n * P * P) := ⟨_, rfl⟩
  rw [← hf]
  have hlo : m * P ≤ f := by
    rw [hf, Nat.le_sqrt]
    calc m * P * (m * P) = m * m * (P * P) := by ring
      _ ≤ n * (P * P) := Nat.mul_le_mul_right _ h1
      _ = n * P * P := by ring
  have hff : f * f ≤ n * P * P := by rw [hf]; exact Nat.sqrt_le _
  have hMM : n * P * P ≤ M * P * (M * P) := by
    calc n * P * P = n * (P * P) := by ring
      _ ≤ M * M * (P * P) := Nat.mul_le_mul_right _ h2
      _ = M * P * (M * P) := by ring
  have hhi : f ≤ M * P := by
    by_contra hc
    have : M * P < f := not_le.1 hc
    have := Nat.mul_self_lt_mul_self this
    omega
  have hloq : (m : ℚ) * P ≤ f := by exact_mod_cast hlo
  have hhiq : (f : ℚ) ≤ M * P := by exact_mod_cast hhi
  have lowf : (m : ℚ) ≤ (f : ℚ) * (1 / (P : ℚ)) := by
    rw [mul_one_div, le_div_iff₀ hP]; exact hloq
  have upf : (f : ℚ) * (1 / (P : ℚ)) ≤ M := by
    rw [mul_one_div, div_le_iff₀ hP]; exact hhiq
  have up1 : ¬ ((n * P * P : ℕ) : ℚ) < ((f : ℚ) + 1 / 2) * ((f : ℚ) + 1 / 2) →
      ((f : ℚ) + 1) * (1 / (P : ℚ)) ≤ M := by
    intro hc
    have hc' := not_lt.1 hc
    have h3 : (f : ℚ) * f < ((n * P * P : ℕ) : ℚ) := by nlinarith
    have h4 : f * f < n * P * P := by exact_mod_cast h3
    have h5 : f < M * P := by
      by_contra hc2
      have : M * P ≤ f := not_lt.1 hc2
      have := Nat.mul_self_le_mul_self this
      omega
    have h6 : ((f : ℚ) + 1) ≤ M * P := by exact_mod_cast h5
    rw [mul_one_div, div_le_iff₀ hP]; exact h6
  have low1 : (m : ℚ) ≤ ((f : ℚ) + 1) * (1 / (P : ℚ)) := by
    have : (0 : ℚ) ≤ 1 / (P : ℚ) := by positivity
    nlinarith
  split_ifs with c1 c2 c3
  · exact ⟨lowf, upf⟩
  · exact ⟨low1, up1 c1⟩
  · exact ⟨lowf, upf⟩
  · exact ⟨low1, up1 c1⟩

theorem mul_natCast {a b : ℕ} (h : a * b < 2 ^ 53) :
    mul (fin a) (fin b) = fin ((a * b : ℕ) : ℚ) := by
  show round ((a : ℚ) * b) = _
  rw [← round_natCast h]; push_cast; rfl

theorem add_natCast {a b : ℕ} (h : a + b < 2 ^ 53) :
    add (fin a) (fin b) = fin ((a + b : ℕ) : ℚ) := by
  show round ((a : ℚ) + b) = _
  rw [← round_natCast h]; push_cast; rfl

/-- On natural arguments below `2 ^ 26` the sum of squares is exact and `euclidean` is its
rounded square root. -/
theorem euclidean_natCast {a b : ℕ} (ha : a < 2 ^ 26) (hb : b < 2 ^ 26) :
    euclidean (fin a) (fin b) = fin (sqrtNearest ((a * a + b * b : ℕ) : ℚ)) := by
  have h1 : a * a < 2 ^ 52 := by
    calc a * a ≤ (2 ^ 26 - 1) * (2 ^ 26 - 1) := Nat.mul_le_mul (by omega) (by omega)
      _ < 2 ^ 52 := by norm_num
  have h2 : b * b < 2 ^ 52 := by
    calc b * b ≤ (2 ^ 26 - 1) * (2 ^ 26 - 1) := Nat.mul_le_mul (by omega) (by omega)
      _ < 2 ^ 52 := by norm_num
  unfold euclidean
  rw [mul_natCast (by omega), mul_natCast (by omega), add_natCast (by omega)]
  show (if (((a * a + b * b : ℕ) : ℚ)) < 0 then nan else _) = _
  rw [if_neg (not_lt.2 (Nat.cast_nonneg _))]

/-- On natural arguments below `2 ^ 26`, `chebyshev ≤ euclidean ≤ manhattan` in double
arithmetic, and `manhattan` is the exact sum. -/
theorem chebyshev_euclidean_manhattan {a b : ℕ} (ha : a < 2 ^ 26) (hb : b < 2 ^ 26) :
    le (chebyshev (fin a) (fin b)) (euclidean (fin a) (fin b)) = true ∧
      le (euclidean (fin a) (fin b)) (manhattan (fin a) (fin b)) = true ∧
      manhattan (fin a) (fin b) = fin ((a + b : ℕ) : ℚ) := by
  have h1 : a * a < 2 ^ 52 := by
    calc a * a ≤ (2 ^ 26 - 1) * (2 ^ 26 - 1) := Nat.mul_le_mul (by omega) (by omega)
      _ < 2 ^ 52 := by norm_num
  have h2 : b * b < 2 ^ 52 := by
    calc b * b ≤ (2 ^ 26 - 1) * (2 ^ 26 - 1) := Nat.mul_le_mul (by omega) (by omega)
      _ < 2 ^ 52 := by norm_num
  have hm : manhattan (fin a) (fin b) = fin ((a + b : ℕ) : ℚ) := add_natCast (by omega)
  have hc : chebyshev (fin a) (fin b) = fin ((Max.max a b : ℕ) : ℚ) := by
    rw [chebyshev_fin]; push_cast; rfl
  have hb1 : Max.max a b * Max.max a b ≤ a * a + b * b := by
    rcases max_cases a b with ⟨h, _⟩ | ⟨h, _⟩ <;> rw [h] <;> omega
  have hb2 : a * a + b * b ≤ (a + b) * (a + b) := by nlinarith
  obtain ⟨l1, l2⟩ := sqrtNearest_natCast (by omega) hb1 hb2
  rw [hm, hc, euclidean_natCast ha hb]
  refine ⟨?_, ?_, rfl⟩
  · simpa [le] using l1
  · simpa [le] using l2

/-- Evaluation of a rounding: `q` lies in the binade of exponent `e` and `q / 2 ^ (e - 52)`
rounds to the integer `k`. -/
theorem round_eval {q v : ℚ} (e k : ℤ) (h1 : (2 : ℚ) ^ e ≤ q) (h2 : q < 2 ^ (e + 1))
    (h3 : -1022 ≤ e) (hk : roundHalfEven (q / 2 ^ (e - 52)) = k)
    (hv : (k : ℚ) * 2 ^ (e - 52) = v) (h4 : v < 2 ^ 1024) : round q = fin v := by
  rw [round_eq h1 h2 h3 hk (by rw [hv]; exact h4), hv]

/-- Evaluation of a rounded square root: `q` lies in `[4 ^ e, 4 ^ (e + 1))` and the square
root of `q / u²`, with `u = 2 ^ (e - 52)`, lies strictly within one half of `k`. -/
theorem sqrtNearest_eval {q v : ℚ} (e : ℤ) (k : ℕ) (h1 : (2 : ℚ) ^ (2 * e) ≤ q)
    (h2 : q < 2 ^ (2 * e + 2)) (hk : 1 ≤ k)
    (hk1 : ((k : ℚ) - 1 / 2) * ((k : ℚ) - 1 / 2) < q / (2 ^ (e - 52) * 2 ^ (e - 52)))
    (hk2 : q / (2 ^ (e - 52) * 2 ^ (e - 52)) < ((k : ℚ) + 1 / 2) * ((k : ℚ) + 1 / 2))
    (hv : (k : ℚ) * 2 ^ (e - 52) = v) : sqrtNearest q = v := by
  have hq : 0 < q := lt_of_lt_of_le (by positivity) h1
  have a1 : 2 * e ≤ Int.log 2 q := by
    rw [← Int.zpow_le_iff_le_log (by norm_num) hq]; exact_mod_cast h1
  have a2 : Int.log 2 q < 2 * e + 2 := by
    rw [← Int.lt_zpow_iff_log_lt (by norm_num) hq]; exact_mod_cast h2
  have he : Int.log 2 q / 2 = e := by omega
  unfold sqrtNearest
  simp only [he]
  obtain ⟨s, hs⟩ : ∃ s : ℚ, s = q / (2 ^ (e - 52) * 2 ^ (e - 52)) := ⟨_, rfl⟩
  rw [← hs] at hk1 hk2 ⊢
  have hs0 : 0 ≤ s := by rw [hs]; positivity
  obtain ⟨f, hf⟩ : ∃ f : ℕ, f = Nat.sqrt ⌊s⌋₊ := ⟨_, rfl⟩
  rw [← hf]
  have hkq : (1 : ℚ) ≤ k := by exact_mod_cast hk
  have hlo : k - 1 ≤ f := by
    rw [hf, Nat.le_sqrt]
    apply Nat.le_floor
    have : (((k - 1) * (k - 1) : ℕ) : ℚ) = ((k : ℚ) - 1) * ((k : ℚ) - 1) := by
      rw [Nat.cast_mul, Nat.cast_sub hk]; simp
    rw [this]
    nlinarith
  have hff : f * f ≤ ⌊s⌋₊ := by rw [hf]; exact Nat.sqrt_le _
  have hffq : (f : ℚ) * f ≤ s := by
    have : ((f * f : ℕ) : ℚ) ≤ s := le_trans (by exact_mod_cast hff) (Nat.floor_le hs0)
    simpa using this
  have hhi : f ≤ k := by
    by_contra hc
    have h3 : k + 1 ≤ f := by omega
    have h4 : (k : ℚ) + 1 ≤ f := by exact_mod_cast h3
    nlinarith
  rcases Nat.eq_or_lt_of_le hhi with h | h
  · subst h
    rw [if_pos hk2, hv]
  · have hfk : f + 1 = k := by omega
    have hfq : (f : ℚ) = k - 1 := by rw [← hfk]; push_cast; ring
    have e1 : (f : ℚ) + 1 / 2 = k - 1 / 2 := by rw [hfq]; ring
    rw [e1, if_neg (not_lt.2 hk1.le), if_pos hk1, hfq, ← hv]
    ring

/-- The number `95.8387979012273` is a double. -/
theorem round_v :
    round (6744055851806305 / 70368744177664) = fin (6744055851806305 / 70368744177664) :=
  round_eval 6 6744055851806305 (by norm_num) (by norm_num) (by norm_num)
    (roundHalfEven_eq (by norm_num) (by norm_num)) (by norm_num) (by norm_num)

/-- The product `95.8387979012273 * 95.8387979012273` is rounded up. -/
theorem mul_v_v :
    mul (fin (6744055851806305 / 70368744177664)) (fin (6744055851806305 / 70368744177664)) =
      fin (2524774241468179 / 274877906944) :=
  round_eval 13 5049548482936358 (by norm_num) (by norm_num) (by norm_num)
    (roundHalfEven_eq (by norm_num) (by norm_num)) (by norm_num) (by norm_num)

theorem add_sq_v :
    add (fin (2524774241468179 / 274877906944)) (fin (2524774241468179 / 274877906944)) =
      fin (2524774241468179 / 137438953472) :=
  round_eval 14 5049548482936358 (by norm_num) (by norm_num) (by norm_num)
    (roundHalfEven_eq (by norm_num) (by norm_num)) (by norm_num) (by norm_num)

theorem sqrt_sq_v :
    sqrt (fin (2524774241468179 / 137438953472)) =
      fin (4768767625513057 / 35184372088832) := by
  show (if (2524774241468179 / 137438953472 : ℚ) < 0 then nan else _) = _
  rw [if_neg (by norm_num)]
  congr 1
  exact sqrtNearest_eval 7 4768767625513057 (by norm_num) (by norm_num) (by norm_num)
    (by norm_num) (by norm_num) (by norm_num)

/-- The value of `euclidean(95.8387979012273, 95.8387979012273)`: `135.53652779344978`. -/
theorem euclidean_v :
    euclidean (fin (6744055851806305 / 70368744177664))
      (fin (6744055851806305 / 70368744177664)) =
      fin (4768767625513057 / 35184372088832) := by
  unfold euclidean
  rw [mul_v_v, add_sq_v, sqrt_sq_v]

theorem mul_factor_v :
    mul (fin (Hola.SQRT2 - 1)) (fin (6744055851806305 / 70368744177664)) =
      fin (87296231225619 / 2199023255552) :=
  round_eval 5 5586958798439616 (by unfold Hola.SQRT2; norm_num)
    (by unfold Hola.SQRT2; norm_num) (by norm_num)
    (roundHalfEven_eq (by unfold Hola.SQRT2; norm_num) (by unfold Hola.SQRT2; norm_num))
    (by norm_num) (by norm_num)

/-- The sum `F * v + v` lies half-way between two doubles and goes to the even one. -/
theorem add_factor_v :
    add (fin (87296231225619 / 2199023255552)) (fin (6744055851806305 / 70368744177664)) =
      fin (149023988297283 / 1099511627776) :=
  round_eval 7 4768767625513056 (by norm_num) (by norm_num) (by norm_num)
    (roundHalfEven_tie (by norm_num) (by norm_num)) (by norm_num) (by norm_num)

/-- The value of `octile(95.8387979012273, 95.8387979012273)`: `135.53652779344975`. -/
theorem octile_v :
    octile (fin (6744055851806305 / 70368744177664))
      (fin (6744055851806305 / 70368744177664)) =
      fin (149023988297283 / 1099511627776) := by
  unfold octile
  simp only [sub_sqrt2_one, lt, lt_self_iff_false, decide_False]
  rw [if_neg (by simp), mul_factor_v, add_factor_v]

/-- A square that overflows: `2 ^ 600 * 2 ^ 600` is `Infinity`. -/
theorem mul_overflow : mul (fin (2 ^ 600)) (fin (2 ^ 600)) = inf := by
  show round ((2 : ℚ) ^ 600 * 2 ^ 600) = inf
  have h0 : (0 : ℚ) ≤ 2 ^ 600 * 2 ^ 600 := by positivity
  have he : exponent ((2 : ℚ) ^ 600 * 2 ^ 600) = 1200 :=
    exponent_eq (by norm_num) (by norm_num) (by norm_num)
  rw [round_of_nonneg h0]
  unfold nearest ulp
  rw [he]
  have hk : roundHalfEven ((2 : ℚ) ^ 600 * 2 ^ 600 / 2 ^ ((1200 : ℤ) - 52)) = 2 ^ 52 :=
    roundHalfEven_eq (by norm_num) (by norm_num)
  rw [hk, if_neg (by norm_num)]

theorem euclidean_overflow : euclidean (fin (2 ^ 600)) (fin (2 ^ 600)) = inf := by
  unfold euclidean
  rw [mul_overflow]
  rfl

theorem manhattan_big : manhattan (fin (2 ^ 600)) (fin (2 ^ 600)) = fin (2 ^ 601) :=
  round_eval 601 (2 ^ 52) (by norm_num) (by norm_num) (by norm_num)
    (roundHalfEven_eq (by norm_num) (by norm_num)) (by norm_num) (by norm_num)

theorem round_big : round (2 ^ 600) = fin (2 ^ 600) :=
  round_eval 600 (2 ^ 52) (by norm_num) (by norm_num) (by norm_num)
    (roundHalfEven_eq (by norm_num) (by norm_num)) (by norm_num) (by norm_num)

/-- A square that underflows: `2 ^ -600 * 2 ^ -600` is zero. -/
theorem mul_underflow : mul (fin (1 / 2 ^ 600)) (fin (1 / 2 ^ 600)) = fin 0 := by
  show round ((1 : ℚ) / 2 ^ 600 * (1 / 2 ^ 600)) = fin 0
  have h0 : (0 : ℚ) < 1 / 2 ^ 600 * (1 / 2 ^ 600) := by positivity
  have he : exponent ((1 : ℚ) / 2 ^ 600 * (1 / 2 ^ 600)) = -1022 :=
    exponent_small h0 (by norm_num)
  rw [round_of_nonneg h0.le]
  unfold nearest ulp
  rw [he]
  have hk : roundHalfEven ((1 : ℚ) / 2 ^ 600 * (1 / 2 ^ 600) / 2 ^ ((-1022 : ℤ) - 52)) = 0 :=
    roundHalfEven_eq (by norm_num) (by norm_num)
  rw [hk, if_pos (by norm_num)]
  simp

theorem sqrtNearest_zero : sqrtNearest 0 = 0 := by
  unfold sqrtNearest
  simp

theorem euclidean_underflow : euclidean (fin (1 / 2 ^ 600)) (fin (1 / 2 ^ 600)) = fin 0 := by
  unfold euclidean
  rw [mul_underflow]
  show sqrt (round (0 + 0)) = fin 0
  rw [add_zero, round_zero]
  show (if (0 : ℚ) < 0 then nan else fin (sqrtNearest 0)) = fin 0
  rw [if_neg (lt_irrefl _), sqrtNearest_zero]

theorem round_tiny : round (1 / 2 ^ 600) = fin (1 / 2 ^ 600) :=
  round_eval (-600) (2 ^ 52) (by norm_num) (by norm_num) (by norm_num)
    (roundHalfEven_eq (by norm_num) (by norm_num)) (by norm_num) (by norm_num)

/-- The value of `octile(3, 4)`: `5.242640687119286`. -/
theorem octile_three_four :
    octile (fin 3) (fin 4) = fin (2951344330618477 / 562949953421312) := by
  have m : mul (fin (Hola.SQRT2 - 1)) (fin 3) = fin (5596356135465831 / 4503599627370496) :=
    round_eval 0 5596356135465831 (by unfold Hola.SQRT2; norm_num)
      (by unfold Hola.SQRT2; norm_num) (by norm_num)
      (roundHalfEven_eq (by unfold Hola.SQRT2; norm_num) (by unfold Hola.SQRT2; norm_num))
      (by norm_num) (by norm_num)
  have a : add (fin (5596356135465831 / 4503599627370496)) (fin 4) =
      fin (2951344330618477 / 562949953421312) :=
    round_eval 2 5902688661236954 (by norm_num) (by norm_num) (by norm_num)
      (roundHalfEven_eq (by norm_num) (by norm_num)) (by norm_num) (by norm_num)
  unfold octile
  simp only [sub_sqrt2_one, lt]
  rw [if_pos (by norm_num), m, a]

/-- The value of `Math.sqrt(3 * 3 + 4 * 4)`: `5`. -/
theorem euclidean_three_four : euclidean (fin 3) (fin 4) = fin 5 := by
  have h := euclidean_natCast (a := 3) (b := 4) (by norm_num) (by norm_num)
  have hs : sqrtNearest ((3 * 3 + 4 * 4 : ℕ) : ℚ) = 5 :=
    sqrtNearest_eval 2 5629499534213120 (by norm_num) (by norm_num) (by norm_num)
      (by norm_num) (by norm_num) (by norm_num)
  rw [hs] at h
  exact_mod_cast h

end Double

/-! ### The heuristic functions in double arithmetic -/

/-- C23 does not hold of the code: with `v = 95.8387979012273`, a double,
`euclidean(v, v) = 135.53652779344978` exceeds `octile(v, v) = 135.53652779344975`; with
`w = 2 ^ 600`, `euclidean(w, w)` is `Infinity` and exceeds `manhattan(w, w) = 2 ^ 601`; and
with `z = 2 ^ -600`, `euclidean(z, z)` is `0` and lies below `chebyshev(z, z) = z`. -/
theorem heuristics_chain_counterexample :
    (Double.fin (6744055851806305 / 70368744177664)).IsDouble ∧
    Double.le (.fin 0) (.fin (6744055851806305 / 70368744177664)) = true ∧
    Double.euclidean (.fin (6744055851806305 / 70368744177664))
      (.fin (6744055851806305 / 70368744177664)) =
      .fin (4768767625513057 / 35184372088832) ∧
    Double.octile (.fin (6744055851806305 / 70368744177664))
      (.fin (6744055851806305 / 70368744177664)) =
      .fin (149023988297283 / 1099511627776) ∧
    Double.le
      (Double.euclidean (.fin (6744055851806305 / 70368744177664))
        (.fin (6744055851806305 / 70368744177664)))
      (Double.octile (.fin (6744055851806305 / 70368744177664))
        (.fin (6744055851806305 / 70368744177664))) = false ∧
    (Double.fin (2 ^ 600)).IsDouble ∧
    Double.euclidean (.fin (2 ^ 600)) (.fin (2 ^ 600)) = .inf ∧
    Double.manhattan (.fin (2 ^ 600)) (.fin (2 ^ 600)) = .fin (2 ^ 601) ∧
    Double.le (Double.euclidean (.fin (2 ^ 600)) (.fin (2 ^ 600)))
      (Double.manhattan (.fin (2 ^ 600)) (.fin (2 ^ 600))) = false ∧
    (Double.fin (1 / 2 ^ 600)).IsDouble ∧
    Double.le (.fin 0) (.fin (1 / 2 ^ 600)) = true ∧
    Double.euclidean (.fin (1 / 2 ^ 600)) (.fin (1 / 2 ^ 600)) = .fin 0 ∧
    Double.chebyshev (.fin (1 / 2 ^ 600)) (.fin (1 / 2 ^ 600)) = .fin (1 / 2 ^ 600) ∧
    Double.le (Double.chebyshev (.fin (1 / 2 ^ 600)) (.fin (1 / 2 ^ 600)))
      (Double.euclidean (.fin (1 / 2 ^ 600)) (.fin (1 / 2 ^ 600))) = false := by
  have hc : Double.chebyshev (.fin (1 / 2 ^ 600)) (.fin (1 / 2 ^ 600)) =
      .fin (1 / 2 ^ 600) := by
    rw [Double.chebyshev_fin, max_self]
  refine ⟨Double.round_v, ?_, Double.euclidean_v, Double.octile_v, ?_, Double.round_big,
    Double.euclidean_overflow, Double.manhattan_big, ?_, Double.round_tiny, ?_,
    Double.euclidean_underflow, hc, ?_⟩
  · simp only [Double.le]
    norm_num
  · rw [Double.euclidean_v, Double.octile_v]
    simp only [Double.le]
    norm_num
  · rw [Double.euclidean_overflow, Double.manhattan_big]
    rfl
  · simp [Double.le]
  · rw [hc, Double.euclidean_underflow]
    simp [Double.le]

/-- C23, amended: in double arithmetic, for all numbers `dx ≥ 0` and `dy ≥ 0`, `Infinity`
included, `chebyshev(dx, dy) ≤ octile(dx, dy) ≤ manhattan(dx, dy)`; all natural numbers
`a, b < 2 ^ 26` are such numbers, and for them
`chebyshev(a, b) ≤ euclidean(a, b) ≤ manhattan(a, b)` and `manhattan(a, b)` is the exact
sum `a + b`, which is at most the number of steps of any walk by orthogonal unit steps
between two cells `a` columns and `b` rows apart.  So on such differences none of the four
heuristics exceeds that number. -/
theorem heuristics_chain (dx dy : Double) (a b : Nat) (hdx : dx.IsDouble) (hdy : dy.IsDouble)
    (hx : Double.le (.fin 0) dx = true) (hy : Double.le (.fin 0) dy = true)
    (ha : a < 2 ^ 26) (hb : b < 2 ^ 26) :
    Double.le (Double.chebyshev dx dy) (Double.octile dx dy) = true ∧
    Double.le (Double.octile dx dy) (Double.manhattan dx dy) = true ∧
    (Double.fin a).IsDouble ∧ (Double.fin b).IsDouble ∧
    Double.le (Double.chebyshev (.fin a) (.fin b)) (Double.euclidean (.fin a) (.fin b)) =
      true ∧
    Double.le (Double.euclidean (.fin a) (.fin b)) (Double.manhattan (.fin a) (.fin b)) =
      true ∧
    Double.manhattan (.fin a) (.fin b) = .fin ((a + b : Nat) : ℚ) ∧
    ∀ (path : List Coord) (p q : Coord), (p :: path).getLast? = some q →
      Dense (p :: path) → |q.1 - p.1| = a → |q.2 - p.2| = b → a + b ≤ path.length := by
  obtain ⟨h1, h2⟩ := Double.chebyshev_octile_manhattan dx dy hdx hdy hx hy
  obtain ⟨h3, h4, h5⟩ := Double.chebyshev_euclidean_manhattan ha hb
  refine ⟨h1, h2, Double.round_natCast (by omega), Double.round_natCast (by omega), h3, h4,
    h5, ?_⟩
  intro path p q hl hd e1 e2
  have := dense_length_ge path p q hl hd
  rw [e1, e2] at this
  exact_mod_cast this

theorem heuristics_chain_witness :
    (Double.fin (1 / 2)).IsDouble ∧ Double.inf.IsDouble ∧
    Double.le (.fin 0) (.fin (1 / 2)) = true ∧ Double.le (.fin 0) .inf = true ∧
    3 < 2 ^ 26 ∧ 4 < 2 ^ 26 ∧
    (Double.le (Double.chebyshev (.fin (1 / 2)) .inf) (Double.octile (.fin (1 / 2)) .inf) =
      true ∧
    Double.le (Double.octile (.fin (1 / 2)) .inf) (Double.manhattan (.fin (1 / 2)) .inf) =
      true ∧
    (Double.fin (3 : Nat)).IsDouble ∧ (Double.fin (4 : Nat)).IsDouble ∧
    Double.le (Double.chebyshev (.fin (3 : Nat)) (.fin (4 : Nat)))
      (Double.euclidean (.fin (3 : Nat)) (.fin (4 : Nat))) = true ∧
    Double.le (Double.euclidean (.fin (3 : Nat)) (.fin (4 : Nat)))
      (Double.manhattan (.fin (3 : Nat)) (.fin (4 : Nat))) = true ∧
    Double.manhattan (.fin (3 : Nat)) (.fin (4 : Nat)) = .fin ((3 + 4 : Nat) : ℚ) ∧
    ∀ (path : List Coord) (p q : Coord), (p :: path).getLast? = some q →
      Dense (p :: path) → |q.1 - p.1| = (3 : Nat) → |q.2 - p.2| = (4 : Nat) →
      3 + 4 ≤ path.length) :=
  have hh : (Double.fin (1 / 2)).IsDouble :=
    Double.round_eval (-1) (2 ^ 52) (by norm_num) (by norm_num) (by norm_num)
      (Double.roundHalfEven_eq (by norm_num) (by norm_num)) (by norm_num) (by norm_num)
  ⟨hh, trivial, by simp [Double.le], rfl, by norm_num, by norm_num,
    heuristics_chain (.fin (1 / 2)) .inf 3 4 hh trivial (by simp [Double.le]) rfl
      (by norm_num) (by norm_num)⟩

/-- C33: `octile(3, 4)` does not return `sqrt(3 * 3 + 4 * 4)`: in double arithmetic
`octile(3, 4)` is `5.242640687119286`, the rounded `(Math.SQRT2 - 1) * 3 + 4`, whereas
`Math.sqrt(3 * 3 + 4 * 4)`, the value of `euclidean(3, 4)`, is `5`. -/
theorem octile_not_euclidean :
    Double.le (.fin 0) (.fin 3) = true ∧ Double.le (.fin 0) (.fin 4) = true ∧
    Double.octile (.fin 3) (.fin 4) = .fin (2951344330618477 / 562949953421312) ∧
    Double.sqrt (Double.add (Double.mul (.fin 3) (.fin 3)) (Double.mul (.fin 4) (.fin 4))) =
      .fin 5 ∧
    Double.octile (.fin 3) (.fin 4) ≠
      Double.sqrt (Double.add (Double.mul (.fin 3) (.fin 3)) (Double.mul (.fin 4) (.fin 4))) := by
  have he : Double.sqrt (Double.add (Double.mul (.fin 3) (.fin 3))
      (Double.mul (.fin 4) (.fin 4))) = .fin 5 := Double.euclidean_three_four
  refine ⟨by simp [Double.le], by simp [Double.le], Double.octile_three_four, he, ?_⟩
  rw [Double.octile_three_four, he]
  intro h
  injection h with h
  norm_num at h

end Hola
